import Mathlib

/-!
# jsonspirit: the `tbd::json` value, its writer and its Spirit grammar

A shallow embedding of `src/json.h` and `src/json.cc`.

* A C++ `char` is a Lean `Char` whose code is below 256 (a byte); a `std::string` is a
  `List Char`.
* An `int` is an `Int` in the range `-2^31 .. 2^31-1`.
* A `double` is the rational number it denotes.  Arithmetic on doubles is exact arithmetic on
  `ℚ`: rounding, infinities and NaN are not part of the model, and the text the iostream
  library prints for a double is a parameter (`fmt`) of the writer.
* A `json*` into the tree under construction is the path from the root to the node.
* The Boost.Spirit (classic) combinators the grammar is written with are modelled after the
  library: their definitions are in the section on the parser.
-/

namespace tbd

/-! ## The value model (`json.h`) -/

/-- The tagged union `struct json` (`json.h:49-141`): `type_` is the constructor, `value_`
its argument.  `json_obj` is a `std::map<std::string, json>`: the entries are listed in
ascending key order, as the map iterates them. -/
inductive json where
  | obj (o : List (List Char × json))
  | ary (a : List json)
  | str (s : List Char)
  | bool (b : Bool)
  | int (i : Int)
  | real (r : ℚ)
  | null
deriving Inhabited

mutual
/-- Identity of two values, constructor by constructor: the decision procedure for `=`. -/
def json.same : json → json → Bool
  | .obj a, .obj b => json.same_obj a b
  | .ary a, .ary b => json.same_ary a b
  | .str a, .str b => a == b
  | .bool a, .bool b => a == b
  | .int a, .int b => a == b
  | .real a, .real b => a == b
  | .null, .null => true
  | _, _ => false
/-- Identity of two lists of values. -/
def json.same_ary : List json → List json → Bool
  | [], [] => true
  | x :: xs, y :: ys => json.same x y && json.same_ary xs ys
  | _, _ => false
/-- Identity of two lists of entries. -/
def json.same_obj : List (List Char × json) → List (List Char × json) → Bool
  | [], [] => true
  | (k, x) :: xs, (l, y) :: ys => k == l && json.same x y && json.same_obj xs ys
  | _, _ => false
end

mutual
theorem json.same_sound : ∀ (a b : json), json.same a b = true → a = b
  | .obj a, .obj b, h => by
    simp only [json.same] at h; rw [json.same_obj_sound a b h]
  | .ary a, .ary b, h => by
    simp only [json.same] at h; rw [json.same_ary_sound a b h]
  | .str a, .str b, h => by simp [json.same] at h; rw [h]
  | .bool a, .bool b, h => by simp [json.same] at h; rw [h]
  | .int a, .int b, h => by simp [json.same] at h; rw [h]
  | .real a, .real b, h => by simp [json.same] at h; rw [h]
  | .null, .null, _ => rfl
  | .obj _, .ary _, h | .obj _, .str _, h | .obj _, .bool _, h | .obj _, .int _, h
  | .obj _, .real _, h | .obj _, .null, h
  | .ary _, .obj _, h | .ary _, .str _, h | .ary _, .bool _, h | .ary _, .int _, h
  | .ary _, .real _, h | .ary _, .null, h
  | .str _, .obj _, h | .str _, .ary _, h | .str _, .bool _, h | .str _, .int _, h
  | .str _, .real _, h | .str _, .null, h
  | .bool _, .obj _, h | .bool _, .ary _, h | .bool _, .str _, h | .bool _, .int _, h
  | .bool _, .real _, h | .bool _, .null, h
  | .int _, .obj _, h | .int _, .ary _, h | .int _, .str _, h | .int _, .bool _, h
  | .int _, .real _, h | .int _, .null, h
  | .real _, .obj _, h | .real _, .ary _, h | .real _, .str _, h | .real _, .bool _, h
  | .real _, .int _, h | .real _, .null, h
  | .null, .obj _, h | .null, .ary _, h | .null, .str _, h | .null, .bool _, h
  | .null, .int _, h | .null, .real _, h => by simp [json.same] at h
theorem json.same_ary_sound : ∀ (a b : List json), json.same_ary a b = true → a = b
  | [], [], _ => rfl
  | x :: xs, y :: ys, h => by
    simp only [json.same_ary, Bool.and_eq_true] at h
    rw [json.same_sound x y h.1, json.same_ary_sound xs ys h.2]
  | [], _ :: _, h | _ :: _, [], h => by simp [json.same_ary] at h
theorem json.same_obj_sound : ∀ (a b : List (List Char × json)), json.same_obj a b = true → a = b
  | [], [], _ => rfl
  | (k, x) :: xs, (l, y) :: ys, h => by
    simp only [json.same_obj, Bool.and_eq_true, beq_iff_eq] at h
    rw [h.1.1, json.same_sound x y h.1.2, json.same_obj_sound xs ys h.2]
  | [], _ :: _, h | _ :: _, [], h => by simp [json.same_obj] at h
end

mutual
theorem json.same_refl : ∀ (a : json), json.same a a = true
  | .obj a => by simp only [json.same]; exact json.same_obj_refl a
  | .ary a => by simp only [json.same]; exact json.same_ary_refl a
  | .str _ | .bool _ | .int _ | .real _ | .null => by simp [json.same]
theorem json.same_ary_refl : ∀ (a : List json), json.same_ary a a = true
  | [] => rfl
  | x :: xs => by simp only [json.same_ary, Bool.and_eq_true]; exact ⟨json.same_refl x, json.same_ary_refl xs⟩
theorem json.same_obj_refl : ∀ (a : List (List Char × json)), json.same_obj a a = true
  | [] => rfl
  | (k, x) :: xs => by
    simp only [json.same_obj, Bool.and_eq_true, beq_self_eq_true, true_and]
    exact ⟨json.same_refl x, json.same_obj_refl xs⟩
end

/-- Equality of values is decidable. -/
instance : DecidableEq json := fun a b =>
  if h : json.same a b = true then isTrue (json.same_sound a b h)
  else isFalse (fun e => h (e ▸ json.same_refl a))

/-- The enumeration `json_value_type` (`json.h:36-37`). -/
inductive json_value_type where
  | obj_type | ary_type | str_type | bool_type | int_type | real_type | null_type
deriving DecidableEq, Repr

/-- The exception `json_exception` (`json.h:45-47`), with its message. -/
structure json_exception where
  what : String
deriving DecidableEq, Repr

/-- The member `json::type()` (`json.cc:303`). -/
def json.type : json → json_value_type
  | .obj _ => .obj_type
  | .ary _ => .ary_type
  | .str _ => .str_type
  | .bool _ => .bool_type
  | .int _ => .int_type
  | .real _ => .real_type
  | .null => .null_type

/-- The members `is_obj`, `is_ary`, `is_null` (`json.cc:305-311`). -/
def json.is_obj (v : json) : Bool := v.type == .obj_type

/-- The member `json::is_ary`. -/
def json.is_ary (v : json) : Bool := v.type == .ary_type

/-- The member `json::is_null`. -/
def json.is_null (v : json) : Bool := v.type == .null_type

/-- The order of `std::string` keys in a `std::map`: `std::less<std::string>`, which compares
the bytes as unsigned values and the shorter of two strings with a common start first. -/
def str_lt : List Char → List Char → Bool
  | [], [] => false
  | [], _ :: _ => true
  | _ :: _, [] => false
  | a :: s, b :: t =>
    if a.toNat < b.toNat then true
    else if b.toNat < a.toNat then false
    else str_lt s t

/-- Lookup `std::map::find`: the value stored under `key`, if there is one. -/
def map_find : List (List Char × json) → List Char → Option json
  | [], _ => none
  | (k, v) :: t, key => if k = key then some v else map_find t key

/-- Indexing `std::map::operator[]`: when `key` is absent, an entry holding a default
constructed `json` (`Null`, `json.cc:248`) is inserted at its place in key order; the map is
otherwise left as it is.  The reference it returns is the entry under `key`. -/
def map_index : List (List Char × json) → List Char → List (List Char × json)
  | [], key => [(key, .null)]
  | (k, v) :: t, key =>
    if str_lt key k then (key, .null) :: (k, v) :: t
    else if str_lt k key then (k, v) :: map_index t key
    else (k, v) :: t

/-- A store through the reference to the entry under `key`: the entry's value is replaced. -/
def map_put : List (List Char × json) → List Char → json → List (List Char × json)
  | [], _, _ => []
  | (k, v) :: t, key, x => if k = key then (k, x) :: t else (k, v) :: map_put t key x

/-- The tolerance `1E-10` of `operator==` on `Real` (`json.cc:297`). -/
def real_tolerance : ℚ := 1 / 10 ^ 10

mutual
/-- The operator `json::operator==` (`json.cc:287-301`).  The first test, `this == &other`,
compares addresses; a value here has no address, and on the values of this model the switch
below gives `true` whenever both operands are the same object. -/
def json.eq : json → json → Bool
  | .str a, .str b => a == b
  | .obj a, .obj b => a.length == b.length && json.eq_obj a b
  | .ary a, .ary b => a.length == b.length && json.eq_ary a b
  | .bool a, .bool b => a == b
  | .int a, .int b => a == b
  | .real a, .real b => decide (|a - b| < real_tolerance)
  | .null, .null => true
  | _, _ => false
/-- The comparison `std::equal` of `std::vector<json>::operator==`, element by element. -/
def json.eq_ary : List json → List json → Bool
  | x :: xs, y :: ys => json.eq x y && json.eq_ary xs ys
  | _, _ => true
/-- The comparison `std::equal` of `std::map::operator==`: each pair is compared with
`std::pair::operator==`, key and value. -/
def json.eq_obj : List (List Char × json) → List (List Char × json) → Bool
  | (k, x) :: xs, (l, y) :: ys => (k == l && json.eq x y) && json.eq_obj xs ys
  | _, _ => true
end

/-- The member `json::add(const json&)` (`json.cc:396-400`): the new `*this`; the reference
returned is its last element. -/
def json.add : json → json → Except json_exception json
  | .ary a, value => .ok (.ary (a ++ [value]))
  | _, _ => .error ⟨"not an array"⟩

/-- The member `json::add(const std::string&, const json&)` (`json.cc:402-405`): the new
`*this`; the reference returned is the entry under `name`. -/
def json.add_named : json → List Char → json → Except json_exception json
  | .obj o, name, value => .ok (.obj (map_put (map_index o name) name value))
  | _, _, _ => .error ⟨"not an object"⟩

/-- The operator `json::operator[](const std::string&)` (`json.cc:407-413`): the new `*this`;
the reference returned is the entry under `key`. -/
def json.index_key (v : json) (key : List Char) : Except json_exception json :=
  if !v.is_obj then
    if !v.is_null then .error ⟨"not an object"⟩
    else .ok (.obj (map_index [] key))
  else
    match v with
    | .obj o => .ok (.obj (map_index o key))
    | _ => .error ⟨"not an object"⟩

/-- The entry of an Object under `key`: what the reference returned by `operator[]` or by
`add` designates. -/
def json.entry : json → List Char → Option json
  | .obj o, key => map_find o key
  | _, _ => none

/-- An assignment `ref = x` through the reference to the entry under `key`. -/
def json.store_key : json → List Char → json → json
  | .obj o, key, x => .obj (map_put o key x)
  | v, _, _ => v

/-- The statement `v[key] = x` (`operator[]`, then `operator=` on the reference). -/
def json.assign_key (v : json) (key : List Char) (x : json) : Except json_exception json :=
  (v.index_key key).map (fun w => w.store_key key x)

/-! ## The writer (`json.cc:163-240`) -/

/-- The classification `std::isprint` in the "C" locale, on the value of an `unsigned char`. -/
def isprint (c : Char) : Bool := 32 ≤ c.toNat && c.toNat ≤ 126

/-- The character of the digit `d` in lowercase, as `std::dec` and `std::hex` print it. -/
def digit_char (d : Nat) : Char := if d < 10 then Char.ofNat (48 + d) else Char.ofNat (87 + d)

/-- The digits of `n` in the given base before `acc`, most significant first; `fuel` bounds
the number of digits. -/
def num_digits (base : Nat) : Nat → Nat → List Char → List Char
  | 0, _, acc => acc
  | fuel + 1, n, acc =>
    if n / base = 0 then digit_char (n % base) :: acc
    else num_digits base fuel (n / base) (digit_char (n % base) :: acc)

/-- The text of `os_ << std::dec << i` for an `int`. -/
def dec_int (i : Int) : List Char :=
  if i < 0 then '-' :: num_digits 10 (i.natAbs + 1) i.natAbs []
  else num_digits 10 (i.natAbs + 1) i.natAbs []

/-- The text of `os_ << std::setw(2) << std::hex << (int)c` under `std::setfill('0')`
(`json.cc:165`, `json.cc:214`): the hexadecimal digits, padded on the left to two places. -/
def hex_setw2 (n : Nat) : List Char :=
  let ds := num_digits 16 (n + 1) n []
  List.replicate (2 - ds.length) '0' ++ ds

/-- The body of the `switch` of `json_writer::output(const std::string&)` (`json.cc:202-217`):
what is written for one character of the string. -/
def output_char (c : Char) : List Char :=
  if c = '"' then ['\\', '"']
  else if c = '/' then ['\\', '/']
  else if c = '\\' then ['\\', '\\']
  else if c = Char.ofNat 8 then ['\\', 'b']
  else if c = Char.ofNat 12 then ['\\', 'f']
  else if c = '\n' then ['\\', 'n']
  else if c = '\r' then ['\\', 'r']
  else if c = '\t' then ['\\', 't']
  else if !isprint c then '\\' :: 'x' :: hex_setw2 c.toNat
  else [c]

/-- The state of a `json_writer` (`json.cc:237-239`): the text written to `os_` so far, the
current indentation and the `pretty_` flag.  The format flags of `os_` are not part of the
state: `std::setw` is used up by the one number that follows it, `std::hex` is undone by the
`std::dec` in front of each `int`, and the remaining flags are set once by the constructor. -/
structure json_writer where
  os_ : List Char
  indent_ : List Char
  pretty_ : Bool

/-- The insertion `os_ << text`. -/
def json_writer.put (w : json_writer) (text : List Char) : json_writer :=
  { w with os_ := w.os_ ++ text }

/-- The `for` loop of `json_writer::output(const std::string&)` (`json.cc:201-218`). -/
def json_writer.output_chars : List Char → json_writer → json_writer
  | [], w => w
  | c :: s, w => json_writer.output_chars s (w.put (output_char c))

/-- The member `json_writer::output(const std::string&)` (`json.cc:197-220`). -/
def json_writer.output_string (s : List Char) (w : json_writer) : json_writer :=
  (json_writer.output_chars s (w.put ['"'])).put ['"']

/-- The first statement of `output_container` (`json.cc:223`). -/
def json_writer.indent_more (w : json_writer) : json_writer :=
  if w.pretty_ then { w with indent_ := w.indent_ ++ [' ', ' '] } else w

/-- The statement in front of each element (`json.cc:226`); `std::endl` writes a newline. -/
def json_writer.newline (w : json_writer) : json_writer :=
  if w.pretty_ then w.put ('\n' :: w.indent_) else w

/-- The last statement of `output_container` (`json.cc:231-234`).  The indentation has at
least the two blanks added on entry, so that `resize` shortens it. -/
def json_writer.indent_less (w : json_writer) : json_writer :=
  if w.pretty_ then
    let ind := w.indent_.take (w.indent_.length - 2)
    { w with indent_ := ind, os_ := w.os_ ++ '\n' :: ind }
  else w

mutual
/-- The member `json_writer::output(const json&)` (`json.cc:187-189`): `json::apply`
(`json.h:115-126`) calls the `operator()` of the active variant (`json.cc:169-185`).  The
text of a `double` is `fmt d`. -/
def json_writer.output (fmt : ℚ → List Char) : json → json_writer → json_writer
  | .obj o, w =>
    (json_writer.output_members fmt o (w.put ['{']).indent_more).indent_less.put ['}']
  | .ary a, w =>
    (json_writer.output_elements fmt a (w.put ['[']).indent_more).indent_less.put [']']
  | .str s, w => w.output_string s
  | .bool b, w => w.put (if b then ['t', 'r', 'u', 'e'] else ['f', 'a', 'l', 's', 'e'])
  | .int i, w => w.put (dec_int i)
  | .real d, w => w.put (fmt d)
  | .null, w => w.put ['n', 'u', 'l', 'l']
/-- The `for` loop of `output_container` (`json.cc:225-229`) over a `json_ary`. -/
def json_writer.output_elements (fmt : ℚ → List Char) : List json → json_writer → json_writer
  | [], w => w
  | x :: xs, w =>
    let w1 := json_writer.output fmt x w.newline
    json_writer.output_elements fmt xs (if xs.isEmpty then w1 else w1.put [','])
/-- The `for` loop of `output_container` over a `json_obj`, each pair written by
`output(const json_obj::value_type&)` (`json.cc:191-195`). -/
def json_writer.output_members (fmt : ℚ → List Char) :
    List (List Char × json) → json_writer → json_writer
  | [], w => w
  | (k, x) :: xs, w =>
    let w0 := w.newline.output_string k
    let w1 := json_writer.output fmt x
      (w0.put (if w0.pretty_ then [' ', ':', ' '] else [':']))
    json_writer.output_members fmt xs (if xs.isEmpty then w1 else w1.put [','])
end

/-- The member `json::to_str` (`json.cc:360-365`): a writer on an empty `std::ostringstream`. -/
def json.to_str (fmt : ℚ → List Char) (v : json) (pretty : Bool) : List Char :=
  (json_writer.output fmt v { os_ := [], indent_ := [], pretty_ := pretty }).os_

/-! ## The construction stack of the parser (`json.cc:25-58`) -/

/-- One step from a container to one of its elements: the position in a `json_ary` or the key
in a `json_obj`. -/
inductive step where
  | idx (i : Nat)
  | key (k : List Char)
deriving DecidableEq, Repr

/-- The element of a container one step down. -/
def json.child : json → step → Option json
  | .ary a, .idx i => a.get? i
  | .obj o, .key k => map_find o k
  | _, _ => none

/-- A store into the element of a container one step down. -/
def json.set_child : json → step → json → json
  | .ary a, .idx i, x => .ary (a.set i x)
  | .obj o, .key k, x => .obj (map_put o k x)
  | v, _, _ => v

/-- The node a `json*` points to: the node reached from the root along the path. -/
def json.get : json → List step → Option json
  | v, [] => some v
  | v, s :: p => (v.child s).bind (fun c => c.get p)

/-- A store `*ptr = x` through a `json*`. -/
def json.set : json → List step → json → json
  | _, [], x => x
  | v, s :: p, x =>
    match v.child s with
    | some c => v.set_child s (c.set p x)
    | none => v

/-- The number of elements of an Array (`value_.a->size()`). -/
def json.size : json → Nat
  | .ary a => a.length
  | _ => 0

/-- The state of a `json_stack` (`json.cc:54-57`).  `root_` is the destination value itself;
`stack_` lists the pointers innermost first, so that `stack_.back()` is its head. -/
structure json_stack where
  root_ : json
  name_ : List Char
  str_ : List Char
  stack_ : List (List step)
deriving DecidableEq

/-- The member `json_stack::add_to_name` (`json.cc:28`). -/
def json_stack.add_to_name (c : Char) (st : json_stack) : json_stack :=
  { st with name_ := st.name_ ++ [c] }

/-- The member `json_stack::add_to_str` (`json.cc:29`). -/
def json_stack.add_to_str (c : Char) (st : json_stack) : json_stack :=
  { st with str_ := st.str_ ++ [c] }

/-- The member `json_stack::add` (`json.cc:38-49`): the new state and the pointer returned.
The result is `none` when an exception leaves the function: `json_exception` from `json::add`,
or `std::out_of_range` from `name_.erase(name_.size() - 1)` on an empty `name_`; it is also
`none` for a pointer on the stack that designates no node. -/
def json_stack.add (value : json) (st : json_stack) : Option (json_stack × List step) :=
  match st.stack_ with
  | [] => some ({ st with root_ := value }, [])
  | p :: _ =>
    match st.root_.get p with
    | none => none
    | some node =>
      if node.type = .ary_type then
        match node.add value with
        | .ok node1 => some ({ st with root_ := st.root_.set p node1 }, p ++ [.idx node.size])
        | .error _ => none
      else if st.name_ = [] then none
      else
        match node.add_named st.name_.dropLast value with
        | .ok node1 =>
          some ({ st with root_ := st.root_.set p node1, name_ := [] },
            p ++ [.key st.name_.dropLast])
        | .error _ => none

/-- The semantic action `add` (`json.cc:72`): `json_stack::add` with its result dropped. -/
def json_stack.add_action (value : json) (st : json_stack) : Option json_stack :=
  (st.add value).map Prod.fst

/-- The member `json_stack::push` (`json.cc:30`). -/
def json_stack.push (value : json) (st : json_stack) : Option json_stack :=
  (st.add value).map (fun r => { r.1 with stack_ := r.2 :: r.1.stack_ })

/-- The member `json_stack::pop` (`json.cc:31`); `pop_back` on an empty vector is undefined
and is `none` here. -/
def json_stack.pop (st : json_stack) : Option json_stack :=
  match st.stack_ with
  | [] => none
  | _ :: t => some { st with stack_ := t }

/-- The member `json_stack::add_str` (`json.cc:33-36`); `str_.erase(str_.size() - 1)` throws
on an empty `str_`. -/
def json_stack.add_str (st : json_stack) : Option json_stack :=
  if st.str_ = [] then none
  else ((json_stack.add (.str st.str_.dropLast) { st with str_ := st.str_.dropLast }).map
    (fun r => { r.1 with str_ := [] }))

/-! ## Boost.Spirit (classic) parsers used by the grammar

A Spirit parser reads from the scanner position `scan.first` and either matches, leaving
`scan.first` behind the match, or does not.  Semantic actions run as soon as the parser they
are attached to matches and are not undone when an enclosing parser fails later.  Here a
parser is a function of the state of the `json_stack` and the remaining input. -/

/-- The result of running a parser: a match with the new state and the input left, no match
(with the state as the actions run so far have left it), an exception thrown by a semantic
action, or the recursion budget of the model used up. -/
inductive parse_result where
  | hit (st : json_stack) (rest : List Char)
  | miss (st : json_stack)
  | threw
  | nofuel
deriving DecidableEq

/-- A parser of the grammar. -/
abbrev rule := json_stack → List Char → parse_result

/-- The classification `std::isspace` in the "C" locale, the test of `space_p`. -/
def isspace (c : Char) : Bool := c = ' ' || (9 ≤ c.toNat && c.toNat ≤ 13)

/-- The classification `std::isdigit`. -/
def isdigit (c : Char) : Bool := 48 ≤ c.toNat && c.toNat ≤ 57

/-- The classification `std::isxdigit`. -/
def isxdigit (c : Char) : Bool :=
  isdigit c || (97 ≤ c.toNat && c.toNat ≤ 102) || (65 ≤ c.toNat && c.toNat ≤ 70)

/-- The octal digits `'0'..'7'`. -/
def isodigit (c : Char) : Bool := 48 ≤ c.toNat && c.toNat ≤ 55

/-- The skipper of the phrase level scanner (`skipper_iteration_policy::skip` with `space_p`):
every primitive parser skips white space before it looks at the input. -/
def skip : List Char → List Char
  | [] => []
  | c :: r => if isspace c then skip r else c :: r

/-- The parser `ch_p(c)` at phrase level. -/
def ch_p (c : Char) : rule := fun st i =>
  match skip i with
  | x :: r => if x = c then .hit st r else .miss st
  | [] => .miss st

/-- The text of a literal at the start of the input, read without skipping. -/
def match_lit : List Char → List Char → Option (List Char)
  | [], i => some i
  | _ :: _, [] => none
  | c :: s, x :: r => if x = c then match_lit s r else none

/-- The parser `str_p(s)`: the skipper runs once, the literal is then read contiguously. -/
def str_p (s : List Char) : rule := fun st i =>
  match match_lit s (skip i) with
  | some r => .hit st r
  | none => .miss st

/-- The parser `end_p`: `scan.at_end()`, which skips first. -/
def end_p : rule := fun st i =>
  match skip i with
  | [] => .hit st []
  | _ :: _ => .miss st

/-- A parser with a semantic action `p[f]`: `f` runs when `p` has matched. -/
def action (p : rule) (f : json_stack → Option json_stack) : rule := fun st i =>
  match p st i with
  | .hit st1 r =>
    match f st1 with
    | some st2 => .hit st2 r
    | none => .threw
  | other => other

/-- The sequence `a >> b`. -/
def seq (a b : rule) : rule := fun st i =>
  match a st i with
  | .hit st1 r => b st1 r
  | other => other

/-- The alternative `a | b`: `b` is tried at the same position when `a` does not match. -/
def alt (a b : rule) : rule := fun st i =>
  match a st i with
  | .miss st1 => b st1 i
  | other => other

/-- The optional `!a`. -/
def opt (a : rule) : rule := fun st i =>
  match a st i with
  | .miss st1 => .hit st1 i
  | other => other

/-- The loop of the Kleene star `*a`: it ends, at the position before the failed attempt, when
`a` does not match.  Each round of the grammar's loops uses up input, so that a budget of
one more than the length of the input is never used up. -/
def star_loop (a : rule) : Nat → rule
  | 0 => fun _ _ => .nofuel
  | n + 1 => fun st i =>
    match a st i with
    | .hit st1 r => star_loop a n st1 r
    | .miss st1 => .hit st1 i
    | other => other

/-- The Kleene star `*a`. -/
def star (a : rule) : rule := fun st i => star_loop a (i.length + 1) st i

/-- The difference `a - b` (`difference::parse`): `a` is parsed first; if it matches, `b` is
parsed at the same start, and the difference fails when `b` matches a text at least as long
as the text of `a`.  The length of a match is measured from the common start. -/
def diff (a b : rule) : rule := fun st i =>
  match a st i with
  | .hit st1 r =>
    match b st1 i with
    | .hit st2 r2 => if i.length - r2.length < i.length - r.length then .hit st2 r else .miss st2
    | .miss st2 => .hit st2 r
    | other => other
  | other => other

/-- The parser `list_p(item, delim)` for an `item` that is a `rule`
(`select_list_parse_no_refactor`): `(item - delim) >> *(delim >> (item - delim))`. -/
def list_p (item delim : rule) : rule :=
  seq (diff item delim) (star (seq delim (diff item delim)))

/-- The parser `confix_p(open, !expr, close)`: the body is a unary parser, so the confix is
refactored to `open >> !(expr - close) >> close`. -/
def confix_opt (open_ expr close : rule) : rule :=
  seq open_ (seq (opt (diff expr close)) close)

/-! ### Numbers -/

/-- The loop `extract_int<10, 1, -1, Accumulate>::f` for `int`: digits are read while there
are any, the number read so far is `n` and `count` digits have been read.  `limit` is the
largest magnitude allowed; the result is `none` on overflow. -/
def extract_int (limit : Nat) : List Char → Nat → Nat → Option (Nat × Nat × List Char)
  | [], n, count => some (n, count, [])
  | c :: r, n, count =>
    if isdigit c then
      if n > limit / 10 then none
      else if n * 10 > limit - (c.toNat - 48) then none
      else extract_int limit r (n * 10 + (c.toNat - 48)) (count + 1)
    else some (n, count, c :: r)

/-- The parser `int_p` (`int_parser<int, 10, 1, -1>`): the skipper runs once; a sign, then at
least one digit.  With a minus sign the digits are accumulated downwards to `INT_MIN`
(`negative_accumulate`), otherwise upwards to `INT_MAX`; an overflow is no match. -/
def int_p (i : List Char) : Option (Int × List Char) :=
  match skip i with
  | [] => none
  | c :: r =>
    if c = '-' then
      match extract_int 2147483648 r 0 0 with
      | some (n, count, r1) => if 1 ≤ count then some (-(n : Int), r1) else none
      | none => none
    else
      match extract_int 2147483647 (if c = '+' then r else c :: r) 0 0 with
      | some (n, count, r1) => if 1 ≤ count then some ((n : Int), r1) else none
      | none => none

/-- The digits read by `uint_parser<double, 10, 1, -1>`: the number, the count of digits and
the input left.  A `double` does not overflow on the texts considered. -/
def extract_digits : List Char → Nat → Nat → Nat × Nat × List Char
  | [], n, count => (n, count, [])
  | c :: r, n, count =>
    if isdigit c then extract_digits r (n * 10 + (c.toNat - 48)) (count + 1)
    else (n, count, c :: r)

/-- The exponent of a real number (`parse_exp`, then `parse_exp_n`): after `e` or `E` a signed
integer must follow, by which the number `n` is scaled; without `e` the number is `n`. -/
def real_exponent (n : ℚ) (i : List Char) : Option (ℚ × List Char) :=
  match i with
  | [] => some (n, [])
  | c :: r =>
    if c = 'e' ∨ c = 'E' then
      match r with
      | [] => none
      | s :: r1 =>
        let d := extract_digits (if s = '-' ∨ s = '+' then r1 else s :: r1) 0 0
        if 1 ≤ d.2.1 then
          some (n * (10 : ℚ) ^ (if s = '-' then -(d.1 : Int) else (d.1 : Int)), d.2.2)
        else none
    else some (n, c :: r)

/-- The parser `strict_real_p` (`real_parser_impl::parse_main` with
`strict_real_parser_policies<double>`): the skipper runs once; a sign, digits, then either a
dot with optional digits and an optional exponent, or an exponent.  A dot needs digits on one
side at least; without a dot the exponent is required (`expect_dot`). -/
def strict_real_p (i : List Char) : Option (ℚ × List Char) :=
  match skip i with
  | [] => none
  | c :: r =>
    let neg : Bool := c = '-'
    let d := extract_digits (if c = '-' ∨ c = '+' then r else c :: r) 0 0
    let got_a_number : Bool := 1 ≤ d.2.1
    let n : ℚ := if neg then -(d.1 : ℚ) else (d.1 : ℚ)
    match d.2.2 with
    | [] => none
    | x :: r1 =>
      if x = '.' then
        let f := extract_digits r1 0 0
        if 1 ≤ f.2.1 then
          let frac : ℚ := (f.1 : ℚ) * (10 : ℚ) ^ (-(f.2.1 : Int))
          real_exponent (if neg then n - frac else n + frac) f.2.2
        else if !got_a_number then none
        else real_exponent n r1
      else if !got_a_number then none
      else if x = 'e' ∨ x = 'E' then real_exponent n (x :: r1)
      else none

/-- A number parser with the action `add` attached (`strict_real_p[add]`, `int_p[add]`): the
number read is converted to a `json` and added. -/
def number_add {α : Type} (p : List Char → Option (α × List Char)) (mk : α → json) : rule :=
  fun st i =>
    match p i with
    | some (x, r) =>
      match st.add_action (mk x) with
      | some st1 => .hit st1 r
      | none => .threw
    | none => .miss st

/-! ### Escaped characters (`lex_escape_ch_p`)

The character type is `char`, a signed byte: `std::numeric_limits<char>::max()` is 127 and
`std::numeric_limits<char>::digits` is 7. -/

/-- The value of `c` as a digit of the given radix (`radix_traits<Radix>::digit`). -/
def radix_digit (radix : Nat) (c : Char) : Option Nat :=
  if isdigit c then (if c.toNat - 48 < radix then some (c.toNat - 48) else none)
  else if radix = 16 ∧ 97 ≤ c.toNat ∧ c.toNat ≤ 102 then some (c.toNat - 87)
  else if radix = 16 ∧ 65 ≤ c.toNat ∧ c.toNat ≤ 70 then some (c.toNat - 55)
  else none

/-- The parser `uint_parser<char, Radix, 1, MaxDigits>` of the recogniser: at most `more`
further digits are read, the value must not exceed 127, and `count` digits have been read.
The result is the number of digits read, or `none` on overflow or when there is no digit. -/
def uint_char (radix : Nat) : Nat → List Char → Nat → Nat → Option Nat
  | 0, _, _, count => if 1 ≤ count then some count else none
  | _ + 1, [], _, count => if 1 ≤ count then some count else none
  | more + 1, c :: r, n, count =>
    match radix_digit radix c with
    | some d =>
      if n > 127 / radix then none
      else if n * radix > 127 - d then none
      else uint_char radix more r (n * radix + d) (count + 1)
    | none => if 1 ≤ count then some count else none

/-- The recogniser `escape_char_parse<lex_escapes, char>::parse`, which is
`(anychar_p - bs) | (bs >> (oct | as_lower_d[x] >> hex | (anychar_p - as_lower_d[x] - oct)))`
for the backslash `bs`, the letter `x`, `oct = uint_parser<char, 8, 1, 3>` and
`hex = uint_parser<char, 16, 1, 2>`.  The result is the length of the match. -/
def escape_char_parse (i : List Char) : Option Nat :=
  match i with
  | [] => none
  | c :: r =>
    if c ≠ '\\' then some 1
    else
      match uint_char 8 3 r 0 0 with
      | some k => some (1 + k)
      | none =>
        match r with
        | [] => none
        | x :: r1 =>
          if x = 'x' ∨ x = 'X' then (uint_char 16 2 r1 0 0).map (fun k => 2 + k)
          else some 2

/-- The loop that decodes the digits after the letter `x` in `escape_char_action_parse`: all
hexadecimal digits that follow are taken; a further digit when the value is above
`numeric_limits<char>::max() >> 4 = 7` is an overflow, and the escape does not match. -/
def hex_decode : List Char → Nat → Option (Nat × List Char)
  | [], hex => some (hex, [])
  | c :: r, hex =>
    if hex > 7 ∧ isxdigit c then none
    else if isdigit c then hex_decode r (hex * 16 + (c.toNat - 48))
    else if 97 ≤ c.toNat ∧ c.toNat ≤ 102 then hex_decode r (hex * 16 + (c.toNat - 32 - 65 + 10))
    else if 65 ≤ c.toNat ∧ c.toNat ≤ 70 then hex_decode r (hex * 16 + (c.toNat - 65 + 10))
    else some (hex, c :: r)

/-- The loop that decodes octal digits in `escape_char_action_parse`; the limit is
`numeric_limits<char>::max() >> 3 = 15`. -/
def oct_decode : List Char → Nat → Option (Nat × List Char)
  | [], oct => some (oct, [])
  | c :: r, oct =>
    if oct > 15 ∧ isodigit c then none
    else if isodigit c then oct_decode r (oct * 8 + (c.toNat - 48))
    else some (oct, c :: r)

/-- The parser `lex_escape_ch_p` with an action attached
(`escape_char_action_parse<lex_escapes, char>::parse`): when the recogniser matches, the
character is decoded again from the start of the match.  The result is the decoded character,
which is passed to the action, the length of the recogniser's match and the input left
behind the decoded text. -/
def lex_escape_ch_p (i : List Char) : Option (Char × Nat × List Char) :=
  match escape_char_parse i with
  | none => none
  | some len =>
    match i with
    | [] => none
    | c :: r =>
      if c = '\\' then
        match r with
        | [] => none
        | x :: r1 =>
          if x = 'b' then some (Char.ofNat 8, len, r1)
          else if x = 't' then some ('\t', len, r1)
          else if x = 'n' then some ('\n', len, r1)
          else if x = 'f' then some (Char.ofNat 12, len, r1)
          else if x = 'r' then some ('\r', len, r1)
          else if x = '"' then some ('"', len, r1)
          else if x = Char.ofNat 39 then some (Char.ofNat 39, len, r1)
          else if x = '\\' then some ('\\', len, r1)
          else if x = 'x' ∨ x = 'X' then
            (hex_decode r1 0).map (fun h => (Char.ofNat h.1, len, h.2))
          else if isodigit x then
            (oct_decode (x :: r1) 0).map (fun h => (Char.ofNat h.1, len, h.2))
          else some (x, len, r1)
      else some (c, len, r)

/-- The loop `*(lex_escape_ch_p[a] - '"')` inside `lexeme_d` (no skipping): the action `a`
runs on every character that `lex_escape_ch_p` matches, the closing quote included, since the
difference tests for the quote after its left side has matched.  The loop ends before the
character on which the difference fails. -/
def escape_loop (a : Char → json_stack → json_stack) : Nat → rule
  | 0 => fun _ _ => .nofuel
  | n + 1 => fun st i =>
    match lex_escape_ch_p i with
    | none => .hit st i
    | some (c, len, r) =>
      match i with
      | x :: _ =>
        if x = '"' ∧ ¬ (1 < len) then .hit (a c st) i
        else escape_loop a n (a c st) r
      | [] => .hit st i

/-- The parser `lexeme_d[confix_p('"', *(lex_escape_ch_p[a]), '"')]`, refactored by
`confix_p` to `'"' >> *(lex_escape_ch_p[a] - '"') >> '"'`: the skipper runs once in front. -/
def quoted (a : Char → json_stack → json_stack) : rule := fun st i =>
  match skip i with
  | [] => .miss st
  | q :: r =>
    if q = '"' then
      match escape_loop a (r.length + 1) st r with
      | .hit st1 r1 =>
        match r1 with
        | [] => .miss st1
        | q1 :: r2 => if q1 = '"' then .hit st1 r2 else .miss st1
      | other => other
    else .miss st

/-! ## The grammar (`json.cc:79-124`) -/

/-- The rule `string_` (`json.cc:112-117`). -/
def string_ : rule := quoted json_stack.add_to_str

/-- The rule `name_` (`json.cc:119-124`). -/
def name_ : rule := quoted json_stack.add_to_name

/-- The rule `pair_` (`json.cc:99`), over the rule for values. -/
def pair_ (value : rule) : rule := seq name_ (seq (ch_p ':') value)

/-- The rule `object_` (`json.cc:81-88`), over the rule for values. -/
def object_ (value : rule) : rule :=
  confix_opt (action (ch_p '{') (json_stack.push (.obj [])))
    (list_p (pair_ value) (ch_p ','))
    (action (ch_p '}') json_stack.pop)

/-- The rule `array_` (`json.cc:90-97`), over the rule for values. -/
def array_ (value : rule) : rule :=
  confix_opt (action (ch_p '[') (json_stack.push (.ary [])))
    (list_p value (ch_p ','))
    (action (ch_p ']') json_stack.pop)

/-- The rule `value_` (`json.cc:101-110`).  A `rule` refers to `object_` and `array_`, which
refer back to `value_`: the argument bounds the depth of this recursion. -/
def value_ : Nat → rule
  | 0 => fun _ _ => .nofuel
  | n + 1 =>
    alt (object_ (value_ n))
    (alt (array_ (value_ n))
    (alt (number_add strict_real_p json.real)
    (alt (number_add int_p json.int)
    (alt (action string_ json_stack.add_str)
    (alt (action (str_p ['t', 'r', 'u', 'e']) (json_stack.add_action (.bool true)))
    (alt (action (str_p ['f', 'a', 'l', 's', 'e']) (json_stack.add_action (.bool false)))
         (action (str_p ['n', 'u', 'l', 'l']) (json_stack.add_action .null))))))))

/-- The start rule `json_` (`json.cc:79`). -/
def json_ (n : Nat) : rule := seq (alt (object_ (value_ n)) (array_ (value_ n))) end_p

/-! ## The entry points (`json.cc:137-159`) -/

/-- What a call of `json_parser::read` does: it returns a result and leaves a value in the
destination, or an exception leaves it, or the budget of the model is used up. -/
inductive outcome where
  | returned (result : Bool) (value : json)
  | threw
  | nofuel
deriving DecidableEq

/-- The function `parse(first, last, grammar_, space_p)` on a parser constructed just before
(`json.cc:356`, `json.cc:431`): the stack, `name_` and `str_` are empty and `root_` points to
the destination.  No document is nested deeper than its text is long. -/
def parse (i : List Char) (value : json) : parse_result :=
  json_ i.length { root_ := value, name_ := [], str_ := [], stack_ := [] } i

/-- The text that `s.c_str()` is to a function taking a `const char*`: the characters in front
of the first NUL. -/
def c_str : List Char → List Char
  | [] => []
  | c :: s => if c = Char.ofNat 0 then [] else c :: c_str s

/-- The member `json_parser::read(const std::string&, json&)` (`json.cc:140-143`): `.full` is
`hit && first == last`. -/
def read_string (s : List Char) (value : json) : outcome :=
  match parse (c_str s) value with
  | .hit st rest => .returned (rest.isEmpty) st.root_
  | .miss st => .returned false st.root_
  | .threw => .threw
  | .nofuel => .nofuel

/-- The member `json_parser::read(std::istream&, json&)` (`json.cc:145-154`) on a stream that
holds the characters `i`: `skipws` is unset, so the iterators deliver every character. -/
def read_stream (i : List Char) (value : json) : outcome :=
  match parse i value with
  | .hit st _ => .returned true st.root_
  | .miss st => .returned false st.root_
  | .threw => .threw
  | .nofuel => .nofuel

/-! ## The writer's escapes, as the specification words them -/

/-- The sixteen lowercase hexadecimal digits. -/
def hex_lower (d : Nat) : Char := "0123456789abcdef".toList.getD d '0'

/-- The escape of one byte as the specification gives it: the eight named escapes, `\x` and
two lowercase hexadecimal digits for any other non-printable byte, the byte itself
otherwise. -/
def escape_spec (c : Char) : List Char :=
  if c = '"' then "\\\"".toList
  else if c = '/' then "\\/".toList
  else if c = '\\' then "\\\\".toList
  else if c.toNat = 8 then "\\b".toList
  else if c.toNat = 12 then "\\f".toList
  else if c.toNat = 10 then "\\n".toList
  else if c.toNat = 13 then "\\r".toList
  else if c.toNat = 9 then "\\t".toList
  else if c.toNat < 32 ∨ 126 < c.toNat then
    ['\\', 'x', hex_lower (c.toNat / 16), hex_lower (c.toNat % 16)]
  else [c]

/-- The rendering of a string as the specification gives it. -/
def string_spec (s : List Char) : List Char := '"' :: s.flatMap escape_spec ++ ['"']

theorem Char.eq_of_toNat_eq {a b : Char} (h : a.toNat = b.toNat) : a = b := by
  apply Char.ext
  apply UInt32.ext
  exact h

theorem hex_setw2_eq : ∀ n, n < 256 → hex_setw2 n = [hex_lower (n / 16), hex_lower (n % 16)] := by
  decide!

theorem output_char_eq_spec (c : Char) (h : c.toNat < 256) : output_char c = escape_spec c := by
  unfold output_char escape_spec
  by_cases h1 : c = '"'
  · subst h1; rfl
  by_cases h2 : c = '/'
  · subst h2; rfl
  by_cases h3 : c = '\\'
  · subst h3; rfl
  by_cases h4 : c = Char.ofNat 8
  · subst h4; rfl
  by_cases h5 : c = Char.ofNat 12
  · subst h5; rfl
  by_cases h6 : c = '\n'
  · subst h6; rfl
  by_cases h7 : c = '\r'
  · subst h7; rfl
  by_cases h8 : c = '\t'
  · subst h8; rfl
  have n4 : c.toNat ≠ 8 := fun e => h4 (Char.eq_of_toNat_eq e)
  have n5 : c.toNat ≠ 12 := fun e => h5 (Char.eq_of_toNat_eq e)
  have n6 : c.toNat ≠ 10 := fun e => h6 (Char.eq_of_toNat_eq e)
  have n7 : c.toNat ≠ 13 := fun e => h7 (Char.eq_of_toNat_eq e)
  have n8 : c.toNat ≠ 9 := fun e => h8 (Char.eq_of_toNat_eq e)
  simp only [h1, h2, h3, h4, h5, h6, h7, h8, n4, n5, n6, n7, n8, if_false]
  by_cases hp : isprint c = true
  · have hp' := hp
    simp only [isprint, Bool.and_eq_true, decide_eq_true_eq] at hp'
    have : ¬ (c.toNat < 32 ∨ 126 < c.toNat) := by omega
    simp [hp, this]
  · have hp' := hp
    simp only [isprint, Bool.and_eq_true, decide_eq_true_eq] at hp'
    have : (c.toNat < 32 ∨ 126 < c.toNat) := by omega
    simp [hp, this, hex_setw2_eq c.toNat h]

theorem output_chars_os (s : List Char) : ∀ (w : json_writer),
    (json_writer.output_chars s w) = { w with os_ := w.os_ ++ s.flatMap output_char } := by
  induction s with
  | nil => intro w; simp [json_writer.output_chars]
  | cons c s ih =>
    intro w
    simp [json_writer.output_chars, ih, json_writer.put, List.append_assoc]

theorem output_string_eq (s : List Char) (w : json_writer) :
    w.output_string s = { w with os_ := w.os_ ++ '"' :: s.flatMap output_char ++ ['"'] } := by
  simp [json_writer.output_string, output_chars_os, json_writer.put, List.append_assoc]

theorem flatMap_output_char_eq_spec (s : List Char) (h : ∀ c ∈ s, c.toNat < 256) :
    s.flatMap output_char = s.flatMap escape_spec := by
  induction s with
  | nil => rfl
  | cons c s ih =>
    simp only [List.flatMap_cons]
    rw [output_char_eq_spec c (h c (List.mem_cons_self _ _)),
      ih (fun d hd => h d (List.mem_cons_of_mem _ hd))]

/-- C6: for every byte string `s` the writer renders `String(s)`, and `s` as the key of an
object, as a double quote, the escape of each byte in order as the specification lists them,
and a double quote; this holds in compact and in pretty mode. -/
theorem C6_string_escapes (fmt : ℚ → List Char) (s : List Char) (pretty : Bool)
    (h : ∀ c ∈ s, c.toNat < 256) :
    json.to_str fmt (.str s) pretty = string_spec s ∧
    json.to_str fmt (.ary [.str s]) false = "[".toList ++ string_spec s ++ "]".toList ∧
    json.to_str fmt (.obj [(s, .null)]) false
      = "\x7b".toList ++ string_spec s ++ ":null\x7d".toList ∧
    json.to_str fmt (.obj [(s, .null)]) true
      = "\x7b\n  ".toList ++ string_spec s ++ " : null\n\x7d".toList := by
  have e := flatMap_output_char_eq_spec s h
  refine ⟨?_, ?_, ?_, ?_⟩ <;>
    simp [json.to_str, json_writer.output, json_writer.output_elements,
      json_writer.output_members, output_string_eq, json_writer.put, json_writer.indent_more,
      json_writer.indent_less, json_writer.newline, string_spec, e]

/-- C6, at the string made of a quote, a slash, a backslash, the eight bit byte 0x80, the
control byte 0x01 and a newline. -/
theorem C6_string_escapes_witness :
    (∀ c ∈ ['"', '/', '\\', Char.ofNat 128, Char.ofNat 1, '\n'], c.toNat < 256) ∧
    json.to_str (fun _ => []) (.str ['"', '/', '\\', Char.ofNat 128, Char.ofNat 1, '\n']) false
      = "\"\\\"\\/\\\\\\x80\\x01\\n\"".toList :=
  ⟨by decide, (C6_string_escapes (fun _ => []) _ false (by decide)).1.trans (by decide)⟩



/-- The invariant of a `std::map`: the keys are in strictly ascending order, so that no key
occurs twice. -/
def json_obj_ok (o : List (List Char × json)) : Prop :=
  o.Pairwise (fun e f => str_lt e.1 f.1 = true)

instance (o : List (List Char × json)) : Decidable (json_obj_ok o) := by
  unfold json_obj_ok; infer_instance

/-! ## The order of keys -/

theorem str_lt_irrefl : ∀ s, str_lt s s = false
  | [] => rfl
  | a :: s => by simp [str_lt, str_lt_irrefl s]

theorem str_lt_asymm : ∀ s t, str_lt s t = true → str_lt t s = false
  | [], [], h => by simp [str_lt] at h
  | [], _ :: _, _ => rfl
  | _ :: _, [], h => by simp [str_lt] at h
  | a :: s, b :: t, h => by
    simp only [str_lt] at h ⊢
    by_cases h1 : a.toNat < b.toNat
    · have : ¬ b.toNat < a.toNat := by omega
      simp [this, h1]
    · by_cases h2 : b.toNat < a.toNat
      · simp [h1, h2] at h
      · simp only [h1, h2, if_false] at h ⊢
        exact str_lt_asymm s t h

theorem str_lt_trans : ∀ s t u, str_lt s t = true → str_lt t u = true → str_lt s u = true
  | [], [], _, h, _ => by simp [str_lt] at h
  | [], _ :: _, [], _, h => by simp [str_lt] at h
  | [], _ :: _, _ :: _, _, _ => rfl
  | _ :: _, [], _, h, _ => by simp [str_lt] at h
  | _ :: _, _ :: _, [], _, h => by simp [str_lt] at h
  | a :: s, b :: t, c :: u, h1, h2 => by
    simp only [str_lt] at h1 h2 ⊢
    by_cases ab : a.toNat < b.toNat
    · by_cases bc : b.toNat < c.toNat
      · have : a.toNat < c.toNat := by omega
        simp [this]
      · by_cases cb : c.toNat < b.toNat
        · simp [bc, cb] at h2
        · have : a.toNat < c.toNat := by omega
          simp [this]
    · by_cases ba : b.toNat < a.toNat
      · simp [ab, ba] at h1
      · simp only [ab, ba, if_false] at h1
        by_cases bc : b.toNat < c.toNat
        · have : a.toNat < c.toNat := by omega
          simp [this]
        · by_cases cb : c.toNat < b.toNat
          · simp [bc, cb] at h2
          · simp only [bc, cb, if_false] at h2
            have e1 : ¬ a.toNat < c.toNat := by omega
            have e2 : ¬ c.toNat < a.toNat := by omega
            simp only [e1, e2, if_false]
            exact str_lt_trans s t u h1 h2

theorem str_lt_total : ∀ s t, str_lt s t = false → str_lt t s = false → s = t
  | [], [], _, _ => rfl
  | [], _ :: _, h, _ => by simp [str_lt] at h
  | _ :: _, [], _, h => by simp [str_lt] at h
  | a :: s, b :: t, h1, h2 => by
    simp only [str_lt] at h1 h2
    by_cases ab : a.toNat < b.toNat
    · simp [ab] at h1
    · by_cases ba : b.toNat < a.toNat
      · simp [ba] at h2
      · simp only [ab, ba, if_false] at h1 h2
        have e : a = b := Char.eq_of_toNat_eq (by omega)
        rw [e, str_lt_total s t h1 h2]

/-! ## Maps as sorted lists of entries -/

theorem map_find_none_of_lt (k : List Char) : ∀ (o : List (List Char × json)),
    (∀ e ∈ o, str_lt k e.1 = true) → map_find o k = none
  | [], _ => rfl
  | (l, v) :: t, h => by
    have hl : str_lt k l = true := h (l, v) (List.mem_cons_self _ _)
    have ne : l ≠ k := by
      intro e; rw [e, str_lt_irrefl] at hl; exact Bool.noConfusion hl
    simp only [map_find, ne, if_false]
    exact map_find_none_of_lt k t (fun e he => h e (List.mem_cons_of_mem _ he))

theorem map_find_isSome_iff (k : List Char) : ∀ (o : List (List Char × json)),
    (map_find o k).isSome = true ↔ ∃ e ∈ o, e.1 = k
  | [] => by simp [map_find]
  | (l, v) :: t => by
    by_cases e : l = k
    · simp [map_find, e]
    · simp [map_find, e, map_find_isSome_iff k t]

theorem map_find_index_same (k : List Char) : ∀ (o : List (List Char × json)),
    json_obj_ok o → map_find (map_index o k) k = some ((map_find o k).getD .null)
  | [], _ => by simp [map_index, map_find]
  | (l, v) :: t, h => by
    have ht : json_obj_ok t := (List.pairwise_cons.mp h).2
    have hl := (List.pairwise_cons.mp h).1
    simp only [map_index]
    by_cases h1 : str_lt k l = true
    · have ne : l ≠ k := by
        intro e; rw [e, str_lt_irrefl] at h1; exact Bool.noConfusion h1
      have hn : map_find t k = none :=
        map_find_none_of_lt k t (fun e he => str_lt_trans _ _ _ h1 (hl e he))
      simp [h1, map_find, ne, hn]
    · by_cases h2 : str_lt l k = true
      · have ne : l ≠ k := by
          intro e; rw [e, str_lt_irrefl] at h2; exact Bool.noConfusion h2
        simp [h1, h2, map_find, ne, map_find_index_same k t ht]
      · have e : k = l := str_lt_total k l (by simpa using h1) (by simpa using h2)
        subst e
        simp [str_lt_irrefl, map_find]

theorem map_find_index_other (k k1 : List Char) (hne : k1 ≠ k) :
    ∀ (o : List (List Char × json)), map_find (map_index o k) k1 = map_find o k1
  | [] => by simp [map_index, map_find, Ne.symm hne]
  | (l, v) :: t => by
    simp only [map_index]
    by_cases h1 : str_lt k l = true
    · simp [h1, map_find, Ne.symm hne]
    · by_cases h2 : str_lt l k = true
      · by_cases e : l = k1
        · subst e
          simp [h1, h2, map_find]
        · simp [h1, h2, map_find, e, map_find_index_other k k1 hne t]
      · simp [h1, h2]

theorem map_find_put (k k1 : List Char) (x : json) : ∀ (o : List (List Char × json)),
    map_find (map_put o k x) k1
      = if k1 = k then (map_find o k).map (fun _ => x) else map_find o k1
  | [] => by simp [map_put, map_find]
  | (l, v) :: t => by
    simp only [map_put]
    by_cases e : l = k
    · subst e
      by_cases e1 : k1 = l
      · subst e1; simp [map_find]
      · simp [map_find, e1, Ne.symm e1]
    · by_cases e1 : k1 = k
      · subst e1; simp [e, map_find, map_find_put k1 k1 x t]
      · by_cases e2 : l = k1
        · simp [e, e1, e2, map_find]
        · simp [e, e1, e2, map_find, map_find_put k k1 x t]

theorem map_index_mem (k : List Char) : ∀ (o : List (List Char × json)) (e : List Char × json),
    e ∈ map_index o k → e ∈ o ∨ e.1 = k
  | [], e, h => by simp [map_index] at h; simp [h]
  | (l, v) :: t, e, h => by
    simp only [map_index] at h
    by_cases h1 : str_lt k l = true
    · rw [if_pos h1] at h
      rcases List.mem_cons.mp h with rfl | h
      · right; rfl
      · left; exact h
    · rw [if_neg h1] at h
      by_cases h2 : str_lt l k = true
      · rw [if_pos h2] at h
        rcases List.mem_cons.mp h with rfl | h
        · left; exact List.mem_cons_self _ _
        · rcases map_index_mem k t e h with h | h
          · left; exact List.mem_cons_of_mem _ h
          · right; exact h
      · rw [if_neg h2] at h
        left; exact h

theorem map_index_ok (k : List Char) : ∀ (o : List (List Char × json)),
    json_obj_ok o → json_obj_ok (map_index o k)
  | [], _ => by simp [map_index, json_obj_ok]
  | (l, v) :: t, h => by
    have ht : json_obj_ok t := (List.pairwise_cons.mp h).2
    have hl := (List.pairwise_cons.mp h).1
    simp only [map_index]
    by_cases h1 : str_lt k l = true
    · simp only [h1, if_true]
      refine List.pairwise_cons.mpr ⟨?_, h⟩
      intro e he
      rcases List.mem_cons.mp he with rfl | he
      · exact h1
      · exact str_lt_trans _ _ _ h1 (hl e he)
    · by_cases h2 : str_lt l k = true
      · simp only [h1, h2, if_true, if_false]
        refine List.pairwise_cons.mpr ⟨?_, map_index_ok k t ht⟩
        intro e he
        rcases map_index_mem k t e he with he | he
        · exact hl e he
        · rw [he]; exact h2
      · simp only [h1, h2, if_false]; exact h

theorem map_put_mem (k : List Char) (x : json) : ∀ (o : List (List Char × json))
    (e : List Char × json), e ∈ map_put o k x → ∃ f ∈ o, f.1 = e.1
  | [], e, h => by simp [map_put] at h
  | (l, v) :: t, e, h => by
    simp only [map_put] at h
    by_cases e1 : l = k
    · rw [if_pos e1] at h
      rcases List.mem_cons.mp h with rfl | h
      · exact ⟨(l, v), List.mem_cons_self _ _, rfl⟩
      · exact ⟨e, List.mem_cons_of_mem _ h, rfl⟩
    · rw [if_neg e1] at h
      rcases List.mem_cons.mp h with rfl | h
      · exact ⟨(l, v), List.mem_cons_self _ _, rfl⟩
      · obtain ⟨f, hf, hf1⟩ := map_put_mem k x t e h
        exact ⟨f, List.mem_cons_of_mem _ hf, hf1⟩

theorem map_put_ok (k : List Char) (x : json) : ∀ (o : List (List Char × json)),
    json_obj_ok o → json_obj_ok (map_put o k x)
  | [], _ => by simp [map_put, json_obj_ok]
  | (l, v) :: t, h => by
    have ht : json_obj_ok t := (List.pairwise_cons.mp h).2
    have hl := (List.pairwise_cons.mp h).1
    simp only [map_put]
    by_cases e1 : l = k
    · simp only [e1, if_true]
      refine List.pairwise_cons.mpr ⟨?_, ht⟩
      intro e he
      rw [← e1]; exact hl e he
    · simp only [e1, if_false]
      refine List.pairwise_cons.mpr ⟨?_, map_put_ok k x t ht⟩
      intro e he
      obtain ⟨f, hf, hf1⟩ := map_put_mem k x t e he
      rw [← hf1]; exact hl f hf



/-! ## Equality -/

theorem real_tolerance_pos : (0 : ℚ) < real_tolerance := by
  unfold real_tolerance; norm_num

mutual
theorem json.eq_refl : ∀ (v : json), v.eq v = true
  | .obj o => by simp only [json.eq, beq_self_eq_true, Bool.true_and]; exact json.eq_obj_refl o
  | .ary a => by simp only [json.eq, beq_self_eq_true, Bool.true_and]; exact json.eq_ary_refl a
  | .real r => by simp [json.eq, real_tolerance_pos]
  | .str _ | .bool _ | .int _ | .null => by simp [json.eq]
theorem json.eq_ary_refl : ∀ (a : List json), json.eq_ary a a = true
  | [] => rfl
  | x :: xs => by
    simp only [json.eq_ary, Bool.and_eq_true]
    exact ⟨json.eq_refl x, json.eq_ary_refl xs⟩
theorem json.eq_obj_refl : ∀ (o : List (List Char × json)), json.eq_obj o o = true
  | [] => rfl
  | (k, x) :: xs => by
    simp only [json.eq_obj, Bool.and_eq_true, beq_self_eq_true, true_and]
    exact ⟨json.eq_refl x, json.eq_obj_refl xs⟩
end

mutual
theorem json.eq_symm : ∀ (a b : json), a.eq b = b.eq a
  | .obj o, b => by
    cases b <;> simp only [json.eq]
    rw [json.eq_obj_symm o, Bool.beq_comm]
  | .ary a, b => by
    cases b <;> simp only [json.eq]
    rw [json.eq_ary_symm a, Bool.beq_comm]
  | .str s, b => by
    cases b <;> simp only [json.eq]
    rw [Bool.beq_comm]
  | .bool s, b => by
    cases b <;> simp only [json.eq]
    rw [Bool.beq_comm]
  | .int s, b => by
    cases b <;> simp only [json.eq]
    rw [Bool.beq_comm]
  | .real s, b => by
    cases b <;> simp only [json.eq]
    rw [abs_sub_comm]
  | .null, b => by
    cases b <;> simp only [json.eq]
theorem json.eq_ary_symm : ∀ (a b : List json), json.eq_ary a b = json.eq_ary b a
  | [], [] => rfl
  | [], _ :: _ => rfl
  | _ :: _, [] => rfl
  | x :: xs, y :: ys => by
    simp only [json.eq_ary]
    rw [json.eq_symm x y, json.eq_ary_symm xs ys]
theorem json.eq_obj_symm : ∀ (a b : List (List Char × json)), json.eq_obj a b = json.eq_obj b a
  | [], [] => rfl
  | [], _ :: _ => rfl
  | _ :: _, [] => rfl
  | (k, x) :: xs, (l, y) :: ys => by
    simp only [json.eq_obj]
    rw [json.eq_symm x y, json.eq_obj_symm xs ys, Bool.beq_comm]
end

theorem json.eq_of_type_ne (a b : json) (h : a.type ≠ b.type) : a.eq b = false := by
  cases a <;> cases b <;> simp [json.eq, json.type] at h ⊢

/-- C9: equality is reflexive and symmetric, and two values with different active variants
are never equal; in particular `Int(1) != Real(1.0)` and `Null != Bool(false)`. -/
theorem C9_eq_reflexive_symmetric :
    (∀ v : json, v.eq v = true) ∧
    (∀ a b : json, a.eq b = b.eq a) ∧
    (∀ a b : json, a.type ≠ b.type → a.eq b = false) ∧
    (json.int 1).eq (json.real 1) = false ∧
    json.null.eq (json.bool false) = false :=
  ⟨json.eq_refl, json.eq_symm, json.eq_of_type_ne, rfl, rfl⟩

theorem map_find_add (o : List (List Char × json)) (ho : json_obj_ok o) (k k1 : List Char)
    (x : json) :
    map_find (map_put (map_index o k) k x) k1 = if k1 = k then some x else map_find o k1 := by
  rw [map_find_put]
  by_cases e : k1 = k
  · simp [e, map_find_index_same k o ho]
  · simp [e, map_find_index_other k k1 e o]

theorem map_add_ok (o : List (List Char × json)) (ho : json_obj_ok o) (k : List Char)
    (x : json) : json_obj_ok (map_put (map_index o k) k x) :=
  map_put_ok k x _ (map_index_ok k o ho)

/-- C10: indexing by a string key turns `Null` into an empty Object first; on an Object (a
map) the entry under the key is the one that was there, or a new `Null` entry, and the entry
under every other key is as before; on any other variant it throws.  From `Null`, the
statements `v["a"] = 1; v["b"] = 2` leave exactly the entries `a -> 1` and `b -> 2`. -/
theorem C10_index_key (o : List (List Char × json)) (ho : json_obj_ok o) (key : List Char) :
    json.null.index_key key = (json.obj []).index_key key ∧
    (∃ o1, (json.obj o).index_key key = .ok (.obj o1) ∧
      (json.obj o1).entry key = some ((map_find o key).getD .null) ∧
      (∀ k1, k1 ≠ key → (json.obj o1).entry k1 = (json.obj o).entry k1) ∧
      json_obj_ok o1) ∧
    (∀ v : json, v.is_obj = false → v.is_null = false →
      v.index_key key = .error ⟨"not an object"⟩) ∧
    (json.null.assign_key ['a'] (.int 1)).bind (fun v => v.assign_key ['b'] (.int 2))
      = .ok (.obj [(['a'], .int 1), (['b'], .int 2)]) := by
  refine ⟨rfl, ⟨map_index o key, rfl, ?_, ?_, map_index_ok key o ho⟩, ?_, rfl⟩
  · exact map_find_index_same key o ho
  · intro k1 h1
    exact map_find_index_other key k1 h1 o
  · intro v h1 h2
    simp [json.index_key, h1, h2]

/-- C10, at the object with the keys `a` and `c`, indexed by `b`. -/
theorem C10_index_key_witness :
    json_obj_ok [(['a'], .int 1), (['c'], .int 3)] ∧
    ∃ o1, (json.obj [(['a'], .int 1), (['c'], .int 3)]).index_key ['b'] = .ok (.obj o1) ∧
      (json.obj o1).entry ['b'] = some .null :=
  ⟨by decide, (C10_index_key _ (by decide) ['b']).2.1.imp (fun _ h => ⟨h.1, h.2.1⟩)⟩



/-! ## Pointers into the tree -/

theorem json.get_append (p : List step) (s : step) : ∀ (r : json),
    r.get (p ++ [s]) = (r.get p).bind (fun n => n.child s) := by
  induction p with
  | nil => intro r; simp [json.get]
  | cons t p ih =>
    intro r
    simp only [List.cons_append, json.get]
    cases h : r.child t with
    | none => simp
    | some c => simp [ih c]

theorem map_find_put_same (k : List Char) (x : json) (o : List (List Char × json))
    (h : (map_find o k).isSome = true) : map_find (map_put o k x) k = some x := by
  rw [map_find_put]
  cases hf : map_find o k with
  | none => rw [hf] at h; exact Bool.noConfusion h
  | some y => simp

theorem map_put_put (k : List Char) (x y : json) : ∀ (o : List (List Char × json)),
    map_put (map_put o k x) k y = map_put o k y
  | [] => rfl
  | (l, v) :: t => by
    by_cases e : l = k
    · simp [map_put, e]
    · simp [map_put, e, map_put_put k x y t]

theorem map_put_find (k : List Char) (x : json) : ∀ (o : List (List Char × json)),
    map_find o k = some x → map_put o k x = o
  | [], _ => rfl
  | (l, v) :: t, h => by
    by_cases e : l = k
    · simp only [map_find, e, if_true, Option.some.injEq] at h
      simp [map_put, e, h]
    · simp only [map_find, e, if_false] at h
      simp [map_put, e, map_put_find k x t h]

theorem json.child_set_child (n c x : json) (s : step) (h : n.child s = some c) :
    (n.set_child s x).child s = some x := by
  cases n <;> cases s <;> simp [json.child] at h
  · rename_i o k
    simp only [json.set_child, json.child]
    exact map_find_put_same k x o (by rw [h]; rfl)
  · rename_i a i
    simp only [json.set_child, json.child]
    have hi : i < a.length := by
      by_contra hn
      rw [List.getElem?_eq_none (by omega)] at h
      exact Option.noConfusion h
    simp [hi]

theorem json.set_child_set_child (n x y : json) (s : step) :
    (n.set_child s x).set_child s y = n.set_child s y := by
  cases n <;> cases s <;> simp [json.set_child, map_put_put]

theorem json.set_child_child (n c : json) (s : step) (h : n.child s = some c) :
    n.set_child s c = n := by
  cases n <;> cases s <;> simp [json.child] at h
  · rename_i o k
    simp [json.set_child, map_put_find k c o h]
  · rename_i a i
    simp only [json.set_child]
    congr 1
    apply List.ext_getElem?
    intro j
    rw [List.getElem?_set]
    by_cases e : i = j
    · subst e
      have hi : i < a.length := by
        by_contra hn
        rw [List.getElem?_eq_none (by omega)] at h
        exact Option.noConfusion h
      simp [hi, h]
    · simp [e]

theorem json.get_set (p : List step) : ∀ (r n x : json), r.get p = some n →
    (r.set p x).get p = some x := by
  induction p with
  | nil => intro r n x _; simp [json.get, json.set]
  | cons s p ih =>
    intro r n x h
    simp only [json.get] at h
    cases hc : r.child s with
    | none => rw [hc] at h; simp at h
    | some c =>
      rw [hc] at h
      simp only [Option.some_bind] at h
      simp only [json.set, hc, json.get, json.child_set_child r c _ s hc, Option.some_bind]
      exact ih c n x h

theorem json.set_set (p : List step) : ∀ (r n x y : json), r.get p = some n →
    (r.set p x).set p y = r.set p y := by
  induction p with
  | nil => intro r n x y _; simp [json.set]
  | cons s p ih =>
    intro r n x y h
    simp only [json.get] at h
    cases hc : r.child s with
    | none => rw [hc] at h; simp at h
    | some c =>
      rw [hc] at h
      simp only [Option.some_bind] at h
      simp only [json.set, hc, json.child_set_child r c _ s hc, json.set_child_set_child]
      rw [ih c n x y h]

theorem json.set_append (p : List step) (s : step) : ∀ (r n c x : json), r.get p = some n →
    n.child s = some c → r.set (p ++ [s]) x = r.set p (n.set_child s x) := by
  induction p with
  | nil =>
    intro r n c x h hc
    simp only [json.get, Option.some.injEq] at h
    subst h
    simp [json.set, hc]
  | cons t p ih =>
    intro r n c x h hc
    simp only [json.get] at h
    cases ht : r.child t with
    | none => rw [ht] at h; simp at h
    | some d =>
      rw [ht] at h
      simp only [Option.some_bind] at h
      simp only [List.cons_append, json.set, ht]
      exact congrArg _ (ih d n c x h hc)



theorem map_find_index_isSome (k : List Char) : ∀ (o : List (List Char × json)),
    (map_find (map_index o k) k).isSome = true
  | [] => by simp [map_index, map_find]
  | (l, v) :: t => by
    simp only [map_index]
    by_cases h1 : str_lt k l = true
    · simp [h1, map_find]
    · by_cases h2 : str_lt l k = true
      · by_cases e : l = k
        · subst e
          simp [str_lt_irrefl] at h2
        · simp [h1, h2, map_find, e, map_find_index_isSome k t]
      · have e : k = l := str_lt_total k l (by simpa using h1) (by simpa using h2)
        subst e
        simp [str_lt_irrefl, map_find]

/-! ## The construction stack -/

theorem json_stack.add_spec (E : json) (st st1 : json_stack) (q : List step)
    (h : st.add E = some (st1, q)) :
    st1.root_.get q = some E ∧ st1.stack_ = st.stack_ ∧ st1.str_ = st.str_ ∧
    ∀ X, st.add X = some ({ st1 with root_ := st1.root_.set q X }, q) := by
  unfold json_stack.add at h
  cases hs : st.stack_ with
  | nil =>
    rw [hs] at h
    simp only [Option.some.injEq, Prod.mk.injEq] at h
    obtain ⟨h1, h2⟩ := h
    subst h1 h2
    refine ⟨rfl, rfl, rfl, ?_⟩
    intro X
    simp [json_stack.add, hs, json.set]
  | cons p ps =>
    rw [hs] at h
    simp only at h
    cases hg : st.root_.get p with
    | none => rw [hg] at h; simp at h
    | some node =>
      rw [hg] at h
      simp only at h
      cases node with
      | ary a =>
        simp only [json.type, json.add, if_true, Option.some.injEq, Prod.mk.injEq,
          json.size] at h
        obtain ⟨h1, h2⟩ := h
        subst h1 h2
        have g1 : (st.root_.set p (json.ary (a ++ [E]))).get p = some (json.ary (a ++ [E])) :=
          json.get_set p _ _ _ hg
        have c1 : (json.ary (a ++ [E])).child (step.idx a.length) = some E := by
          simp [json.child]
        refine ⟨?_, rfl, rfl, ?_⟩
        · simp only [json.get_append, g1, Option.some_bind]
          exact c1
        · intro X
          simp only [json_stack.add, hs, hg, json.type, json.add, if_true, json.size]
          rw [json.set_append p _ _ _ E X g1 c1, json.set_set p _ _ _ _ hg]
          simp [json.set_child]
      | obj o =>
        simp only [json.type, json.add_named] at h
        by_cases hn : st.name_ = []
        · simp [hn] at h
        · simp only [hn, if_false, Option.some.injEq, Prod.mk.injEq,
            (by decide : ¬ json_value_type.obj_type = json_value_type.ary_type)] at h
          obtain ⟨h1, h2⟩ := h
          subst h1 h2
          have g1 := json.get_set p st.root_ _
            (json.obj (map_put (map_index o st.name_.dropLast) st.name_.dropLast E)) hg
          have c1 : (json.obj (map_put (map_index o st.name_.dropLast) st.name_.dropLast E)).child
              (step.key st.name_.dropLast) = some E := by
            simp only [json.child]
            exact map_find_put_same _ _ _ (map_find_index_isSome _ _)
          refine ⟨?_, rfl, rfl, ?_⟩
          · simp only [json.get_append, g1, Option.some_bind]
            exact c1
          · intro X
            simp only [json_stack.add, hs, hg, json.type, json.add_named, hn, if_false,
              (by decide : ¬ json_value_type.obj_type = json_value_type.ary_type)]
            rw [json.set_append p _ _ _ E X g1 c1, json.set_set p _ _ _ _ hg]
            simp [json.set_child, map_put_put]
      | str _ | bool _ | int _ | real _ | null =>
        simp only [json.type, json.add_named] at h
        by_cases hn : st.name_ = []
        · simp [hn] at h
        · simp [hn] at h



/-! ## The text of a value

The writer only appends to `os_` and leaves `indent_` as it found it, so that the text of a
value is a function of the value, the flag and the indentation. -/

/-- The line break in front of an element or of the closing bracket. -/
def break_line (pretty : Bool) (ind : List Char) : List Char :=
  if pretty then '\n' :: ind else []

/-- The indentation of the elements of a container. -/
def deeper (pretty : Bool) (ind : List Char) : List Char :=
  if pretty then ind ++ [' ', ' '] else ind

/-- The text between two elements: a comma unless the element is the last. -/
def comma_unless (last : Bool) : List Char := if last then [] else [',']

/-- The text of a string literal. -/
def quote (s : List Char) : List Char := '"' :: s.flatMap output_char ++ ['"']

mutual
/-- The text `json_writer::output` appends for a value at indentation `ind`. -/
def render (fmt : ℚ → List Char) (pretty : Bool) : List Char → json → List Char
  | ind, .obj o =>
    '{' :: render_members fmt pretty (deeper pretty ind) o ++ break_line pretty ind ++ ['}']
  | ind, .ary a =>
    '[' :: render_elements fmt pretty (deeper pretty ind) a ++ break_line pretty ind ++ [']']
  | _, .str s => quote s
  | _, .bool b => if b then ['t', 'r', 'u', 'e'] else ['f', 'a', 'l', 's', 'e']
  | _, .int i => dec_int i
  | _, .real d => fmt d
  | _, .null => ['n', 'u', 'l', 'l']
/-- The text of the elements of an array. -/
def render_elements (fmt : ℚ → List Char) (pretty : Bool) : List Char → List json → List Char
  | _, [] => []
  | ind, x :: xs =>
    break_line pretty ind ++ render fmt pretty ind x ++ comma_unless xs.isEmpty
      ++ render_elements fmt pretty ind xs
/-- The text of the members of an object. -/
def render_members (fmt : ℚ → List Char) (pretty : Bool) :
    List Char → List (List Char × json) → List Char
  | _, [] => []
  | ind, (k, x) :: xs =>
    break_line pretty ind ++ quote k ++ (if pretty then [' ', ':', ' '] else [':'])
      ++ render fmt pretty ind x ++ comma_unless xs.isEmpty
      ++ render_members fmt pretty ind xs
end

theorem indent_less_deeper (p : Bool) (os ind : List Char) :
    ({ os_ := os, indent_ := deeper p ind, pretty_ := p } : json_writer).indent_less
      = { os_ := os ++ break_line p ind, indent_ := ind, pretty_ := p } := by
  cases p
  · simp [json_writer.indent_less, break_line, deeper]
  · simp [json_writer.indent_less, break_line, deeper]

mutual
theorem output_eq_render (fmt : ℚ → List Char) : ∀ (v : json) (w : json_writer),
    json_writer.output fmt v w = { w with os_ := w.os_ ++ render fmt w.pretty_ w.indent_ v }
  | .obj o, w => by
    simp only [json_writer.output, render]
    rw [output_members_eq fmt o]
    have e1 : (w.put ['{']).indent_more.pretty_ = w.pretty_ := by
      cases hp : w.pretty_ <;> simp [json_writer.indent_more, json_writer.put, hp]
    have e2 : (w.put ['{']).indent_more.indent_ = deeper w.pretty_ w.indent_ := by
      cases hp : w.pretty_ <;> simp [json_writer.indent_more, json_writer.put, hp, deeper]
    have e3 : (w.put ['{']).indent_more.os_ = w.os_ ++ ['{'] := by
      cases hp : w.pretty_ <;> simp [json_writer.indent_more, json_writer.put, hp]
    rw [e1, e2, e3]
    rw [indent_less_deeper]
    simp [json_writer.put, List.append_assoc]
  | .ary a, w => by
    simp only [json_writer.output, render]
    rw [output_elements_eq fmt a]
    have e1 : (w.put ['[']).indent_more.pretty_ = w.pretty_ := by
      cases hp : w.pretty_ <;> simp [json_writer.indent_more, json_writer.put, hp]
    have e2 : (w.put ['[']).indent_more.indent_ = deeper w.pretty_ w.indent_ := by
      cases hp : w.pretty_ <;> simp [json_writer.indent_more, json_writer.put, hp, deeper]
    have e3 : (w.put ['[']).indent_more.os_ = w.os_ ++ ['['] := by
      cases hp : w.pretty_ <;> simp [json_writer.indent_more, json_writer.put, hp]
    rw [e1, e2, e3]
    rw [indent_less_deeper]
    simp [json_writer.put, List.append_assoc]
  | .str s, w => by simp [json_writer.output, render, output_string_eq, quote]
  | .bool b, w => by simp [json_writer.output, render, json_writer.put]
  | .int i, w => by simp [json_writer.output, render, json_writer.put]
  | .real d, w => by simp [json_writer.output, render, json_writer.put]
  | .null, w => by simp [json_writer.output, render, json_writer.put]
theorem output_elements_eq (fmt : ℚ → List Char) : ∀ (a : List json) (w : json_writer),
    json_writer.output_elements fmt a w
      = { w with os_ := w.os_ ++ render_elements fmt w.pretty_ w.indent_ a }
  | [], w => by simp [json_writer.output_elements, render_elements]
  | x :: xs, w => by
    simp only [json_writer.output_elements, render_elements]
    rw [output_eq_render fmt x]
    cases hx : xs.isEmpty
    · simp only [Bool.false_eq_true, if_false]
      rw [output_elements_eq fmt xs]
      cases hp : w.pretty_ <;>
        simp [json_writer.newline, json_writer.put, hp, break_line, comma_unless,
          List.append_assoc]
    · simp only [if_true]
      rw [output_elements_eq fmt xs]
      cases hp : w.pretty_ <;>
        simp [json_writer.newline, json_writer.put, hp, break_line, comma_unless,
          List.append_assoc]
theorem output_members_eq (fmt : ℚ → List Char) : ∀ (o : List (List Char × json))
    (w : json_writer), json_writer.output_members fmt o w
      = { w with os_ := w.os_ ++ render_members fmt w.pretty_ w.indent_ o }
  | [], w => by simp [json_writer.output_members, render_members]
  | (k, x) :: xs, w => by
    simp only [json_writer.output_members, render_members]
    rw [output_eq_render fmt x]
    cases hx : xs.isEmpty
    · simp only [Bool.false_eq_true, if_false]
      rw [output_members_eq fmt xs]
      cases hp : w.pretty_ <;>
        simp [json_writer.newline, json_writer.put, hp, break_line, comma_unless,
          List.append_assoc, output_string_eq, quote]
    · simp only [if_true]
      rw [output_members_eq fmt xs]
      cases hp : w.pretty_ <;>
        simp [json_writer.newline, json_writer.put, hp, break_line, comma_unless,
          List.append_assoc, output_string_eq, quote]
end

theorem to_str_eq_render (fmt : ℚ → List Char) (v : json) (pretty : Bool) :
    v.to_str fmt pretty = render fmt pretty [] v := by
  simp [json.to_str, output_eq_render]



/-! ## White space and the primitive parsers -/

/-- A text of white space only. -/
def blank (ws : List Char) : Prop := ∀ c ∈ ws, isspace c = true

theorem skip_blank_append (ws t : List Char) (h : blank ws) : skip (ws ++ t) = skip t := by
  induction ws with
  | nil => rfl
  | cons c ws ih =>
    have hc : isspace c = true := h c (List.mem_cons_self _ _)
    simp only [List.cons_append, skip, hc, if_true]
    exact ih (fun d hd => h d (List.mem_cons_of_mem _ hd))

theorem skip_cons (c : Char) (t : List Char) (h : isspace c = false) :
    skip (c :: t) = c :: t := by
  simp [skip, h]

theorem skip_blank_cons (ws t : List Char) (c : Char) (h : blank ws)
    (hc : isspace c = false) : skip (ws ++ c :: t) = c :: t := by
  rw [skip_blank_append ws _ h, skip_cons c t hc]

theorem skip_head (i : List Char) : ∀ (c : Char) (r : List Char), skip i = c :: r →
    isspace c = false := by
  induction i with
  | nil => intro c r h; simp [skip] at h
  | cons x i ih =>
    intro c r h
    by_cases hx : isspace x = true
    · simp only [skip, hx, if_true] at h
      exact ih c r h
    · simp only [skip, hx, Bool.false_eq_true, if_false, List.cons.injEq] at h
      rw [← h.1]; simpa using hx

theorem skip_idem (i : List Char) : skip (skip i) = skip i := by
  cases h : skip i with
  | nil => rfl
  | cons c r => exact skip_cons c r (skip_head i c r h)

theorem skip_append (i ext : List Char) : ∀ (c : Char) (r : List Char), skip i = c :: r →
    skip (i ++ ext) = c :: (r ++ ext) := by
  induction i with
  | nil => intro c r h; simp [skip] at h
  | cons x i ih =>
    intro c r h
    by_cases hx : isspace x = true
    · simp only [skip, hx, if_true, List.cons_append] at h ⊢
      exact ih c r h
    · simp only [skip, hx, Bool.false_eq_true, if_false, List.cons.injEq, List.cons_append] at h ⊢
      simp [h.1, h.2]

theorem skip_length_le (i : List Char) : (skip i).length ≤ i.length := by
  induction i with
  | nil => simp [skip]
  | cons x i ih =>
    by_cases hx : isspace x = true
    · simp only [skip, hx, if_true, List.length_cons]; omega
    · simp [skip, hx]

theorem blank_nil : blank [] := fun _ h => by simp at h

theorem blank_append (a b : List Char) (ha : blank a) (hb : blank b) : blank (a ++ b) := by
  intro c hc
  rcases List.mem_append.mp hc with h | h
  · exact ha c h
  · exact hb c h

theorem ch_p_hit (x : Char) (st : json_stack) (i r : List Char) (h : skip i = x :: r) :
    ch_p x st i = .hit st r := by
  simp [ch_p, h]

theorem ch_p_miss (x c : Char) (st : json_stack) (i r : List Char) (h : skip i = c :: r)
    (hne : c ≠ x) : ch_p x st i = .miss st := by
  simp [ch_p, h, hne]

theorem ch_p_miss_nil (x : Char) (st : json_stack) (i : List Char) (h : skip i = []) :
    ch_p x st i = .miss st := by
  simp [ch_p, h]

theorem quoted_miss (a : Char → json_stack → json_stack) (c : Char) (st : json_stack)
    (i r : List Char) (h : skip i = c :: r) (hne : c ≠ '"') : quoted a st i = .miss st := by
  simp [quoted, h, hne]

theorem str_p_miss (x c : Char) (s : List Char) (st : json_stack) (i r : List Char)
    (h : skip i = c :: r) (hne : c ≠ x) : str_p (x :: s) st i = .miss st := by
  simp [str_p, h, match_lit, hne]

theorem match_lit_append (s t : List Char) : match_lit s (s ++ t) = some t := by
  induction s with
  | nil => cases t <;> rfl
  | cons c s ih => simp [match_lit, ih]

theorem str_p_hit (s : List Char) (st : json_stack) (i t : List Char)
    (h : skip i = s ++ t) : str_p s st i = .hit st t := by
  simp [str_p, h, match_lit_append]

/-- A character with which a number can start: a sign, a dot or a digit. -/
def number_start (c : Char) : Bool := c = '-' || c = '+' || c = '.' || isdigit c

theorem extract_digits_not_digit (c : Char) (r : List Char) (n count : Nat)
    (h : isdigit c = false) : extract_digits (c :: r) n count = (n, count, c :: r) := by
  simp [extract_digits, h]

theorem strict_real_p_none (i r : List Char) (c : Char) (h : skip i = c :: r)
    (hc : number_start c = false) : strict_real_p i = none := by
  simp only [number_start, Bool.or_eq_false_iff, decide_eq_false_iff_not] at hc
  obtain ⟨⟨⟨h1, h2⟩, h3⟩, h4⟩ := hc
  simp [strict_real_p, h, h1, h2, h3, extract_digits_not_digit c r 0 0 h4]

theorem int_p_none (i r : List Char) (c : Char) (h : skip i = c :: r)
    (hc : number_start c = false) : int_p i = none := by
  simp only [number_start, Bool.or_eq_false_iff, decide_eq_false_iff_not] at hc
  obtain ⟨⟨⟨h1, h2⟩, _⟩, h4⟩ := hc
  simp [int_p, h, h1, h2, extract_int, h4]

theorem number_add_miss {α : Type} (p : List Char → Option (α × List Char)) (mk : α → json)
    (st : json_stack) (i : List Char) (h : p i = none) : number_add p mk st i = .miss st := by
  simp [number_add, h]



/-! ## Decimal numbers -/

/-- The input left behind a number does not continue it: it is empty or starts with a
character that is neither a digit nor a dot nor an exponent mark. -/
def number_end (tl : List Char) : Prop :=
  ∀ c r, tl = c :: r → isdigit c = false ∧ c ≠ '.' ∧ c ≠ 'e' ∧ c ≠ 'E'

theorem digit_char_spec : ∀ d, d < 10 →
    isdigit (digit_char d) = true ∧ (digit_char d).toNat - 48 = d ∧
    isspace (digit_char d) = false ∧ digit_char d ≠ '-' ∧ digit_char d ≠ '+' := by
  decide

theorem num_digits_extract_int (limit : Nat) (tl : List Char) : ∀ (fuel n : Nat)
    (acc : List Char), 1 ≤ fuel → n < 10 ^ fuel → n ≤ limit →
    ∃ L, 1 ≤ L ∧ ∀ count, extract_int limit (num_digits 10 fuel n acc ++ tl) 0 count
      = extract_int limit (acc ++ tl) n (count + L) := by
  intro fuel
  induction fuel with
  | zero => intro n acc h; omega
  | succ fuel ih =>
    intro n acc _ hn hl
    by_cases h0 : n / 10 = 0
    · have hlt : n < 10 := by omega
      obtain ⟨d1, d2, _⟩ := digit_char_spec n hlt
      refine ⟨1, le_refl _, ?_⟩
      intro count
      have e : n % 10 = n := Nat.mod_eq_of_lt hlt
      simp only [num_digits, h0, if_true, e, List.cons_append, extract_int, d1, d2]
      have a1 : ¬ 0 > limit / 10 := by omega
      have a2 : ¬ 0 * 10 > limit - n := by omega
      simp [a1, a2]
    · have hf : 1 ≤ fuel := by
        by_contra hc
        have : fuel = 0 := by omega
        subst this
        omega
      have hn1 : n / 10 < 10 ^ fuel := by
        rw [Nat.pow_succ] at hn
        exact Nat.div_lt_of_lt_mul (by omega)
      obtain ⟨L, hL, hx⟩ := ih (n / 10) (digit_char (n % 10) :: acc) hf hn1 (by omega)
      obtain ⟨d1, d2, _⟩ := digit_char_spec (n % 10) (Nat.mod_lt _ (by omega))
      refine ⟨L + 1, by omega, ?_⟩
      intro count
      simp only [num_digits, h0, if_false]
      rw [hx count]
      simp only [List.cons_append, extract_int, d1, d2, if_true]
      have a1 : ¬ n / 10 > limit / 10 := by omega
      have a2 : ¬ n / 10 * 10 > limit - n % 10 := by omega
      have a3 : n / 10 * 10 + n % 10 = n := by omega
      simp only [a1, a2, if_false, a3]
      rfl

theorem num_digits_extract_digits (tl : List Char) : ∀ (fuel n : Nat)
    (acc : List Char), 1 ≤ fuel → n < 10 ^ fuel →
    ∃ L, 1 ≤ L ∧ ∀ count, extract_digits (num_digits 10 fuel n acc ++ tl) 0 count
      = extract_digits (acc ++ tl) n (count + L) := by
  intro fuel
  induction fuel with
  | zero => intro n acc h; omega
  | succ fuel ih =>
    intro n acc _ hn
    by_cases h0 : n / 10 = 0
    · have hlt : n < 10 := by omega
      obtain ⟨d1, d2, _⟩ := digit_char_spec n hlt
      refine ⟨1, le_refl _, ?_⟩
      intro count
      have e : n % 10 = n := Nat.mod_eq_of_lt hlt
      simp [num_digits, h0, e, extract_digits, d1, d2]
    · have hf : 1 ≤ fuel := by
        by_contra hc
        have : fuel = 0 := by omega
        subst this
        omega
      have hn1 : n / 10 < 10 ^ fuel := by
        rw [Nat.pow_succ] at hn
        exact Nat.div_lt_of_lt_mul (by omega)
      obtain ⟨L, hL, hx⟩ := ih (n / 10) (digit_char (n % 10) :: acc) hf hn1
      obtain ⟨d1, d2, _⟩ := digit_char_spec (n % 10) (Nat.mod_lt _ (by omega))
      refine ⟨L + 1, by omega, ?_⟩
      intro count
      simp only [num_digits, h0, if_false]
      rw [hx count]
      simp only [List.cons_append, extract_digits, d1, d2, if_true]
      have a3 : n / 10 * 10 + n % 10 = n := by omega
      rw [a3]
      rfl

theorem num_digits_head : ∀ (fuel n : Nat) (acc : List Char), 1 ≤ fuel →
    ∃ c r, num_digits 10 fuel n acc = c :: r ∧ isdigit c = true
  | 0, _, _, h => by omega
  | fuel + 1, n, acc, _ => by
    by_cases h0 : n / 10 = 0
    · refine ⟨digit_char (n % 10), acc, by simp [num_digits, h0], ?_⟩
      exact (digit_char_spec (n % 10) (Nat.mod_lt _ (by omega))).1
    · by_cases hf : fuel = 0
      · subst hf
        refine ⟨digit_char (n % 10), acc, by simp [num_digits, h0], ?_⟩
        exact (digit_char_spec (n % 10) (Nat.mod_lt _ (by omega))).1
      · simp only [num_digits, h0, if_false]
        exact num_digits_head fuel (n / 10) _ (by omega)

theorem lt_ten_pow_succ (n : Nat) : n < 10 ^ (n + 1) :=
  lt_of_lt_of_le (Nat.lt_pow_self (by omega : 1 < 10) n)
    (Nat.pow_le_pow_right (by omega) (by omega))

theorem extract_int_end (limit n count : Nat) (tl : List Char) (h : number_end tl) :
    extract_int limit tl n count = some (n, count, tl) := by
  cases tl with
  | nil => rfl
  | cons c r => simp [extract_int, (h c r rfl).1]

theorem extract_digits_end (n count : Nat) (tl : List Char) (h : number_end tl) :
    extract_digits tl n count = (n, count, tl) := by
  cases tl with
  | nil => rfl
  | cons c r => simp [extract_digits, (h c r rfl).1]

/-- The machine integers: the values of an `int`. -/
def int_range (i : Int) : Prop := -2147483648 ≤ i ∧ i ≤ 2147483647

instance (i : Int) : Decidable (int_range i) := by unfold int_range; infer_instance

theorem isdigit_ne_sign (c : Char) (h : isdigit c = true) :
    c ≠ '-' ∧ c ≠ '+' ∧ c ≠ '.' ∧ isspace c = false := by
  refine ⟨?_, ?_, ?_, ?_⟩
  · rintro rfl; exact absurd h (by decide)
  · rintro rfl; exact absurd h (by decide)
  · rintro rfl; exact absurd h (by decide)
  · simp only [isdigit, Bool.and_eq_true, decide_eq_true_eq] at h
    have : c ≠ ' ' := by rintro rfl; exact absurd h.1 (by decide)
    simp only [isspace, this, decide_False, Bool.false_or, Bool.and_eq_false_imp,
      decide_eq_true_eq, decide_eq_false_iff_not]
    omega

theorem int_p_dec_int (i : Int) (tl inp : List Char) (hi : int_range i) (ht : number_end tl)
    (hs : skip inp = dec_int i ++ tl) : int_p inp = some (i, tl) := by
  unfold int_p
  rw [hs]
  unfold dec_int
  by_cases hneg : i < 0
  · simp only [hneg, if_true, List.cons_append]
    obtain ⟨L, hL, hx⟩ := num_digits_extract_int 2147483648 tl (i.natAbs + 1) i.natAbs []
      (by omega) (lt_ten_pow_succ _) (by unfold int_range at hi; omega)
    rw [hx 0]
    simp only [List.nil_append, extract_int_end _ _ _ _ ht]
    have e : -|i| = i := by rw [abs_of_neg hneg, neg_neg]
    simp [hL, e]
  · simp only [hneg, if_false]
    obtain ⟨c, r, hc, hd⟩ := num_digits_head (i.natAbs + 1) i.natAbs [] (by omega)
    obtain ⟨n1, n2, _⟩ := isdigit_ne_sign c hd
    obtain ⟨L, hL, hx⟩ := num_digits_extract_int 2147483647 tl (i.natAbs + 1) i.natAbs []
      (by omega) (lt_ten_pow_succ _) (by unfold int_range at hi; omega)
    have hx0 := hx 0
    rw [hc] at hx0 ⊢
    simp only [List.cons_append, n1, n2, if_false] at hx0 ⊢
    rw [hx0]
    simp only [List.nil_append, extract_int_end _ _ _ _ ht]
    have e : |i| = i := abs_of_nonneg (by omega)
    simp [hL, e]

theorem strict_real_p_dec_int (i : Int) (tl inp : List Char) (ht : number_end tl)
    (hs : skip inp = dec_int i ++ tl) : strict_real_p inp = none := by
  unfold strict_real_p
  rw [hs]
  unfold dec_int
  obtain ⟨L, hL, hx⟩ := num_digits_extract_digits tl (i.natAbs + 1) i.natAbs []
    (by omega) (lt_ten_pow_succ _)
  have hx0 := hx 0
  simp only [List.nil_append, extract_digits_end _ _ _ ht] at hx0
  by_cases hneg : i < 0
  · simp only [hneg, if_true, List.cons_append, true_or]
    rw [hx0]
    cases tl with
    | nil => simp
    | cons x r1 =>
      obtain ⟨_, t2, t3, t4⟩ := ht x r1 rfl
      simp [t2, t3, t4, hL]
  · simp only [hneg, if_false]
    obtain ⟨c, r, hc, hd⟩ := num_digits_head (i.natAbs + 1) i.natAbs [] (by omega)
    obtain ⟨n1, n2, _⟩ := isdigit_ne_sign c hd
    rw [hc] at hx0 ⊢
    simp only [List.cons_append, n1, n2, or_self, if_false] at hx0 ⊢
    rw [hx0]
    cases tl with
    | nil => simp
    | cons x r1 =>
      obtain ⟨_, t2, t3, t4⟩ := ht x r1 rfl
      simp [t2, t3, t4, hL]

theorem dec_int_head (i : Int) : ∃ c r, dec_int i = c :: r ∧ number_start c = true ∧
    isspace c = false := by
  unfold dec_int
  by_cases hneg : i < 0
  · exact ⟨'-', num_digits 10 (i.natAbs + 1) i.natAbs [], by simp [hneg], by decide, by decide⟩
  · obtain ⟨c, r, hc, hd⟩ := num_digits_head (i.natAbs + 1) i.natAbs [] (by omega)
    refine ⟨c, r, by simp [hneg, hc], by simp [number_start, hd], (isdigit_ne_sign c hd).2.2.2⟩



/-! ## String literals -/

/-- The control characters that the writer escapes by name. -/
def named_control (c : Char) : Bool :=
  c.toNat = 8 || c.toNat = 9 || c.toNat = 10 || c.toNat = 12 || c.toNat = 13

/-- A character whose escape, followed by the text of `t`, is read back as the character: it
is printable, or escaped by name, or a 7 bit character escaped with two hexadecimal digits
that is not followed by a hexadecimal digit. -/
def escape_safe (c : Char) (t : List Char) : Bool :=
  isprint c || named_control c ||
    (decide (c.toNat < 128) && (match t with
      | [] => true
      | d :: _ => !isxdigit d))

/-- A string that the parser reads back from the text the writer gives it. -/
def str_safe : List Char → Bool
  | [] => true
  | c :: t => escape_safe c t && str_safe t

theorem radix_digit_hex_lower : ∀ d, d < 16 → radix_digit 16 (hex_lower d) = some d := by
  decide

theorem hex_decode_digit (d : Char) (v hex : Nat) (r : List Char)
    (hd : radix_digit 16 d = some v) (hh : hex ≤ 7) :
    hex_decode (d :: r) hex = hex_decode r (hex * 16 + v) := by
  have h7 : ¬ hex > 7 := by omega
  unfold radix_digit at hd
  simp only [hex_decode, h7, false_and, if_false]
  by_cases h1 : isdigit d = true
  · simp only [h1, if_true] at hd ⊢
    by_cases h2 : d.toNat - 48 < 16
    · simp only [h2, if_true, Option.some.injEq] at hd
      rw [hd]
    · simp [h2] at hd
  · simp only [h1, Bool.false_eq_true, if_false, true_and] at hd ⊢
    by_cases h3 : 97 ≤ d.toNat ∧ d.toNat ≤ 102
    · simp only [h3, and_self, if_true, Option.some.injEq] at hd ⊢
      have : d.toNat - 32 - 65 + 10 = v := by omega
      rw [this]
    · simp only [h3, if_false] at hd ⊢
      by_cases h4 : 65 ≤ d.toNat ∧ d.toNat ≤ 70
      · simp only [h4, and_self, if_true, Option.some.injEq] at hd ⊢
        have : d.toNat - 65 + 10 = v := by omega
        rw [this]
      · simp [h4] at hd

theorem hex_decode_end (hex : Nat) (nxt : List Char)
    (h : ∀ d r, nxt = d :: r → isxdigit d = false) : hex_decode nxt hex = some (hex, nxt) := by
  cases nxt with
  | nil => rfl
  | cons d r =>
    have hx := h d r rfl
    have hx1 := hx
    simp only [isxdigit, Bool.or_eq_false_iff, Bool.and_eq_false_imp, decide_eq_true_eq,
      decide_eq_false_iff_not] at hx1
    obtain ⟨⟨h1, h2⟩, h3⟩ := hx1
    have n2 : ¬ (97 ≤ d.toNat ∧ d.toNat ≤ 102) := fun ⟨a, b⟩ => h2 a b
    have n3 : ¬ (65 ≤ d.toNat ∧ d.toNat ≤ 70) := fun ⟨a, b⟩ => h3 a b
    simp [hex_decode, hx, h1, n2, n3]

theorem uint_char_hex2 (h l : Char) (hv lv : Nat) (nxt : List Char)
    (e1 : radix_digit 16 h = some hv) (e2 : radix_digit 16 l = some lv)
    (b1 : hv ≤ 7) (b2 : lv ≤ 15) : uint_char 16 2 (h :: l :: nxt) 0 0 = some 2 := by
  have a1 : ¬ hv > 127 / 16 := by omega
  have a2 : ¬ hv * 16 > 127 - lv := by omega
  simp [uint_char, e1, e2, a1, a2]

theorem lex_escape_hex (c : Char) (nxt : List Char) (h7 : c.toNat < 128)
    (hn : ∀ d r, nxt = d :: r → isxdigit d = false) :
    lex_escape_ch_p ('\\' :: 'x' :: hex_setw2 c.toNat ++ nxt) = some (c, 4, nxt) := by
  rw [hex_setw2_eq c.toNat (by omega)]
  have e1 := radix_digit_hex_lower (c.toNat / 16) (by omega)
  have e2 := radix_digit_hex_lower (c.toNat % 16) (by omega)
  have u := uint_char_hex2 _ _ _ _ nxt e1 e2 (by omega) (by omega)
  have d1 := hex_decode_digit _ _ 0 (hex_lower (c.toNat % 16) :: nxt) e1 (by omega)
  have d2 := hex_decode_digit _ _ (0 * 16 + c.toNat / 16) nxt e2 (by omega)
  have d3 := hex_decode_end ((0 * 16 + c.toNat / 16) * 16 + c.toNat % 16) nxt hn
  have ev : (0 * 16 + c.toNat / 16) * 16 + c.toNat % 16 = c.toNat := by omega
  rw [ev] at d3
  have o1 : uint_char 8 3 ('x' :: hex_lower (c.toNat / 16) :: hex_lower (c.toNat % 16) :: nxt)
      0 0 = none := by
    simp [uint_char, radix_digit, isdigit]
  have ev1 : c.toNat / 16 * 16 + c.toNat % 16 = c.toNat := by omega
  simp only [lex_escape_ch_p, escape_char_parse, List.cons_append, List.nil_append, o1, u,
    d1, d2, d3, Char.ofNat_toNat]
  simp only [Nat.zero_mul, Nat.zero_add, ev1, d3]
  simp [Char.ofNat_toNat]

theorem lex_escape_output_char (c : Char) (t nxt : List Char) (hs : escape_safe c t = true)
    (hn : ∀ d r, nxt = d :: r → ∀ e r1, t = e :: r1 → isxdigit e = false → isxdigit d = false)
    (hn0 : t = [] → ∀ d r, nxt = d :: r → isxdigit d = false) :
    ∃ len x r, lex_escape_ch_p (output_char c ++ nxt) = some (c, len, nxt) ∧
      output_char c ++ nxt = x :: r ∧ (x = '"' → 1 < len) := by
  unfold output_char
  by_cases h1 : c = '"'
  · subst h1
    exact ⟨2, '\\', '"' :: nxt, by simp [lex_escape_ch_p, escape_char_parse, uint_char,
      radix_digit, isdigit], rfl, by decide⟩
  by_cases h2 : c = '/'
  · subst h2
    exact ⟨2, '\\', '/' :: nxt, by simp [lex_escape_ch_p, escape_char_parse, uint_char,
      radix_digit, isdigit, isodigit], rfl, by decide⟩
  by_cases h3 : c = '\\'
  · subst h3
    exact ⟨2, '\\', '\\' :: nxt, by simp [lex_escape_ch_p, escape_char_parse, uint_char,
      radix_digit, isdigit], rfl, by decide⟩
  by_cases h4 : c = Char.ofNat 8
  · subst h4
    exact ⟨2, '\\', 'b' :: nxt, by simp [lex_escape_ch_p, escape_char_parse, uint_char,
      radix_digit, isdigit], rfl, by decide⟩
  by_cases h5 : c = Char.ofNat 12
  · subst h5
    exact ⟨2, '\\', 'f' :: nxt, by simp [lex_escape_ch_p, escape_char_parse, uint_char,
      radix_digit, isdigit], rfl, by decide⟩
  by_cases h6 : c = '\n'
  · subst h6
    exact ⟨2, '\\', 'n' :: nxt, by simp [lex_escape_ch_p, escape_char_parse, uint_char,
      radix_digit, isdigit], rfl, by decide⟩
  by_cases h7 : c = '\r'
  · subst h7
    exact ⟨2, '\\', 'r' :: nxt, by simp [lex_escape_ch_p, escape_char_parse, uint_char,
      radix_digit, isdigit], rfl, by decide⟩
  by_cases h8 : c = '\t'
  · subst h8
    exact ⟨2, '\\', 't' :: nxt, by simp [lex_escape_ch_p, escape_char_parse, uint_char,
      radix_digit, isdigit], rfl, by decide⟩
  simp only [h1, h2, h3, h4, h5, h6, h7, h8, if_false]
  by_cases hp : isprint c = true
  · simp only [hp, Bool.not_true, Bool.false_eq_true, if_false, List.cons_append,
      List.nil_append]
    exact ⟨1, c, nxt, by simp [lex_escape_ch_p, escape_char_parse, h3], rfl,
      fun e => absurd e h1⟩
  · have n4 : c.toNat ≠ 8 := fun e => h4 (Char.eq_of_toNat_eq e)
    have n5 : c.toNat ≠ 12 := fun e => h5 (Char.eq_of_toNat_eq e)
    have n6 : c.toNat ≠ 10 := fun e => h6 (Char.eq_of_toNat_eq e)
    have n7 : c.toNat ≠ 13 := fun e => h7 (Char.eq_of_toNat_eq e)
    have n8 : c.toNat ≠ 9 := fun e => h8 (Char.eq_of_toNat_eq e)
    simp only [escape_safe, hp, named_control, n4, n5, n6, n7, n8, decide_False,
      Bool.or_self, Bool.false_or, Bool.and_eq_true, decide_eq_true_eq] at hs
    obtain ⟨hlt, hnx⟩ := hs
    have hnxt : ∀ d r, nxt = d :: r → isxdigit d = false := by
      intro d r hd
      cases t with
      | nil => exact hn0 rfl d r hd
      | cons e r1 =>
        simp only [Bool.not_eq_true'] at hnx
        exact hn d r hd e r1 rfl hnx
    simp only [hp, Bool.not_false, if_true]
    exact ⟨4, '\\', _, lex_escape_hex c nxt hlt hnxt, rfl, by decide⟩



theorem output_char_head (e : Char) : ∃ x r, output_char e = x :: r ∧ (x = '\\' ∨ x = e) := by
  unfold output_char
  split_ifs <;> first
    | exact ⟨_, _, rfl, Or.inl rfl⟩
    | exact ⟨_, _, rfl, Or.inr rfl⟩

theorem escape_loop_text (a : Char → json_stack → json_stack) (tl : List Char) :
    ∀ (s : List Char), str_safe s = true → ∀ (m : Nat) (st : json_stack), s.length + 1 ≤ m →
      escape_loop a m st (s.flatMap output_char ++ '"' :: tl)
        = .hit ((s ++ ['"']).foldl (fun st c => a c st) st) ('"' :: tl)
  | [], _, m, st, hm => by
    obtain ⟨m, rfl⟩ : ∃ k, m = k + 1 := ⟨m - 1, by simp at hm; omega⟩
    simp [escape_loop, lex_escape_ch_p, escape_char_parse]
  | c :: t, hs, m, st, hm => by
    obtain ⟨m, rfl⟩ : ∃ k, m = k + 1 := ⟨m - 1, by simp at hm; omega⟩
    simp only [str_safe, Bool.and_eq_true] at hs
    have hn : ∀ d r, t.flatMap output_char ++ '"' :: tl = d :: r → ∀ e r1, t = e :: r1 →
        isxdigit e = false → isxdigit d = false := by
      intro d r hd e r1 ht he
      subst ht
      obtain ⟨x, rx, hx, hor⟩ := output_char_head e
      simp only [List.flatMap_cons, hx, List.cons_append, List.cons.injEq] at hd
      rw [← hd.1]
      rcases hor with h | h
      · rw [h]; decide
      · rw [h]; exact he
    have hn0 : t = [] → ∀ d r, t.flatMap output_char ++ '"' :: tl = d :: r →
        isxdigit d = false := by
      intro ht d r hd
      subst ht
      simp only [List.flatMap_nil, List.nil_append, List.cons.injEq] at hd
      rw [← hd.1]; decide
    obtain ⟨len, x, r, hl, hx, hq⟩ :=
      lex_escape_output_char c t (t.flatMap output_char ++ '"' :: tl) hs.1 hn hn0
    have ih := escape_loop_text a tl t hs.2 m (a c st) (by simp at hm; omega)
    simp only [List.flatMap_cons, List.append_assoc, escape_loop, hl]
    rw [hx]
    have hnot : ¬ (x = '"' ∧ ¬ 1 < len) := fun ⟨h1, h2⟩ => h2 (hq h1)
    simp only [hnot, if_false, ih, List.cons_append, List.foldl_cons]

theorem length_flatMap_output_char (s : List Char) :
    s.length ≤ (s.flatMap output_char).length := by
  induction s with
  | nil => simp
  | cons c s ih =>
    obtain ⟨x, r, hx, _⟩ := output_char_head c
    simp only [List.flatMap_cons, List.length_append, List.length_cons, hx]
    omega

theorem quoted_text (a : Char → json_stack → json_stack) (s tl i : List Char)
    (st : json_stack) (hs : str_safe s = true) (hi : skip i = quote s ++ tl) :
    quoted a st i = .hit ((s ++ ['"']).foldl (fun st c => a c st) st) tl := by
  unfold quoted quote at *
  rw [hi]
  simp only [List.cons_append, List.append_assoc, List.singleton_append, List.nil_append,
    if_true]
  rw [escape_loop_text a tl s hs _ st (by
    have := length_flatMap_output_char s
    simp only [List.length_append, List.length_cons]
    omega)]
  simp

theorem foldl_add_to_str (s : List Char) : ∀ (st : json_stack),
    s.foldl (fun st c => json_stack.add_to_str c st) st = { st with str_ := st.str_ ++ s } := by
  induction s with
  | nil => intro st; simp
  | cons c s ih =>
    intro st
    simp only [List.foldl_cons]
    rw [ih]
    simp [json_stack.add_to_str]

theorem foldl_add_to_name (s : List Char) : ∀ (st : json_stack),
    s.foldl (fun st c => json_stack.add_to_name c st) st
      = { st with name_ := st.name_ ++ s } := by
  induction s with
  | nil => intro st; simp
  | cons c s ih =>
    intro st
    simp only [List.foldl_cons]
    rw [ih]
    simp [json_stack.add_to_name]

theorem string_text (s tl i : List Char) (st : json_stack) (hs : str_safe s = true)
    (hi : skip i = quote s ++ tl) :
    string_ st i = .hit { st with str_ := st.str_ ++ (s ++ ['"']) } tl := by
  unfold string_
  rw [quoted_text _ s tl i st hs hi, foldl_add_to_str]

theorem name_text (s tl i : List Char) (st : json_stack) (hs : str_safe s = true)
    (hi : skip i = quote s ++ tl) :
    name_ st i = .hit { st with name_ := st.name_ ++ (s ++ ['"']) } tl := by
  unfold name_
  rw [quoted_text _ s tl i st hs hi, foldl_add_to_name]



/-! ## Values that are read back -/

mutual
/-- The depth of the recursion through `value_` that a value's text needs. -/
def json.depth : json → Nat
  | .obj o => json.depth_members o + 1
  | .ary a => json.depth_elements a + 1
  | _ => 1
/-- The depth needed for the elements of an array, at least one. -/
def json.depth_elements : List json → Nat
  | [] => 1
  | x :: xs => max x.depth (json.depth_elements xs)
/-- The depth needed for the members of an object, at least one. -/
def json.depth_members : List (List Char × json) → Nat
  | [] => 1
  | (_, x) :: xs => max x.depth (json.depth_members xs)
end


/-- The state inside an array under construction at `q` that holds the elements `a`. -/
def in_ary (st : json_stack) (q : List step) (a : List json) : json_stack :=
  { st with root_ := st.root_.set q (.ary a), stack_ := q :: st.stack_ }

/-- The state inside an object under construction at `q` that holds the members `o`. -/
def in_obj (st : json_stack) (q : List step) (o : List (List Char × json)) : json_stack :=
  { st with root_ := st.root_.set q (.obj o), stack_ := q :: st.stack_ }

/-- A state in which a value can be read: `str_` is empty, and `name_` is empty unless the
innermost open container is an object. -/
def ready (st : json_stack) : Prop :=
  st.str_ = [] ∧
  (st.name_ = [] ∨ ∃ p ps o, st.stack_ = p :: ps ∧ st.root_.get p = some (.obj o))

/-- A character with which the text of a value can start. -/
def value_start (c : Char) : Bool :=
  c = '{' || c = '[' || c = '"' || c = 't' || c = 'f' || c = 'n' || number_start c

theorem json.set_get (p : List step) : ∀ (r n : json), r.get p = some n → r.set p n = r := by
  induction p with
  | nil => intro r n h; simp only [json.get, Option.some.injEq] at h; simp [json.set, h]
  | cons s p ih =>
    intro r n h
    simp only [json.get] at h
    cases hc : r.child s with
    | none => rw [hc] at h; simp at h
    | some c =>
      rw [hc] at h
      simp only [Option.some_bind] at h
      simp only [json.set, hc, ih c n h]
      exact json.set_child_child r c s hc

theorem json_stack.add_ready (v : json) (st st1 : json_stack) (q : List step)
    (hr : ready st) (h : st.add v = some (st1, q)) : st1.name_ = [] := by
  obtain ⟨_, hn⟩ := hr
  unfold json_stack.add at h
  cases hs : st.stack_ with
  | nil =>
    rw [hs] at h
    simp only [Option.some.injEq, Prod.mk.injEq] at h
    rw [← h.1]
    rcases hn with hn | ⟨p, ps, o, hp, _⟩
    · exact hn
    · rw [hs] at hp; exact List.noConfusion hp
  | cons p ps =>
    rw [hs] at h
    simp only at h
    cases hg : st.root_.get p with
    | none => rw [hg] at h; simp at h
    | some node =>
      rw [hg] at h
      simp only at h
      by_cases ha : node.type = .ary_type
      · simp only [ha, if_true] at h
        cases hadd : node.add v with
        | error e => rw [hadd] at h; simp at h
        | ok node1 =>
          rw [hadd] at h
          simp only [Option.some.injEq, Prod.mk.injEq] at h
          rw [← h.1]
          rcases hn with hn | ⟨p1, ps1, o, hp, hgo⟩
          · exact hn
          · rw [hs] at hp
            simp only [List.cons.injEq] at hp
            rw [← hp.1, hg] at hgo
            simp only [Option.some.injEq] at hgo
            rw [hgo] at ha
            simp [json.type] at ha
      · simp only [ha, if_false] at h
        by_cases hne : st.name_ = []
        · simp [hne] at h
        · simp only [hne, if_false] at h
          cases hadd : node.add_named st.name_.dropLast v with
          | error e => rw [hadd] at h; simp at h
          | ok node1 =>
            rw [hadd] at h
            simp only [Option.some.injEq, Prod.mk.injEq] at h
            rw [← h.1]

theorem json_stack.add_in_ary (st : json_stack) (q : List step) (a : List json) (n e : json)
    (hq : st.root_.get q = some n) :
    (in_ary st q a).add e = some (in_ary st q (a ++ [e]), q ++ [.idx a.length]) := by
  have g : (st.root_.set q (json.ary a)).get q = some (json.ary a) := json.get_set q _ _ _ hq
  simp only [json_stack.add, in_ary, g, json.type, json.add, if_true, json.size,
    json.set_set q _ _ _ _ hq]

theorem json_stack.add_in_obj (st : json_stack) (q : List step) (o : List (List Char × json))
    (n e : json) (k : List Char) (c : Char) (hq : st.root_.get q = some n) :
    ({ in_obj st q o with name_ := k ++ [c] } : json_stack).add e
      = some ({ in_obj st q (map_put (map_index o k) k e) with name_ := [] },
          q ++ [.key k]) := by
  have g : (st.root_.set q (json.obj o)).get q = some (json.obj o) := json.get_set q _ _ _ hq
  simp [json_stack.add, in_obj, g, json.type, json.add_named, json.set_set q _ _ _ _ hq]

theorem map_add_append (k : List Char) (x : json) : ∀ (o : List (List Char × json)),
    (∀ e ∈ o, str_lt e.1 k = true) → map_put (map_index o k) k x = o ++ [(k, x)]
  | [], _ => by simp [map_index, map_put]
  | (l, v) :: t, h => by
    have hl : str_lt l k = true := h (l, v) (List.mem_cons_self _ _)
    have hkl : str_lt k l = false := str_lt_asymm l k hl
    have ne : l ≠ k := by
      intro e; rw [e, str_lt_irrefl] at hl; exact Bool.noConfusion hl
    simp only [map_index, hkl, Bool.false_eq_true, if_false, hl, if_true, map_put, ne,
      List.cons_append]
    rw [map_add_append k x t (fun e he => h e (List.mem_cons_of_mem _ he))]



/-! ## The rules at the first character -/

theorem object_miss (v : rule) (st : json_stack) (i r : List Char) (c : Char)
    (h : skip i = c :: r) (hne : c ≠ '{') : object_ v st i = .miss st := by
  simp [object_, confix_opt, seq, action, ch_p_miss '{' c st i r h hne]

theorem array_miss (v : rule) (st : json_stack) (i r : List Char) (c : Char)
    (h : skip i = c :: r) (hne : c ≠ '[') : array_ v st i = .miss st := by
  simp [array_, confix_opt, seq, action, ch_p_miss '[' c st i r h hne]

theorem object_miss_nil (v : rule) (st : json_stack) (i : List Char) (h : skip i = []) :
    object_ v st i = .miss st := by
  simp [object_, confix_opt, seq, action, ch_p_miss_nil '{' st i h]

theorem array_miss_nil (v : rule) (st : json_stack) (i : List Char) (h : skip i = []) :
    array_ v st i = .miss st := by
  simp [array_, confix_opt, seq, action, ch_p_miss_nil '[' st i h]

theorem value_start_ne (c : Char) (h : value_start c = false) :
    c ≠ '{' ∧ c ≠ '[' ∧ c ≠ '"' ∧ c ≠ 't' ∧ c ≠ 'f' ∧ c ≠ 'n' ∧ number_start c = false := by
  simp only [value_start, Bool.or_eq_false_iff, decide_eq_false_iff_not] at h
  obtain ⟨⟨⟨⟨⟨⟨h1, h2⟩, h3⟩, h4⟩, h5⟩, h6⟩, h7⟩ := h
  exact ⟨h1, h2, h3, h4, h5, h6, h7⟩

theorem value_miss (n : Nat) (st : json_stack) (i r : List Char) (c : Char)
    (h : skip i = c :: r) (hc : value_start c = false) : value_ (n + 1) st i = .miss st := by
  obtain ⟨h1, h2, h3, h4, h5, h6, h7⟩ := value_start_ne c hc
  simp [value_, alt, object_miss _ st i r c h h1, array_miss _ st i r c h h2,
    number_add_miss _ _ st i (strict_real_p_none i r c h h7),
    number_add_miss _ _ st i (int_p_none i r c h h7), action, string_,
    quoted_miss _ c st i r h h3, str_p_miss 't' c _ st i r h h4,
    str_p_miss 'f' c _ st i r h h5, str_p_miss 'n' c _ st i r h h6]

/-- The alternatives of `value_` behind `object_` and `array_`. -/
def scalar_ : rule :=
  alt (number_add strict_real_p json.real)
  (alt (number_add int_p json.int)
  (alt (action string_ json_stack.add_str)
  (alt (action (str_p ['t', 'r', 'u', 'e']) (json_stack.add_action (.bool true)))
  (alt (action (str_p ['f', 'a', 'l', 's', 'e']) (json_stack.add_action (.bool false)))
       (action (str_p ['n', 'u', 'l', 'l']) (json_stack.add_action .null))))))

theorem value_eq (n : Nat) :
    value_ (n + 1) = alt (object_ (value_ n)) (alt (array_ (value_ n)) scalar_) := rfl

theorem value_scalar (n : Nat) (st : json_stack) (i r : List Char) (c : Char)
    (h : skip i = c :: r) (h1 : c ≠ '{') (h2 : c ≠ '[') :
    value_ (n + 1) st i = scalar_ st i := by
  simp [value_eq, alt, object_miss _ st i r c h h1, array_miss _ st i r c h h2]

theorem json_stack.add_str_irrelevant (v : json) (st : json_stack) (s : List Char) :
    json_stack.add v { st with str_ := s }
      = (st.add v).map (fun r => ({ r.1 with str_ := s }, r.2)) := by
  unfold json_stack.add
  cases hs : st.stack_ with
  | nil => simp
  | cons p ps =>
    simp only
    cases hg : st.root_.get p with
    | none => simp
    | some node =>
      simp only
      by_cases ha : node.type = .ary_type
      · simp only [ha, if_true]
        cases node.add v <;> simp
      · simp only [ha, if_false]
        by_cases hne : st.name_ = []
        · simp [hne]
        · simp only [hne, if_false]
          cases node.add_named st.name_.dropLast v <;> simp

theorem json_stack.add_keeps (v : json) (st st1 : json_stack) (q : List step)
    (h : st.add v = some (st1, q)) : st1.str_ = st.str_ ∧ st1.stack_ = st.stack_ :=
  ⟨(json_stack.add_spec v st st1 q h).2.2.1, (json_stack.add_spec v st st1 q h).2.1⟩

/-! ## Reading back a scalar -/

theorem scalar_null (st st1 : json_stack) (i tl : List Char)
    (hi : skip i = ['n', 'u', 'l', 'l'] ++ tl) (ha : st.add_action .null = some st1) :
    scalar_ st i = .hit st1 tl := by
  have h : skip i = 'n' :: (['u', 'l', 'l'] ++ tl) := hi
  simp [scalar_, alt, number_add_miss _ _ st i (strict_real_p_none i _ 'n' h (by decide)),
    number_add_miss _ _ st i (int_p_none i _ 'n' h (by decide)), action, string_,
    quoted_miss _ 'n' st i _ h (by decide), str_p_miss 't' 'n' _ st i _ h (by decide),
    str_p_miss 'f' 'n' _ st i _ h (by decide), str_p_hit _ st i tl hi, ha]

theorem scalar_true (st st1 : json_stack) (i tl : List Char)
    (hi : skip i = ['t', 'r', 'u', 'e'] ++ tl) (ha : st.add_action (.bool true) = some st1) :
    scalar_ st i = .hit st1 tl := by
  have h : skip i = 't' :: (['r', 'u', 'e'] ++ tl) := hi
  simp [scalar_, alt, number_add_miss _ _ st i (strict_real_p_none i _ 't' h (by decide)),
    number_add_miss _ _ st i (int_p_none i _ 't' h (by decide)), action, string_,
    quoted_miss _ 't' st i _ h (by decide), str_p_hit _ st i tl hi, ha]

theorem scalar_false (st st1 : json_stack) (i tl : List Char)
    (hi : skip i = ['f', 'a', 'l', 's', 'e'] ++ tl)
    (ha : st.add_action (.bool false) = some st1) : scalar_ st i = .hit st1 tl := by
  have h : skip i = 'f' :: (['a', 'l', 's', 'e'] ++ tl) := hi
  simp [scalar_, alt, number_add_miss _ _ st i (strict_real_p_none i _ 'f' h (by decide)),
    number_add_miss _ _ st i (int_p_none i _ 'f' h (by decide)), action, string_,
    quoted_miss _ 'f' st i _ h (by decide), str_p_miss 't' 'f' _ st i _ h (by decide),
    str_p_hit _ st i tl hi, ha]

theorem scalar_int (st st1 : json_stack) (i tl : List Char) (n : Int) (hn : int_range n)
    (ht : number_end tl) (hi : skip i = dec_int n ++ tl)
    (ha : st.add_action (.int n) = some st1) : scalar_ st i = .hit st1 tl := by
  have r := number_add_miss strict_real_p json.real st i (strict_real_p_dec_int n tl i ht hi)
  simp only [scalar_, alt, r]
  simp [number_add, int_p_dec_int n tl i hn ht hi, ha]

theorem scalar_str (st st1 : json_stack) (i tl s : List Char) (hs : str_safe s = true)
    (h0 : st.str_ = []) (hi : skip i = quote s ++ tl)
    (ha : st.add_action (.str s) = some st1) : scalar_ st i = .hit st1 tl := by
  have h : skip i = '"' :: (s.flatMap output_char ++ ['"'] ++ tl) := by
    rw [hi]; simp [quote]
  have hadd : json_stack.add_str { st with str_ := st.str_ ++ (s ++ ['"']) } = some st1 := by
    unfold json_stack.add_action at ha
    cases hadd : st.add (.str s) with
    | none => rw [hadd] at ha; simp at ha
    | some r =>
      rw [hadd] at ha
      simp only [Option.map_some', Option.some.injEq] at ha
      have hk := json_stack.add_keeps _ st r.1 r.2 hadd
      simp only [json_stack.add_str, h0, List.nil_append, List.append_eq_nil, and_false,
        if_false, List.dropLast_concat, json_stack.add_str_irrelevant, hadd,
        Option.map_some']
      rw [← ha]
      cases r with
      | mk r1 r2 =>
        cases r1
        simp only at hk ⊢
        simp [hk.1, h0]
  simp [scalar_, alt, number_add_miss _ _ st i (strict_real_p_none i _ '"' h (by decide)),
    number_add_miss _ _ st i (int_p_none i _ '"' h (by decide)), action,
    string_text s tl i st hs hi, hadd]



/-! ## Reading back a container -/

theorem blank_break_line (pretty : Bool) (ind : List Char) (h : blank ind) :
    blank (break_line pretty ind) := by
  cases pretty
  · simp [break_line, blank]
  · intro c hc
    simp only [break_line, if_true, List.mem_cons] at hc
    rcases hc with rfl | hc
    · decide
    · exact h c hc

theorem blank_deeper (pretty : Bool) (ind : List Char) (h : blank ind) :
    blank (deeper pretty ind) := by
  cases pretty
  · simpa [deeper] using h
  · intro c hc
    simp only [deeper, if_true, List.mem_append, List.mem_cons, List.mem_singleton,
      List.not_mem_nil, or_false] at hc
    rcases hc with hc | rfl | rfl
    · exact h c hc
    · decide
    · decide

theorem number_end_break_line (pretty : Bool) (ind tl : List Char) (c : Char)
    (hc : c = ']' ∨ c = '}') : number_end (break_line pretty ind ++ c :: tl) := by
  intro d r hd
  cases pretty
  · simp only [break_line, Bool.false_eq_true, if_false, List.nil_append,
      List.cons.injEq] at hd
    rw [← hd.1]
    rcases hc with rfl | rfl <;> decide
  · simp only [break_line, if_true, List.cons_append, List.cons.injEq] at hd
    rw [← hd.1]
    decide

theorem number_end_comma (tl : List Char) : number_end (',' :: tl) := by
  intro d r hd
  simp only [List.cons.injEq] at hd
  rw [← hd.1]
  decide

theorem json_stack.push_of_add (v : json) (st st1 : json_stack) (q : List step)
    (h : st.add v = some (st1, q)) :
    st.push (.ary []) = some (in_ary st1 q []) ∧ st.push (.obj []) = some (in_obj st1 q []) := by
  obtain ⟨_, _, _, hx⟩ := json_stack.add_spec v st st1 q h
  simp [json_stack.push, hx, in_ary, in_obj]

theorem json_stack.pop_in_ary (st1 : json_stack) (q : List step) (a : List json)
    (h : st1.root_.get q = some (.ary a)) : (in_ary st1 q a).pop = some st1 := by
  simp [json_stack.pop, in_ary, json.set_get q _ _ h]

theorem json_stack.pop_in_obj (st1 : json_stack) (q : List step)
    (o : List (List Char × json)) (h : st1.root_.get q = some (.obj o)) :
    (in_obj st1 q o).pop = some st1 := by
  simp [json_stack.pop, in_obj, json.set_get q _ _ h]

theorem diff_hit (a b : rule) (st st1 : json_stack) (i r : List Char)
    (ha : a st i = .hit st1 r) (hb : b st1 i = .miss st1) : diff a b st i = .hit st1 r := by
  simp [diff, ha, hb]

theorem length_elements_tail (fmt : ℚ → List Char) (pretty : Bool) (ind : List Char) :
    ∀ (xs : List json),
      xs.length ≤ (comma_unless xs.isEmpty ++ render_elements fmt pretty ind xs).length
  | [] => by simp
  | x :: xs => by
    have ih := length_elements_tail fmt pretty ind xs
    simp only [List.isEmpty_cons, comma_unless, Bool.false_eq_true, if_false, render_elements,
      List.length_append, List.length_cons, List.length_nil] at ih ⊢
    omega

theorem length_members_tail (fmt : ℚ → List Char) (pretty : Bool) (ind : List Char) :
    ∀ (xs : List (List Char × json)),
      xs.length ≤ (comma_unless xs.isEmpty ++ render_members fmt pretty ind xs).length
  | [] => by simp
  | (k, x) :: xs => by
    have ih := length_members_tail fmt pretty ind xs
    simp only [List.isEmpty_cons, comma_unless, Bool.false_eq_true, if_false, render_members,
      List.length_append, List.length_cons, List.length_nil] at ih ⊢
    omega



theorem item_hit (V : rule) (st st1 : json_stack) (i r r0 : List Char) (c : Char)
    (hV : V st i = .hit st1 r) (hs : skip i = c :: r0) (hc : c ≠ ',') :
    diff V (ch_p ',') st i = .hit st1 r :=
  diff_hit V (ch_p ',') st st1 i r hV (ch_p_miss ',' c st1 i r0 hs hc)

theorem star_step (A : rule) (m : Nat) (st st1 : json_stack) (i r : List Char)
    (hA : A st i = .hit st1 r) :
    star_loop (seq (ch_p ',') A) (m + 1) st (',' :: i) = star_loop (seq (ch_p ',') A) m st1 r := by
  have h : ch_p ',' st (',' :: i) = .hit st i := ch_p_hit ',' st _ i (skip_cons ',' i (by decide))
  simp [star_loop, seq, h, hA]

theorem star_stop (A : rule) (m : Nat) (st : json_stack) (tl r : List Char) (c : Char)
    (hs : skip tl = c :: r) (hc : c ≠ ',') :
    star_loop (seq (ch_p ',') A) (m + 1) st tl = .hit st tl := by
  simp [star_loop, seq, ch_p_miss ',' c st tl r hs hc]

theorem body_nil (V close : rule) (st : json_stack) (tl : List Char)
    (hV : V st tl = .miss st) :
    opt (diff (list_p V (ch_p ',')) close) st tl = .hit st tl := by
  simp [opt, diff, list_p, seq, hV]

theorem body_cons (V : rule) (f : json_stack → Option json_stack) (cl c : Char)
    (st st1 st2 : json_stack) (i r0 r1 r2 : List Char)
    (h1 : diff V (ch_p ',') st i = .hit st1 r1)
    (h2 : star_loop (seq (ch_p ',') (diff V (ch_p ','))) (r1.length + 1) st1 r1 = .hit st2 r2)
    (hs : skip i = c :: r0) (hc : c ≠ cl) :
    opt (diff (list_p V (ch_p ',')) (action (ch_p cl) f)) st i = .hit st2 r2 := by
  have hl : list_p V (ch_p ',') st i = .hit st2 r2 := by
    simp [list_p, seq, h1, star, h2]
  have hm : action (ch_p cl) f st2 i = .miss st2 := by
    simp [action, ch_p_miss cl c st2 i r0 hs hc]
  simp [opt, diff_hit _ _ st st2 i r2 hl hm]

theorem confix_hit (op body close : rule) (st st1 st2 st3 : json_stack)
    (i r1 r2 r3 : List Char) (h1 : op st i = .hit st1 r1)
    (h2 : opt (diff body close) st1 r1 = .hit st2 r2) (h3 : close st2 r2 = .hit st3 r3) :
    confix_opt op body close st i = .hit st3 r3 := by
  simp [confix_opt, seq, h1, h2, h3]

theorem star_loop_mono (A : rule) : ∀ (m k : Nat) (st st1 : json_stack) (i r : List Char),
    star_loop A m st i = .hit st1 r → star_loop A (m + k) st i = .hit st1 r
  | 0, _, _, _, _, _, h => by simp [star_loop] at h
  | m + 1, k, st, st1, i, r, h => by
    have e : m + 1 + k = (m + k) + 1 := by omega
    rw [e]
    simp only [star_loop] at h ⊢
    cases hA : A st i with
    | hit s2 r2 =>
      rw [hA] at h
      simp only at h ⊢
      exact star_loop_mono A m k s2 st1 r2 r h
    | miss s2 => rw [hA] at h; simpa using h
    | threw => rw [hA] at h; simp at h
    | nofuel => rw [hA] at h; simp at h

theorem json.depth_elements_pos : ∀ (a : List json), 1 ≤ json.depth_elements a
  | [] => by simp [json.depth_elements]
  | x :: xs => by
    have := json.depth_elements_pos xs
    simp only [json.depth_elements]
    omega

theorem json.depth_members_pos : ∀ (o : List (List Char × json)), 1 ≤ json.depth_members o
  | [] => by simp [json.depth_members]
  | (k, x) :: xs => by
    have := json.depth_members_pos xs
    simp only [json.depth_members]
    omega

theorem ready_in_ary (st1 : json_stack) (q : List step) (a : List json)
    (h1 : st1.name_ = []) (h2 : st1.str_ = []) : ready (in_ary st1 q a) :=
  ⟨h2, Or.inl h1⟩

theorem add_action_in_ary (st1 : json_stack) (q : List step) (a : List json) (nd e : json)
    (hq : st1.root_.get q = some nd) :
    (in_ary st1 q a).add_action e = some (in_ary st1 q (a ++ [e])) := by
  simp [json_stack.add_action, json_stack.add_in_ary st1 q a nd e hq]

theorem in_obj_named (st1 : json_stack) (q : List step) (o : List (List Char × json))
    (h1 : st1.name_ = []) : ({ in_obj st1 q o with name_ := [] } : json_stack) = in_obj st1 q o := by
  simp [in_obj, h1]

theorem add_action_in_obj (st1 : json_stack) (q : List step) (o : List (List Char × json))
    (nd e : json) (k : List Char) (hq : st1.root_.get q = some nd) (h1 : st1.name_ = [])
    (hk : ∀ f ∈ o, str_lt f.1 k = true) :
    ({ in_obj st1 q o with name_ := k ++ ['"'] } : json_stack).add_action e
      = some (in_obj st1 q (o ++ [(k, e)])) := by
  simp only [json_stack.add_action, json_stack.add_in_obj st1 q o nd e k '"' hq,
    Option.map_some', map_add_append k e o hk, in_obj_named st1 q _ h1]

theorem ready_in_obj_named (st1 : json_stack) (q : List step) (o : List (List Char × json))
    (nd : json) (k : List Char) (hq : st1.root_.get q = some nd) (h2 : st1.str_ = []) :
    ready ({ in_obj st1 q o with name_ := k } : json_stack) := by
  refine ⟨h2, Or.inr ⟨q, st1.stack_, o, rfl, ?_⟩⟩
  exact json.get_set q _ _ _ hq

theorem pair_hit (V : rule) (pretty : Bool) (st1 st2 : json_stack) (q : List step)
    (o : List (List Char × json)) (k ws body tl : List Char) (h1 : st1.name_ = [])
    (hk : str_safe k = true) (hws : blank ws)
    (hV : V ({ in_obj st1 q o with name_ := k ++ ['"'] } : json_stack)
      ((if pretty then [' '] else []) ++ body ++ tl) = .hit st2 tl) :
    diff (pair_ V) (ch_p ',') (in_obj st1 q o)
      (ws ++ quote k ++ (if pretty then [' ', ':', ' '] else [':']) ++ body ++ tl)
      = .hit st2 tl := by
  have hq : skip (ws ++ quote k ++ (if pretty then [' ', ':', ' '] else [':']) ++ body ++ tl)
      = quote k ++ ((if pretty then [' ', ':', ' '] else [':']) ++ body ++ tl) := by
    simp only [List.append_assoc, quote, List.cons_append]
    exact skip_blank_cons ws _ '"' hws (by decide)
  have hn := name_text k _ _ (in_obj st1 q o) hk hq
  have hn' : (in_obj st1 q o).name_ = [] := h1
  rw [hn', List.nil_append] at hn
  have hcol : ∀ S : json_stack, ch_p ':' S
      ((if pretty then [' ', ':', ' '] else [':']) ++ body ++ tl)
      = .hit S ((if pretty then [' '] else []) ++ body ++ tl) := by
    intro S
    apply ch_p_hit
    cases pretty
    · simp [skip_cons ':' _ (by decide)]
    · simp only [if_true, List.cons_append, List.nil_append]
      rw [show (' ' :: ':' :: ' ' :: (body ++ tl)) = [' '] ++ ':' :: ' ' :: (body ++ tl) from rfl]
      rw [skip_blank_cons [' '] _ ':' (by intro c hc; simp at hc; rw [hc]; decide) (by decide)]
  have hp : pair_ V (in_obj st1 q o)
      (ws ++ quote k ++ (if pretty then [' ', ':', ' '] else [':']) ++ body ++ tl)
      = .hit st2 tl := by
    simp only [pair_, seq, hn, hcol, hV]
  have hs : skip (ws ++ quote k ++ (if pretty then [' ', ':', ' '] else [':']) ++ body ++ tl)
      = '"' :: (k.flatMap output_char ++ ['"'] ++
        ((if pretty then [' ', ':', ' '] else [':']) ++ body ++ tl)) := by
    rw [hq]; simp [quote]
  exact item_hit _ _ _ _ _ _ '"' hp hs (by decide)



theorem number_end_after (fmt : ℚ → List Char) (pretty : Bool) (ind tl : List Char)
    (xs : List json) (h : number_end tl) :
    number_end (comma_unless xs.isEmpty ++ render_elements fmt pretty ind xs ++ tl) := by
  cases xs with
  | nil => simpa [comma_unless, render_elements] using h
  | cons y ys =>
    simp only [List.isEmpty_cons, comma_unless, Bool.false_eq_true, if_false, List.cons_append,
      List.nil_append]
    exact number_end_comma _

theorem number_end_after_members (fmt : ℚ → List Char) (pretty : Bool) (ind tl : List Char)
    (xs : List (List Char × json)) (h : number_end tl) :
    number_end (comma_unless xs.isEmpty ++ render_members fmt pretty ind xs ++ tl) := by
  cases xs with
  | nil => simpa [comma_unless, render_members] using h
  | cons y ys =>
    simp only [List.isEmpty_cons, comma_unless, Bool.false_eq_true, if_false, List.cons_append,
      List.nil_append]
    exact number_end_comma _




/-! ## A whole document -/

theorem skip_blank (ws : List Char) (h : blank ws) : skip ws = [] := by
  have := skip_blank_append ws [] h
  simpa [skip] using this

theorem end_p_blank (st : json_stack) (ws : List Char) (h : blank ws) :
    end_p st ws = .hit st [] := by
  simp [end_p, skip_blank ws h]

theorem end_p_miss (st : json_stack) (i r : List Char) (c : Char) (h : skip i = c :: r) :
    end_p st i = .miss st := by
  simp [end_p, h]

/-- The state of a parser that `from_str` or `operator>>` has just constructed. -/
def fresh (value : json) : json_stack :=
  { root_ := value, name_ := [], str_ := [], stack_ := [] }

theorem parse_eq (i : List Char) (value : json) : parse i value = json_ i.length (fresh value) i :=
  rfl

/-- The values at the top of a document: objects and arrays. -/
def json.is_container (v : json) : Bool := v.is_obj || v.is_ary

/-! ## The text of a value as a C string -/

/-- A text without a NUL character. -/
def no_nul (t : List Char) : Prop := ∀ c ∈ t, c ≠ Char.ofNat 0

instance (t : List Char) : Decidable (no_nul t) := by unfold no_nul; infer_instance

instance (ws : List Char) : Decidable (blank ws) := by unfold blank; infer_instance

theorem c_str_no_nul (t : List Char) (h : no_nul t) : c_str t = t := by
  induction t with
  | nil => rfl
  | cons c t ih =>
    have hc : c ≠ Char.ofNat 0 := h c (List.mem_cons_self _ _)
    simp only [c_str, hc, if_false]
    rw [ih (fun d hd => h d (List.mem_cons_of_mem _ hd))]

theorem no_nul_append (a b : List Char) (ha : no_nul a) (hb : no_nul b) : no_nul (a ++ b) := by
  intro c hc
  rcases List.mem_append.mp hc with h | h
  · exact ha c h
  · exact hb c h

theorem no_nul_blank (ws : List Char) (h : blank ws) : no_nul ws := by
  intro c hc e
  have := h c hc
  rw [e] at this
  exact absurd this (by decide)

theorem digit_char_ne_nul : ∀ d, d < 16 → digit_char d ≠ Char.ofNat 0 := by decide

theorem num_digits_no_nul (base : Nat) (hb : base ≤ 16) (hb0 : 0 < base) :
    ∀ (fuel n : Nat) (acc : List Char), no_nul acc → no_nul (num_digits base fuel n acc)
  | 0, _, acc, h => by simpa [num_digits] using h
  | fuel + 1, n, acc, h => by
    have hd : digit_char (n % base) ≠ Char.ofNat 0 :=
      digit_char_ne_nul _ (lt_of_lt_of_le (Nat.mod_lt _ hb0) hb)
    have h1 : no_nul (digit_char (n % base) :: acc) := by
      intro c hc
      rcases List.mem_cons.mp hc with rfl | hc
      · exact hd
      · exact h c hc
    simp only [num_digits]
    split
    · exact h1
    · exact num_digits_no_nul base hb hb0 fuel _ _ h1

theorem no_nul_nil : no_nul [] := fun _ h => by simp at h

theorem no_nul_cons (c : Char) (t : List Char) (hc : c ≠ Char.ofNat 0) (h : no_nul t) :
    no_nul (c :: t) := by
  intro d hd
  rcases List.mem_cons.mp hd with rfl | hd
  · exact hc
  · exact h d hd

theorem dec_int_no_nul (i : Int) : no_nul (dec_int i) := by
  unfold dec_int
  split
  · exact no_nul_cons _ _ (by decide)
      (num_digits_no_nul 10 (by omega) (by omega) _ _ _ no_nul_nil)
  · exact num_digits_no_nul 10 (by omega) (by omega) _ _ _ no_nul_nil

theorem hex_setw2_no_nul (n : Nat) : no_nul (hex_setw2 n) := by
  unfold hex_setw2
  apply no_nul_append
  · intro c hc
    rw [List.mem_replicate] at hc
    rw [hc.2]; decide
  · exact num_digits_no_nul 16 (by omega) (by omega) _ _ _ no_nul_nil

theorem output_char_no_nul (c : Char) : no_nul (output_char c) := by
  unfold output_char
  split_ifs with h1 h2 h3 h4 h5 h6 h7 h8 h9
  · intro d hd; simp at hd; rcases hd with rfl | rfl <;> decide
  · intro d hd; simp at hd; rcases hd with rfl | rfl <;> decide
  · intro d hd; simp at hd; subst hd; decide
  · intro d hd; simp at hd; rcases hd with rfl | rfl <;> decide
  · intro d hd; simp at hd; rcases hd with rfl | rfl <;> decide
  · intro d hd; simp at hd; rcases hd with rfl | rfl <;> decide
  · intro d hd; simp at hd; rcases hd with rfl | rfl <;> decide
  · intro d hd; simp at hd; rcases hd with rfl | rfl <;> decide
  · exact no_nul_cons _ _ (by decide) (no_nul_cons _ _ (by decide) (hex_setw2_no_nul _))
  · intro d hd
    simp only [List.mem_singleton] at hd
    rw [hd]
    intro e
    rw [e] at h9
    exact h9 (by decide)

theorem quote_no_nul (s : List Char) : no_nul (quote s) := by
  unfold quote
  apply no_nul_cons _ _ (by decide)
  apply no_nul_append
  · intro c hc
    obtain ⟨d, _, hd⟩ := List.mem_flatMap.mp hc
    exact output_char_no_nul d c hd
  · exact no_nul_cons _ _ (by decide) no_nul_nil

theorem break_line_no_nul (pretty : Bool) (ind : List Char) (h : no_nul ind) :
    no_nul (break_line pretty ind) := by
  cases pretty
  · simpa [break_line] using no_nul_nil
  · simp only [break_line, if_true]
    exact no_nul_cons _ _ (by decide) h

theorem deeper_no_nul (pretty : Bool) (ind : List Char) (h : no_nul ind) :
    no_nul (deeper pretty ind) := by
  cases pretty
  · simpa [deeper] using h
  · simp only [deeper, if_true]
    exact no_nul_append _ _ h (no_nul_cons _ _ (by decide) (no_nul_cons _ _ (by decide) no_nul_nil))

theorem comma_unless_no_nul (b : Bool) : no_nul (comma_unless b) := by
  cases b
  · exact no_nul_cons _ _ (by decide) no_nul_nil
  · exact no_nul_nil


/-- C7: the writer's text for the string of the two bytes 0x01 and `a` is `\x01a`; the
escape decoder takes every hexadecimal digit that follows `\x`, so that the text is read
back as the one byte 0x1a.  A byte above 0x7f is written as `\x80` .. `\xff`, which
overflows the decoder's `char`: the text is not read at all.  The string of the claim, with a
quote, a backslash, a newline and the byte 0x01, is read back as it was. -/
theorem C7_escape_roundtrip_fails :
    (json.ary [.str [Char.ofNat 1, 'a']]).to_str (fun _ => []) false
      = "[\"\\x01a\"]".toList ∧
    read_string ((json.ary [.str [Char.ofNat 1, 'a']]).to_str (fun _ => []) false) .null
      = .returned true (.ary [.str [Char.ofNat 26]]) ∧
    read_string ((json.ary [.str [Char.ofNat 128]]).to_str (fun _ => []) false) .null
      = .returned false (.ary []) ∧
    read_string ((json.obj [([Char.ofNat 1, 'a'], .null)]).to_str (fun _ => []) false) .null
      = .returned true (.obj [([Char.ofNat 26], .null)]) ∧
    read_string ((json.ary [.str ['"', '\\', '\n', Char.ofNat 1]]).to_str (fun _ => []) false)
      .null = .returned true (.ary [.str ['"', '\\', '\n', Char.ofNat 1]]) := by
  decide!




/-! ## The top of a document is a container -/

/-- A property of the result of a parser: of the state it leaves, on a match and on no
match. -/
def parse_result.holds (P : json_stack → Prop) : parse_result → Prop
  | .hit st _ => P st
  | .miss st => P st
  | _ => True

/-- A parser that keeps a property of the state. -/
def keeps (P : json_stack → Prop) (a : rule) : Prop :=
  ∀ st i, P st → (a st i).holds P

theorem keeps_ch_p (P : json_stack → Prop) (c : Char) : keeps P (ch_p c) := by
  intro st i h
  unfold ch_p
  split
  · split <;> exact h
  · exact h

theorem keeps_str_p (P : json_stack → Prop) (s : List Char) : keeps P (str_p s) := by
  intro st i h
  unfold str_p
  split <;> exact h

theorem keeps_seq (P : json_stack → Prop) (a b : rule) (ha : keeps P a) (hb : keeps P b) :
    keeps P (seq a b) := by
  intro st i h
  have h1 := ha st i h
  unfold seq
  cases hr : a st i with
  | hit st1 r => rw [hr] at h1; exact hb st1 r h1
  | miss st1 => rw [hr] at h1; exact h1
  | threw => trivial
  | nofuel => trivial

theorem keeps_alt (P : json_stack → Prop) (a b : rule) (ha : keeps P a) (hb : keeps P b) :
    keeps P (alt a b) := by
  intro st i h
  have h1 := ha st i h
  unfold alt
  cases hr : a st i with
  | hit st1 r => rw [hr] at h1; exact h1
  | miss st1 => rw [hr] at h1; exact hb st1 i h1
  | threw => trivial
  | nofuel => trivial

theorem keeps_opt (P : json_stack → Prop) (a : rule) (ha : keeps P a) : keeps P (opt a) := by
  intro st i h
  have h1 := ha st i h
  unfold opt
  cases hr : a st i with
  | hit st1 r => rw [hr] at h1; exact h1
  | miss st1 => rw [hr] at h1; exact h1
  | threw => trivial
  | nofuel => trivial

theorem keeps_diff (P : json_stack → Prop) (a b : rule) (ha : keeps P a) (hb : keeps P b) :
    keeps P (diff a b) := by
  intro st i h
  have h1 := ha st i h
  unfold diff
  cases hr : a st i with
  | hit st1 r =>
    rw [hr] at h1
    have h2 := hb st1 i h1
    simp only
    cases hr2 : b st1 i with
    | hit st2 r2 =>
      rw [hr2] at h2
      simp only
      split <;> exact h2
    | miss st2 => rw [hr2] at h2; exact h2
    | threw => trivial
    | nofuel => trivial
  | miss st1 => rw [hr] at h1; exact h1
  | threw => trivial
  | nofuel => trivial

theorem keeps_star_loop (P : json_stack → Prop) (a : rule) (ha : keeps P a) :
    ∀ m, keeps P (star_loop a m)
  | 0 => fun _ _ _ => trivial
  | m + 1 => by
    intro st i h
    have h1 := ha st i h
    simp only [star_loop]
    cases hr : a st i with
    | hit st1 r => rw [hr] at h1; exact keeps_star_loop P a ha m st1 r h1
    | miss st1 => rw [hr] at h1; exact h1
    | threw => trivial
    | nofuel => trivial

theorem keeps_star (P : json_stack → Prop) (a : rule) (ha : keeps P a) : keeps P (star a) :=
  fun st i h => keeps_star_loop P a ha _ st i h

theorem keeps_list_p (P : json_stack → Prop) (a b : rule) (ha : keeps P a) (hb : keeps P b) :
    keeps P (list_p a b) :=
  keeps_seq P _ _ (keeps_diff P a b ha hb)
    (keeps_star P _ (keeps_seq P _ _ hb (keeps_diff P a b ha hb)))

theorem keeps_action (P : json_stack → Prop) (p : rule) (f : json_stack → Option json_stack)
    (hp : keeps P p) (hf : ∀ st st1, P st → f st = some st1 → P st1) :
    keeps P (action p f) := by
  intro st i h
  have h1 := hp st i h
  unfold action
  cases hr : p st i with
  | hit st1 r =>
    rw [hr] at h1
    simp only
    cases hf1 : f st1 with
    | none => trivial
    | some st2 => exact hf st1 st2 h1 hf1
  | miss st1 => rw [hr] at h1; exact h1
  | threw => trivial
  | nofuel => trivial

theorem keeps_number_add {α : Type} (P : json_stack → Prop)
    (p : List Char → Option (α × List Char)) (mk : α → json)
    (hf : ∀ v st st1, P st → json_stack.add_action v st = some st1 → P st1) :
    keeps P (number_add p mk) := by
  intro st i h
  unfold number_add
  cases hp : p i with
  | none => exact h
  | some r =>
    obtain ⟨x, r1⟩ := r
    simp only
    cases hf1 : json_stack.add_action (mk x) st with
    | none => trivial
    | some st2 => exact hf _ st st2 h hf1

theorem keeps_escape_loop (P : json_stack → Prop) (a : Char → json_stack → json_stack)
    (ha : ∀ c st, P st → P (a c st)) : ∀ m, keeps P (escape_loop a m)
  | 0 => fun _ _ _ => trivial
  | m + 1 => by
    intro st i h
    simp only [escape_loop]
    cases hl : lex_escape_ch_p i with
    | none => exact h
    | some r =>
      obtain ⟨c, len, r1⟩ := r
      simp only
      cases i with
      | nil => exact h
      | cons x t =>
        simp only
        split
        · exact ha c st h
        · exact keeps_escape_loop P a ha m _ r1 (ha c st h)

theorem keeps_quoted (P : json_stack → Prop) (a : Char → json_stack → json_stack)
    (ha : ∀ c st, P st → P (a c st)) : keeps P (quoted a) := by
  intro st i h
  unfold quoted
  cases hs : skip i with
  | nil => exact h
  | cons q r =>
    simp only
    split
    · have h1 := keeps_escape_loop P a ha (r.length + 1) st r h
      cases hr : escape_loop a (r.length + 1) st r with
      | hit st1 r1 =>
        rw [hr] at h1
        simp only
        cases r1 with
        | nil => exact h1
        | cons q1 r2 =>
          simp only
          split <;> exact h1
      | miss st1 => rw [hr] at h1; exact h1
      | threw => trivial
      | nofuel => trivial
    · exact h

/-- The root is a container and at least `d` containers are open. -/
def open_at (d : Nat) (st : json_stack) : Prop :=
  st.root_.is_container = true ∧ d ≤ st.stack_.length

/-- At least `d` containers are open, and the root is a container if any is. -/
def may_open (d : Nat) (st : json_stack) : Prop :=
  d ≤ st.stack_.length ∧ (st.stack_ ≠ [] → st.root_.is_container = true)

theorem json.set_child_container (r x : json) (s : step) (h : r.is_container = true) :
    (r.set_child s x).is_container = true := by
  cases r <;> cases s <;>
    simp_all [json.set_child, json.is_container, json.is_obj, json.is_ary, json.type]

theorem json.set_container (p : List step) (r x : json) (h : r.is_container = true)
    (hx : x.is_container = true) : (r.set p x).is_container = true := by
  cases p with
  | nil => simpa [json.set] using hx
  | cons s p =>
    simp only [json.set]
    split
    · exact json.set_child_container r _ s h
    · exact h

theorem add_result_container (value : json) (st st1 : json_stack) (q : List step)
    (hs : st.stack_ ≠ []) (hr : st.root_.is_container = true) (h : st.add value = some (st1, q)) :
    st1.root_.is_container = true := by
  unfold json_stack.add at h
  cases hstk : st.stack_ with
  | nil => exact absurd hstk hs
  | cons p ps =>
    rw [hstk] at h
    simp only at h
    cases hg : st.root_.get p with
    | none => rw [hg] at h; simp at h
    | some node =>
      rw [hg] at h
      simp only at h
      by_cases ha : node.type = .ary_type
      · simp only [ha, if_true] at h
        cases node with
        | ary a =>
          simp only [json.add, Option.some.injEq, Prod.mk.injEq] at h
          rw [← h.1]
          exact json.set_container p _ _ hr rfl
        | _ => simp [json.type] at ha
      · simp only [ha, if_false] at h
        by_cases hne : st.name_ = []
        · simp [hne] at h
        · simp only [hne, if_false] at h
          cases node with
          | obj o =>
            simp only [json.add_named, Option.some.injEq, Prod.mk.injEq] at h
            rw [← h.1]
            exact json.set_container p _ _ hr rfl
          | _ => simp [json.add_named] at h

theorem add_action_open (d : Nat) (value : json) (st st1 : json_stack)
    (h : open_at (d + 1) st) (ha : st.add_action value = some st1) : open_at (d + 1) st1 := by
  unfold json_stack.add_action at ha
  cases hadd : st.add value with
  | none => rw [hadd] at ha; simp at ha
  | some res =>
    obtain ⟨s1, q⟩ := res
    rw [hadd] at ha
    simp only [Option.map_some', Option.some.injEq] at ha
    subst ha
    have hne : st.stack_ ≠ [] := by
      intro e
      have := h.2
      rw [e] at this
      simp at this
    refine ⟨add_result_container value st s1 q hne h.1 hadd, ?_⟩
    rw [(json_stack.add_keeps value st s1 q hadd).2]
    exact h.2

theorem add_str_open (d : Nat) (st st1 : json_stack) (h : open_at (d + 1) st)
    (ha : st.add_str = some st1) : open_at (d + 1) st1 := by
  unfold json_stack.add_str at ha
  split at ha
  · simp at ha
  · cases hadd : json_stack.add (json.str st.str_.dropLast)
        { st with str_ := st.str_.dropLast } with
    | none => rw [hadd] at ha; simp at ha
    | some res =>
      obtain ⟨s1, q⟩ := res
      rw [hadd] at ha
      simp only [Option.map_some', Option.some.injEq] at ha
      subst ha
      have h1 : open_at (d + 1) ({ st with str_ := st.str_.dropLast } : json_stack) := h
      have h2 : json_stack.add_action (json.str st.str_.dropLast)
          { st with str_ := st.str_.dropLast } = some s1 := by
        simp [json_stack.add_action, hadd]
      exact add_action_open d _ _ s1 h1 h2

theorem push_open (d : Nat) (value : json) (st st1 : json_stack)
    (hv : value.is_container = true) (h : may_open d st) (hp : st.push value = some st1) :
    open_at (d + 1) st1 := by
  unfold json_stack.push at hp
  cases hadd : st.add value with
  | none => rw [hadd] at hp; simp at hp
  | some res =>
    obtain ⟨s1, q⟩ := res
    rw [hadd] at hp
    simp only [Option.map_some', Option.some.injEq] at hp
    subst hp
    have hk := (json_stack.add_keeps value st s1 q hadd).2
    refine ⟨?_, ?_⟩
    · by_cases hne : st.stack_ = []
      · simp only [json_stack.add, hne, Option.some.injEq, Prod.mk.injEq] at hadd
        rw [← hadd.1]
        exact hv
      · exact add_result_container value st s1 q hne (h.2 hne) hadd
    · simp only [List.length_cons, hk]
      have := h.1
      omega

theorem pop_open (d : Nat) (st st1 : json_stack) (h : open_at (d + 1) st)
    (hp : st.pop = some st1) : open_at d st1 := by
  unfold json_stack.pop at hp
  cases hs : st.stack_ with
  | nil => rw [hs] at hp; simp at hp
  | cons p ps =>
    rw [hs] at hp
    simp only [Option.some.injEq] at hp
    subst hp
    have := h.2
    rw [hs] at this
    exact ⟨h.1, by simp only [List.length_cons] at this ⊢; omega⟩

theorem open_may (d : Nat) (st : json_stack) (h : open_at d st) : may_open d st :=
  ⟨h.2, fun _ => h.1⟩

theorem may_open_succ (d : Nat) (st : json_stack) (h : may_open (d + 1) st) :
    open_at (d + 1) st := by
  refine ⟨h.2 ?_, h.1⟩
  intro e
  have := h.1
  rw [e] at this
  simp at this

/-- What a container rule leaves: on a match the root is a container. -/
def parse_result.opened (d : Nat) : parse_result → Prop
  | .hit st _ => open_at d st
  | .miss st => may_open d st
  | _ => True

theorem action_ch_p (c : Char) (f : json_stack → Option json_stack) (st : json_stack)
    (i : List Char) :
    action (ch_p c) f st i =
      (match skip i with
       | x :: r =>
         if x = c then (match f st with | some st2 => .hit st2 r | none => .threw)
         else .miss st
       | [] => .miss st) := by
  unfold action ch_p
  cases skip i with
  | nil => rfl
  | cons x r =>
    by_cases hx : x = c
    · subst hx
      cases hf : f st <;> simp [hf]
    · simp [hx]

/-- A parser that matches only a text whose first character, behind white space, is in a
set. -/
def starts (a : rule) (S : Char → Bool) : Prop :=
  ∀ st i st1 r, a st i = .hit st1 r → ∃ c t, skip i = c :: t ∧ S c = true

theorem starts_seq (a b : rule) (S : Char → Bool) (h : starts a S) : starts (seq a b) S := by
  intro st i st1 r hr
  unfold seq at hr
  cases ha : a st i with
  | hit st2 r2 => exact h st i st2 r2 ha
  | miss st2 => rw [ha] at hr; cases hr
  | threw => rw [ha] at hr; cases hr
  | nofuel => rw [ha] at hr; cases hr

theorem starts_diff (a b : rule) (S : Char → Bool) (h : starts a S) : starts (diff a b) S := by
  intro st i st1 r hr
  unfold diff at hr
  cases ha : a st i with
  | hit st2 r2 => exact h st i st2 r2 ha
  | miss st2 => rw [ha] at hr; cases hr
  | threw => rw [ha] at hr; cases hr
  | nofuel => rw [ha] at hr; cases hr

theorem starts_list_p (a b : rule) (S : Char → Bool) (h : starts a S) :
    starts (list_p a b) S :=
  starts_seq _ _ S (starts_diff a b S h)

theorem starts_quoted (a : Char → json_stack → json_stack) :
    starts (quoted a) (fun c => c = '"') := by
  intro st i st1 r hr
  cases hs : skip i with
  | nil => simp [quoted, hs] at hr
  | cons c t =>
    by_cases hc : c = '"'
    · exact ⟨c, t, rfl, by simp [hc]⟩
    · rw [quoted_miss a c st i t hs hc] at hr
      cases hr

theorem value_miss_nil (n : Nat) (st : json_stack) (i : List Char) (h : skip i = []) :
    value_ (n + 1) st i = .miss st := by
  have h1 : strict_real_p i = none := by simp [strict_real_p, h]
  have h2 : int_p i = none := by simp [int_p, h]
  have h3 : ∀ a, quoted a st i = .miss st := by intro a; simp [quoted, h]
  have h4 : ∀ x s, str_p (x :: s) st i = .miss st := by intro x s; simp [str_p, h, match_lit]
  simp [value_, alt, object_miss_nil _ st i h, array_miss_nil _ st i h,
    number_add_miss _ _ st i h1, number_add_miss _ _ st i h2, action, string_, h3, h4]

theorem starts_value (n : Nat) : starts (value_ n) value_start := by
  intro st i st1 r hr
  cases n with
  | zero => cases hr
  | succ n =>
    cases hs : skip i with
    | nil => rw [value_miss_nil n st i hs] at hr; cases hr
    | cons c t =>
      cases hc : value_start c with
      | true => exact ⟨c, t, rfl, hc⟩
      | false => rw [value_miss n st i t c hs hc] at hr; cases hr

theorem keeps_diff_close (P : json_stack → Prop) (body : rule) (c2 : Char)
    (f : json_stack → Option json_stack) (S : Char → Bool) (hS : S c2 = false)
    (hb : keeps P body) (hstart : starts body S) :
    keeps P (diff body (action (ch_p c2) f)) := by
  intro st i h
  have h1 := hb st i h
  unfold diff
  cases hr : body st i with
  | hit st1 r =>
    rw [hr] at h1
    obtain ⟨c, t, hs, hc⟩ := hstart st i st1 r hr
    have hne : c ≠ c2 := by
      intro e
      rw [e, hS] at hc
      cases hc
    simp only [action_ch_p, hs, hne, if_false]
    exact h1
  | miss st1 => rw [hr] at h1; exact h1
  | threw => trivial
  | nofuel => trivial

theorem confix_opened (d : Nat) (c1 c2 : Char) (E : json) (body : rule) (S : Char → Bool)
    (hS : S c2 = false) (hE : E.is_container = true) (hb : keeps (open_at (d + 1)) body)
    (hstart : starts body S) (st : json_stack) (i : List Char) (h : may_open d st) :
    (confix_opt (action (ch_p c1) (json_stack.push E)) body
      (action (ch_p c2) json_stack.pop) st i).opened d := by
  unfold confix_opt seq
  rw [action_ch_p]
  cases hs : skip i with
  | nil => exact h
  | cons x r =>
    simp only
    by_cases hx : x = c1
    · simp only [hx, if_true]
      cases hp : st.push E with
      | none => trivial
      | some st1 =>
        simp only
        have h1 := push_open d E st st1 hE h hp
        have h2 := keeps_opt _ _
          (keeps_diff_close _ body c2 json_stack.pop S hS hb hstart) st1 r h1
        cases hr : opt (diff body (action (ch_p c2) json_stack.pop)) st1 r with
        | hit st2 r2 =>
          rw [hr] at h2
          simp only
          rw [action_ch_p]
          cases hs2 : skip r2 with
          | nil => exact open_may d st2 ⟨h2.1, Nat.le_of_succ_le h2.2⟩
          | cons y r3 =>
            simp only
            by_cases hy : y = c2
            · simp only [hy, if_true]
              cases hpop : st2.pop with
              | none => trivial
              | some st3 => exact pop_open d st2 st3 h2 hpop
            · simp only [hy, if_false]
              exact open_may d st2 ⟨h2.1, Nat.le_of_succ_le h2.2⟩
        | miss st2 =>
          rw [hr] at h2
          exact open_may d st2 ⟨h2.1, Nat.le_of_succ_le h2.2⟩
        | threw => trivial
        | nofuel => trivial
    · simp only [hx, if_false]
      exact h

theorem keeps_of_opened (d : Nat) (a : rule)
    (h : ∀ st i, may_open (d + 1) st → (a st i).opened (d + 1)) :
    keeps (open_at (d + 1)) a := by
  intro st i hst
  have h1 := h st i (open_may _ st hst)
  cases hr : a st i with
  | hit st1 r => rw [hr] at h1; exact h1
  | miss st1 => rw [hr] at h1; exact may_open_succ d st1 h1
  | threw => trivial
  | nofuel => trivial

theorem keeps_name (P : json_stack → Prop)
    (h : ∀ c st, P st → P (json_stack.add_to_name c st)) : keeps P name_ :=
  keeps_quoted P _ h

theorem open_add_to_name (d : Nat) (c : Char) (st : json_stack) (h : open_at d st) :
    open_at d (st.add_to_name c) := h

theorem open_add_to_str (d : Nat) (c : Char) (st : json_stack) (h : open_at d st) :
    open_at d (st.add_to_str c) := h

theorem keeps_scalar (d : Nat) : keeps (open_at (d + 1)) scalar_ := by
  have hadd : ∀ v st st1, open_at (d + 1) st → json_stack.add_action v st = some st1 →
      open_at (d + 1) st1 := fun v st st1 h ha => add_action_open d v st st1 h ha
  unfold scalar_
  refine keeps_alt _ _ _ (keeps_number_add _ _ _ hadd) ?_
  refine keeps_alt _ _ _ (keeps_number_add _ _ _ hadd) ?_
  refine keeps_alt _ _ _ (keeps_action _ _ _ (keeps_quoted _ _ (open_add_to_str (d + 1)))
    (fun st st1 h ha => add_str_open d st st1 h ha)) ?_
  refine keeps_alt _ _ _ (keeps_action _ _ _ (keeps_str_p _ _) (hadd _)) ?_
  refine keeps_alt _ _ _ (keeps_action _ _ _ (keeps_str_p _ _) (hadd _)) ?_
  exact keeps_action _ _ _ (keeps_str_p _ _) (hadd _)

theorem object_opened (d : Nat) (V : rule) (hV : keeps (open_at (d + 1)) V) (st : json_stack)
    (i : List Char) (h : may_open d st) : (object_ V st i).opened d := by
  unfold object_
  refine confix_opened d (Char.ofNat 123) (Char.ofNat 125) (.obj []) _ (fun c => c = '"')
    (by decide) rfl ?_ ?_ st i h
  · exact keeps_list_p _ _ _
      (keeps_seq _ _ _ (keeps_quoted _ _ (open_add_to_name (d + 1)))
        (keeps_seq _ _ _ (keeps_ch_p _ _) hV)) (keeps_ch_p _ _)
  · exact starts_list_p _ _ _ (starts_seq _ _ _ (starts_quoted _))

theorem array_opened (d : Nat) (V : rule) (S : Char → Bool) (hS : S ']' = false)
    (hV : keeps (open_at (d + 1)) V) (hstart : starts V S) (st : json_stack)
    (i : List Char) (h : may_open d st) : (array_ V st i).opened d := by
  unfold array_
  refine confix_opened d '[' ']' (.ary []) _ S hS rfl ?_ ?_ st i h
  · exact keeps_list_p _ _ _ hV (keeps_ch_p _ _)
  · exact starts_list_p _ _ _ hstart

theorem keeps_value : ∀ (n d : Nat), keeps (open_at (d + 1)) (value_ n)
  | 0, _ => fun _ _ _ => trivial
  | n + 1, d => by
    rw [value_eq]
    refine keeps_alt _ _ _ (keeps_of_opened d _ (fun st i h =>
      object_opened (d + 1) _ (keeps_value n (d + 1)) st i h)) ?_
    refine keeps_alt _ _ _ (keeps_of_opened d _ (fun st i h =>
      array_opened (d + 1) _ value_start (by decide) (keeps_value n (d + 1))
        (starts_value n) st i h)) ?_
    exact keeps_scalar d

theorem parse_hit_container (i rest : List Char) (value : json) (st : json_stack)
    (h : parse i value = .hit st rest) : st.root_.is_container = true := by
  rw [parse_eq] at h
  unfold json_ seq alt at h
  have h0 : may_open 0 (fresh value) := ⟨Nat.zero_le _, fun hne => absurd rfl hne⟩
  have h1 := object_opened 0 (value_ i.length) (keeps_value _ 0) (fresh value) i h0
  cases ho : object_ (value_ i.length) (fresh value) i with
  | hit st1 r1 =>
    rw [ho] at h h1
    simp only [end_p] at h
    split at h
    · cases h; exact h1.1
    · cases h
  | miss st1 =>
    rw [ho] at h h1
    simp only at h
    have h2 := array_opened 0 (value_ i.length) value_start (by decide) (keeps_value _ 0)
      (starts_value _) st1 i h1
    cases ha : array_ (value_ i.length) st1 i with
    | hit st2 r2 =>
      rw [ha] at h h2
      simp only [end_p] at h
      split at h
      · cases h; exact h2.1
      · cases h
    | miss st2 => rw [ha] at h; cases h
    | threw => rw [ha] at h; cases h
    | nofuel => rw [ha] at h; cases h
  | threw => rw [ho] at h; cases h
  | nofuel => rw [ho] at h; cases h

theorem skip_c_str : ∀ (i r : List Char) (c : Char), skip i = c :: r →
    (c = Char.ofNat 0 → skip (c_str i) = []) ∧
    (c ≠ Char.ofNat 0 → skip (c_str i) = c :: c_str r)
  | [], _, _, h => by simp [skip] at h
  | x :: i, r, c, h => by
    by_cases hx : isspace x = true
    · have hx0 : x ≠ Char.ofNat 0 := by
        intro e; rw [e] at hx; revert hx; decide
      simp only [skip, hx, if_true] at h
      have ih := skip_c_str i r c h
      simp only [c_str, hx0, if_false, skip, hx, if_true]
      exact ih
    · simp only [skip, hx, if_false, List.cons.injEq, Bool.false_eq_true] at h
      obtain ⟨rfl, rfl⟩ := h
      constructor
      · intro e
        simp [c_str, e, skip]
      · intro e
        simp [c_str, e, skip, hx]

theorem skip_c_str_nil : ∀ (i : List Char), skip i = [] → skip (c_str i) = []
  | [], _ => rfl
  | x :: i, h => by
    by_cases hx : isspace x = true
    · have hx0 : x ≠ Char.ofNat 0 := by
        intro e; rw [e] at hx; revert hx; decide
      simp only [skip, hx, if_true] at h
      simp only [c_str, hx0, if_false, skip, hx, if_true]
      exact skip_c_str_nil i h
    · simp [skip, hx] at h

theorem parse_miss_start (i r : List Char) (c : Char) (value : json) (h : skip i = c :: r)
    (h1 : c ≠ '{') (h2 : c ≠ '[') : parse i value = .miss (fresh value) := by
  rw [parse_eq]
  simp [json_, seq, alt, object_miss _ _ i r c h h1, array_miss _ _ i r c h h2]

theorem parse_miss_nil (i : List Char) (value : json) (h : skip i = []) :
    parse i value = .miss (fresh value) := by
  rw [parse_eq]
  simp [json_, seq, alt, object_miss_nil _ _ i h, array_miss_nil _ _ i h]

/-- The first character of the text that is not white space, if there is one. -/
def first_char (i : List Char) : Option Char := (skip i).head?

/-- Claim C4: a text whose first character behind white space is neither an opening brace
nor an opening bracket (also a text with no such character) is rejected by both entry points
and the destination is left as it was; and whenever a parse succeeds, through either entry
point, the destination holds an Object or an Array. -/
theorem C4_top_level_container (i : List Char) (value : json) :
    (first_char i ≠ some (Char.ofNat 123) → first_char i ≠ some '[' →
      read_string i value = .returned false value ∧
      read_stream i value = .returned false value) ∧
    (∀ v, read_string i value = .returned true v → v.is_obj = true ∨ v.is_ary = true) ∧
    (∀ v, read_stream i value = .returned true v → v.is_obj = true ∨ v.is_ary = true) := by
  refine ⟨?_, ?_, ?_⟩
  · intro h1 h2
    unfold first_char at h1 h2
    cases hs : skip i with
    | nil =>
      simp [read_string, read_stream, parse_miss_nil i value hs,
        parse_miss_nil (c_str i) value (skip_c_str_nil i hs), fresh]
    | cons c r =>
      rw [hs] at h1 h2
      simp only [List.head?_cons, ne_eq, Option.some.injEq] at h1 h2
      have hstream : read_stream i value = .returned false value := by
        simp [read_stream, parse_miss_start i r c value hs h1 h2, fresh]
      refine ⟨?_, hstream⟩
      by_cases h0 : c = Char.ofNat 0
      · simp [read_string,
          parse_miss_nil (c_str i) value ((skip_c_str i r c hs).1 h0), fresh]
      · simp [read_string,
          parse_miss_start (c_str i) _ c value ((skip_c_str i r c hs).2 h0) h1 h2, fresh]
  · intro v h
    unfold read_string at h
    cases hp : parse (c_str i) value with
    | hit st rest =>
      rw [hp] at h
      simp only [outcome.returned.injEq] at h
      have := parse_hit_container _ _ _ _ hp
      rw [h.2] at this
      simpa [json.is_container] using this
    | miss st => rw [hp] at h; simp at h
    | threw => rw [hp] at h; cases h
    | nofuel => rw [hp] at h; cases h
  · intro v h
    unfold read_stream at h
    cases hp : parse i value with
    | hit st rest =>
      rw [hp] at h
      simp only [outcome.returned.injEq] at h
      have := parse_hit_container _ _ _ _ hp
      rw [h.2] at this
      simpa [json.is_container] using this
    | miss st => rw [hp] at h; simp at h
    | threw => rw [hp] at h; cases h
    | nofuel => rw [hp] at h; cases h




/-! ## Indexing by position, typed access and the conversions (`json.cc:313-422`) -/

/-- The member `std::vector<json>::resize(n)`: the first `n` elements are kept and the vector
is filled up to `n` elements with default constructed values (`Null`, `json.cc:248`). -/
def resize (a : List json) (n : Nat) : List json :=
  a.take n ++ List.replicate (n - a.length) .null

/-- The operator `json::operator[](const unsigned int)` (`json.cc:415-422`): the new `*this`.
The argument of `resize` is `index + 1` computed in `unsigned int`, that is modulo `2^32`. -/
def json.index_uint (v : json) (index : Nat) : Except json_exception json :=
  if !v.is_ary then
    if !v.is_null then .error ⟨"not an array"⟩
    else .ok (.ary (if index ≥ ([] : List json).length
      then resize [] ((index + 1) % 4294967296) else []))
  else
    match v with
    | .ary a => .ok (.ary (if index ≥ a.length then resize a ((index + 1) % 4294967296) else a))
    | _ => .error ⟨"not an array"⟩

/-- The element of an Array at `index`: what the reference returned by `operator[]` or by
`add` designates.  `std::vector::operator[]` past the end is undefined: `none`. -/
def json.slot : json → Nat → Option json
  | .ary a, index => a.get? index
  | _, _ => none

/-- An assignment `ref = x` through the reference to the element at `index`. -/
def json.store_at : json → Nat → json → json
  | .ary a, index, x => .ary (a.set index x)
  | v, _, _ => v

/-- The statement `v[index] = x` (`operator[]`, then `operator=` on the reference). -/
def json.assign_at (v : json) (index : Nat) (x : json) : Except json_exception json :=
  (v.index_uint index).map (fun w => w.store_at index x)

/-- The member `json::as_obj` (`json.cc:313-320`). -/
def json.as_obj : json → Except json_exception (List (List Char × json))
  | .obj o => .ok o
  | _ => .error ⟨"not an object"⟩

/-- The member `json::as_ary` (`json.cc:322-329`). -/
def json.as_ary : json → Except json_exception (List json)
  | .ary a => .ok a
  | _ => .error ⟨"not an array"⟩

/-- The member `json::as_str` (`json.cc:331-338`). -/
def json.as_str : json → Except json_exception (List Char)
  | .str s => .ok s
  | _ => .error ⟨"not a string"⟩

/-- The member `json::as_bool` (`json.cc:340-343`). -/
def json.as_bool : json → Except json_exception Bool
  | .bool b => .ok b
  | _ => .error ⟨"not a bool"⟩

/-- The member `json::as_int` (`json.cc:345-348`). -/
def json.as_int : json → Except json_exception Int
  | .int i => .ok i
  | _ => .error ⟨"not an integer"⟩

/-- The member `json::as_real` (`json.cc:350-353`). -/
def json.as_real : json → Except json_exception ℚ
  | .real r => .ok r
  | _ => .error ⟨"not a real"⟩

/-- The member `json::to_bool` (`json.cc:375-385`). -/
def json.to_bool : json → Bool
  | .obj o => !o.isEmpty
  | .ary a => !a.isEmpty
  | .str s => !s.isEmpty
  | .bool b => b
  | .int i => i != 0
  | .real r => r != 0
  | .null => false

/-- A call that throws a `json_exception`. -/
def throws {α : Type} (r : Except json_exception α) : Prop := ∃ e, r = .error e

/-- The value of `*this` behind a call of `add`, whose result in the model is `r`: the new
value, or the old one when the call has thrown, the test of the variant being the first
statement of both members. -/
def json.updated (v : json) (r : Except json_exception json) : json :=
  match r with
  | .ok w => w
  | .error _ => v

/-- A value without a `Real` in it. -/
def json.no_real : json → Bool
  | .obj o => no_real_members o
  | .ary a => no_real_elements a
  | .real _ => false
  | _ => true
where
  /-- No `Real` in the elements. -/
  no_real_elements : List json → Bool
    | [] => true
    | x :: xs => json.no_real x && no_real_elements xs
  /-- No `Real` in the members. -/
  no_real_members : List (List Char × json) → Bool
    | [] => true
    | (_, x) :: xs => json.no_real x && no_real_members xs

theorem resize_length (a : List json) (n : Nat) : (resize a n).length = n := by
  simp only [resize, List.length_append, List.length_take, List.length_replicate]
  omega

theorem resize_get (a : List json) (n j : Nat) (hj : j < n) :
    (resize a n).get? j = some ((a.get? j).getD .null) := by
  unfold resize
  simp only [List.get?_eq_getElem?]
  by_cases h : j < a.length
  · rw [List.getElem?_append_left (by simp only [List.length_take]; omega)]
    simp only [List.getElem?_take, hj, if_true]
    rw [List.getElem?_eq_getElem h]
    rfl
  · have h1 : (List.take n a).length ≤ j := by simp only [List.length_take]; omega
    have h2 : a[j]? = none := List.getElem?_eq_none (by omega)
    have h3 : j - (List.take n a).length < n - a.length := by
      simp only [List.length_take]; omega
    rw [List.getElem?_append_right h1, List.getElem?_replicate, if_pos h3, h2]
    rfl

/-- The array that `operator[]` leaves when `index + 1` does not overflow. -/
theorem index_uint_grows (a : List json) (index : Nat) (h : index + 1 < 4294967296) :
    ∃ a1, (json.ary a).index_uint index = .ok (.ary a1) ∧
      json.null.index_uint index = (json.ary []).index_uint index ∧
      (a.length ≤ index → a1.length = index + 1) ∧
      (index < a.length → a1 = a) ∧
      (∀ j, j < a.length → a1.get? j = a.get? j) ∧
      (∀ j, a.length ≤ j → j ≤ index → a1.get? j = some .null) := by
  by_cases hi : index ≥ a.length
  · refine ⟨resize a (index + 1), ?_, rfl, ?_, ?_, ?_, ?_⟩
    · simp [json.index_uint, json.is_ary, json.type, hi, Nat.mod_eq_of_lt h]
    · intro _; exact resize_length a _
    · intro h1; omega
    · intro j hj
      rw [resize_get a _ j (by omega)]
      simp only [List.get?_eq_getElem?]
      rw [List.getElem?_eq_getElem hj]
      rfl
    · intro j h1 h2
      rw [resize_get a _ j (by omega)]
      simp only [List.get?_eq_getElem?]
      rw [List.getElem?_eq_none h1]
      rfl
  · refine ⟨a, ?_, rfl, ?_, ?_, ?_, ?_⟩
    · simp [json.index_uint, json.is_ary, json.type, hi]
    · intro h1; omega
    · intro _; rfl
    · intro j _; rfl
    · intro j h1 h2; omega

theorem index_uint_throws (v : json) (index : Nat) (h1 : v.is_ary = false)
    (h2 : v.is_null = false) : v.index_uint index = .error ⟨"not an array"⟩ := by
  simp [json.index_uint, h1, h2]

/-- C11: for the index `4294967295`, the largest `unsigned int`, `index + 1` is `0`:
`resize(0)` empties the array instead of growing it to `4294967296` elements, and the
reference returned designates no element.  From `Null`, the statement `v[3] = "x"` leaves
three `Null` and the string, as the claim says. -/
theorem C11_index_wraps :
    (json.ary [.int 1, .int 2]).index_uint 4294967295 = .ok (.ary []) ∧
    ((json.ary [.int 1, .int 2]).index_uint 4294967295).map (fun w => w.slot 4294967295)
      = .ok none ∧
    json.null.index_uint 4294967295 = .ok (.ary []) ∧
    json.null.assign_at 3 (.str ['x']) = .ok (.ary [.null, .null, .null, .str ['x']]) :=
  ⟨rfl, rfl, rfl, rfl⟩

/-! ## Typed access -/

/-- C12: each of `as_obj`, `as_ary`, `as_str`, `as_bool`, `as_int`, `as_real` throws if and
only if the value is of another variant, and returns the payload otherwise; `add(value)`
throws iff the value is not an Array and `add(key, value)` iff it is not an Object, `Null`
included; the value is as before when they throw.  On `Bool(true)`, `as_ary` and `add`
throw. -/
theorem C12_type_mismatch (v x : json) (key : List Char) :
    ((throws v.as_obj ↔ v.type ≠ .obj_type) ∧ ∀ o, v = .obj o → v.as_obj = .ok o) ∧
    ((throws v.as_ary ↔ v.type ≠ .ary_type) ∧ ∀ a, v = .ary a → v.as_ary = .ok a) ∧
    ((throws v.as_str ↔ v.type ≠ .str_type) ∧ ∀ s, v = .str s → v.as_str = .ok s) ∧
    ((throws v.as_bool ↔ v.type ≠ .bool_type) ∧ ∀ b, v = .bool b → v.as_bool = .ok b) ∧
    ((throws v.as_int ↔ v.type ≠ .int_type) ∧ ∀ i, v = .int i → v.as_int = .ok i) ∧
    ((throws v.as_real ↔ v.type ≠ .real_type) ∧ ∀ r, v = .real r → v.as_real = .ok r) ∧
    (throws (v.add x) ↔ v.type ≠ .ary_type) ∧
    (throws (v.add_named key x) ↔ v.type ≠ .obj_type) ∧
    (throws (v.add x) → v.updated (v.add x) = v) ∧
    (throws (v.add_named key x) → v.updated (v.add_named key x) = v) ∧
    throws (json.null.add x) ∧ throws (json.null.add_named key x) ∧
    (json.bool true).as_ary = .error ⟨"not an array"⟩ ∧
    (json.bool true).add (.int 1) = .error ⟨"not an array"⟩ := by
  refine ⟨?_, ?_, ?_, ?_, ?_, ?_, ?_, ?_, ?_, ?_, ⟨_, rfl⟩, ⟨_, rfl⟩, rfl, rfl⟩
  · cases v <;> simp [throws, json.as_obj, json.type]
  · cases v <;> simp [throws, json.as_ary, json.type]
  · cases v <;> simp [throws, json.as_str, json.type]
  · cases v <;> simp [throws, json.as_bool, json.type]
  · cases v <;> simp [throws, json.as_int, json.type]
  · cases v <;> simp [throws, json.as_real, json.type]
  · cases v <;> simp [throws, json.add, json.type]
  · cases v <;> simp [throws, json.add_named, json.type]
  · rintro ⟨e, he⟩
    rw [he]
    rfl
  · rintro ⟨e, he⟩
    rw [he]
    rfl

/-! ## Adding to a container -/

/-- C14: `add(value)` on an Array of length `n` gives an array of length `n + 1` whose first
`n` elements are the old ones in their order and whose last element, which the returned
reference designates, is `value`. -/
theorem C14_add_appends (a : List json) (value : json) :
    ∃ a1, (json.ary a).add value = .ok (.ary a1) ∧
      a1.length = a.length + 1 ∧
      a1.take a.length = a ∧
      (∀ j, j < a.length → (json.ary a1).slot j = (json.ary a).slot j) ∧
      a1.getLast? = some value ∧
      (json.ary a1).slot a.length = some value := by
  refine ⟨a ++ [value], rfl, by simp, by simp, ?_, by simp, ?_⟩
  · intro j hj
    simp only [json.slot, List.get?_eq_getElem?]
    rw [List.getElem?_append_left hj]
  · simp [json.slot]

/-- C15: `to_bool` is a total function: an Object, an Array and a String give `true` iff they
are not empty, a Bool its value, an Int and a Real `true` iff they are not zero, and Null
`false`. -/
theorem C15_to_bool :
    (∀ o, (json.obj o).to_bool = true ↔ o ≠ []) ∧
    (∀ a, (json.ary a).to_bool = true ↔ a ≠ []) ∧
    (∀ s, (json.str s).to_bool = true ↔ s ≠ []) ∧
    (∀ b, (json.bool b).to_bool = b) ∧
    (∀ i, (json.int i).to_bool = true ↔ i ≠ 0) ∧
    (∀ r, (json.real r).to_bool = true ↔ r ≠ 0) ∧
    json.null.to_bool = false := by
  refine ⟨?_, ?_, ?_, fun _ => rfl, ?_, ?_, rfl⟩
  · intro o; cases o <;> simp [json.to_bool]
  · intro a; cases a <;> simp [json.to_bool]
  · intro s; cases s <;> simp [json.to_bool]
  · intro i; simp [json.to_bool]
  · intro r; simp [json.to_bool]



/-! ## A key that occurs twice -/

mutual
theorem json.eq_same : ∀ (a b : json), a.no_real = true → a.eq b = true → a = b
  | .obj o, b, hn, h => by
    cases b <;> simp only [json.eq, Bool.and_eq_true, beq_iff_eq] at h <;> try cases h
    simp only [json.no_real] at hn
    rw [json.eq_obj_same o _ hn (by assumption) (by assumption)]
  | .ary a, b, hn, h => by
    cases b <;> simp only [json.eq, Bool.and_eq_true, beq_iff_eq] at h <;> try cases h
    simp only [json.no_real] at hn
    rw [json.eq_ary_same a _ hn (by assumption) (by assumption)]
  | .str s, b, _, h => by
    cases b <;> simp only [json.eq, beq_iff_eq] at h <;> try cases h
    rfl
  | .bool s, b, _, h => by
    cases b <;> simp only [json.eq, beq_iff_eq] at h <;> try cases h
    rfl
  | .int s, b, _, h => by
    cases b <;> simp only [json.eq, beq_iff_eq] at h <;> try cases h
    rfl
  | .real _, _, hn, _ => by simp [json.no_real] at hn
  | .null, b, _, h => by
    cases b <;> simp only [json.eq] at h <;> try cases h
    rfl
theorem json.eq_ary_same : ∀ (a b : List json), json.no_real.no_real_elements a = true →
    a.length = b.length → json.eq_ary a b = true → a = b
  | [], [], _, _, _ => rfl
  | [], _ :: _, _, h, _ => by simp at h
  | _ :: _, [], _, h, _ => by simp at h
  | x :: xs, y :: ys, hn, hl, h => by
    simp only [json.no_real.no_real_elements, Bool.and_eq_true] at hn
    simp only [json.eq_ary, Bool.and_eq_true] at h
    rw [json.eq_same x y hn.1 h.1, json.eq_ary_same xs ys hn.2 (by simpa using hl) h.2]
theorem json.eq_obj_same : ∀ (a b : List (List Char × json)),
    json.no_real.no_real_members a = true → a.length = b.length → json.eq_obj a b = true →
    a = b
  | [], [], _, _, _ => rfl
  | [], _ :: _, _, h, _ => by simp at h
  | _ :: _, [], _, h, _ => by simp at h
  | (k, x) :: xs, (l, y) :: ys, hn, hl, h => by
    simp only [json.no_real.no_real_members, Bool.and_eq_true] at hn
    simp only [json.eq_obj, Bool.and_eq_true, beq_iff_eq] at h
    rw [h.1.1, json.eq_same x y hn.1 h.1.2, json.eq_obj_same xs ys hn.2 (by simpa using hl) h.2]
end

/-- C20: on values without a `Real`, `operator==` is transitive; on `Real` it is not: `0`
and `0.6e-10` are equal, `0.6e-10` and `1.2e-10` are equal, `0` and `1.2e-10` are not. -/
theorem C20_eq_transitive (a b c : json) (ha : a.no_real = true) (hb : b.no_real = true)
    (hab : a.eq b = true) (hbc : b.eq c = true) :
    a.eq c = true ∧
    (json.real 0).eq (json.real (6 / 100000000000)) = true ∧
    (json.real (6 / 100000000000)).eq (json.real (12 / 100000000000)) = true ∧
    (json.real 0).eq (json.real (12 / 100000000000)) = false := by
  refine ⟨?_, by decide!, by decide!, by decide!⟩
  rw [json.eq_same a b ha hab, json.eq_same b c hb hbc]
  exact json.eq_refl c

/-- C20, at three arrays. -/
theorem C20_eq_transitive_witness :
    (json.ary [.int 1, .null]).eq (json.ary [.int 1, .null]) = true :=
  (C20_eq_transitive (.ary [.int 1, .null]) (.ary [.int 1, .null]) (.ary [.int 1, .null])
    (by decide) (by decide) (by decide) (by decide)).1



/-- C4, at the text `5`: a bare number is rejected by both entry points. -/
theorem C4_top_level_container_witness :
    read_string ['5'] .null = .returned false .null ∧
    read_stream ['5'] .null = .returned false .null :=
  (C4_top_level_container ['5'] .null).1 (by decide) (by decide)




/-! ## The layout of the writer's text -/

/-- The indentation at a nesting level: two spaces per level. -/
def indent_at (level : Nat) : List Char := List.replicate (2 * level) ' '

/-- The start of the line of an element, or of the closing bracket, at a nesting level: in
pretty output a line break and the indentation, in compact output nothing. -/
def line_start (pretty : Bool) (level : Nat) : List Char :=
  if pretty then '\n' :: indent_at level else []

/-- The separator of key and value. -/
def key_sep (pretty : Bool) : List Char := if pretty then [' ', ':', ' '] else [':']

mutual
/-- The layout the specification gives for a value at a nesting level: a container is its
opening bracket, the texts of its elements with single commas between them, and its closing
bracket, which in pretty output is on a line of its own at the level of the container. -/
def layout (fmt : ℚ → List Char) (pretty : Bool) : Nat → json → List Char
  | level, .obj o =>
    '{' :: List.intercalate [','] (layout_members fmt pretty (level + 1) o)
      ++ line_start pretty level ++ ['}']
  | level, .ary a =>
    '[' :: List.intercalate [','] (layout_elements fmt pretty (level + 1) a)
      ++ line_start pretty level ++ [']']
  | _, .str s => quote s
  | _, .bool b => if b then ['t', 'r', 'u', 'e'] else ['f', 'a', 'l', 's', 'e']
  | _, .int i => dec_int i
  | _, .real d => fmt d
  | _, .null => ['n', 'u', 'l', 'l']
/-- The texts of the elements of an array: each at the start of its line. -/
def layout_elements (fmt : ℚ → List Char) (pretty : Bool) : Nat → List json → List (List Char)
  | _, [] => []
  | level, x :: xs =>
    (line_start pretty level ++ layout fmt pretty level x)
      :: layout_elements fmt pretty level xs
/-- The texts of the members of an object: each at the start of its line, the key, the
separator and the value. -/
def layout_members (fmt : ℚ → List Char) (pretty : Bool) :
    Nat → List (List Char × json) → List (List Char)
  | _, [] => []
  | level, (k, x) :: xs =>
    (line_start pretty level ++ quote k ++ key_sep pretty ++ layout fmt pretty level x)
      :: layout_members fmt pretty level xs
end

theorem layout_elements_map (fmt : ℚ → List Char) (pretty : Bool) (level : Nat) :
    ∀ (xs : List json), layout_elements fmt pretty level xs
      = xs.map (fun x => line_start pretty level ++ layout fmt pretty level x)
  | [] => rfl
  | x :: xs => by simp [layout_elements, layout_elements_map fmt pretty level xs]

theorem layout_members_map (fmt : ℚ → List Char) (pretty : Bool) (level : Nat) :
    ∀ (xs : List (List Char × json)), layout_members fmt pretty level xs
      = xs.map (fun e =>
          line_start pretty level ++ quote e.1 ++ key_sep pretty ++ layout fmt pretty level e.2)
  | [] => rfl
  | (k, x) :: xs => by simp [layout_members, layout_members_map fmt pretty level xs]

theorem intercalate_cons_cons (s x y : List Char) (r : List (List Char)) :
    List.intercalate s (x :: y :: r) = x ++ s ++ List.intercalate s (y :: r) := by
  simp [List.intercalate, List.intersperse]

theorem break_line_indent (pretty : Bool) (level : Nat) (ind : List Char)
    (h : pretty = true → ind = indent_at level) :
    break_line pretty ind = line_start pretty level := by
  cases pretty
  · rfl
  · simp [break_line, line_start, h rfl]

theorem deeper_indent (level : Nat) (ind : List Char) (h : ind = indent_at level) :
    deeper true ind = indent_at (level + 1) := by
  subst h
  simp only [deeper, if_true, indent_at]
  rw [show 2 * (level + 1) = 2 * level + 2 by ring, List.replicate_add]
  rfl

mutual
theorem render_eq_layout (fmt : ℚ → List Char) (pretty : Bool) : ∀ (v : json) (level : Nat)
    (ind : List Char), (pretty = true → ind = indent_at level) →
    render fmt pretty ind v = layout fmt pretty level v
  | .obj o, level, ind, h => by
    have hd : pretty = true → deeper pretty ind = indent_at (level + 1) := by
      intro hp; subst hp; exact deeper_indent level ind (h rfl)
    simp only [render, layout, render_members_eq_layout fmt pretty o (level + 1) _ hd,
      break_line_indent pretty level ind h]
  | .ary a, level, ind, h => by
    have hd : pretty = true → deeper pretty ind = indent_at (level + 1) := by
      intro hp; subst hp; exact deeper_indent level ind (h rfl)
    simp only [render, layout, render_elements_eq_layout fmt pretty a (level + 1) _ hd,
      break_line_indent pretty level ind h]
  | .str _, _, _, _ => rfl
  | .bool _, _, _, _ => rfl
  | .int _, _, _, _ => rfl
  | .real _, _, _, _ => rfl
  | .null, _, _, _ => rfl
theorem render_elements_eq_layout (fmt : ℚ → List Char) (pretty : Bool) : ∀ (xs : List json)
    (level : Nat) (ind : List Char), (pretty = true → ind = indent_at level) →
    render_elements fmt pretty ind xs
      = List.intercalate [','] (layout_elements fmt pretty level xs)
  | [], _, _, _ => rfl
  | [x], level, ind, h => by
    simp [render_elements, layout_elements, comma_unless, List.intercalate,
      render_eq_layout fmt pretty x level ind h, break_line_indent pretty level ind h]
  | x :: y :: r, level, ind, h => by
    have ih := render_elements_eq_layout fmt pretty (y :: r) level ind h
    rw [render_elements, ih]
    simp only [layout_elements, intercalate_cons_cons,
      render_eq_layout fmt pretty x level ind h, break_line_indent pretty level ind h,
      comma_unless, List.isEmpty_cons, Bool.false_eq_true, if_false, List.append_assoc]
theorem render_members_eq_layout (fmt : ℚ → List Char) (pretty : Bool) :
    ∀ (xs : List (List Char × json)) (level : Nat) (ind : List Char),
    (pretty = true → ind = indent_at level) →
    render_members fmt pretty ind xs
      = List.intercalate [','] (layout_members fmt pretty level xs)
  | [], _, _, _ => rfl
  | [(k, x)], level, ind, h => by
    simp [render_members, layout_members, comma_unless, List.intercalate, key_sep,
      render_eq_layout fmt pretty x level ind h, break_line_indent pretty level ind h]
  | (k, x) :: y :: r, level, ind, h => by
    have ih := render_members_eq_layout fmt pretty (y :: r) level ind h
    obtain ⟨l, z⟩ := y
    rw [render_members, ih]
    simp only [layout_members, intercalate_cons_cons, key_sep,
      render_eq_layout fmt pretty x level ind h, break_line_indent pretty level ind h,
      comma_unless, List.isEmpty_cons, Bool.false_eq_true, if_false, List.append_assoc]
end

/-- C16: the text the writer produces is the layout of the claim.  A container is its opening
bracket, the texts of its elements (for an object: the key as a string literal, the
separator, the value) with exactly one comma between two consecutive ones and none behind
the last, and its closing bracket.  In compact output nothing else is written and the
separator is `:`; in pretty output every element starts on a line of its own, indented by two
spaces per nesting level, the separator is ` : `, and the closing bracket is on a line of its
own at the indentation of its container. -/
theorem C16_writer_layout (fmt : ℚ → List Char) (v : json) (pretty : Bool) :
    v.to_str fmt pretty = layout fmt pretty 0 v ∧
    (∀ level a, layout fmt pretty level (.ary a)
      = '[' :: List.intercalate [',']
          (a.map (fun x => line_start pretty (level + 1) ++ layout fmt pretty (level + 1) x))
        ++ line_start pretty level ++ [']']) ∧
    (∀ level o, layout fmt pretty level (.obj o)
      = '{' :: List.intercalate [',']
          (o.map (fun e => line_start pretty (level + 1) ++ quote e.1 ++ key_sep pretty
            ++ layout fmt pretty (level + 1) e.2))
        ++ line_start pretty level ++ ['}']) ∧
    (∀ level, line_start false level = [] ∧
      line_start true level = '\n' :: List.replicate (2 * level) ' ') ∧
    key_sep false = [':'] ∧ key_sep true = [' ', ':', ' '] ∧
    (json.obj [(['a'], .ary [.int 1, .int 2]), (['b'], .obj [])]).to_str fmt false
      = "\x7b\"a\":[1,2],\"b\":\x7b\x7d\x7d".toList ∧
    (json.obj [(['a'], .ary [.int 1, .int 2]), (['b'], .obj [])]).to_str fmt true
      = "\x7b\n  \"a\" : [\n    1,\n    2\n  ],\n  \"b\" : \x7b\n  \x7d\n\x7d".toList := by
  refine ⟨?_, ?_, ?_, fun _ => ⟨rfl, rfl⟩, rfl, rfl, ?_, ?_⟩
  · rw [to_str_eq_render]
    exact render_eq_layout fmt pretty v 0 [] (fun _ => rfl)
  · intro level a
    simp only [layout, layout_elements_map]
  · intro level o
    simp only [layout, layout_members_map]
  · rw [to_str_eq_render]; rfl
  · rw [to_str_eq_render]; rfl



/-! ## Pretty and compact output -/

/-- The text with every space and every newline outside a string literal deleted.  The flag
tells whether the text starts inside a string literal; a literal ends with the first quote
that is not escaped by a backslash. -/
def strip_ws : Bool → List Char → List Char
  | _, [] => []
  | false, c :: r =>
    if c = '"' then c :: strip_ws true r
    else if c = ' ' ∨ c = '\n' then strip_ws false r
    else c :: strip_ws false r
  | true, c :: r =>
    if c = '"' then c :: strip_ws false r
    else if c = '\\' then
      match r with
      | [] => [c]
      | e :: r1 => c :: e :: strip_ws true r1
    else c :: strip_ws true r

/-- A text of spaces and newlines. -/
def spaces (u : List Char) : Prop := ∀ c ∈ u, c = ' ' ∨ c = '\n'

/-- A text without a space, a newline or a quote. -/
def solid (u : List Char) : Prop := ∀ c ∈ u, c ≠ ' ' ∧ c ≠ '\n' ∧ c ≠ '"'

theorem strip_keep (c : Char) (tl : List Char) (h1 : c ≠ '"') (h2 : c ≠ ' ') (h3 : c ≠ '\n') :
    strip_ws false (c :: tl) = c :: strip_ws false tl := by
  simp only [strip_ws, h1, h2, h3, if_false, or_self]

theorem strip_drop (c : Char) (tl : List Char) (h : c = ' ' ∨ c = '\n') :
    strip_ws false (c :: tl) = strip_ws false tl := by
  have hq : c ≠ '"' := by rcases h with rfl | rfl <;> decide
  simp only [strip_ws, hq, h, if_true, if_false]

theorem strip_enter (c : Char) (tl : List Char) (h : c = '"') :
    strip_ws false (c :: tl) = c :: strip_ws true tl := by
  simp only [strip_ws, eq_true h, if_true]

theorem strip_leave (c : Char) (tl : List Char) (h : c = '"') :
    strip_ws true (c :: tl) = c :: strip_ws false tl := by
  cases tl <;> simp only [strip_ws, eq_true h, if_true]

theorem strip_escaped (b e : Char) (tl : List Char) (h : b = '\\') :
    strip_ws true (b :: e :: tl) = b :: e :: strip_ws true tl := by
  have hq : b ≠ '"' := by rw [h]; decide
  simp only [strip_ws, hq, eq_true h, if_false, if_true]

theorem strip_open (tl : List Char) : strip_ws false ('"' :: tl) = '"' :: strip_ws true tl :=
  strip_enter _ tl rfl

theorem strip_close (tl : List Char) : strip_ws true ('"' :: tl) = '"' :: strip_ws false tl :=
  strip_leave _ tl rfl

theorem strip_inside_keep (c : Char) (tl : List Char) (h1 : c ≠ '"') (h2 : c ≠ '\\') :
    strip_ws true (c :: tl) = c :: strip_ws true tl := by
  cases tl <;> simp only [strip_ws, h1, h2, if_false]

theorem strip_escape (e : Char) (tl : List Char) :
    strip_ws true ('\\' :: e :: tl) = '\\' :: e :: strip_ws true tl :=
  strip_escaped _ e tl rfl

theorem strip_spaces (tl : List Char) : ∀ (u : List Char), spaces u →
    strip_ws false (u ++ tl) = strip_ws false tl
  | [], _ => rfl
  | c :: u, h => by
    show strip_ws false (c :: (u ++ tl)) = strip_ws false tl
    rw [strip_drop c _ (h c (List.mem_cons_self _ _))]
    exact strip_spaces tl u (fun d hd => h d (List.mem_cons_of_mem _ hd))

theorem strip_solid (tl : List Char) : ∀ (u : List Char), solid u →
    strip_ws false (u ++ tl) = u ++ strip_ws false tl
  | [], _ => rfl
  | c :: u, h => by
    obtain ⟨h1, h2, h3⟩ := h c (List.mem_cons_self _ _)
    show strip_ws false (c :: (u ++ tl)) = c :: (u ++ strip_ws false tl)
    rw [strip_keep c _ h3 h1 h2, strip_solid tl u (fun d hd => h d (List.mem_cons_of_mem _ hd))]

theorem strip_inside (tl : List Char) : ∀ (u : List Char),
    (∀ c ∈ u, c ≠ '"' ∧ c ≠ '\\') → strip_ws true (u ++ tl) = u ++ strip_ws true tl
  | [], _ => rfl
  | c :: u, h => by
    obtain ⟨h1, h2⟩ := h c (List.mem_cons_self _ _)
    show strip_ws true (c :: (u ++ tl)) = c :: (u ++ strip_ws true tl)
    rw [strip_inside_keep c _ h1 h2,
      strip_inside tl u (fun d hd => h d (List.mem_cons_of_mem _ hd))]

theorem solid_true : solid ['t', 'r', 'u', 'e'] := by unfold solid; decide

theorem solid_false : solid ['f', 'a', 'l', 's', 'e'] := by unfold solid; decide

theorem solid_null : solid ['n', 'u', 'l', 'l'] := by unfold solid; decide

theorem digit_char_inside : ∀ d, d < 16 →
    digit_char d ≠ '"' ∧ digit_char d ≠ '\\' ∧ digit_char d ≠ ' ' ∧ digit_char d ≠ '\n' := by
  decide

theorem num_digits_all (P : Char → Prop) (base : Nat) (hP : ∀ n, P (digit_char (n % base))) :
    ∀ (fuel n : Nat) (acc : List Char), (∀ c ∈ acc, P c) →
      ∀ c ∈ num_digits base fuel n acc, P c
  | 0, _, acc, h => by simpa [num_digits] using h
  | fuel + 1, n, acc, h => by
    have h1 : ∀ c ∈ digit_char (n % base) :: acc, P c := by
      intro c hc
      rcases List.mem_cons.mp hc with rfl | hc
      · exact hP n
      · exact h c hc
    simp only [num_digits]
    split
    · exact h1
    · exact num_digits_all P base hP fuel _ _ h1

theorem hex_setw2_inside (n : Nat) : ∀ c ∈ hex_setw2 n, c ≠ '"' ∧ c ≠ '\\' := by
  intro c hc
  unfold hex_setw2 at hc
  rcases List.mem_append.mp hc with h | h
  · rw [List.mem_replicate] at h
    rw [h.2]; decide
  · exact num_digits_all (fun c => c ≠ '"' ∧ c ≠ '\\') 16
      (fun m => ⟨(digit_char_inside _ (Nat.mod_lt _ (by omega))).1,
        (digit_char_inside _ (Nat.mod_lt _ (by omega))).2.1⟩) _ _ [] (by simp) c h

theorem dec_int_solid (i : Int) : solid (dec_int i) := by
  have hd : ∀ c ∈ num_digits 10 (i.natAbs + 1) i.natAbs [], c ≠ ' ' ∧ c ≠ '\n' ∧ c ≠ '"' :=
    num_digits_all (fun c => c ≠ ' ' ∧ c ≠ '\n' ∧ c ≠ '"') 10
      (fun m => by
        have := digit_char_inside (m % 10) (by omega)
        exact ⟨this.2.2.1, this.2.2.2, this.1⟩) _ _ [] (by simp)
  unfold dec_int
  split
  · intro c hc
    rcases List.mem_cons.mp hc with rfl | hc
    · decide
    · exact hd c hc
  · exact hd

theorem strip_output_char (c : Char) (tl : List Char) :
    strip_ws true (output_char c ++ tl) = output_char c ++ strip_ws true tl := by
  unfold output_char
  split_ifs with h1 h2 h3 h4 h5 h6 h7 h8 h9
  · exact strip_escape _ tl
  · exact strip_escape _ tl
  · exact strip_escape _ tl
  · exact strip_escape _ tl
  · exact strip_escape _ tl
  · exact strip_escape _ tl
  · exact strip_escape _ tl
  · exact strip_escape _ tl
  · show strip_ws true ('\\' :: 'x' :: (hex_setw2 c.toNat ++ tl))
      = '\\' :: 'x' :: (hex_setw2 c.toNat ++ strip_ws true tl)
    rw [strip_escape, strip_inside tl _ (hex_setw2_inside _)]
  · exact strip_inside_keep c tl h1 h3

theorem strip_string_body (tl : List Char) : ∀ (s : List Char),
    strip_ws true (s.flatMap output_char ++ '"' :: tl)
      = s.flatMap output_char ++ '"' :: strip_ws false tl
  | [] => strip_close tl
  | c :: s => by
    simp only [List.flatMap_cons, List.append_assoc]
    rw [strip_output_char, strip_string_body tl s]

theorem strip_quote (s tl : List Char) :
    strip_ws false (quote s ++ tl) = quote s ++ strip_ws false tl := by
  have h := strip_string_body tl s
  show strip_ws false ('"' :: (s.flatMap output_char ++ ['"'] ++ tl))
    = '"' :: (s.flatMap output_char ++ ['"'] ++ strip_ws false tl)
  rw [strip_open]
  simp only [List.append_assoc, List.singleton_append, h]

theorem spaces_break_line (ind : List Char) (h : ∀ c ∈ ind, c = ' ') :
    spaces (break_line true ind) := by
  intro c hc
  simp only [break_line, if_true, List.mem_cons] at hc
  rcases hc with rfl | hc
  · exact Or.inr rfl
  · exact Or.inl (h c hc)

theorem deeper_spaces (ind : List Char) (h : ∀ c ∈ ind, c = ' ') :
    ∀ c ∈ deeper true ind, c = ' ' := by
  intro c hc
  simp only [deeper, if_true, List.mem_append, List.mem_cons, List.mem_singleton,
    List.not_mem_nil, or_false, or_self] at hc
  rcases hc with hc | hc
  · exact h c hc
  · exact hc

theorem strip_comma_unless (b : Bool) (tl : List Char) :
    strip_ws false (comma_unless b ++ tl) = comma_unless b ++ strip_ws false tl := by
  cases b
  · exact strip_keep ',' tl (by decide) (by decide) (by decide)
  · rfl

mutual
theorem strip_render (fmt : ℚ → List Char) (hfmt : ∀ d, solid (fmt d)) : ∀ (v : json)
    (ind ind0 tl : List Char), (∀ c ∈ ind, c = ' ') →
    strip_ws false (render fmt true ind v ++ tl) = render fmt false ind0 v ++ strip_ws false tl
  | .obj o, ind, ind0, tl, h => by
    simp only [render, List.cons_append, List.append_assoc]
    rw [strip_keep _ _ (by decide) (by decide) (by decide),
      strip_render_members fmt hfmt o _ (deeper false ind0) _ (deeper_spaces ind h),
      strip_spaces _ _ (spaces_break_line ind h)]
    simp only [break_line, Bool.false_eq_true, if_false, List.nil_append, List.singleton_append]
    rw [strip_keep _ _ (by decide) (by decide) (by decide)]
  | .ary a, ind, ind0, tl, h => by
    simp only [render, List.cons_append, List.append_assoc]
    rw [strip_keep _ _ (by decide) (by decide) (by decide),
      strip_render_elements fmt hfmt a _ (deeper false ind0) _ (deeper_spaces ind h),
      strip_spaces _ _ (spaces_break_line ind h)]
    simp only [break_line, Bool.false_eq_true, if_false, List.nil_append, List.singleton_append]
    rw [strip_keep _ _ (by decide) (by decide) (by decide)]
  | .str s, _, _, tl, _ => strip_quote s tl
  | .bool b, _, _, tl, _ => by
    cases b
    · exact strip_solid tl _ solid_false
    · exact strip_solid tl _ solid_true
  | .int i, _, _, tl, _ => strip_solid tl _ (dec_int_solid i)
  | .real d, _, _, tl, _ => strip_solid tl _ (hfmt d)
  | .null, _, _, tl, _ => strip_solid tl _ solid_null
theorem strip_render_elements (fmt : ℚ → List Char) (hfmt : ∀ d, solid (fmt d)) :
    ∀ (xs : List json) (ind ind0 tl : List Char), (∀ c ∈ ind, c = ' ') →
    strip_ws false (render_elements fmt true ind xs ++ tl)
      = render_elements fmt false ind0 xs ++ strip_ws false tl
  | [], _, _, _, _ => rfl
  | x :: xs, ind, ind0, tl, h => by
    simp only [render_elements, List.append_assoc]
    rw [strip_spaces _ _ (spaces_break_line ind h), strip_render fmt hfmt x ind ind0 _ h,
      strip_comma_unless, strip_render_elements fmt hfmt xs ind ind0 tl h]
    simp only [break_line, Bool.false_eq_true, if_false, List.nil_append]
theorem strip_render_members (fmt : ℚ → List Char) (hfmt : ∀ d, solid (fmt d)) :
    ∀ (xs : List (List Char × json)) (ind ind0 tl : List Char), (∀ c ∈ ind, c = ' ') →
    strip_ws false (render_members fmt true ind xs ++ tl)
      = render_members fmt false ind0 xs ++ strip_ws false tl
  | [], _, _, _, _ => rfl
  | (k, x) :: xs, ind, ind0, tl, h => by
    have hsep : ∀ t, strip_ws false (' ' :: ':' :: ' ' :: t) = ':' :: strip_ws false t := by
      intro t
      rw [strip_drop _ _ (Or.inl rfl), strip_keep _ _ (by decide) (by decide) (by decide),
        strip_drop _ _ (Or.inl rfl)]
    simp only [render_members, List.append_assoc, if_true, Bool.false_eq_true, if_false,
      List.cons_append, List.nil_append]
    rw [strip_spaces _ _ (spaces_break_line ind h), strip_quote, hsep,
      strip_render fmt hfmt x ind ind0 _ h, strip_comma_unless,
      strip_render_members fmt hfmt xs ind ind0 tl h]
    simp only [break_line, Bool.false_eq_true, if_false, List.nil_append]
end

/-- C19: deleting from the pretty text of a value every space and every newline outside a
string literal gives its compact text.  The text that the stream prints for a `double` is a
parameter of the writer: it holds no space, newline or quote. -/
theorem C19_pretty_compact (fmt : ℚ → List Char)
    (hfmt : ∀ d c, c ∈ fmt d → c ≠ ' ' ∧ c ≠ '\n' ∧ c ≠ '"') (v : json) :
    strip_ws false (v.to_str fmt true) = v.to_str fmt false := by
  have h := strip_render fmt hfmt v [] [] [] (by simp)
  simpa [to_str_eq_render, strip_ws] using h

/-- C19, at an object with a key and a string that hold spaces, quotes and a backslash. -/
theorem C19_pretty_compact_witness :
    (∀ (d : ℚ) (c : Char), c ∈ (fun _ : ℚ => ['0', '.', '5']) d → c ≠ ' ' ∧ c ≠ '\n' ∧ c ≠ '"') ∧
    strip_ws false ((json.obj [([' ', '"'], .ary [.str ['a', ' ', '\\', '"', ' '], .real 1,
        .null])]).to_str (fun _ => ['0', '.', '5']) true)
      = "\x7b\" \\\"\":[\"a \\\\\\\" \",0.5,null]\x7d".toList :=
  ⟨fun _ c hc => by
      simp only [List.mem_cons, List.mem_singleton, List.not_mem_nil, or_false] at hc
      rcases hc with rfl | rfl | rfl <;> decide,
    (C19_pretty_compact (fun _ => ['0', '.', '5']) (fun _ c hc => by
      simp only [List.mem_cons, List.mem_singleton, List.not_mem_nil, or_false] at hc
      rcases hc with rfl | rfl | rfl <;> decide) _).trans (by rw [to_str_eq_render]; rfl)⟩




/-! ## The text determines the value -/

/-- The value of a hexadecimal digit in lowercase. -/
def hex_value (c : Char) : Nat := if isdigit c then c.toNat - 48 else c.toNat - 87

/-- The character a two-character escape of the writer stands for. -/
def unescape_name (e : Char) : Char :=
  if e = 'b' then Char.ofNat 8
  else if e = 'f' then Char.ofNat 12
  else if e = 'n' then '\n'
  else if e = 'r' then '\r'
  else if e = 't' then '\t'
  else e

/-- The character at the start of the body of a string literal as the writer writes it, and
the text behind it. -/
def unescape : List Char → Option (Char × List Char)
  | [] => none
  | c :: r =>
    if c ≠ '\\' then some (c, r)
    else
      match r with
      | [] => none
      | e :: r1 =>
        if e ≠ 'x' then some (unescape_name e, r1)
        else
          match r1 with
          | h1 :: h2 :: r2 => some (Char.ofNat (hex_value h1 * 16 + hex_value h2), r2)
          | _ => none

/-- Every character of every string and key of the value is a byte. -/
def json.bytes : json → Bool
  | .obj o => bytes_members o
  | .ary a => bytes_elements a
  | .str s => s.all (fun c => decide (c.toNat < 256))
  | _ => true
where
  /-- The strings of the elements are made of bytes. -/
  bytes_elements : List json → Bool
    | [] => true
    | x :: xs => json.bytes x && bytes_elements xs
  /-- The keys and the strings of the members are made of bytes. -/
  bytes_members : List (List Char × json) → Bool
    | [] => true
    | (k, x) :: xs => k.all (fun c => decide (c.toNat < 256)) && json.bytes x && bytes_members xs

theorem unescape_append (u a : List Char) (c : Char) (t : List Char)
    (h : unescape u = some (c, t)) : unescape (u ++ a) = some (c, t ++ a) := by
  cases u with
  | nil => simp [unescape] at h
  | cons x r =>
    by_cases hx : x = '\\'
    · cases r with
      | nil => simp [unescape, hx] at h
      | cons e r1 =>
        by_cases he : e = 'x'
        · rcases r1 with _ | ⟨h1, _ | ⟨h2, r2⟩⟩
          · simp [unescape, hx, he] at h
          · simp [unescape, hx, he] at h
          · simp only [unescape, ne_eq, hx, not_true_eq_false, if_false, he,
              Option.some.injEq, Prod.mk.injEq] at h
            obtain ⟨rfl, rfl⟩ := h
            simp [unescape, hx, he]
        · simp only [unescape, ne_eq, hx, not_true_eq_false, if_false, he, not_false_eq_true,
            if_true, Option.some.injEq, Prod.mk.injEq] at h
          obtain ⟨rfl, rfl⟩ := h
          simp [unescape, hx, he]
    · simp only [unescape, ne_eq, hx, not_false_eq_true, if_true, Option.some.injEq,
        Prod.mk.injEq] at h
      obtain ⟨rfl, rfl⟩ := h
      simp [unescape, hx]

theorem unescape_output_byte : ∀ n, n < 256 →
    unescape (output_char (Char.ofNat n)) = some (Char.ofNat n, []) := by
  decide!

theorem unescape_output_char (c : Char) (h : c.toNat < 256) (a : List Char) :
    unescape (output_char c ++ a) = some (c, a) := by
  have h1 := unescape_output_byte c.toNat h
  rw [Char.ofNat_toNat] at h1
  simpa using unescape_append _ a _ _ h1

theorem output_char_cancel (c d : Char) (a b : List Char) (hc : c.toNat < 256)
    (hd : d.toNat < 256) (h : output_char c ++ a = output_char d ++ b) : c = d ∧ a = b := by
  have h1 := unescape_output_char c hc a
  rw [h, unescape_output_char d hd b] at h1
  simp only [Option.some.injEq, Prod.mk.injEq] at h1
  exact ⟨h1.1.symm, h1.2.symm⟩

theorem output_char_ne_quote (c : Char) (a b : List Char) :
    output_char c ++ a ≠ '"' :: b := by
  unfold output_char
  split_ifs with h1 <;> simp
  exact fun e => absurd e h1

theorem string_body_cancel : ∀ (s t a b : List Char), (∀ c ∈ s, c.toNat < 256) →
    (∀ c ∈ t, c.toNat < 256) →
    s.flatMap output_char ++ '"' :: a = t.flatMap output_char ++ '"' :: b → s = t ∧ a = b
  | [], [], a, b, _, _, h => by simpa using h
  | [], d :: t, a, b, _, _, h => by
    simp only [List.flatMap_nil, List.nil_append, List.flatMap_cons, List.append_assoc] at h
    exact absurd h.symm (output_char_ne_quote d _ _)
  | c :: s, [], a, b, _, _, h => by
    simp only [List.flatMap_nil, List.nil_append, List.flatMap_cons, List.append_assoc] at h
    exact absurd h (output_char_ne_quote c _ _)
  | c :: s, d :: t, a, b, hs, ht, h => by
    simp only [List.flatMap_cons, List.append_assoc] at h
    obtain ⟨e, h1⟩ := output_char_cancel c d _ _ (hs c (List.mem_cons_self _ _))
      (ht d (List.mem_cons_self _ _)) h
    obtain ⟨e1, e2⟩ := string_body_cancel s t a b
      (fun x hx => hs x (List.mem_cons_of_mem _ hx))
      (fun x hx => ht x (List.mem_cons_of_mem _ hx)) h1
    exact ⟨by rw [e, e1], e2⟩

theorem quote_cancel (s t a b : List Char) (hs : ∀ c ∈ s, c.toNat < 256)
    (ht : ∀ c ∈ t, c.toNat < 256) (h : quote s ++ a = quote t ++ b) : s = t ∧ a = b := by
  simp only [quote, List.cons_append, List.append_assoc, List.singleton_append,
    List.cons.injEq, true_and] at h
  exact string_body_cancel s t a b hs ht h

/-- A text that does not go on with a digit. -/
def no_digit (tl : List Char) : Prop := ∀ c r, tl = c :: r → isdigit c = false

theorem extract_digits_no_digit (n count : Nat) (tl : List Char) (h : no_digit tl) :
    extract_digits tl n count = (n, count, tl) := by
  cases tl with
  | nil => rfl
  | cons c r => exact extract_digits_not_digit c r n count (h c r rfl)

theorem num_digits_cancel (n m : Nat) (a b : List Char) (ha : no_digit a) (hb : no_digit b)
    (h : num_digits 10 (n + 1) n [] ++ a = num_digits 10 (m + 1) m [] ++ b) :
    n = m ∧ a = b := by
  obtain ⟨L1, _, h1⟩ := num_digits_extract_digits a (n + 1) n [] (by omega) (lt_ten_pow_succ _)
  obtain ⟨L2, _, h2⟩ := num_digits_extract_digits b (m + 1) m [] (by omega) (lt_ten_pow_succ _)
  have e1 := h1 0
  have e2 := h2 0
  rw [h, e2] at e1
  simp only [List.nil_append, extract_digits_no_digit _ _ _ ha,
    extract_digits_no_digit _ _ _ hb, Prod.mk.injEq] at e1
  exact ⟨e1.1.symm, e1.2.2.symm⟩

theorem dec_int_cancel (i j : Int) (a b : List Char) (ha : no_digit a) (hb : no_digit b)
    (h : dec_int i ++ a = dec_int j ++ b) : i = j ∧ a = b := by
  unfold dec_int at h
  by_cases hi : i < 0
  · by_cases hj : j < 0
    · simp only [hi, hj, if_true, List.cons_append, List.cons.injEq, true_and] at h
      obtain ⟨e, e1⟩ := num_digits_cancel _ _ a b ha hb h
      exact ⟨by omega, e1⟩
    · simp only [hi, hj, if_true, if_false, List.cons_append] at h
      obtain ⟨c, r, hc, hd⟩ := num_digits_head (j.natAbs + 1) j.natAbs [] (by omega)
      rw [hc] at h
      simp only [List.cons_append, List.cons.injEq] at h
      rw [← h.1] at hd
      exact absurd hd (by decide)
  · by_cases hj : j < 0
    · simp only [hi, hj, if_true, if_false, List.cons_append] at h
      obtain ⟨c, r, hc, hd⟩ := num_digits_head (i.natAbs + 1) i.natAbs [] (by omega)
      rw [hc] at h
      simp only [List.cons_append, List.cons.injEq] at h
      rw [h.1] at hd
      exact absurd hd (by decide)
    · simp only [hi, hj, if_false] at h
      obtain ⟨e, e1⟩ := num_digits_cancel _ _ a b ha hb h
      exact ⟨by omega, e1⟩



/-- The variant of the value whose text starts with the character `c`. -/
def head_type (c : Char) : json_value_type :=
  if c = '{' then .obj_type
  else if c = '[' then .ary_type
  else if c = '"' then .str_type
  else if c = 't' ∨ c = 'f' then .bool_type
  else if c = 'n' then .null_type
  else .int_type

theorem render_first (fmt : ℚ → List Char) (pretty : Bool) (ind : List Char) (v : json)
    (hv : v.no_real = true) : ∃ c r, render fmt pretty ind v = c :: r ∧ head_type c = v.type ∧
      c ≠ ' ' ∧ c ≠ ',' ∧ c ≠ ']' ∧ c ≠ '}' := by
  cases v with
  | obj o =>
    exact ⟨'{', render_members fmt pretty (deeper pretty ind) o ++ break_line pretty ind ++ ['}'],
      by simp [render], by simp [head_type, json.type], by decide, by decide, by decide,
      by decide⟩
  | ary a =>
    exact ⟨'[', render_elements fmt pretty (deeper pretty ind) a ++ break_line pretty ind ++ [']'],
      by simp [render], by simp [head_type, json.type], by decide, by decide, by decide,
      by decide⟩
  | str s =>
    exact ⟨'"', s.flatMap output_char ++ ['"'], by simp [render, quote],
      by simp [head_type, json.type], by decide, by decide, by decide, by decide⟩
  | bool b =>
    cases b
    · exact ⟨'f', ['a', 'l', 's', 'e'], by simp [render], by decide, by decide, by decide,
        by decide, by decide⟩
    · exact ⟨'t', ['r', 'u', 'e'], by simp [render], by decide, by decide, by decide,
        by decide, by decide⟩
  | int i =>
    obtain ⟨c, r, hc, hn, hsp⟩ := dec_int_head i
    have ht : head_type c = .int_type := by
      unfold head_type
      have n1 : c ≠ '{' := by rintro rfl; exact absurd hn (by decide)
      have n2 : c ≠ '[' := by rintro rfl; exact absurd hn (by decide)
      have n3 : c ≠ '"' := by rintro rfl; exact absurd hn (by decide)
      have n4 : c ≠ 't' := by rintro rfl; exact absurd hn (by decide)
      have n5 : c ≠ 'f' := by rintro rfl; exact absurd hn (by decide)
      have n6 : c ≠ 'n' := by rintro rfl; exact absurd hn (by decide)
      simp [n1, n2, n3, n4, n5, n6]
    refine ⟨c, r, by simp [render, hc], ht, ?_, ?_, ?_, ?_⟩ <;>
      (rintro rfl; exact absurd hn (by decide))
  | real d => simp [json.no_real] at hv
  | null =>
    exact ⟨'n', ['u', 'l', 'l'], by simp [render], by decide, by decide, by decide, by decide,
      by decide⟩

theorem render_type_eq (fmt : ℚ → List Char) (pretty : Bool) (ind tl1 tl2 : List Char)
    (a b : json) (ha : a.no_real = true) (hb : b.no_real = true)
    (h : render fmt pretty ind a ++ tl1 = render fmt pretty ind b ++ tl2) : a.type = b.type := by
  obtain ⟨c1, r1, e1, t1, _⟩ := render_first fmt pretty ind a ha
  obtain ⟨c2, r2, e2, t2, _⟩ := render_first fmt pretty ind b hb
  rw [e1, e2] at h
  simp only [List.cons_append, List.cons.injEq] at h
  rw [← t1, ← t2, h.1]

theorem closing_cancel (pretty : Bool) (ind tl1 tl2 : List Char) (cl : Char)
    (h : break_line pretty ind ++ cl :: tl1 = break_line pretty ind ++ cl :: tl2) : tl1 = tl2 := by
  have := List.append_cancel_left h
  simpa using this

theorem closing_ne_item (pretty : Bool) (ind tl r : List Char) (cl c : Char) (h1 : c ≠ cl)
    (h2 : cl ≠ ' ') :
    break_line pretty ind ++ cl :: tl ≠ break_line pretty (deeper pretty ind) ++ c :: r := by
  cases pretty
  · simp only [break_line, Bool.false_eq_true, if_false, List.nil_append, ne_eq, List.cons.injEq,
      not_and]
    intro e
    exact absurd e.symm h1
  · simp only [break_line, deeper, if_true, List.cons_append, List.append_assoc, ne_eq,
      List.cons.injEq, true_and]
    intro e
    have := List.append_cancel_left e
    simp only [List.cons_append, List.nil_append, List.cons.injEq] at this
    exact h2 this.1

theorem closing_ne_comma (pretty : Bool) (ind tl r : List Char) (cl : Char) (h : cl ≠ ',') :
    break_line pretty ind ++ cl :: tl ≠ ',' :: r := by
  cases pretty
  · simp only [break_line, Bool.false_eq_true, if_false, List.nil_append, ne_eq, List.cons.injEq,
      not_and]
    intro e
    exact absurd e h
  · simp [break_line]

theorem no_digit_closing (pretty : Bool) (ind tl : List Char) (cl : Char)
    (h : isdigit cl = false) : no_digit (break_line pretty ind ++ cl :: tl) := by
  intro c r e
  cases pretty
  · simp only [break_line, Bool.false_eq_true, if_false, List.nil_append, List.cons.injEq] at e
    rw [← e.1]; exact h
  · simp only [break_line, if_true, List.cons_append, List.cons.injEq] at e
    rw [← e.1]; decide

theorem no_digit_comma (tl : List Char) : no_digit (',' :: tl) := by
  intro c r e
  simp only [List.cons.injEq] at e
  rw [← e.1]; decide

theorem bytes_key (k : List Char) (h : k.all (fun c => decide (c.toNat < 256)) = true) :
    ∀ c ∈ k, c.toNat < 256 := by
  simpa using h

mutual
theorem render_cancel (fmt : ℚ → List Char) (pretty : Bool) : ∀ (a b : json)
    (ind tl1 tl2 : List Char), a.no_real = true → b.no_real = true → a.bytes = true →
    b.bytes = true → no_digit tl1 → no_digit tl2 →
    render fmt pretty ind a ++ tl1 = render fmt pretty ind b ++ tl2 → a = b ∧ tl1 = tl2
  | .obj o, b, ind, tl1, tl2, ha, hb, ba, bb, _, _, h => by
    have ht := render_type_eq fmt pretty ind tl1 tl2 _ b ha hb h
    cases b <;> simp only [json.type] at ht <;> try cases ht
    simp only [render, List.cons_append, List.append_assoc, List.singleton_append,
      List.cons.injEq, true_and] at h
    simp only [json.no_real] at ha hb
    simp only [json.bytes] at ba bb
    obtain ⟨e1, e2⟩ := members_cancel fmt pretty o _ ind tl1 tl2 ha hb ba bb h
    exact ⟨by rw [e1], e2⟩
  | .ary a, b, ind, tl1, tl2, ha, hb, ba, bb, _, _, h => by
    have ht := render_type_eq fmt pretty ind tl1 tl2 _ b ha hb h
    cases b <;> simp only [json.type] at ht <;> try cases ht
    simp only [render, List.cons_append, List.append_assoc, List.singleton_append,
      List.cons.injEq, true_and] at h
    simp only [json.no_real] at ha hb
    simp only [json.bytes] at ba bb
    obtain ⟨e1, e2⟩ := elements_cancel fmt pretty a _ ind tl1 tl2 ha hb ba bb h
    exact ⟨by rw [e1], e2⟩
  | .str s, b, ind, tl1, tl2, ha, hb, ba, bb, _, _, h => by
    have ht := render_type_eq fmt pretty ind tl1 tl2 _ b ha hb h
    cases b <;> simp only [json.type] at ht <;> try cases ht
    simp only [render] at h
    simp only [json.bytes] at ba bb
    obtain ⟨e1, e2⟩ := quote_cancel s _ tl1 tl2 (bytes_key s ba) (bytes_key _ bb) h
    exact ⟨by rw [e1], e2⟩
  | .bool x, b, ind, tl1, tl2, ha, hb, _, _, _, _, h => by
    have ht := render_type_eq fmt pretty ind tl1 tl2 _ b ha hb h
    cases b with
    | bool y => cases x <;> cases y <;> simp [render] at h <;> simp [h]
    | _ => simp [json.type] at ht
  | .int i, b, ind, tl1, tl2, ha, hb, _, _, d1, d2, h => by
    have ht := render_type_eq fmt pretty ind tl1 tl2 _ b ha hb h
    cases b <;> simp only [json.type] at ht <;> try cases ht
    simp only [render] at h
    obtain ⟨e1, e2⟩ := dec_int_cancel i _ tl1 tl2 d1 d2 h
    exact ⟨by rw [e1], e2⟩
  | .real _, _, _, _, _, ha, _, _, _, _, _, _ => by simp [json.no_real] at ha
  | .null, b, ind, tl1, tl2, ha, hb, _, _, _, _, h => by
    have ht := render_type_eq fmt pretty ind tl1 tl2 _ b ha hb h
    cases b <;> simp only [json.type] at ht <;> try cases ht
    simp [render] at h
    exact ⟨rfl, h⟩
theorem elements_cancel (fmt : ℚ → List Char) (pretty : Bool) : ∀ (xs ys : List json)
    (ind tl1 tl2 : List Char), json.no_real.no_real_elements xs = true →
    json.no_real.no_real_elements ys = true → json.bytes.bytes_elements xs = true →
    json.bytes.bytes_elements ys = true →
    render_elements fmt pretty (deeper pretty ind) xs ++ (break_line pretty ind ++ ']' :: tl1)
      = render_elements fmt pretty (deeper pretty ind) ys
        ++ (break_line pretty ind ++ ']' :: tl2) →
    xs = ys ∧ tl1 = tl2
  | [], [], ind, tl1, tl2, _, _, _, _, h => by
    simp only [render_elements, List.nil_append] at h
    exact ⟨rfl, closing_cancel pretty ind tl1 tl2 ']' h⟩
  | [], y :: ys, ind, tl1, tl2, _, hb, _, _, h => by
    simp only [json.no_real.no_real_elements, Bool.and_eq_true] at hb
    obtain ⟨c, r, e, _, _, _, n3, _⟩ := render_first fmt pretty (deeper pretty ind) y hb.1
    simp only [render_elements, List.nil_append, List.append_assoc, e, List.cons_append] at h
    exact absurd h (closing_ne_item pretty ind tl1 _ ']' c n3 (by decide))
  | x :: xs, [], ind, tl1, tl2, ha, _, _, _, h => by
    simp only [json.no_real.no_real_elements, Bool.and_eq_true] at ha
    obtain ⟨c, r, e, _, _, _, n3, _⟩ := render_first fmt pretty (deeper pretty ind) x ha.1
    simp only [render_elements, List.nil_append, List.append_assoc, e, List.cons_append] at h
    exact absurd h.symm (closing_ne_item pretty ind tl2 _ ']' c n3 (by decide))
  | x :: xs, y :: ys, ind, tl1, tl2, ha, hb, ba, bb, h => by
    simp only [json.no_real.no_real_elements, Bool.and_eq_true] at ha hb
    simp only [json.bytes.bytes_elements, Bool.and_eq_true] at ba bb
    have ih := elements_cancel fmt pretty xs ys ind tl1 tl2 ha.2 hb.2 ba.2 bb.2
    simp only [render_elements, List.append_assoc] at h
    have h1 := List.append_cancel_left h
    have d1 : no_digit (comma_unless xs.isEmpty ++ (render_elements fmt pretty
        (deeper pretty ind) xs ++ (break_line pretty ind ++ ']' :: tl1))) := by
      cases xs with
      | nil => exact no_digit_closing pretty ind tl1 ']' (by decide)
      | cons _ _ => exact no_digit_comma _
    have d2 : no_digit (comma_unless ys.isEmpty ++ (render_elements fmt pretty
        (deeper pretty ind) ys ++ (break_line pretty ind ++ ']' :: tl2))) := by
      cases ys with
      | nil => exact no_digit_closing pretty ind tl2 ']' (by decide)
      | cons _ _ => exact no_digit_comma _
    obtain ⟨e1, h2⟩ := render_cancel fmt pretty x y _ _ _ ha.1 hb.1 ba.1 bb.1 d1 d2 h1
    cases xs with
    | nil =>
      cases ys with
      | nil =>
        obtain ⟨_, e3⟩ := ih h2
        exact ⟨by rw [e1], e3⟩
      | cons y1 ys1 =>
        exact absurd h2 (closing_ne_comma pretty ind tl1 _ ']' (by decide))
    | cons x1 xs1 =>
      cases ys with
      | nil =>
        exact absurd h2.symm (closing_ne_comma pretty ind tl2 _ ']' (by decide))
      | cons y1 ys1 =>
        simp only [List.isEmpty_cons, comma_unless, Bool.false_eq_true, if_false,
          List.cons_append, List.nil_append, List.cons.injEq, true_and] at h2
        obtain ⟨e2, e3⟩ := ih h2
        exact ⟨by rw [e1, e2], e3⟩
theorem members_cancel (fmt : ℚ → List Char) (pretty : Bool) :
    ∀ (xs ys : List (List Char × json)) (ind tl1 tl2 : List Char),
    json.no_real.no_real_members xs = true → json.no_real.no_real_members ys = true →
    json.bytes.bytes_members xs = true → json.bytes.bytes_members ys = true →
    render_members fmt pretty (deeper pretty ind) xs
        ++ (break_line pretty ind ++ (Char.ofNat 125) :: tl1)
      = render_members fmt pretty (deeper pretty ind) ys
        ++ (break_line pretty ind ++ (Char.ofNat 125) :: tl2) →
    xs = ys ∧ tl1 = tl2
  | [], [], ind, tl1, tl2, _, _, _, _, h => by
    simp only [render_members, List.nil_append] at h
    exact ⟨rfl, closing_cancel pretty ind tl1 tl2 _ h⟩
  | [], (l, y) :: ys, ind, tl1, tl2, _, _, _, _, h => by
    simp only [render_members, List.nil_append, List.append_assoc, quote, List.cons_append] at h
    exact absurd h (closing_ne_item pretty ind tl1 _ _ '"' (by decide) (by decide))
  | (k, x) :: xs, [], ind, tl1, tl2, _, _, _, _, h => by
    simp only [render_members, List.nil_append, List.append_assoc, quote, List.cons_append] at h
    exact absurd h.symm (closing_ne_item pretty ind tl2 _ _ '"' (by decide) (by decide))
  | (k, x) :: xs, (l, y) :: ys, ind, tl1, tl2, ha, hb, ba, bb, h => by
    simp only [json.no_real.no_real_members, Bool.and_eq_true] at ha hb
    simp only [json.bytes.bytes_members, Bool.and_eq_true] at ba bb
    have ih := members_cancel fmt pretty xs ys ind tl1 tl2 ha.2 hb.2 ba.2 bb.2
    simp only [render_members, List.append_assoc] at h
    have h1 := List.append_cancel_left h
    obtain ⟨ek, h2⟩ := quote_cancel k l _ _ (bytes_key k ba.1.1) (bytes_key l bb.1.1) h1
    have h3 := List.append_cancel_left h2
    have d1 : no_digit (comma_unless xs.isEmpty ++ (render_members fmt pretty
        (deeper pretty ind) xs ++ (break_line pretty ind ++ (Char.ofNat 125) :: tl1))) := by
      cases xs with
      | nil => exact no_digit_closing pretty ind tl1 _ (by decide)
      | cons _ _ => exact no_digit_comma _
    have d2 : no_digit (comma_unless ys.isEmpty ++ (render_members fmt pretty
        (deeper pretty ind) ys ++ (break_line pretty ind ++ (Char.ofNat 125) :: tl2))) := by
      cases ys with
      | nil => exact no_digit_closing pretty ind tl2 _ (by decide)
      | cons _ _ => exact no_digit_comma _
    obtain ⟨e1, h4⟩ := render_cancel fmt pretty x y _ _ _ ha.1 hb.1 ba.1.2 bb.1.2 d1 d2 h3
    cases xs with
    | nil =>
      cases ys with
      | nil =>
        obtain ⟨_, e3⟩ := ih h4
        exact ⟨by rw [ek, e1], e3⟩
      | cons y1 ys1 =>
        exact absurd h4 (closing_ne_comma pretty ind tl1 _ _ (by decide))
    | cons x1 xs1 =>
      cases ys with
      | nil =>
        exact absurd h4.symm (closing_ne_comma pretty ind tl2 _ _ (by decide))
      | cons y1 ys1 =>
        simp only [List.isEmpty_cons, comma_unless, Bool.false_eq_true, if_false,
          List.cons_append, List.nil_append, List.cons.injEq, true_and] at h4
        obtain ⟨e2, e3⟩ := ih h4
        exact ⟨by rw [ek, e1, e2], e3⟩
end



theorem map_ext : ∀ (a b : List (List Char × json)), json_obj_ok a → json_obj_ok b →
    (∀ k, map_find a k = map_find b k) → a = b
  | [], [], _, _, _ => rfl
  | [], (l, y) :: ys, _, _, h => by
    have := h l
    simp [map_find] at this
  | (k, x) :: xs, [], _, _, h => by
    have := h k
    simp [map_find] at this
  | (k, x) :: xs, (l, y) :: ys, ha, hb, h => by
    have hxs : json_obj_ok xs := (List.pairwise_cons.mp ha).2
    have hys : json_obj_ok ys := (List.pairwise_cons.mp hb).2
    have hk := (List.pairwise_cons.mp ha).1
    have hl := (List.pairwise_cons.mp hb).1
    by_cases e : l = k
    · subst e
      have h1 := h l
      simp only [map_find, if_true, Option.some.injEq] at h1
      have ht : ∀ key, map_find xs key = map_find ys key := by
        intro key
        by_cases e1 : key = l
        · rw [e1, map_find_none_of_lt l xs hk, map_find_none_of_lt l ys hl]
        · have := h key
          simpa [map_find, Ne.symm e1] using this
      rw [h1, map_ext xs ys hxs hys ht]
    · have h1 := h k
      simp only [map_find, if_true, e, if_false] at h1
      have h2 := h l
      simp only [map_find, if_true, Ne.symm e, if_false] at h2
      obtain ⟨f, hf, ef⟩ := (map_find_isSome_iff k ys).mp (by rw [← h1]; rfl)
      obtain ⟨g, hg, eg⟩ := (map_find_isSome_iff l xs).mp (by rw [h2]; rfl)
      have l1 := hl f hf
      have l2 := hk g hg
      simp only [ef] at l1
      simp only [eg] at l2
      rw [str_lt_asymm _ _ l1] at l2
      exact Bool.noConfusion l2

theorem map_add_comm (o : List (List Char × json)) (ho : json_obj_ok o) (k1 k2 : List Char)
    (x1 x2 : json) (hne : k1 ≠ k2) :
    map_put (map_index (map_put (map_index o k1) k1 x1) k2) k2 x2
      = map_put (map_index (map_put (map_index o k2) k2 x2) k1) k1 x1 := by
  apply map_ext
  · exact map_add_ok _ (map_add_ok o ho k1 x1) k2 x2
  · exact map_add_ok _ (map_add_ok o ho k2 x2) k1 x1
  · intro k
    rw [map_find_add _ (map_add_ok o ho k1 x1), map_find_add o ho,
      map_find_add _ (map_add_ok o ho k2 x2), map_find_add o ho]
    by_cases e1 : k = k1
    · have : k ≠ k2 := by rw [e1]; exact hne
      simp [e1, hne]
    · simp [e1]

/-- C18: for two values without a `Real` (whose strings are byte strings) and either setting
of the `pretty` flag, the values are equal if and only if their texts are the same, so that
two different values never have the same text.  An Object is a map: adding two different
keys in either order gives the same value, and with it the same text. -/
theorem C18_canonical_text (fmt : ℚ → List Char) (a b : json) (pretty : Bool)
    (ha : a.no_real = true) (hb : b.no_real = true) (hba : a.bytes = true)
    (hbb : b.bytes = true) :
    (a.eq b = true ↔ a.to_str fmt pretty = b.to_str fmt pretty) ∧
    (a ≠ b → a.to_str fmt pretty ≠ b.to_str fmt pretty) ∧
    (∀ (o : List (List Char × json)) (k1 k2 : List Char) (x1 x2 : json), json_obj_ok o →
      k1 ≠ k2 →
      ((json.obj o).add_named k1 x1).bind (fun v => v.add_named k2 x2)
        = ((json.obj o).add_named k2 x2).bind (fun v => v.add_named k1 x1)) := by
  have inj : a.to_str fmt pretty = b.to_str fmt pretty → a = b := by
    intro h
    rw [to_str_eq_render, to_str_eq_render] at h
    have h1 : render fmt pretty [] a ++ [] = render fmt pretty [] b ++ [] := by
      simpa using h
    exact (render_cancel fmt pretty a b [] [] [] ha hb hba hbb
      (fun c r e => by cases e) (fun c r e => by cases e) h1).1
  refine ⟨⟨?_, ?_⟩, ?_, ?_⟩
  · intro h
    rw [json.eq_same a b ha h]
  · intro h
    rw [inj h]
    exact json.eq_refl b
  · intro hne h
    exact hne (inj h)
  · intro o k1 k2 x1 x2 ho hne
    show Except.ok (json.obj (map_put (map_index (map_put (map_index o k1) k1 x1) k2) k2 x2))
      = Except.ok (json.obj (map_put (map_index (map_put (map_index o k2) k2 x2) k1) k1 x1))
    rw [map_add_comm o ho k1 k2 x1 x2 hne]

/-- C18, at two arrays that differ in a string, `"\x01a"` and `"\x1a"`, whose texts differ. -/
theorem C18_canonical_text_witness :
    (json.ary [.str [Char.ofNat 1, 'a']]).no_real = true ∧
    (json.ary [.str [Char.ofNat 1, 'a']]).bytes = true ∧
    (json.ary [.str [Char.ofNat 1, 'a']]).to_str (fun _ => []) false
      ≠ (json.ary [.str [Char.ofNat 26]]).to_str (fun _ => []) false :=
  ⟨rfl, rfl, (C18_canonical_text (fun _ => []) (.ary [.str [Char.ofNat 1, 'a']])
    (.ary [.str [Char.ofNat 26]]) false rfl rfl rfl rfl).2.1 (by decide)⟩




/-! ## Number literals -/

/-- The text of an optional sign: `some true` is a minus sign, `some false` a plus sign. -/
def sign_text : Option Bool → List Char
  | none => []
  | some true => ['-']
  | some false => ['+']

/-- The number that decimal digits denote behind the number `n` read so far. -/
def digits_from (n : Nat) : List Char → Nat
  | [] => n
  | c :: ds => digits_from (n * 10 + (c.toNat - 48)) ds

/-- The number that a sequence of decimal digits denotes. -/
def digits_value (ds : List Char) : Nat := digits_from 0 ds

/-- A text of decimal digits. -/
def all_digits (ds : List Char) : Prop := ∀ c ∈ ds, isdigit c = true

instance (ds : List Char) : Decidable (all_digits ds) := by unfold all_digits; infer_instance

theorem digits_from_nil (n : Nat) : digits_from n [] = n := rfl

theorem digits_from_cons (n : Nat) (c : Char) (ds : List Char) :
    digits_from n (c :: ds) = digits_from (n * 10 + (c.toNat - 48)) ds := rfl

theorem digits_from_ge : ∀ (ds : List Char) (n : Nat), n ≤ digits_from n ds
  | [], _ => le_refl _
  | c :: ds, n => by
    have h := digits_from_ge ds (n * 10 + (c.toNat - 48))
    rw [digits_from_cons]
    exact le_trans (by omega) h

theorem extract_digits_digits (tl : List Char) (ht : no_digit tl) : ∀ (ds : List Char)
    (n count : Nat), all_digits ds →
    extract_digits (ds ++ tl) n count = (digits_from n ds, count + ds.length, tl)
  | [], n, count, _ => by
    rw [List.nil_append, extract_digits_no_digit n count tl ht, digits_from_nil]
    rfl
  | c :: ds, n, count, h => by
    have hc : isdigit c = true := h c (List.mem_cons_self _ _)
    have ih := extract_digits_digits tl ht ds (n * 10 + (c.toNat - 48)) (count + 1)
      (fun d hd => h d (List.mem_cons_of_mem _ hd))
    show extract_digits (c :: (ds ++ tl)) n count = _
    rw [extract_digits, if_pos hc, ih, digits_from_cons]
    simp only [List.length_cons, Prod.mk.injEq, true_and, and_true]
    omega

theorem extract_int_digits (limit : Nat) (hl : 9 ≤ limit) (tl : List Char) (ht : no_digit tl) :
    ∀ (ds : List Char) (n count : Nat), all_digits ds → n ≤ limit →
    extract_int limit (ds ++ tl) n count
      = if digits_from n ds ≤ limit then some (digits_from n ds, count + ds.length, tl)
        else none
  | [], n, count, _, hn => by
    simp only [List.nil_append, digits_from_nil, hn, if_true, List.length_nil, Nat.add_zero]
    cases tl with
    | nil => rfl
    | cons c r => simp [extract_int, ht c r rfl]
  | c :: ds, n, count, h, hn => by
    have hc : isdigit c = true := h c (List.mem_cons_self _ _)
    have hd : c.toNat - 48 ≤ 9 := by
      simp only [isdigit, Bool.and_eq_true, decide_eq_true_eq] at hc
      omega
    show extract_int limit (c :: (ds ++ tl)) n count = _
    rw [extract_int, if_pos hc]
    simp only [digits_from_cons, List.length_cons]
    by_cases h1 : n * 10 + (c.toNat - 48) ≤ limit
    · have c1 : ¬ n > limit / 10 := by omega
      have c2 : ¬ n * 10 > limit - (c.toNat - 48) := by omega
      rw [if_neg c1, if_neg c2,
        extract_int_digits limit hl tl ht ds _ _ (fun d hd => h d (List.mem_cons_of_mem _ hd)) h1]
      have e : count + 1 + ds.length = count + (ds.length + 1) := by omega
      rw [e]
    · have hge := digits_from_ge ds (n * 10 + (c.toNat - 48))
      have hgt : ¬ digits_from (n * 10 + (c.toNat - 48)) ds ≤ limit := by omega
      rw [if_neg hgt]
      by_cases c1 : n > limit / 10
      · rw [if_pos c1]
      · have c2 : n * 10 > limit - (c.toNat - 48) := by omega
        rw [if_neg c1, if_pos c2]

/-- The value of a signed sequence of digits. -/
def int_value (sg : Option Bool) (ds : List Char) : Int :=
  if sg = some true then -(digits_value ds : Int) else (digits_value ds : Int)

theorem length_pos_of_ne_nil (ds : List Char) (h : ds ≠ []) : 1 ≤ ds.length := by
  cases ds with
  | nil => exact absurd rfl h
  | cons _ _ => simp

theorem int_p_minus (i ds tl : List Char) (hs : skip i = '-' :: (ds ++ tl))
    (hd : all_digits ds) (hne : ds ≠ []) (ht : no_digit tl) :
    int_p i = if digits_value ds ≤ 2147483648 then some (-(digits_value ds : Int), tl)
      else none := by
  have hlen := length_pos_of_ne_nil ds hne
  unfold int_p
  rw [hs]
  simp only [if_true]
  rw [extract_int_digits 2147483648 (by omega) tl ht ds 0 0 hd (by omega)]
  unfold digits_value
  by_cases hr : digits_from 0 ds ≤ 2147483648
  · simp only [hr, if_true, Nat.zero_add, hlen]
  · simp only [hr, if_false]

theorem int_p_plus (i ds tl : List Char) (hs : skip i = '+' :: (ds ++ tl))
    (hd : all_digits ds) (hne : ds ≠ []) (ht : no_digit tl) :
    int_p i = if digits_value ds ≤ 2147483647 then some ((digits_value ds : Int), tl)
      else none := by
  have hlen := length_pos_of_ne_nil ds hne
  have hpm : ('+' : Char) ≠ '-' := by decide
  unfold int_p
  rw [hs]
  simp only [hpm, if_false, if_true]
  rw [extract_int_digits 2147483647 (by omega) tl ht ds 0 0 hd (by omega)]
  unfold digits_value
  by_cases hr : digits_from 0 ds ≤ 2147483647
  · simp only [hr, if_true, Nat.zero_add, hlen]
  · simp only [hr, if_false]

theorem int_p_plain (i ds tl : List Char) (d : Char) (hs : skip i = d :: (ds ++ tl))
    (hd : all_digits (d :: ds)) (ht : no_digit tl) :
    int_p i = if digits_value (d :: ds) ≤ 2147483647
      then some ((digits_value (d :: ds) : Int), tl) else none := by
  have h1 := hd d (List.mem_cons_self _ _)
  obtain ⟨n1, n2, _, _⟩ := isdigit_ne_sign d h1
  have hx := extract_int_digits 2147483647 (by omega) tl ht (d :: ds) 0 0 hd (by omega)
  have hx1 : extract_int 2147483647 (d :: (ds ++ tl)) 0 0 = _ := hx
  unfold int_p
  rw [hs]
  simp only [n1, n2, if_false]
  rw [hx1]
  unfold digits_value
  by_cases hr : digits_from 0 (d :: ds) ≤ 2147483647
  · simp only [hr, if_true, Nat.zero_add, List.length_cons, Nat.le_add_left]
  · simp only [hr, if_false]

/-- The part of `strict_real_p` behind the sign, as a function of the sign and of the input
behind it. -/
def real_tail (neg : Bool) (i : List Char) : Option (ℚ × List Char) :=
  let d := extract_digits i 0 0
  let got_a_number : Bool := 1 ≤ d.2.1
  let n : ℚ := if neg then -(d.1 : ℚ) else (d.1 : ℚ)
  match d.2.2 with
  | [] => none
  | x :: r1 =>
    if x = '.' then
      let f := extract_digits r1 0 0
      if 1 ≤ f.2.1 then
        let frac : ℚ := (f.1 : ℚ) * (10 : ℚ) ^ (-(f.2.1 : Int))
        real_exponent (if neg then n - frac else n + frac) f.2.2
      else if !got_a_number then none
      else real_exponent n r1
    else if !got_a_number then none
    else if x = 'e' ∨ x = 'E' then real_exponent n (x :: r1)
    else none

theorem strict_real_p_eq (i r : List Char) (c : Char) (hs : skip i = c :: r) :
    strict_real_p i
      = real_tail (decide (c = '-')) (if c = '-' ∨ c = '+' then r else c :: r) := by
  unfold strict_real_p real_tail
  first
    | (rw [hs]; rfl)
    | rw [hs]

theorem real_tail_digits (neg : Bool) (ds tl : List Char) (hd : all_digits ds)
    (hne : ds ≠ []) (ht : number_end tl) : real_tail neg (ds ++ tl) = none := by
  have hnd : no_digit tl := fun c r e => (ht c r e).1
  have hlen := length_pos_of_ne_nil ds hne
  unfold real_tail
  rw [extract_digits_digits tl hnd ds 0 0 hd]
  cases tl with
  | nil => rfl
  | cons x r1 =>
    obtain ⟨_, h2, h3, h4⟩ := ht x r1 rfl
    simp [h2, h3, h4, hlen]



/-- The text of an optional fraction: a dot and the digits behind it. -/
def frac_text : Option (List Char) → List Char
  | none => []
  | some fs => '.' :: fs

/-- The text of an optional exponent: the mark (`E` if the flag is set, else `e`), an optional
sign and digits. -/
def exp_text : Option (Bool × Option Bool × List Char) → List Char
  | none => []
  | some (up, sg, es) => (if up then 'E' else 'e') :: (sign_text sg ++ es)

/-- The number an optional exponent denotes. -/
def exp_value : Option (Bool × Option Bool × List Char) → Int
  | none => 0
  | some (_, sg, es) => if sg = some true then -(digits_value es : Int) else (digits_value es : Int)

/-- An exponent has at least one digit. -/
def exp_ok : Option (Bool × Option Bool × List Char) → Prop
  | none => True
  | some (_, _, es) => all_digits es ∧ es ≠ []

/-- The number that a literal with a fraction or an exponent denotes: sign, integer part,
fraction, and the power of ten. -/
def real_value (sg : Option Bool) (ds : List Char) (f : Option (List Char))
    (e : Option (Bool × Option Bool × List Char)) : ℚ :=
  (if sg = some true then -1 else 1)
    * ((digits_value ds : ℚ) + (digits_value (f.getD []) : ℚ) / 10 ^ (f.getD []).length)
    * 10 ^ exp_value e

theorem no_digit_exp (e : Option (Bool × Option Bool × List Char)) (tl : List Char)
    (ht : number_end tl) : no_digit (exp_text e ++ tl) := by
  intro c r h
  rcases e with _ | ⟨up, sg, es⟩
  · exact (ht c r h).1
  · simp only [exp_text, List.cons_append, List.cons.injEq] at h
    rw [← h.1]
    cases up <;> decide

theorem real_exponent_lit (m : ℚ) (e : Option (Bool × Option Bool × List Char))
    (tl : List Char) (he : exp_ok e) (ht : number_end tl) :
    real_exponent m (exp_text e ++ tl) = some (m * 10 ^ exp_value e, tl) := by
  have hnd : no_digit tl := fun c r h => (ht c r h).1
  rcases e with _ | ⟨up, sg, es⟩
  · cases tl with
    | nil => simp [exp_text, real_exponent, exp_value]
    | cons c r =>
      obtain ⟨_, _, h3, h4⟩ := ht c r rfl
      simp [exp_text, real_exponent, exp_value, h3, h4]
  · obtain ⟨hd, hne⟩ := he
    have hlen := length_pos_of_ne_nil es hne
    have hmark : (if up = true then 'E' else 'e') = 'e' ∨ (if up = true then 'E' else 'e') = 'E' := by
      cases up <;> simp
    have hx := extract_digits_digits tl hnd es 0 0 hd
    rcases sg with _ | _ | _
    · cases es with
      | nil => exact absurd rfl hne
      | cons d es1 =>
        have h1 := hd d (List.mem_cons_self _ _)
        obtain ⟨n1, n2, _, _⟩ := isdigit_ne_sign d h1
        have hx1 : extract_digits (d :: (es1 ++ tl)) 0 0 = _ := hx
        simp only [exp_text, sign_text, List.nil_append, List.cons_append, real_exponent, hmark,
          if_true, n1, n2, or_self, if_false, hx1, exp_value, digits_value]
        simp
    · have hpm : ('+' : Char) ≠ '-' := by decide
      simp only [exp_text, sign_text, List.nil_append, List.cons_append, real_exponent, hmark,
        if_true, hpm, or_true, if_false, hx, exp_value, digits_value]
      simp [hlen]
    · simp only [exp_text, sign_text, List.nil_append, List.cons_append, real_exponent, hmark,
        if_true, true_or, hx, exp_value, digits_value]
      simp [hlen]

/-- The number in front of the exponent, as `strict_real_p` computes it. -/
def mantissa (neg : Bool) (ds : List Char) (f : Option (List Char)) : ℚ :=
  (if neg then -1 else 1)
    * ((digits_value ds : ℚ) + (digits_value (f.getD []) : ℚ) / 10 ^ (f.getD []).length)

theorem real_tail_lit (neg : Bool) (ds : List Char) (f : Option (List Char))
    (e : Option (Bool × Option Bool × List Char)) (tl : List Char) (hd : all_digits ds)
    (hf : all_digits (f.getD [])) (he : exp_ok e) (hne : ds ≠ [] ∨ f.getD [] ≠ [])
    (hreal : f ≠ none ∨ e ≠ none) (ht : number_end tl) :
    real_tail neg (ds ++ (frac_text f ++ (exp_text e ++ tl)))
      = some (mantissa neg ds f * 10 ^ exp_value e, tl) := by
  have hnde := no_digit_exp e tl ht
  have hrest : no_digit (frac_text f ++ (exp_text e ++ tl)) := by
    rcases f with _ | fs
    · exact hnde
    · intro c r h
      simp only [frac_text, List.cons_append, List.cons.injEq] at h
      rw [← h.1]; decide
  unfold real_tail
  rw [extract_digits_digits _ hrest ds 0 0 hd]
  rcases f with _ | fs
  · have hds : ds ≠ [] := by
      rcases hne with h | h
      · exact h
      · exact absurd rfl h
    have hlen := length_pos_of_ne_nil ds hds
    rcases e with _ | ⟨up, sg, es⟩
    · rcases hreal with h | h <;> exact absurd rfl h
    · have hre := real_exponent_lit (if neg = true then -(digits_from 0 ds : ℚ)
        else (digits_from 0 ds : ℚ)) (some (up, sg, es)) tl he ht
      have hm : mantissa neg ds none = (if neg = true then -(digits_from 0 ds : ℚ)
          else (digits_from 0 ds : ℚ)) := by
        cases neg <;> simp [mantissa, digits_value, digits_from_nil]
      rw [hm]
      cases up
      · simp only [frac_text, List.nil_append, exp_text, Bool.false_eq_true, if_false,
          List.cons_append] at hre ⊢
        simp only [Nat.zero_add, hlen, decide_True, Bool.not_true, Bool.false_eq_true, if_false,
          true_or, if_true]
        have hq : ('e' : Char) ≠ '.' := by decide
        simp only [hq, if_false]
        exact hre
      · simp only [frac_text, List.nil_append, exp_text, if_true, List.cons_append] at hre ⊢
        simp only [Nat.zero_add, hlen, decide_True, Bool.not_true, Bool.false_eq_true, if_false,
          or_true, if_true]
        have hq : ('E' : Char) ≠ '.' := by decide
        simp only [hq, if_false]
        exact hre
  · simp only [Option.getD_some] at hf hne
    simp only [frac_text, List.cons_append, if_true]
    rw [extract_digits_digits _ hnde fs 0 0 hf]
    by_cases hfs : fs = []
    · subst hfs
      have hds : ds ≠ [] := by
        rcases hne with h | h
        · exact h
        · exact absurd rfl h
      have hlen := length_pos_of_ne_nil ds hds
      have hre := real_exponent_lit (if neg = true then -(digits_from 0 ds : ℚ)
        else (digits_from 0 ds : ℚ)) e tl he ht
      have hm : mantissa neg ds (some []) = (if neg = true then -(digits_from 0 ds : ℚ)
          else (digits_from 0 ds : ℚ)) := by
        cases neg <;> simp [mantissa, digits_value, digits_from_nil]
      rw [hm]
      simp only [List.length_nil, Nat.zero_add, Nat.add_zero, Nat.le_zero_eq, one_ne_zero,
        if_false, hlen, decide_True, Bool.not_true, Bool.false_eq_true, List.nil_append]
      exact hre
    · have hlen := length_pos_of_ne_nil fs hfs
      have hm : mantissa neg ds (some fs)
          = (if neg = true then (if neg = true then -(digits_from 0 ds : ℚ)
                else (digits_from 0 ds : ℚ))
              - (digits_from 0 fs : ℚ) * (10 : ℚ) ^ (-((0 + fs.length : Nat) : Int))
            else (if neg = true then -(digits_from 0 ds : ℚ) else (digits_from 0 ds : ℚ))
              + (digits_from 0 fs : ℚ) * (10 : ℚ) ^ (-((0 + fs.length : Nat) : Int))) := by
        cases neg
        · simp only [mantissa, digits_value, Option.getD_some, Bool.false_eq_true, if_false,
            one_mul, Nat.zero_add, zpow_neg, zpow_natCast]
          rw [div_eq_mul_inv]
        · simp only [mantissa, digits_value, Option.getD_some, if_true, Nat.zero_add, zpow_neg,
            zpow_natCast]
          rw [div_eq_mul_inv]
          ring
      rw [hm]
      have hre := real_exponent_lit (if neg = true then (if neg = true then
            -(digits_from 0 ds : ℚ) else (digits_from 0 ds : ℚ))
              - (digits_from 0 fs : ℚ) * (10 : ℚ) ^ (-((0 + fs.length : Nat) : Int))
            else (if neg = true then -(digits_from 0 ds : ℚ) else (digits_from 0 ds : ℚ))
              + (digits_from 0 fs : ℚ) * (10 : ℚ) ^ (-((0 + fs.length : Nat) : Int))) e tl he ht
      have h1 : 1 ≤ 0 + fs.length := by omega
      simp only [h1, if_true]
      exact hre



theorem mantissa_value (sg : Option Bool) (ds : List Char) (f : Option (List Char))
    (e : Option (Bool × Option Bool × List Char)) :
    mantissa (decide (sg = some true)) ds f * 10 ^ exp_value e = real_value sg ds f e := by
  unfold mantissa real_value
  by_cases h : sg = some true <;> simp [h]

/-- The text of a number literal: sign, digits, fraction and exponent. -/
def number_text (sg : Option Bool) (ds : List Char) (f : Option (List Char))
    (e : Option (Bool × Option Bool × List Char)) : List Char :=
  sign_text sg ++ (ds ++ (frac_text f ++ exp_text e))

theorem number_text_head (sg : Option Bool) (ds : List Char) (f : Option (List Char))
    (e : Option (Bool × Option Bool × List Char)) (hd : all_digits ds)
    (hne : ds ≠ [] ∨ f.getD [] ≠ []) :
    ∃ c r, number_text sg ds f e = c :: r ∧ isspace c = false ∧ number_start c = true ∧
      (sg = none → ds ++ (frac_text f ++ exp_text e) = c :: r ∧ c ≠ '-' ∧ c ≠ '+') := by
  unfold number_text
  rcases sg with _ | _ | _
  · cases ds with
    | nil =>
      rcases f with _ | fs
      · simp at hne
      · exact ⟨'.', fs ++ exp_text e, rfl, by decide, by decide,
          fun _ => ⟨rfl, by decide, by decide⟩⟩
    | cons d ds1 =>
      have h1 := hd d (List.mem_cons_self _ _)
      obtain ⟨n1, n2, _, n4⟩ := isdigit_ne_sign d h1
      exact ⟨d, ds1 ++ (frac_text f ++ exp_text e), rfl, n4, by simp [number_start, h1],
        fun _ => ⟨rfl, n1, n2⟩⟩
  · exact ⟨'+', _, rfl, by decide, by decide, fun h => by cases h⟩
  · exact ⟨'-', _, rfl, by decide, by decide, fun h => by cases h⟩

theorem strict_real_p_lit (sg : Option Bool) (ds : List Char) (f : Option (List Char))
    (e : Option (Bool × Option Bool × List Char)) (tl : List Char) (hd : all_digits ds)
    (hf : all_digits (f.getD [])) (he : exp_ok e) (hne : ds ≠ [] ∨ f.getD [] ≠ [])
    (hreal : f ≠ none ∨ e ≠ none) (ht : number_end tl) :
    strict_real_p (number_text sg ds f e ++ tl) = some (real_value sg ds f e, tl) := by
  obtain ⟨c, r, hc, hsp, _, hnone⟩ := number_text_head sg ds f e hd hne
  have hs : skip (number_text sg ds f e ++ tl) = c :: (r ++ tl) := by
    rw [hc]; exact skip_cons c _ hsp
  rw [strict_real_p_eq _ _ c hs, ← mantissa_value]
  rcases sg with _ | _ | _
  · obtain ⟨e1, n1, n2⟩ := hnone rfl
    have e2 : c :: (r ++ tl) = ds ++ (frac_text f ++ (exp_text e ++ tl)) := by
      rw [← List.cons_append, ← e1]; simp
    simp only [n1, n2, or_self, if_false, decide_False, e2]
    exact real_tail_lit false ds f e tl hd hf he hne hreal ht
  · simp only [number_text, sign_text, List.cons_append, List.nil_append,
      List.cons.injEq] at hc
    obtain ⟨rfl, rfl⟩ := hc
    have hpm : ('+' : Char) ≠ '-' := by decide
    simp only [hpm, or_true, if_true, decide_False, List.append_assoc]
    have := real_tail_lit false ds f e tl hd hf he hne hreal ht
    simpa using this
  · simp only [number_text, sign_text, List.cons_append, List.nil_append,
      List.cons.injEq] at hc
    obtain ⟨rfl, rfl⟩ := hc
    simp only [true_or, if_true, decide_True, List.append_assoc]
    have := real_tail_lit true ds f e tl hd hf he hne hreal ht
    simpa using this

theorem int_range_value (sg : Option Bool) (ds : List Char) :
    int_range (int_value sg ds) ↔
      (if sg = some true then digits_value ds ≤ 2147483648 else digits_value ds ≤ 2147483647) := by
  unfold int_range int_value
  by_cases h : sg = some true
  · simp only [h, if_true]; omega
  · simp only [h, if_false]; omega

theorem int_p_lit (sg : Option Bool) (ds tl : List Char) (hd : all_digits ds) (hne : ds ≠ [])
    (ht : no_digit tl) :
    int_p (number_text sg ds none none ++ tl)
      = if int_range (int_value sg ds) then some (int_value sg ds, tl) else none := by
  have hnt : number_text sg ds none none ++ tl = sign_text sg ++ (ds ++ tl) := by
    simp [number_text, frac_text, exp_text]
  rw [hnt]
  have hr := int_range_value sg ds
  rcases sg with _ | _ | _
  · cases ds with
    | nil => exact absurd rfl hne
    | cons d ds1 =>
      have h1 := hd d (List.mem_cons_self _ _)
      obtain ⟨_, _, _, n4⟩ := isdigit_ne_sign d h1
      have hs : skip (sign_text none ++ (d :: ds1 ++ tl)) = d :: (ds1 ++ tl) :=
        skip_cons d _ n4
      rw [int_p_plain _ ds1 tl d hs hd ht]
      simp only [reduceCtorEq, if_false] at hr
      simp only [int_value, reduceCtorEq, if_false] at hr ⊢
      by_cases hb : digits_value (d :: ds1) ≤ 2147483647
      · rw [if_pos hb, if_pos (hr.mpr hb)]
      · rw [if_neg hb, if_neg (fun h => hb (hr.mp h))]
  · have hs : skip (sign_text (some false) ++ (ds ++ tl)) = '+' :: (ds ++ tl) :=
      skip_cons '+' _ (by decide)
    rw [int_p_plus _ ds tl hs hd hne ht]
    simp only [int_value, Option.some.injEq, Bool.false_eq_true, if_false] at hr ⊢
    by_cases hb : digits_value ds ≤ 2147483647
    · rw [if_pos hb, if_pos (hr.mpr hb)]
    · rw [if_neg hb, if_neg (fun h => hb (hr.mp h))]
  · have hs : skip (sign_text (some true) ++ (ds ++ tl)) = '-' :: (ds ++ tl) :=
      skip_cons '-' _ (by decide)
    rw [int_p_minus _ ds tl hs hd hne ht]
    simp only [int_value, if_true] at hr ⊢
    by_cases hb : digits_value ds ≤ 2147483648
    · rw [if_pos hb, if_pos (hr.mpr hb)]
    · rw [if_neg hb, if_neg (fun h => hb (hr.mp h))]

theorem strict_real_p_int_lit (sg : Option Bool) (ds tl : List Char) (hd : all_digits ds)
    (hne : ds ≠ []) (ht : number_end tl) :
    strict_real_p (number_text sg ds none none ++ tl) = none := by
  obtain ⟨c, r, hc, hsp, _, hnone⟩ := number_text_head sg ds none none hd (Or.inl hne)
  have hs : skip (number_text sg ds none none ++ tl) = c :: (r ++ tl) := by
    rw [hc]; exact skip_cons c _ hsp
  rw [strict_real_p_eq _ _ c hs]
  rcases sg with _ | _ | _
  · obtain ⟨e1, n1, n2⟩ := hnone rfl
    have e2 : c :: (r ++ tl) = ds ++ tl := by
      rw [← List.cons_append, ← e1]; simp [frac_text, exp_text]
    simp only [n1, n2, or_self, if_false, e2]
    exact real_tail_digits _ ds tl hd hne ht
  · simp only [number_text, sign_text, frac_text, exp_text, List.cons_append, List.nil_append,
      List.append_nil, List.cons.injEq] at hc
    obtain ⟨rfl, rfl⟩ := hc
    simp only [or_true, if_true]
    exact real_tail_digits _ ds tl hd hne ht
  · simp only [number_text, sign_text, frac_text, exp_text, List.cons_append, List.nil_append,
      List.append_nil, List.cons.injEq] at hc
    obtain ⟨rfl, rfl⟩ := hc
    simp only [true_or, if_true]
    exact real_tail_digits _ ds tl hd hne ht



/-! ## A document with one number -/

theorem single_doc_hit (lit : List Char) (v value : json) (c : Char) (r : List Char)
    (hl : lit = c :: r) (hsp : isspace c = false) (h1 : c ≠ '{') (h2 : c ≠ '[')
    (h3 : c ≠ ',') (h4 : c ≠ ']')
    (hV : ∀ st st1, st.add_action v = some st1 →
      scalar_ st (lit ++ [']']) = .hit st1 [']']) :
    parse ('[' :: (lit ++ [']'])) value = .hit (fresh (.ary [v])) [] := by
  rw [parse_eq]
  have hn : ('[' :: (lit ++ [']'])).length = (lit.length + 1) + 1 := by simp
  rw [hn]
  have hget : (fresh (.ary [v])).root_.get [] = some (.ary [v]) := rfl
  have hadd : (fresh value).add (.ary [v]) = some (fresh (.ary [v]), []) := by
    simp [json_stack.add, fresh]
  have hpush := (json_stack.push_of_add _ _ _ _ hadd).1
  have hs0 : skip ('[' :: (lit ++ [']'])) = '[' :: (lit ++ [']']) :=
    skip_cons _ _ (by decide)
  have hopen : action (ch_p '[') (json_stack.push (.ary [])) (fresh value)
      ('[' :: (lit ++ [']'])) = .hit (in_ary (fresh (.ary [v])) [] []) (lit ++ [']']) := by
    simp only [action, ch_p_hit '[' _ _ _ hs0, hpush]
  have hsl : skip (lit ++ [']']) = c :: (r ++ [']']) := by
    rw [hl]; exact skip_cons c _ hsp
  have hval : value_ (lit.length + 1 + 1) (in_ary (fresh (.ary [v])) [] []) (lit ++ [']'])
      = .hit (in_ary (fresh (.ary [v])) [] ([] ++ [v])) [']'] := by
    rw [value_scalar _ _ _ _ c hsl h1 h2]
    exact hV _ _ (add_action_in_ary _ [] [] _ v hget)
  have hitem := item_hit _ _ _ _ _ _ c hval hsl h3
  have hsk : skip [']'] = ']' :: [] := skip_cons _ _ (by decide)
  have hstar : star_loop (seq (ch_p ',') (diff (value_ (lit.length + 1 + 1)) (ch_p ',')))
      ([']'].length + 1) (in_ary (fresh (.ary [v])) [] ([] ++ [v])) [']']
      = .hit (in_ary (fresh (.ary [v])) [] ([] ++ [v])) [']'] :=
    star_stop _ _ _ [']'] [] ']' hsk (by decide)
  have hbody := body_cons (value_ (lit.length + 1 + 1)) json_stack.pop ']' c _ _ _ _ _ _ _
    hitem hstar hsl h4
  have hclose : action (ch_p ']') json_stack.pop (in_ary (fresh (.ary [v])) [] ([] ++ [v]))
      [']'] = .hit (fresh (.ary [v])) [] := by
    simp only [action, ch_p_hit ']' _ _ _ hsk]
    rw [json_stack.pop_in_ary _ [] ([] ++ [v]) hget]
  have harr : array_ (value_ (lit.length + 1 + 1)) (fresh value) ('[' :: (lit ++ [']']))
      = .hit (fresh (.ary [v])) [] := confix_hit _ _ _ _ _ _ _ _ _ _ _ hopen hbody hclose
  simp only [json_, seq, alt, object_miss _ _ _ _ '[' hs0 (by decide), harr,
    end_p_blank _ [] blank_nil]

theorem single_doc_miss (lit : List Char) (value : json) (c : Char) (r : List Char)
    (hl : lit = c :: r) (hsp : isspace c = false) (h1 : c ≠ '{') (h2 : c ≠ '[')
    (h4 : c ≠ ']') (hV : ∀ st, scalar_ st (lit ++ [']']) = .miss st) :
    parse ('[' :: (lit ++ [']'])) value = .miss (in_ary (fresh (.ary [])) [] []) := by
  rw [parse_eq]
  have hn : ('[' :: (lit ++ [']'])).length = (lit.length + 1) + 1 := by simp
  rw [hn]
  have hadd : (fresh value).add (.ary []) = some (fresh (.ary []), []) := by
    simp [json_stack.add, fresh]
  have hpush := (json_stack.push_of_add _ _ _ _ hadd).1
  have hs0 : skip ('[' :: (lit ++ [']'])) = '[' :: (lit ++ [']']) :=
    skip_cons _ _ (by decide)
  have hopen : action (ch_p '[') (json_stack.push (.ary [])) (fresh value)
      ('[' :: (lit ++ [']'])) = .hit (in_ary (fresh (.ary [])) [] []) (lit ++ [']']) := by
    simp only [action, ch_p_hit '[' _ _ _ hs0, hpush]
  have hsl : skip (lit ++ [']']) = c :: (r ++ [']']) := by
    rw [hl]; exact skip_cons c _ hsp
  have hval : value_ (lit.length + 1 + 1) (in_ary (fresh (.ary [])) [] []) (lit ++ [']'])
      = .miss (in_ary (fresh (.ary [])) [] []) := by
    rw [value_scalar _ _ _ _ c hsl h1 h2]
    exact hV _
  have hbody := body_nil (value_ (lit.length + 1 + 1)) (action (ch_p ']') json_stack.pop) _ _ hval
  have hclose : action (ch_p ']') json_stack.pop (in_ary (fresh (.ary [])) [] [])
      (lit ++ [']']) = .miss (in_ary (fresh (.ary [])) [] []) := by
    simp only [action, ch_p_miss ']' c _ _ _ hsl h4]
  have harr : array_ (value_ (lit.length + 1 + 1)) (fresh value) ('[' :: (lit ++ [']']))
      = .miss (in_ary (fresh (.ary [])) [] []) := by
    simp only [array_, confix_opt, seq, hopen, hbody, hclose]
  simp only [json_, seq, alt, object_miss _ _ _ _ '[' hs0 (by decide), harr]

theorem number_end_close : number_end [']'] := by
  intro c r h
  simp only [List.cons.injEq] at h
  rw [← h.1]; decide

theorem scalar_real_lit (st st1 : json_stack) (i tl : List Char) (q : ℚ)
    (h : strict_real_p i = some (q, tl)) (ha : st.add_action (.real q) = some st1) :
    scalar_ st i = .hit st1 tl := by
  simp [scalar_, alt, number_add, h, ha]

theorem scalar_int_lit (st st1 : json_stack) (i tl : List Char) (n : Int)
    (h0 : strict_real_p i = none) (h : int_p i = some (n, tl))
    (ha : st.add_action (.int n) = some st1) : scalar_ st i = .hit st1 tl := by
  have r := number_add_miss strict_real_p json.real st i h0
  simp only [scalar_, alt, r]
  simp [number_add, h, ha]

theorem scalar_number_miss (st : json_stack) (i r : List Char) (c : Char)
    (hs : skip i = c :: r) (hc : number_start c = true) (h0 : strict_real_p i = none)
    (h : int_p i = none) : scalar_ st i = .miss st := by
  have q1 : c ≠ '"' := by rintro rfl; exact absurd hc (by decide)
  have q2 : c ≠ 't' := by rintro rfl; exact absurd hc (by decide)
  have q3 : c ≠ 'f' := by rintro rfl; exact absurd hc (by decide)
  have q4 : c ≠ 'n' := by rintro rfl; exact absurd hc (by decide)
  simp [scalar_, alt, number_add_miss _ _ st i h0, number_add_miss _ _ st i h, action, string_,
    quoted_miss _ c st i r hs q1, str_p_miss 't' c _ st i r hs q2,
    str_p_miss 'f' c _ st i r hs q3, str_p_miss 'n' c _ st i r hs q4]

theorem all_digits_no_nul (ds : List Char) (h : all_digits ds) : no_nul ds := by
  intro c hc e
  have := h c hc
  rw [e] at this
  exact absurd this (by decide)

theorem number_text_no_nul (sg : Option Bool) (ds : List Char) (f : Option (List Char))
    (e : Option (Bool × Option Bool × List Char)) (hd : all_digits ds)
    (hf : all_digits (f.getD [])) (he : exp_ok e) : no_nul (number_text sg ds f e) := by
  unfold number_text
  apply no_nul_append
  · rcases sg with _ | _ | _ <;> simp only [sign_text] <;> decide
  apply no_nul_append _ _ (all_digits_no_nul ds hd)
  apply no_nul_append
  · rcases f with _ | fs
    · exact no_nul_nil
    · exact no_nul_cons _ _ (by decide) (all_digits_no_nul fs hf)
  · rcases e with _ | ⟨up, sg1, es⟩
    · exact no_nul_nil
    · refine no_nul_cons _ _ (by cases up <;> decide) (no_nul_append _ _ ?_
        (all_digits_no_nul es he.1))
      rcases sg1 with _ | _ | _ <;> simp only [sign_text] <;> decide

theorem parse_number_doc (sg : Option Bool) (ds : List Char) (f : Option (List Char))
    (e : Option (Bool × Option Bool × List Char)) (value : json) (hd : all_digits ds)
    (hf : all_digits (f.getD [])) (he : exp_ok e) (hne : ds ≠ [] ∨ f.getD [] ≠ []) :
    (f ≠ none ∨ e ≠ none →
      parse ('[' :: (number_text sg ds f e ++ [']'])) value
        = .hit (fresh (.ary [.real (real_value sg ds f e)])) []) ∧
    (f = none → e = none → int_range (int_value sg ds) →
      parse ('[' :: (number_text sg ds f e ++ [']'])) value
        = .hit (fresh (.ary [.int (int_value sg ds)])) []) ∧
    (f = none → e = none → ¬ int_range (int_value sg ds) →
      parse ('[' :: (number_text sg ds f e ++ [']'])) value
        = .miss (in_ary (fresh (.ary [])) [] [])) := by
  obtain ⟨c, r, hc, hsp, hns, _⟩ := number_text_head sg ds f e hd hne
  have c1 : c ≠ '{' := by rintro rfl; exact absurd hns (by decide)
  have c2 : c ≠ '[' := by rintro rfl; exact absurd hns (by decide)
  have c3 : c ≠ ',' := by rintro rfl; exact absurd hns (by decide)
  have c4 : c ≠ ']' := by rintro rfl; exact absurd hns (by decide)
  have hnd : no_digit [']'] := fun x y h => (number_end_close x y h).1
  refine ⟨?_, ?_, ?_⟩
  · intro hreal
    exact single_doc_hit _ _ value c r hc hsp c1 c2 c3 c4 (fun st st1 ha =>
      scalar_real_lit st st1 _ _ _
        (strict_real_p_lit sg ds f e [']'] hd hf he hne hreal number_end_close) ha)
  · intro h1 h2 hr
    subst h1 h2
    have hds : ds ≠ [] := by
      rcases hne with h | h
      · exact h
      · exact absurd rfl h
    exact single_doc_hit _ _ value c r hc hsp c1 c2 c3 c4 (fun st st1 ha =>
      scalar_int_lit st st1 _ _ _
        (strict_real_p_int_lit sg ds [']'] hd hds number_end_close)
        (by rw [int_p_lit sg ds [']'] hd hds hnd, if_pos hr]) ha)
  · intro h1 h2 hr
    subst h1 h2
    have hds : ds ≠ [] := by
      rcases hne with h | h
      · exact h
      · exact absurd rfl h
    have hsl : skip (number_text sg ds none none ++ [']']) = c :: (r ++ [']']) := by
      rw [hc]; exact skip_cons c _ hsp
    exact single_doc_miss _ value c r hc hsp c1 c2 c4 (fun st =>
      scalar_number_miss st _ _ c hsl hns
        (strict_real_p_int_lit sg ds [']'] hd hds number_end_close)
        (by rw [int_p_lit sg ds [']'] hd hds hnd, if_neg hr]))

/-- C5, as stated, fails for a digit sequence that is not the value of an `int`: the text
`[2147483648]` is rejected, and the destination is left holding the empty array. -/
theorem C5_counterexample_overflow :
    read_string "[2147483648]".toList .null = .returned false (.ary []) ∧
    read_stream "[-2147483649]".toList .null = .returned false (.ary []) := by
  decide!

theorem read_number_doc (sg : Option Bool) (ds : List Char) (f : Option (List Char))
    (e : Option (Bool × Option Bool × List Char)) (value : json) (hd : all_digits ds)
    (hf : all_digits (f.getD [])) (he : exp_ok e) (hne : ds ≠ [] ∨ f.getD [] ≠ []) :
    (f ≠ none ∨ e ≠ none →
      read_string ('[' :: (number_text sg ds f e ++ [']'])) value
        = .returned true (.ary [.real (real_value sg ds f e)]) ∧
      read_stream ('[' :: (number_text sg ds f e ++ [']'])) value
        = .returned true (.ary [.real (real_value sg ds f e)])) ∧
    (f = none → e = none → int_range (int_value sg ds) →
      read_string ('[' :: (number_text sg ds f e ++ [']'])) value
        = .returned true (.ary [.int (int_value sg ds)]) ∧
      read_stream ('[' :: (number_text sg ds f e ++ [']'])) value
        = .returned true (.ary [.int (int_value sg ds)])) ∧
    (f = none → e = none → ¬ int_range (int_value sg ds) →
      read_string ('[' :: (number_text sg ds f e ++ [']'])) value
        = .returned false (.ary []) ∧
      read_stream ('[' :: (number_text sg ds f e ++ [']'])) value
        = .returned false (.ary [])) := by
  have hc : c_str ('[' :: (number_text sg ds f e ++ [']']))
      = '[' :: (number_text sg ds f e ++ [']']) :=
    c_str_no_nul _ (no_nul_cons _ _ (by decide) (no_nul_append _ _
      (number_text_no_nul sg ds f e hd hf he) (no_nul_cons _ _ (by decide) no_nul_nil)))
  obtain ⟨p1, p2, p3⟩ := parse_number_doc sg ds f e value hd hf he hne
  refine ⟨?_, ?_, ?_⟩
  · intro h
    simp [read_string, read_stream, hc, p1 h, fresh]
  · intro h1 h2 h3
    simp [read_string, read_stream, hc, p2 h1 h2 h3, fresh]
  · intro h1 h2 h3
    simp [read_string, read_stream, hc, p3 h1 h2 h3, fresh, in_ary, json.set]

/-- C5 (amended): in an array, a number literal with a decimal point or an exponent is read
as the `Real` it denotes; a bare sequence of digits with an optional sign is read as the
`Int` it denotes when that is a machine integer, and is otherwise rejected (so that it is
never stored as a `Real`).  `[42]` gives `Int(42)`, `[42.0]` gives `Real(42)` and `[4e2]`
gives `Real(400)`. -/
theorem C5_number_classification (sg : Option Bool) (ds : List Char) (f : Option (List Char))
    (e : Option (Bool × Option Bool × List Char)) (value : json) (hd : all_digits ds)
    (hf : all_digits (f.getD [])) (he : exp_ok e) (hne : ds ≠ [] ∨ f.getD [] ≠ []) :
    (f ≠ none ∨ e ≠ none →
      read_string ('[' :: (number_text sg ds f e ++ [']'])) value
        = .returned true (.ary [.real (real_value sg ds f e)]) ∧
      read_stream ('[' :: (number_text sg ds f e ++ [']'])) value
        = .returned true (.ary [.real (real_value sg ds f e)])) ∧
    (f = none → e = none → int_range (int_value sg ds) →
      read_string ('[' :: (number_text sg ds f e ++ [']'])) value
        = .returned true (.ary [.int (int_value sg ds)]) ∧
      read_stream ('[' :: (number_text sg ds f e ++ [']'])) value
        = .returned true (.ary [.int (int_value sg ds)])) ∧
    (f = none → e = none → ¬ int_range (int_value sg ds) →
      read_string ('[' :: (number_text sg ds f e ++ [']'])) value
        = .returned false (.ary []) ∧
      read_stream ('[' :: (number_text sg ds f e ++ [']'])) value
        = .returned false (.ary [])) ∧
    read_string "[42]".toList value = .returned true (.ary [.int 42]) ∧
    read_string "[42.0]".toList value = .returned true (.ary [.real 42]) ∧
    read_string "[4e2]".toList value = .returned true (.ary [.real 400]) := by
  obtain ⟨p1, p2, p3⟩ := read_number_doc sg ds f e value hd hf he hne
  refine ⟨p1, p2, p3, ?_, ?_, ?_⟩
  · have h := ((read_number_doc none ['4', '2'] none none value (by decide) (by decide) trivial
      (Or.inl (by decide))).2.1 rfl rfl (by decide)).1
    have hv : int_value none ['4', '2'] = 42 := by decide
    rw [hv] at h
    exact h
  · have h := ((read_number_doc none ['4', '2'] (some ['0']) none value (by decide) (by decide)
      trivial (Or.inl (by decide))).1 (Or.inl (by simp))).1
    have hv : real_value none ['4', '2'] (some ['0']) none = 42 := by decide!
    rw [hv] at h
    exact h
  · have h := ((read_number_doc none ['4'] none (some (false, none, ['2'])) value (by decide)
      (by decide) ⟨by decide, by decide⟩ (Or.inl (by decide))).1 (Or.inr (by simp))).1
    have hv : real_value none ['4'] none (some (false, none, ['2'])) = 400 := by decide!
    rw [hv] at h
    exact h

/-- C5 (amended), at the literals `-12.50e+3` and `007`. -/
theorem C5_number_classification_witness :
    read_string "[-12.50e+3]".toList .null = .returned true (.ary [.real (-12500)]) ∧
    read_stream "[007]".toList .null = .returned true (.ary [.int 7]) :=
  ⟨by
    have h := (C5_number_classification (some true) ['1', '2'] (some ['5', '0'])
      (some (false, some false, ['3'])) .null (by decide) (by decide) ⟨by decide, by decide⟩
      (Or.inl (by decide))).1 (Or.inl (by simp))
    have hv : real_value (some true) ['1', '2'] (some ['5', '0'])
        (some (false, some false, ['3'])) = -12500 := by decide!
    rw [hv] at h
    exact h.1,
  by
    have h := (C5_number_classification none ['0', '0', '7'] none none .null (by decide)
      (by decide) trivial (Or.inl (by decide))).2.1 rfl rfl (by decide)
    exact h.2⟩




/-! ## Text behind a document

A parser that has matched has looked at no more of the input than its match and, behind a
number, the character that ends it: the match is the same when the input goes on. -/

/-- The input left behind an element of a container: behind white space a comma or a closing
bracket follows. -/
def term (r : List Char) : Prop :=
  ∃ c t, skip r = c :: t ∧ (c = ',' ∨ c = ']' ∨ c = '}')

theorem isspace_not_number (c : Char) (h : isspace c = true) :
    isdigit c = false ∧ c ≠ '.' ∧ c ≠ 'e' ∧ c ≠ 'E' := by
  refine ⟨?_, ?_, ?_, ?_⟩
  · simp only [isspace, Bool.or_eq_true, decide_eq_true_eq, Bool.and_eq_true] at h
    rcases h with rfl | h
    · decide
    · simp only [isdigit, Bool.and_eq_false_iff, decide_eq_false_iff_not]
      omega
  · rintro rfl; exact absurd h (by decide)
  · rintro rfl; exact absurd h (by decide)
  · rintro rfl; exact absurd h (by decide)

theorem term_ne_nil (r : List Char) (h : term r) : r ≠ [] := by
  rintro rfl
  obtain ⟨c, t, hs, _⟩ := h
  simp [skip] at hs

theorem term_number_end (r : List Char) (h : term r) : number_end r := by
  intro c0 r0 e
  obtain ⟨c, t, hs, hc⟩ := h
  subst e
  by_cases hsp : isspace c0 = true
  · exact isspace_not_number c0 hsp
  · simp only [skip, hsp, Bool.false_eq_true, if_false, List.cons.injEq] at hs
    rw [hs.1]
    rcases hc with rfl | rfl | rfl <;> decide

theorem seq_hit_inv (a b : rule) (st st2 : json_stack) (i r : List Char)
    (h : seq a b st i = .hit st2 r) :
    ∃ st1 r1, a st i = .hit st1 r1 ∧ b st1 r1 = .hit st2 r := by
  unfold seq at h
  cases ha : a st i with
  | hit st1 r1 => rw [ha] at h; exact ⟨st1, r1, rfl, h⟩
  | miss st1 => rw [ha] at h; cases h
  | threw => rw [ha] at h; cases h
  | nofuel => rw [ha] at h; cases h

theorem alt_hit_inv (a b : rule) (st st2 : json_stack) (i r : List Char)
    (h : alt a b st i = .hit st2 r) :
    a st i = .hit st2 r ∨ ∃ st1, a st i = .miss st1 ∧ b st1 i = .hit st2 r := by
  unfold alt at h
  cases ha : a st i with
  | hit st1 r1 => rw [ha] at h; exact Or.inl h
  | miss st1 => rw [ha] at h; exact Or.inr ⟨st1, rfl, h⟩
  | threw => rw [ha] at h; cases h
  | nofuel => rw [ha] at h; cases h

theorem opt_hit_inv (a : rule) (st st2 : json_stack) (i r : List Char)
    (h : opt a st i = .hit st2 r) :
    a st i = .hit st2 r ∨ (a st i = .miss st2 ∧ r = i) := by
  unfold opt at h
  cases ha : a st i with
  | hit st1 r1 => rw [ha] at h; exact Or.inl h
  | miss st1 =>
    rw [ha] at h
    simp only [parse_result.hit.injEq] at h
    exact Or.inr ⟨by rw [h.1], h.2.symm⟩
  | threw => rw [ha] at h; cases h
  | nofuel => rw [ha] at h; cases h

theorem action_hit_inv (p : rule) (f : json_stack → Option json_stack) (st st2 : json_stack)
    (i r : List Char) (h : action p f st i = .hit st2 r) :
    ∃ st1, p st i = .hit st1 r ∧ f st1 = some st2 := by
  unfold action at h
  cases hp : p st i with
  | hit st1 r1 =>
    rw [hp] at h
    simp only at h
    cases hf : f st1 with
    | none => rw [hf] at h; cases h
    | some s =>
      rw [hf] at h
      simp only [parse_result.hit.injEq] at h
      exact ⟨st1, by rw [h.2], by rw [hf, h.1]⟩
  | miss st1 => rw [hp] at h; cases h
  | threw => rw [hp] at h; cases h
  | nofuel => rw [hp] at h; cases h

theorem ch_p_hit_inv (c : Char) (st st1 : json_stack) (i r : List Char)
    (h : ch_p c st i = .hit st1 r) : st1 = st ∧ skip i = c :: r := by
  unfold ch_p at h
  cases hs : skip i with
  | nil => rw [hs] at h; cases h
  | cons x t =>
    rw [hs] at h
    simp only at h
    by_cases hx : x = c
    · simp only [hx, if_true, parse_result.hit.injEq] at h
      exact ⟨h.1.symm, by rw [hx, h.2]⟩
    · simp only [hx, if_false] at h
      cases h

theorem ch_p_append (c : Char) (st : json_stack) (i r ext : List Char)
    (h : skip i = c :: r) : ch_p c st (i ++ ext) = .hit st (r ++ ext) :=
  ch_p_hit c st _ _ (skip_append i ext c r h)

theorem ch_p_miss_append (x c : Char) (st : json_stack) (i r ext : List Char)
    (h : skip i = c :: r) (hne : c ≠ x) : ch_p x st (i ++ ext) = .miss st :=
  ch_p_miss x c st _ _ (skip_append i ext c r h) hne

/-! ### Numbers -/

theorem extract_digits_stable (ext : List Char) : ∀ (i : List Char) (n count v k : Nat)
    (r : List Char), extract_digits i n count = (v, k, r) → r ≠ [] →
    extract_digits (i ++ ext) n count = (v, k, r ++ ext)
  | [], n, count, v, k, r, h, hr => by
    simp only [extract_digits, Prod.mk.injEq] at h
    exact absurd h.2.2.symm hr
  | c :: i, n, count, v, k, r, h, hr => by
    show extract_digits (c :: (i ++ ext)) n count = _
    by_cases hc : isdigit c = true
    · rw [extract_digits, if_pos hc] at h ⊢
      exact extract_digits_stable ext i _ _ v k r h hr
    · rw [extract_digits, if_neg hc] at h ⊢
      simp only [Prod.mk.injEq] at h
      obtain ⟨rfl, rfl, rfl⟩ := h
      rfl

theorem extract_digits_count : ∀ (i : List Char) (n count : Nat),
    count ≤ (extract_digits i n count).2.1
  | [], _, _ => le_refl _
  | c :: i, n, count => by
    by_cases hc : isdigit c = true
    · rw [extract_digits, if_pos hc]
      exact le_trans (Nat.le_succ _) (extract_digits_count i _ _)
    · rw [extract_digits, if_neg hc]

theorem extract_digits_zero (i : List Char) (n count : Nat)
    (h : (extract_digits i n count).2.1 = count) : extract_digits i n count = (n, count, i) := by
  cases i with
  | nil => rfl
  | cons c i =>
    by_cases hc : isdigit c = true
    · rw [extract_digits, if_pos hc] at h
      have := extract_digits_count i (n * 10 + (c.toNat - 48)) (count + 1)
      omega
    · rw [extract_digits, if_neg hc]

theorem extract_int_stable (limit : Nat) (ext : List Char) : ∀ (i : List Char)
    (n count v k : Nat) (r : List Char), extract_int limit i n count = some (v, k, r) →
    r ≠ [] → extract_int limit (i ++ ext) n count = some (v, k, r ++ ext)
  | [], n, count, v, k, r, h, hr => by
    simp only [extract_int, Option.some.injEq, Prod.mk.injEq] at h
    exact absurd h.2.2.symm hr
  | c :: i, n, count, v, k, r, h, hr => by
    show extract_int limit (c :: (i ++ ext)) n count = _
    by_cases hc : isdigit c = true
    · rw [extract_int, if_pos hc] at h ⊢
      by_cases c1 : n > limit / 10
      · rw [if_pos c1] at h; cases h
      · rw [if_neg c1] at h ⊢
        by_cases c2 : n * 10 > limit - (c.toNat - 48)
        · rw [if_pos c2] at h; cases h
        · rw [if_neg c2] at h ⊢
          exact extract_int_stable limit ext i _ _ v k r h hr
    · rw [extract_int, if_neg hc] at h ⊢
      simp only [Option.some.injEq, Prod.mk.injEq] at h
      obtain ⟨rfl, rfl, rfl⟩ := h
      rfl

theorem extract_int_as_digits (limit : Nat) : ∀ (i : List Char) (n count v k : Nat)
    (r : List Char), extract_int limit i n count = some (v, k, r) →
    extract_digits i n count = (v, k, r)
  | [], n, count, v, k, r, h => by
    simp only [extract_int, Option.some.injEq, Prod.mk.injEq] at h
    obtain ⟨rfl, rfl, rfl⟩ := h
    rfl
  | c :: i, n, count, v, k, r, h => by
    by_cases hc : isdigit c = true
    · rw [extract_int, if_pos hc] at h
      rw [extract_digits, if_pos hc]
      by_cases c1 : n > limit / 10
      · rw [if_pos c1] at h; cases h
      · rw [if_neg c1] at h
        by_cases c2 : n * 10 > limit - (c.toNat - 48)
        · rw [if_pos c2] at h; cases h
        · rw [if_neg c2] at h
          exact extract_int_as_digits limit i _ _ v k r h
    · rw [extract_int, if_neg hc] at h
      rw [extract_digits, if_neg hc]
      simp only [Option.some.injEq, Prod.mk.injEq] at h
      obtain ⟨rfl, rfl, rfl⟩ := h
      rfl



theorem int_p_stable (i ext : List Char) (n : Int) (r : List Char)
    (h : int_p i = some (n, r)) (hr : r ≠ []) : int_p (i ++ ext) = some (n, r ++ ext) := by
  unfold int_p at h ⊢
  cases hs : skip i with
  | nil => rw [hs] at h; cases h
  | cons c t =>
    rw [hs] at h
    rw [skip_append i ext c t hs]
    simp only at h ⊢
    by_cases hm : c = '-'
    · simp only [hm, if_true] at h ⊢
      cases hx : extract_int 2147483648 t 0 0 with
      | none => rw [hx] at h; cases h
      | some res =>
        obtain ⟨v, k, r0⟩ := res
        rw [hx] at h
        simp only at h
        by_cases hk : 1 ≤ k
        · simp only [hk, if_true, Option.some.injEq, Prod.mk.injEq] at h
          obtain ⟨rfl, rfl⟩ := h
          rw [extract_int_stable 2147483648 ext t 0 0 v k r0 hx hr]
          simp only [hk, if_true]
        · simp only [hk, if_false] at h
          cases h
    · simp only [hm, if_false] at h ⊢
      have e : (if c = '+' then t ++ ext else c :: (t ++ ext))
          = (if c = '+' then t else c :: t) ++ ext := by
        split <;> rfl
      rw [e]
      cases hx : extract_int 2147483647 (if c = '+' then t else c :: t) 0 0 with
      | none => rw [hx] at h; cases h
      | some res =>
        obtain ⟨v, k, r0⟩ := res
        rw [hx] at h
        simp only at h
        by_cases hk : 1 ≤ k
        · simp only [hk, if_true, Option.some.injEq, Prod.mk.injEq] at h
          obtain ⟨rfl, rfl⟩ := h
          rw [extract_int_stable 2147483647 ext _ 0 0 v k r0 hx hr]
          simp only [hk, if_true]
        · simp only [hk, if_false] at h
          cases h

theorem real_exponent_stable (n q : ℚ) (i ext r : List Char)
    (h : real_exponent n i = some (q, r)) (hr : r ≠ []) :
    real_exponent n (i ++ ext) = some (q, r ++ ext) := by
  cases i with
  | nil =>
    simp only [real_exponent, Option.some.injEq, Prod.mk.injEq] at h
    exact absurd h.2.symm hr
  | cons c t =>
    show real_exponent n (c :: (t ++ ext)) = _
    by_cases hc : c = 'e' ∨ c = 'E'
    · cases t with
      | nil => simp [real_exponent, hc] at h
      | cons s r1 =>
        simp only [real_exponent, hc, if_true] at h
        show real_exponent n (c :: s :: (r1 ++ ext)) = _
        simp only [real_exponent, hc, if_true]
        have e : (if s = '-' ∨ s = '+' then r1 ++ ext else s :: (r1 ++ ext))
            = (if s = '-' ∨ s = '+' then r1 else s :: r1) ++ ext := by
          split <;> rfl
        rw [e]
        cases hd : extract_digits (if s = '-' ∨ s = '+' then r1 else s :: r1) 0 0 with
        | mk v res =>
          obtain ⟨k, r0⟩ := res
          rw [hd] at h
          simp only at h
          by_cases hk : 1 ≤ k
          · simp only [hk, if_true, Option.some.injEq, Prod.mk.injEq] at h
            obtain ⟨rfl, rfl⟩ := h
            rw [extract_digits_stable ext _ 0 0 v k r0 hd hr]
            simp only [hk, if_true]
          · simp only [hk, if_false] at h
            cases h
    · simp only [real_exponent, hc, if_false, Option.some.injEq, Prod.mk.injEq] at h ⊢
      obtain ⟨rfl, rfl⟩ := h
      exact ⟨rfl, rfl⟩

theorem real_exponent_rest (n q : ℚ) (r : List Char)
    (h : real_exponent n [] = some (q, r)) : r = [] := by
  simp only [real_exponent, Option.some.injEq, Prod.mk.injEq] at h
  exact h.2.symm

theorem real_tail_stable (neg : Bool) (q : ℚ) (i ext r : List Char)
    (h : real_tail neg i = some (q, r)) (hr : r ≠ []) :
    real_tail neg (i ++ ext) = some (q, r ++ ext) := by
  unfold real_tail at h ⊢
  cases hd : extract_digits i 0 0 with
  | mk v res =>
    obtain ⟨k, r0⟩ := res
    rw [hd] at h
    simp only at h
    cases r0 with
    | nil => cases h
    | cons x r1 =>
      rw [extract_digits_stable ext i 0 0 v k (x :: r1) hd (by simp)]
      simp only [List.cons_append] at h ⊢
      by_cases hx : x = '.'
      · simp only [hx, if_true] at h ⊢
        cases hf : extract_digits r1 0 0 with
        | mk fv fres =>
          obtain ⟨fk, fr⟩ := fres
          rw [hf] at h
          simp only at h
          by_cases hk : 1 ≤ fk
          · simp only [hk, if_true] at h
            have hfr : fr ≠ [] := by
              rintro rfl
              exact hr (real_exponent_rest _ _ _ h)
            rw [extract_digits_stable ext r1 0 0 fv fk fr hf hfr]
            simp only [hk, if_true]
            exact real_exponent_stable _ _ _ ext _ h hr
          · simp only [hk, if_false] at h
            have hz : fk = 0 := by omega
            have hf0 : extract_digits r1 0 0 = (0, 0, r1) :=
              extract_digits_zero r1 0 0 (by rw [hf]; exact hz)
            by_cases hg : (!decide (1 ≤ k)) = true
            · simp only [hg, if_true] at h
              cases h
            · simp only [hg, if_false] at h
              have hr1 : r1 ≠ [] := by
                rintro rfl
                exact hr (real_exponent_rest _ _ _ h)
              rw [extract_digits_stable ext r1 0 0 0 0 r1 hf0 hr1]
              simp only [Nat.le_zero_eq, one_ne_zero, if_false, hg]
              exact real_exponent_stable _ _ _ ext _ h hr
      · simp only [hx, if_false] at h ⊢
        by_cases hg : (!decide (1 ≤ k)) = true
        · simp only [hg, if_true] at h
          cases h
        · simp only [hg, if_false] at h ⊢
          by_cases he : x = 'e' ∨ x = 'E'
          · simp only [he, if_true] at h ⊢
            exact real_exponent_stable _ _ (x :: r1) ext _ h hr
          · simp only [he, if_false] at h
            cases h

theorem strict_real_p_stable (i ext : List Char) (q : ℚ) (r : List Char)
    (h : strict_real_p i = some (q, r)) (hr : r ≠ []) :
    strict_real_p (i ++ ext) = some (q, r ++ ext) := by
  cases hs : skip i with
  | nil => simp [strict_real_p, hs] at h
  | cons c t =>
    rw [strict_real_p_eq i t c hs] at h
    rw [strict_real_p_eq (i ++ ext) (t ++ ext) c (skip_append i ext c t hs)]
    have e : (if c = '-' ∨ c = '+' then t ++ ext else c :: (t ++ ext))
        = (if c = '-' ∨ c = '+' then t else c :: t) ++ ext := by
      split <;> rfl
    rw [e]
    exact real_tail_stable _ q _ ext r h hr

theorem real_tail_none_of_digits (neg : Bool) (i ext r : List Char) (v k : Nat)
    (hd : extract_digits i 0 0 = (v, k, r)) (hr : r ≠ []) (hn : number_end r) :
    real_tail neg (i ++ ext) = none := by
  unfold real_tail
  rw [extract_digits_stable ext i 0 0 v k r hd hr]
  cases r with
  | nil => exact absurd rfl hr
  | cons x r1 =>
    obtain ⟨_, h2, h3, h4⟩ := hn x r1 rfl
    simp [h2, h3, h4]

theorem strict_real_p_none_of_int (i ext : List Char) (n : Int) (r : List Char)
    (h : int_p i = some (n, r)) (hr : r ≠ []) (hn : number_end r) :
    strict_real_p (i ++ ext) = none := by
  unfold int_p at h
  cases hs : skip i with
  | nil => rw [hs] at h; cases h
  | cons c t =>
    rw [hs] at h
    rw [strict_real_p_eq (i ++ ext) (t ++ ext) c (skip_append i ext c t hs)]
    have e : (if c = '-' ∨ c = '+' then t ++ ext else c :: (t ++ ext))
        = (if c = '-' ∨ c = '+' then t else c :: t) ++ ext := by
      split <;> rfl
    rw [e]
    simp only at h
    by_cases hm : c = '-'
    · simp only [hm, if_true] at h
      cases hx : extract_int 2147483648 t 0 0 with
      | none => rw [hx] at h; cases h
      | some res =>
        obtain ⟨v, k, r0⟩ := res
        rw [hx] at h
        simp only at h
        by_cases hk : 1 ≤ k
        · simp only [hk, if_true, Option.some.injEq, Prod.mk.injEq] at h
          obtain ⟨_, rfl⟩ := h
          simp only [hm, true_or, if_true]
          exact real_tail_none_of_digits _ t ext r0 v k
            (extract_int_as_digits _ t 0 0 v k r0 hx) hr hn
        · simp only [hk, if_false] at h
          cases h
    · simp only [hm, if_false] at h
      cases hx : extract_int 2147483647 (if c = '+' then t else c :: t) 0 0 with
      | none => rw [hx] at h; cases h
      | some res =>
        obtain ⟨v, k, r0⟩ := res
        rw [hx] at h
        simp only at h
        by_cases hk : 1 ≤ k
        · simp only [hk, if_true, Option.some.injEq, Prod.mk.injEq] at h
          obtain ⟨_, rfl⟩ := h
          simp only [hm, false_or]
          exact real_tail_none_of_digits _ _ ext r0 v k
            (extract_int_as_digits _ _ 0 0 v k r0 hx) hr hn
        · simp only [hk, if_false] at h
          cases h



/-! ### String literals -/

theorem hex_decode_stable (ext : List Char) : ∀ (i : List Char) (hex h : Nat) (r : List Char),
    hex_decode i hex = some (h, r) → r ≠ [] → hex_decode (i ++ ext) hex = some (h, r ++ ext)
  | [], hex, h, r, e, hr => by
    simp only [hex_decode, Option.some.injEq, Prod.mk.injEq] at e
    exact absurd e.2.symm hr
  | c :: i, hex, h, r, e, hr => by
    show hex_decode (c :: (i ++ ext)) hex = _
    rw [hex_decode] at e ⊢
    by_cases c1 : hex > 7 ∧ isxdigit c = true
    · rw [if_pos c1] at e; cases e
    · rw [if_neg c1] at e ⊢
      by_cases c2 : isdigit c = true
      · rw [if_pos c2] at e ⊢
        exact hex_decode_stable ext i _ h r e hr
      · rw [if_neg c2] at e ⊢
        by_cases c3 : 97 ≤ c.toNat ∧ c.toNat ≤ 102
        · rw [if_pos c3] at e ⊢
          exact hex_decode_stable ext i _ h r e hr
        · rw [if_neg c3] at e ⊢
          by_cases c4 : 65 ≤ c.toNat ∧ c.toNat ≤ 70
          · rw [if_pos c4] at e ⊢
            exact hex_decode_stable ext i _ h r e hr
          · rw [if_neg c4] at e ⊢
            simp only [Option.some.injEq, Prod.mk.injEq] at e
            obtain ⟨rfl, rfl⟩ := e
            rfl

theorem oct_decode_stable (ext : List Char) : ∀ (i : List Char) (oct h : Nat) (r : List Char),
    oct_decode i oct = some (h, r) → r ≠ [] → oct_decode (i ++ ext) oct = some (h, r ++ ext)
  | [], oct, h, r, e, hr => by
    simp only [oct_decode, Option.some.injEq, Prod.mk.injEq] at e
    exact absurd e.2.symm hr
  | c :: i, oct, h, r, e, hr => by
    show oct_decode (c :: (i ++ ext)) oct = _
    rw [oct_decode] at e ⊢
    by_cases c1 : oct > 15 ∧ isodigit c = true
    · rw [if_pos c1] at e; cases e
    · rw [if_neg c1] at e ⊢
      by_cases c2 : isodigit c = true
      · rw [if_pos c2] at e ⊢
        exact oct_decode_stable ext i _ h r e hr
      · rw [if_neg c2] at e ⊢
        simp only [Option.some.injEq, Prod.mk.injEq] at e
        obtain ⟨rfl, rfl⟩ := e
        rfl

theorem recognised_other (y : Char) (t : List Char) (h1 : y ≠ 'x') (h2 : y ≠ 'X') :
    ∃ len, escape_char_parse ('\\' :: y :: t) = some len := by
  have hb : ¬ (('\\' : Char) ≠ '\\') := by decide
  simp only [escape_char_parse, hb, if_false, h1, h2, or_self]
  cases uint_char 8 3 (y :: t) 0 0 with
  | none => exact ⟨2, rfl⟩
  | some k => exact ⟨1 + k, rfl⟩

theorem recognised_hex (y : Char) (t : List Char) (h : y = 'x' ∨ y = 'X') :
    escape_char_parse ('\\' :: y :: t) = (uint_char 16 2 t 0 0).map (fun k => 2 + k) := by
  have hb : ¬ (('\\' : Char) ≠ '\\') := by decide
  have hu : uint_char 8 3 (y :: t) 0 0 = none := by
    rcases h with rfl | rfl <;> simp [uint_char, radix_digit, isdigit]
  simp only [escape_char_parse, hb, if_false, hu, h, if_true]

theorem uint_char_two (d1 d2 : Char) (t : List Char) :
    uint_char 16 2 (d1 :: d2 :: t) 0 0 = uint_char 16 2 [d1, d2] 0 0 := by
  simp only [uint_char]

theorem hex_decode_digit_rest (d : Char) (v : Nat) (hd : radix_digit 16 d = some v)
    (h : Nat) (r : List Char) (e : hex_decode [d] 0 = some (h, r)) : r = [] := by
  rw [hex_decode_digit d v 0 [] hd (by omega)] at e
  simp only [hex_decode, Option.some.injEq, Prod.mk.injEq] at e
  exact e.2.symm

theorem hex_recognised_stable (t ext : List Char) (k h : Nat) (r : List Char)
    (hu : uint_char 16 2 t 0 0 = some k) (hd : hex_decode t 0 = some (h, r)) (hr : r ≠ []) :
    uint_char 16 2 (t ++ ext) 0 0 = some k := by
  rcases t with _ | ⟨d1, _ | ⟨d2, t2⟩⟩
  · simp [uint_char] at hu
  · cases hv : radix_digit 16 d1 with
    | none => simp [uint_char, hv] at hu
    | some v => exact absurd (hex_decode_digit_rest d1 v hv h r hd) hr
  · show uint_char 16 2 (d1 :: d2 :: (t2 ++ ext)) 0 0 = some k
    rw [uint_char_two] at hu ⊢
    exact hu

theorem lex_escape_quote (t : List Char) : lex_escape_ch_p ('"' :: t) = some ('"', 1, t) := by
  have hq : ('"' : Char) ≠ '\\' := by decide
  simp [lex_escape_ch_p, escape_char_parse, hq]

theorem lex_escape_nil : lex_escape_ch_p [] = none := by
  simp [lex_escape_ch_p, escape_char_parse]

/-- The decoding of the character behind a backslash in `lex_escape_ch_p`, for a match of the
recogniser of length `len`. -/
def escape_decode (len : Nat) (x : Char) (r1 : List Char) : Option (Char × Nat × List Char) :=
  if x = 'b' then some (Char.ofNat 8, len, r1)
  else if x = 't' then some ('\t', len, r1)
  else if x = 'n' then some ('\n', len, r1)
  else if x = 'f' then some (Char.ofNat 12, len, r1)
  else if x = 'r' then some ('\r', len, r1)
  else if x = '"' then some ('"', len, r1)
  else if x = Char.ofNat 39 then some (Char.ofNat 39, len, r1)
  else if x = '\\' then some ('\\', len, r1)
  else if x = 'x' ∨ x = 'X' then
    (hex_decode r1 0).map (fun h => (Char.ofNat h.1, len, h.2))
  else if isodigit x then
    (oct_decode (x :: r1) 0).map (fun h => (Char.ofNat h.1, len, h.2))
  else some (x, len, r1)

theorem lex_escape_backslash (x : Char) (r1 : List Char) :
    lex_escape_ch_p ('\\' :: x :: r1)
      = (escape_char_parse ('\\' :: x :: r1)).bind (fun len => escape_decode len x r1) := by
  unfold lex_escape_ch_p escape_decode
  cases escape_char_parse ('\\' :: x :: r1) with
  | none => rfl
  | some len => rfl

theorem decode_named (ch c : Char) (len len0 len1 : Nat) (r1 r ext : List Char)
    (h : (some (ch, len, r1) : Option (Char × Nat × List Char)) = some (c, len0, r)) :
    (some (ch, len1, r1 ++ ext) : Option (Char × Nat × List Char))
      = some (c, len1, r ++ ext) := by
  simp only [Option.some.injEq, Prod.mk.injEq] at h
  obtain ⟨rfl, _, rfl⟩ := h
  rfl

theorem escape_decode_stable (len len1 : Nat) (x : Char) (r1 ext : List Char) (c : Char)
    (len0 : Nat) (r : List Char) (h : escape_decode len x r1 = some (c, len0, r))
    (hr : r ≠ []) : escape_decode len1 x (r1 ++ ext) = some (c, len1, r ++ ext) := by
  unfold escape_decode at h ⊢
  by_cases n1 : x = 'b'
  · rw [if_pos n1] at h ⊢; exact decode_named _ _ _ _ _ _ _ _ h
  rw [if_neg n1] at h ⊢
  by_cases n2 : x = 't'
  · rw [if_pos n2] at h ⊢; exact decode_named _ _ _ _ _ _ _ _ h
  rw [if_neg n2] at h ⊢
  by_cases n3 : x = 'n'
  · rw [if_pos n3] at h ⊢; exact decode_named _ _ _ _ _ _ _ _ h
  rw [if_neg n3] at h ⊢
  by_cases n4 : x = 'f'
  · rw [if_pos n4] at h ⊢; exact decode_named _ _ _ _ _ _ _ _ h
  rw [if_neg n4] at h ⊢
  by_cases n5 : x = 'r'
  · rw [if_pos n5] at h ⊢; exact decode_named _ _ _ _ _ _ _ _ h
  rw [if_neg n5] at h ⊢
  by_cases n6 : x = '"'
  · rw [if_pos n6] at h ⊢; exact decode_named _ _ _ _ _ _ _ _ h
  rw [if_neg n6] at h ⊢
  by_cases n7 : x = Char.ofNat 39
  · rw [if_pos n7] at h ⊢; exact decode_named _ _ _ _ _ _ _ _ h
  rw [if_neg n7] at h ⊢
  by_cases n8 : x = '\\'
  · rw [if_pos n8] at h ⊢; exact decode_named _ _ _ _ _ _ _ _ h
  rw [if_neg n8] at h ⊢
  by_cases n9 : x = 'x' ∨ x = 'X'
  · rw [if_pos n9] at h ⊢
    cases hd : hex_decode r1 0 with
    | none => rw [hd] at h; cases h
    | some res =>
      obtain ⟨hv, r0⟩ := res
      rw [hd] at h
      simp only [Option.map_some', Option.some.injEq, Prod.mk.injEq] at h
      obtain ⟨rfl, _, rfl⟩ := h
      rw [hex_decode_stable ext r1 0 hv r0 hd hr]
      rfl
  rw [if_neg n9] at h ⊢
  by_cases n10 : isodigit x = true
  · rw [if_pos n10] at h ⊢
    cases hd : oct_decode (x :: r1) 0 with
    | none => rw [hd] at h; cases h
    | some res =>
      obtain ⟨ov, r0⟩ := res
      rw [hd] at h
      simp only [Option.map_some', Option.some.injEq, Prod.mk.injEq] at h
      obtain ⟨rfl, _, rfl⟩ := h
      have := oct_decode_stable ext (x :: r1) 0 ov r0 hd hr
      simp only [List.cons_append] at this
      rw [this]
      rfl
  rw [if_neg n10] at h ⊢
  exact decode_named _ _ _ _ _ _ _ _ h

theorem escape_decode_hex (len : Nat) (x : Char) (r1 : List Char) (hx : x = 'x' ∨ x = 'X') :
    escape_decode len x r1 = (hex_decode r1 0).map (fun h => (Char.ofNat h.1, len, h.2)) := by
  unfold escape_decode
  rcases hx with rfl | rfl <;> simp

theorem lex_escape_stable (x : Char) (t ext : List Char) (c : Char) (len : Nat)
    (r : List Char) (h : lex_escape_ch_p (x :: t) = some (c, len, r)) (hr : r ≠ []) :
    ∃ len1, lex_escape_ch_p (x :: (t ++ ext)) = some (c, len1, r ++ ext) := by
  by_cases hx : x = '\\'
  · subst hx
    cases t with
    | nil => simp [lex_escape_ch_p, escape_char_parse, uint_char] at h
    | cons y t1 =>
      show ∃ len1, lex_escape_ch_p ('\\' :: y :: (t1 ++ ext)) = some (c, len1, r ++ ext)
      rw [lex_escape_backslash] at h ⊢
      cases hp : escape_char_parse ('\\' :: y :: t1) with
      | none => rw [hp] at h; cases h
      | some l0 =>
        rw [hp] at h
        simp only [Option.some_bind] at h
        by_cases hy : y = 'x' ∨ y = 'X'
        · rw [recognised_hex y _ hy] at hp ⊢
          cases hu : uint_char 16 2 t1 0 0 with
          | none => rw [hu] at hp; cases hp
          | some k =>
            have hd0 := h
            rw [escape_decode_hex _ _ _ hy] at hd0
            cases hd : hex_decode t1 0 with
            | none => rw [hd] at hd0; cases hd0
            | some res =>
              obtain ⟨hv, r0⟩ := res
              rw [hd] at hd0
              simp only [Option.map_some', Option.some.injEq, Prod.mk.injEq] at hd0
              obtain ⟨_, _, e3⟩ := hd0
              rw [hex_recognised_stable t1 ext k hv r0 hu hd (by rw [e3]; exact hr)]
              simp only [Option.map_some', Option.some_bind]
              exact ⟨_, escape_decode_stable l0 _ y t1 ext c len r h hr⟩
        · have hy1 : y ≠ 'x' := fun e => hy (Or.inl e)
          have hy2 : y ≠ 'X' := fun e => hy (Or.inr e)
          obtain ⟨l1, hl1⟩ := recognised_other y (t1 ++ ext) hy1 hy2
          rw [hl1]
          simp only [Option.some_bind]
          exact ⟨_, escape_decode_stable l0 _ y t1 ext c len r h hr⟩
  · have hp : escape_char_parse (x :: t) = some 1 := by simp [escape_char_parse, hx]
    have hp1 : escape_char_parse (x :: (t ++ ext)) = some 1 := by simp [escape_char_parse, hx]
    unfold lex_escape_ch_p at h ⊢
    rw [hp] at h
    rw [hp1]
    simp only [hx, if_false, Option.some.injEq, Prod.mk.injEq] at h ⊢
    exact ⟨1, h.1, rfl, by rw [h.2.2]⟩

theorem escape_loop_nil (a : Char → json_stack → json_stack) (m : Nat) (st st1 : json_stack)
    (r : List Char) (h : escape_loop a m st [] = .hit st1 r) : r = [] := by
  cases m with
  | zero => cases h
  | succ m =>
    simp only [escape_loop, lex_escape_nil, parse_result.hit.injEq] at h
    exact h.2.symm

theorem escape_loop_stable (a : Char → json_stack → json_stack) (ext : List Char) (k : Nat) :
    ∀ (m : Nat) (st st1 : json_stack) (i r : List Char),
    escape_loop a m st i = .hit st1 ('"' :: r) →
    escape_loop a (m + k) st (i ++ ext) = .hit st1 ('"' :: (r ++ ext))
  | 0, _, _, _, _, h => by cases h
  | m + 1, st, st1, i, r, h => by
    rw [Nat.add_right_comm]
    cases i with
    | nil =>
      have := escape_loop_nil a (m + 1) st st1 _ h
      cases this
    | cons x t =>
      show escape_loop a (m + k + 1) st (x :: (t ++ ext)) = _
      by_cases hx : x = '"'
      · subst hx
        simp only [escape_loop, lex_escape_quote, lt_self_iff_false, not_false_eq_true, and_self,
          if_true, parse_result.hit.injEq, List.cons.injEq, true_and] at h ⊢
        exact ⟨h.1, by rw [h.2]⟩
      · cases hl : lex_escape_ch_p (x :: t) with
        | none =>
          simp only [escape_loop, hl, parse_result.hit.injEq, List.cons.injEq] at h
          exact absurd h.2.1 hx
        | some res =>
          obtain ⟨c, len, r1⟩ := res
          simp only [escape_loop, hl, hx, false_and, if_false] at h
          have hr1 : r1 ≠ [] := by
            rintro rfl
            have := escape_loop_nil a m _ st1 _ h
            cases this
          obtain ⟨len1, hl1⟩ := lex_escape_stable x t ext c len r1 hl hr1
          simp only [escape_loop, hl1, hx, false_and, if_false]
          exact escape_loop_stable a ext k m _ st1 r1 r h

theorem quoted_stable (a : Char → json_stack → json_stack) (st st1 : json_stack)
    (i r ext : List Char) (h : quoted a st i = .hit st1 r) :
    quoted a st (i ++ ext) = .hit st1 (r ++ ext) := by
  unfold quoted at h ⊢
  cases hs : skip i with
  | nil => rw [hs] at h; cases h
  | cons q r0 =>
    rw [hs] at h
    rw [skip_append i ext q r0 hs]
    simp only at h ⊢
    by_cases hq : q = '"'
    · simp only [hq, if_true] at h ⊢
      cases he : escape_loop a (r0.length + 1) st r0 with
      | hit s1 r1 =>
        rw [he] at h
        simp only at h
        cases r1 with
        | nil => cases h
        | cons q1 r2 =>
          simp only at h
          by_cases hq1 : q1 = '"'
          · subst hq1
            simp only [if_true, parse_result.hit.injEq] at h
            obtain ⟨rfl, rfl⟩ := h
            have := escape_loop_stable a ext ext.length (r0.length + 1) st s1 r0 r2 he
            have e : (r0 ++ ext).length + 1 = r0.length + 1 + ext.length := by
              simp only [List.length_append]; omega
            rw [e, this]
            simp only [if_true]
          · simp only [hq1, if_false] at h
            cases h
      | miss s1 => rw [he] at h; cases h
      | threw => rw [he] at h; cases h
      | nofuel => rw [he] at h; cases h
    · simp only [hq, if_false] at h
      cases h



/-! ### Scalars -/

theorem match_lit_stable (ext : List Char) : ∀ (s j r : List Char),
    match_lit s j = some r → match_lit s (j ++ ext) = some (r ++ ext)
  | [], j, r, h => by
    simp only [match_lit, Option.some.injEq] at h
    subst h
    cases j <;> rfl
  | c :: s, [], r, h => by simp [match_lit] at h
  | c :: s, x :: j, r, h => by
    show match_lit (c :: s) (x :: (j ++ ext)) = _
    rw [match_lit] at h ⊢
    by_cases hx : x = c
    · rw [if_pos hx] at h ⊢
      exact match_lit_stable ext s j r h
    · rw [if_neg hx] at h
      cases h

theorem str_p_stable (x : Char) (s : List Char) (st st1 : json_stack) (i r ext : List Char)
    (h : str_p (x :: s) st i = .hit st1 r) :
    str_p (x :: s) st (i ++ ext) = .hit st1 (r ++ ext) := by
  unfold str_p at h ⊢
  cases hs : skip i with
  | nil => rw [hs] at h; simp [match_lit] at h
  | cons c t =>
    rw [hs] at h
    rw [skip_append i ext c t hs]
    cases hm : match_lit (x :: s) (c :: t) with
    | none => rw [hm] at h; cases h
    | some r1 =>
      rw [hm] at h
      simp only [parse_result.hit.injEq] at h
      obtain ⟨rfl, rfl⟩ := h
      have := match_lit_stable ext (x :: s) (c :: t) r1 hm
      simp only [List.cons_append] at this
      rw [this]

theorem action_stable (p : rule) (f : json_stack → Option json_stack) (st st1 : json_stack)
    (i r ext : List Char)
    (hp : ∀ s1, p st i = .hit s1 r → p st (i ++ ext) = .hit s1 (r ++ ext))
    (h : action p f st i = .hit st1 r) : action p f st (i ++ ext) = .hit st1 (r ++ ext) := by
  obtain ⟨s1, h1, h2⟩ := action_hit_inv p f st st1 i r h
  simp only [action, hp s1 h1, h2]

theorem action_miss (p : rule) (f : json_stack → Option json_stack) (st : json_stack)
    (i : List Char) (h : p st i = .miss st) : action p f st i = .miss st := by
  simp only [action, h]

theorem alt_of_miss (a b : rule) (st : json_stack) (i : List Char) (h : a st i = .miss st) :
    alt a b st i = b st i := by
  simp only [alt, h]

theorem alt_of_hit (a b : rule) (st st1 : json_stack) (i r : List Char)
    (h : a st i = .hit st1 r) : alt a b st i = .hit st1 r := by
  simp only [alt, h]

/-- The alternatives of `scalar_` for the three literals. -/
def literal_ : rule :=
  alt (action (str_p ['t', 'r', 'u', 'e']) (json_stack.add_action (.bool true)))
  (alt (action (str_p ['f', 'a', 'l', 's', 'e']) (json_stack.add_action (.bool false)))
       (action (str_p ['n', 'u', 'l', 'l']) (json_stack.add_action .null)))

theorem scalar_eq : scalar_ = alt (number_add strict_real_p json.real)
    (alt (number_add int_p json.int) (alt (action string_ json_stack.add_str) literal_)) := rfl

theorem action_str_p_miss_state (s : List Char) (f : json_stack → Option json_stack)
    (st s1 : json_stack) (i : List Char) (h : action (str_p s) f st i = .miss s1) : s1 = st := by
  unfold action at h
  cases hp : str_p s st i with
  | hit s2 r2 =>
    rw [hp] at h
    simp only at h
    cases hf : f s2 with
    | none => rw [hf] at h; cases h
    | some s3 => rw [hf] at h; cases h
  | miss s2 =>
    rw [hp] at h
    simp only [parse_result.miss.injEq] at h
    unfold str_p at hp
    cases hm : match_lit s (skip i) with
    | none =>
      rw [hm] at hp
      simp only [parse_result.miss.injEq] at hp
      rw [← h, ← hp]
    | some r1 => rw [hm] at hp; cases hp
  | threw => rw [hp] at h; cases h
  | nofuel => rw [hp] at h; cases h

theorem literal_stable (st st1 : json_stack) (i r ext : List Char)
    (h : literal_ st i = .hit st1 r) : literal_ st (i ++ ext) = .hit st1 (r ++ ext) := by
  cases hs : skip i with
  | nil =>
    have m : ∀ x s f, action (str_p (x :: s)) f st i = .miss st := fun x s f =>
      action_miss _ _ _ _ (by simp [str_p, hs, match_lit])
    simp only [literal_, alt_of_miss _ _ _ _ (m _ _ _), m] at h
    cases h
  | cons c t =>
    have hs1 := skip_append i ext c t hs
    have m : ∀ x s f (j : List Char) (u : List Char), skip j = c :: u → c ≠ x →
        action (str_p (x :: s)) f st j = .miss st := fun x s f j u hj hne =>
      action_miss _ _ _ _ (str_p_miss x c s st j u hj hne)
    have stab : ∀ x s f, action (str_p (x :: s)) f st i = .hit st1 r →
        action (str_p (x :: s)) f st (i ++ ext) = .hit st1 (r ++ ext) := fun x s f hh =>
      action_stable _ _ _ _ _ _ _ (fun s1 h1 => str_p_stable x s st s1 i r ext h1) hh
    unfold literal_ at h ⊢
    by_cases c1 : c = 't'
    · have hf : c ≠ 'f' := by rw [c1]; decide
      have hn : c ≠ 'n' := by rw [c1]; decide
      rcases alt_hit_inv _ _ _ _ _ _ h with h1 | ⟨s1, h1, h2⟩
      · exact alt_of_hit _ _ _ _ _ _ (stab _ _ _ h1)
      · have e : s1 = st := action_str_p_miss_state _ _ _ _ _ h1
        subst e
        simp only [alt_of_miss _ _ _ _ (m 'f' _ _ i t hs hf), m 'n' _ _ i t hs hn] at h2
        cases h2
    · rw [alt_of_miss _ _ _ _ (m 't' _ _ i t hs c1)] at h
      rw [alt_of_miss _ _ _ _ (m 't' _ _ _ _ hs1 c1)]
      by_cases c2 : c = 'f'
      · have hn : c ≠ 'n' := by rw [c2]; decide
        rcases alt_hit_inv _ _ _ _ _ _ h with h1 | ⟨s1, h1, h2⟩
        · exact alt_of_hit _ _ _ _ _ _ (stab _ _ _ h1)
        · have e : s1 = st := action_str_p_miss_state _ _ _ _ _ h1
          subst e
          rw [m 'n' _ _ i t hs hn] at h2
          cases h2
      · rw [alt_of_miss _ _ _ _ (m 'f' _ _ i t hs c2)] at h
        rw [alt_of_miss _ _ _ _ (m 'f' _ _ _ _ hs1 c2)]
        exact stab _ _ _ h

theorem literal_miss (st : json_stack) (i t : List Char) (c : Char) (hs : skip i = c :: t)
    (h1 : c ≠ 't') (h2 : c ≠ 'f') (h3 : c ≠ 'n') : literal_ st i = .miss st := by
  simp [literal_, alt, action, str_p_miss 't' c _ st i t hs h1, str_p_miss 'f' c _ st i t hs h2,
    str_p_miss 'n' c _ st i t hs h3]

theorem quoted_miss_state (a : Char → json_stack → json_stack) (st s1 : json_stack)
    (i : List Char) (h : quoted a st i = .miss s1) (hq : ∀ c t, skip i = c :: t → c ≠ '"') :
    s1 = st := by
  unfold quoted at h
  cases hs : skip i with
  | nil => rw [hs] at h; simp only [parse_result.miss.injEq] at h; exact h.symm
  | cons q r =>
    rw [hs] at h
    simp only [hq q r hs, if_false, parse_result.miss.injEq] at h
    exact h.symm

theorem scalar_stable (st st1 : json_stack) (i r ext : List Char)
    (h : scalar_ st i = .hit st1 r) (ht : term r) :
    scalar_ st (i ++ ext) = .hit st1 (r ++ ext) := by
  have hr := term_ne_nil r ht
  have hne := term_number_end r ht
  cases hs : skip i with
  | nil =>
    have h1 : strict_real_p i = none := by simp [strict_real_p, hs]
    have h2 : int_p i = none := by simp [int_p, hs]
    have h3 : action string_ json_stack.add_str st i = .miss st :=
      action_miss _ _ _ _ (by simp [string_, quoted, hs])
    have m : ∀ x s f, action (str_p (x :: s)) f st i = .miss st := fun x s f =>
      action_miss _ _ _ _ (by simp [str_p, hs, match_lit])
    rw [scalar_eq, alt_of_miss _ _ _ _ (number_add_miss _ _ st i h1),
      alt_of_miss _ _ _ _ (number_add_miss _ _ st i h2), alt_of_miss _ _ _ _ h3] at h
    simp only [literal_, alt_of_miss _ _ _ _ (m _ _ _), m] at h
    cases h
  | cons c t =>
    have hs1 := skip_append i ext c t hs
    by_cases hn : number_start c = true
    · cases hreal : strict_real_p i with
      | some res =>
        obtain ⟨q, r1⟩ := res
        have ha : r1 = r ∧ st.add_action (.real q) = some st1 := by
          simp only [scalar_eq, alt, number_add, hreal] at h
          cases hadd : st.add_action (.real q) with
          | none => rw [hadd] at h; cases h
          | some s =>
            rw [hadd] at h
            simp only [parse_result.hit.injEq] at h
            exact ⟨h.2, by rw [h.1]⟩
        obtain ⟨rfl, hadd⟩ := ha
        exact scalar_real_lit st st1 _ _ q (strict_real_p_stable i ext q r1 hreal hr) hadd
      | none =>
        cases hint : int_p i with
        | some res =>
          obtain ⟨n, r1⟩ := res
          have ha : r1 = r ∧ st.add_action (.int n) = some st1 := by
            rw [scalar_eq, alt_of_miss _ _ _ _ (number_add_miss _ _ st i hreal)] at h
            simp only [alt, number_add, hint] at h
            cases hadd : st.add_action (.int n) with
            | none => rw [hadd] at h; cases h
            | some s =>
              rw [hadd] at h
              simp only [parse_result.hit.injEq] at h
              exact ⟨h.2, by rw [h.1]⟩
          obtain ⟨rfl, hadd⟩ := ha
          exact scalar_int_lit st st1 _ _ n (strict_real_p_none_of_int i ext n r1 hint hr hne)
            (int_p_stable i ext n r1 hint hr) hadd
        | none =>
          rw [scalar_number_miss st i t c hs hn hreal hint] at h
          cases h
    · have hn0 : number_start c = false := by simpa using hn
      have m1 := number_add_miss strict_real_p json.real st i (strict_real_p_none i t c hs hn0)
      have m2 := number_add_miss int_p json.int st i (int_p_none i t c hs hn0)
      have m1e := number_add_miss strict_real_p json.real st (i ++ ext)
        (strict_real_p_none _ _ c hs1 hn0)
      have m2e := number_add_miss int_p json.int st (i ++ ext) (int_p_none _ _ c hs1 hn0)
      rw [scalar_eq, alt_of_miss _ _ _ _ m1, alt_of_miss _ _ _ _ m2] at h
      rw [scalar_eq, alt_of_miss _ _ _ _ m1e, alt_of_miss _ _ _ _ m2e]
      by_cases hq : c = '"'
      · rcases alt_hit_inv _ _ _ _ _ _ h with h1 | ⟨s1, _, h2⟩
        · exact alt_of_hit _ _ _ _ _ _ (action_stable _ _ _ _ _ _ _
            (fun s1 hh => quoted_stable _ st s1 i r ext hh) h1)
        · rw [literal_miss s1 i t c hs (by rw [hq]; decide) (by rw [hq]; decide)
            (by rw [hq]; decide)] at h2
          cases h2
      · have m3 : action string_ json_stack.add_str st i = .miss st :=
          action_miss _ _ _ _ (quoted_miss _ c st i t hs hq)
        have m3e : action string_ json_stack.add_str st (i ++ ext) = .miss st :=
          action_miss _ _ _ _ (quoted_miss _ c st _ _ hs1 hq)
        rw [alt_of_miss _ _ _ _ m3] at h
        rw [alt_of_miss _ _ _ _ m3e]
        exact literal_stable st st1 i r ext h

theorem scalar_first_miss (st : json_stack) (i t : List Char) (c : Char)
    (hs : skip i = c :: t) (hn : number_start c = false) (h0 : c ≠ '"') (h1 : c ≠ 't')
    (h2 : c ≠ 'f') (h3 : c ≠ 'n') : scalar_ st i = .miss st := by
  have m3 : action string_ json_stack.add_str st i = .miss st :=
    action_miss _ _ _ _ (quoted_miss _ c st i t hs h0)
  rw [scalar_eq, alt_of_miss _ _ _ _ (number_add_miss _ _ st i (strict_real_p_none i t c hs hn)),
    alt_of_miss _ _ _ _ (number_add_miss _ _ st i (int_p_none i t c hs hn)),
    alt_of_miss _ _ _ _ m3]
  exact literal_miss st i t c hs h1 h2 h3



/-! ### Containers -/

theorem diff_eq_left (a b : rule) (st : json_stack) (i : List Char)
    (h : ∀ st1 r, a st i = .hit st1 r → b st1 i = .miss st1) : diff a b st i = a st i := by
  unfold diff
  cases ha : a st i with
  | hit st1 r => simp only [h st1 r ha]
  | miss st1 => rfl
  | threw => rfl
  | nofuel => rfl

theorem diff_ch_p (a : rule) (S : Char → Bool) (x : Char) (hs : starts a S)
    (hx : S x = false) (st : json_stack) (i : List Char) : diff a (ch_p x) st i = a st i := by
  apply diff_eq_left
  intro st1 r ha
  obtain ⟨c, t, hc, hS⟩ := hs st i st1 r ha
  exact ch_p_miss x c st1 i t hc (by rintro rfl; rw [hx] at hS; cases hS)

theorem diff_close (a : rule) (S : Char → Bool) (x : Char)
    (f : json_stack → Option json_stack) (hs : starts a S) (hx : S x = false)
    (st : json_stack) (i : List Char) : diff a (action (ch_p x) f) st i = a st i := by
  apply diff_eq_left
  intro st1 r ha
  obtain ⟨c, t, hc, hS⟩ := hs st i st1 r ha
  exact action_miss _ _ _ _ (ch_p_miss x c st1 i t hc (by rintro rfl; rw [hx] at hS; cases hS))

/-- The list of the items of a container with the differences of `list_p` left out. -/
def items (I : rule) : rule := seq I (star (seq (ch_p ',') I))

theorem star_loop_congr (a b : rule) (h : ∀ st i, a st i = b st i) :
    ∀ (m : Nat) (st : json_stack) (i : List Char), star_loop a m st i = star_loop b m st i
  | 0, _, _ => rfl
  | m + 1, st, i => by
    simp only [star_loop, h st i]
    cases b st i with
    | hit st1 r => exact star_loop_congr a b h m st1 r
    | miss st1 => rfl
    | threw => rfl
    | nofuel => rfl

theorem list_p_items (I : rule) (S : Char → Bool) (hs : starts I S) (hx : S ',' = false)
    (st : json_stack) (i : List Char) : list_p I (ch_p ',') st i = items I st i := by
  unfold list_p items seq star
  rw [diff_ch_p I S ',' hs hx]
  cases I st i with
  | hit st1 r =>
    exact star_loop_congr _ _ (fun s j => by
      cases ch_p ',' s j with
      | hit s1 r1 => exact diff_ch_p I S ',' hs hx s1 r1
      | miss s1 => rfl
      | threw => rfl
      | nofuel => rfl) _ _ _
  | miss st1 => rfl
  | threw => rfl
  | nofuel => rfl

theorem starts_items (I : rule) (S : Char → Bool) (hs : starts I S) : starts (items I) S :=
  starts_seq _ _ S hs

theorem confix_items (op cl : Char) (E : json) (I : rule) (S : Char → Bool) (hs : starts I S)
    (h1 : S ',' = false) (h2 : S cl = false) (st : json_stack) (i : List Char) :
    confix_opt (action (ch_p op) (json_stack.push E)) (list_p I (ch_p ','))
        (action (ch_p cl) json_stack.pop) st i
      = seq (action (ch_p op) (json_stack.push E))
          (seq (opt (items I)) (action (ch_p cl) json_stack.pop)) st i := by
  unfold confix_opt seq
  cases action (ch_p op) (json_stack.push E) st i with
  | hit st1 r =>
    simp only
    have e : opt (diff (list_p I (ch_p ',')) (action (ch_p cl) json_stack.pop)) st1 r
        = opt (items I) st1 r := by
      unfold opt
      rw [diff_close (list_p I (ch_p ',')) S cl json_stack.pop (starts_list_p I _ S hs) h2,
        list_p_items I S hs h1]
    rw [e]
  | miss st1 => rfl
  | threw => rfl
  | nofuel => rfl

theorem star_loop_no_miss (a : rule) : ∀ (m : Nat) (st s : json_stack) (i : List Char),
    star_loop a m st i ≠ .miss s
  | 0, _, _, _ => by simp [star_loop]
  | m + 1, st, s, i => by
    simp only [star_loop]
    cases a st i with
    | hit st1 r => exact star_loop_no_miss a m st1 s r
    | miss st1 => simp
    | threw => simp
    | nofuel => simp

theorem seq_miss_inv (a b : rule) (st s : json_stack) (i : List Char)
    (h : seq a b st i = .miss s) :
    a st i = .miss s ∨ ∃ s1 r1, a st i = .hit s1 r1 ∧ b s1 r1 = .miss s := by
  unfold seq at h
  cases ha : a st i with
  | hit s1 r1 => rw [ha] at h; exact Or.inr ⟨s1, r1, rfl, h⟩
  | miss s1 => rw [ha] at h; exact Or.inl h
  | threw => rw [ha] at h; cases h
  | nofuel => rw [ha] at h; cases h

theorem term_of_skip (j t : List Char) (c : Char) (h : skip j = c :: t)
    (hc : c = ',' ∨ c = ']' ∨ c = '}') : term j := ⟨c, t, h, hc⟩

theorem tail_stable (I I1 : rule) (cl : Char) (ext : List Char) (k : Nat) (sb : json_stack)
    (i2 r : List Char) (hcl : cl = ']' ∨ cl = '}') (hend : skip i2 = cl :: r)
    (hstab : ∀ st i st1 r, I st i = .hit st1 r → term r →
      I1 st (i ++ ext) = .hit st1 (r ++ ext)) :
    ∀ (m : Nat) (s2 : json_stack) (j2 : List Char),
    star_loop (seq (ch_p ',') I) m s2 j2 = .hit sb i2 →
    term j2 ∧ star_loop (seq (ch_p ',') I1) (m + k) s2 (j2 ++ ext) = .hit sb (i2 ++ ext)
  | 0, _, _, h => by cases h
  | m + 1, s2, j2, h => by
    have hne : cl ≠ ',' := by rcases hcl with rfl | rfl <;> decide
    rw [Nat.add_right_comm]
    simp only [star_loop] at h ⊢
    cases hA : seq (ch_p ',') I s2 j2 with
    | hit s3 j3 =>
      rw [hA] at h
      simp only at h
      obtain ⟨hterm, hrest⟩ := tail_stable I I1 cl ext k sb i2 r hcl hend hstab m s3 j3 h
      obtain ⟨sc, jc, hc1, hc2⟩ := seq_hit_inv _ _ _ _ _ _ hA
      obtain ⟨rfl, hsk⟩ := ch_p_hit_inv ',' _ _ _ _ hc1
      have hI1 := hstab _ _ _ _ hc2 hterm
      have hA1 : seq (ch_p ',') I1 sc (j2 ++ ext) = .hit s3 (j3 ++ ext) := by
        simp only [seq, ch_p_append ',' sc j2 jc ext hsk, hI1]
      rw [hA1]
      exact ⟨term_of_skip j2 jc ',' hsk (Or.inl rfl), hrest⟩
    | miss s3 =>
      rw [hA] at h
      simp only [parse_result.hit.injEq] at h
      obtain ⟨rfl, rfl⟩ := h
      have hm : ch_p ',' s2 j2 = .miss s2 := ch_p_miss ',' cl s2 j2 r hend hne
      have e : s3 = s2 := by
        simp only [seq, hm, parse_result.miss.injEq] at hA
        exact hA.symm
      subst e
      have hA1 : seq (ch_p ',') I1 s3 (j2 ++ ext) = .miss s3 := by
        simp only [seq, ch_p_miss_append ',' cl s3 j2 r ext hend hne]
      rw [hA1]
      refine ⟨term_of_skip j2 r cl hend ?_, rfl⟩
      rcases hcl with rfl | rfl
      · exact Or.inr (Or.inl rfl)
      · exact Or.inr (Or.inr rfl)
    | threw => rw [hA] at h; cases h
    | nofuel => rw [hA] at h; cases h

theorem confix_stable (op cl : Char) (E : json) (I I1 : rule) (S : Char → Bool)
    (ext : List Char) (hcl : cl = ']' ∨ cl = '}') (hs : starts I S) (hs1 : starts I1 S)
    (h1 : S ',' = false) (h2 : S cl = false)
    (hmiss : ∀ st i c t s1, skip i = c :: t → S c = false → I st i = .miss s1 →
      s1 = st ∧ I1 st (i ++ ext) = .miss st)
    (hstab : ∀ st i st1 r, I st i = .hit st1 r → term r →
      I1 st (i ++ ext) = .hit st1 (r ++ ext))
    (st st1 : json_stack) (i r : List Char)
    (h : confix_opt (action (ch_p op) (json_stack.push E)) (list_p I (ch_p ','))
        (action (ch_p cl) json_stack.pop) st i = .hit st1 r) :
    confix_opt (action (ch_p op) (json_stack.push E)) (list_p I1 (ch_p ','))
        (action (ch_p cl) json_stack.pop) st (i ++ ext) = .hit st1 (r ++ ext) := by
  rw [confix_items op cl E I S hs h1 h2] at h
  rw [confix_items op cl E I1 S hs1 h1 h2]
  obtain ⟨sa, i1, hopen, hrest⟩ := seq_hit_inv _ _ _ _ _ _ h
  obtain ⟨sb, i2, hbody, hclose⟩ := seq_hit_inv _ _ _ _ _ _ hrest
  obtain ⟨s0, hch, hpush⟩ := action_hit_inv _ _ _ _ _ _ hopen
  obtain ⟨rfl, hsk⟩ := ch_p_hit_inv op _ _ _ _ hch
  obtain ⟨s3, hch2, hpop⟩ := action_hit_inv _ _ _ _ _ _ hclose
  obtain ⟨rfl, hend⟩ := ch_p_hit_inv cl _ _ _ _ hch2
  have hopen1 : action (ch_p op) (json_stack.push E) s0 (i ++ ext) = .hit sa (i1 ++ ext) := by
    simp only [action, ch_p_append op s0 i i1 ext hsk, hpush]
  have hclose1 : action (ch_p cl) json_stack.pop s3 (i2 ++ ext) = .hit st1 (r ++ ext) := by
    simp only [action, ch_p_append cl s3 i2 r ext hend, hpop]
  have hbody1 : opt (items I1) sa (i1 ++ ext) = .hit s3 (i2 ++ ext) := by
    rcases opt_hit_inv _ _ _ _ _ hbody with hL | ⟨hL, rfl⟩
    · obtain ⟨s2, j2, hI, hstar⟩ := seq_hit_inv _ _ _ _ _ _ hL
      unfold star at hstar
      obtain ⟨hterm, htail⟩ := tail_stable I I1 cl ext ext.length s3 i2 r hcl hend hstab _ _ _
        hstar
      have hI1 := hstab _ _ _ _ hI hterm
      have e : (j2 ++ ext).length + 1 = j2.length + 1 + ext.length := by
        simp only [List.length_append]; omega
      simp only [opt, items, seq, hI1, star, e, htail]
    · have hI : I sa i2 = .miss s3 := by
        rcases seq_miss_inv _ _ _ _ _ hL with hm | ⟨s2, j2, _, hm⟩
        · exact hm
        · exact absurd hm (star_loop_no_miss _ _ _ _ _)
      obtain ⟨rfl, hI1⟩ := hmiss sa i2 cl r s3 hend h2 hI
      simp only [opt, items, seq, hI1]
  simp only [seq, hopen1, hbody1, hclose1]

theorem pair_stable (V V1 : rule) (ext : List Char) (st st1 : json_stack) (i r : List Char)
    (hV : ∀ st i st1 r, V st i = .hit st1 r → term r → V1 st (i ++ ext) = .hit st1 (r ++ ext))
    (h : pair_ V st i = .hit st1 r) (ht : term r) :
    pair_ V1 st (i ++ ext) = .hit st1 (r ++ ext) := by
  unfold pair_ at h ⊢
  obtain ⟨sa, ia, hname, hrest⟩ := seq_hit_inv _ _ _ _ _ _ h
  obtain ⟨sb, ib, hcolon, hval⟩ := seq_hit_inv _ _ _ _ _ _ hrest
  obtain ⟨rfl, hsk⟩ := ch_p_hit_inv ':' _ _ _ _ hcolon
  have hn1 : name_ st (i ++ ext) = .hit sb (ia ++ ext) := quoted_stable _ st sb i ia ext hname
  simp only [seq, hn1, ch_p_append ':' sb ia ib ext hsk, hV _ _ _ _ hval ht]

theorem starts_pair (V : rule) : starts (pair_ V) (fun c => c = '"') :=
  starts_seq _ _ _ (starts_quoted _)

theorem pair_miss (V : rule) (st : json_stack) (i t : List Char) (c : Char)
    (hs : skip i = c :: t) (hc : c ≠ '"') : pair_ V st i = .miss st := by
  have : name_ st i = .miss st := quoted_miss _ c st i t hs hc
  simp only [pair_, seq, this]

theorem value_stable (ext : List Char) :
    ∀ (n k : Nat) (st : json_stack) (i : List Char) (st1 : json_stack) (r : List Char),
    value_ n st i = .hit st1 r → term r → value_ (n + k) st (i ++ ext) = .hit st1 (r ++ ext)
  | 0, _, _, _, _, _, h, _ => by cases h
  | n + 1, k, st, i, st1, r, h, ht => by
    have ih := value_stable ext n k
    have hobj : ∀ st st1 i r, object_ (value_ n) st i = .hit st1 r →
        object_ (value_ (n + k)) st (i ++ ext) = .hit st1 (r ++ ext) := by
      intro st st1 i r ho
      refine confix_stable (Char.ofNat 123) (Char.ofNat 125) (.obj []) (pair_ (value_ n))
        (pair_ (value_ (n + k))) (fun c => c = '"') ext (Or.inr rfl) (starts_pair _)
        (starts_pair _) (by decide) (by decide) ?_ ?_ st st1 i r ho
      · intro st i c t s1 hs hS hm
        have hc : c ≠ '"' := by simpa using hS
        rw [pair_miss _ st i t c hs hc] at hm
        simp only [parse_result.miss.injEq] at hm
        exact ⟨hm.symm, pair_miss _ st _ _ c (skip_append i ext c t hs) hc⟩
      · intro st i st1 r hp htr
        exact pair_stable _ _ ext st st1 i r ih hp htr
    have hary : ∀ st st1 i r, array_ (value_ n) st i = .hit st1 r →
        array_ (value_ (n + k)) st (i ++ ext) = .hit st1 (r ++ ext) := by
      intro st st1 i r ha
      refine confix_stable '[' ']' (.ary []) (value_ n) (value_ (n + k)) value_start ext
        (Or.inl rfl) (starts_value _) (starts_value _) (by decide) (by decide) ?_ ih
        st st1 i r ha
      intro st i c t s1 hs hS hm
      cases n with
      | zero => cases hm
      | succ n1 =>
        rw [value_miss n1 st i t c hs hS] at hm
        simp only [parse_result.miss.injEq] at hm
        have e : n1 + 1 + k = (n1 + k) + 1 := by omega
        rw [e]
        exact ⟨hm.symm, value_miss _ st _ _ c (skip_append i ext c t hs) hS⟩
    have e : n + 1 + k = (n + k) + 1 := by omega
    rw [e]
    cases hs : skip i with
    | nil => rw [value_miss_nil n st i hs] at h; cases h
    | cons c t =>
      have hs1 := skip_append i ext c t hs
      rw [value_eq] at h ⊢
      by_cases c1 : c = Char.ofNat 123
      · rcases alt_hit_inv _ _ _ _ _ _ h with ho | ⟨s1, _, h2⟩
        · exact alt_of_hit _ _ _ _ _ _ (hobj _ _ _ _ ho)
        · rw [alt_of_miss _ _ _ _ (array_miss _ s1 i t c hs (by rw [c1]; decide)),
            scalar_first_miss s1 i t c hs (by rw [c1]; decide) (by rw [c1]; decide)
              (by rw [c1]; decide) (by rw [c1]; decide) (by rw [c1]; decide)] at h2
          cases h2
      · rw [alt_of_miss _ _ _ _ (object_miss _ st i t c hs c1)] at h
        rw [alt_of_miss _ _ _ _ (object_miss _ st _ _ c hs1 c1)]
        by_cases c2 : c = '['
        · rcases alt_hit_inv _ _ _ _ _ _ h with ha | ⟨s1, _, h2⟩
          · exact alt_of_hit _ _ _ _ _ _ (hary _ _ _ _ ha)
          · rw [scalar_first_miss s1 i t c hs (by rw [c2]; decide) (by rw [c2]; decide)
              (by rw [c2]; decide) (by rw [c2]; decide) (by rw [c2]; decide)] at h2
            cases h2
        · rw [alt_of_miss _ _ _ _ (array_miss _ st i t c hs c2)] at h
          rw [alt_of_miss _ _ _ _ (array_miss _ st _ _ c hs1 c2)]
          exact scalar_stable st st1 i r ext h ht

theorem object_stable (ext : List Char) (n k : Nat) (st st1 : json_stack) (i r : List Char)
    (h : object_ (value_ n) st i = .hit st1 r) :
    object_ (value_ (n + k)) st (i ++ ext) = .hit st1 (r ++ ext) := by
  refine confix_stable (Char.ofNat 123) (Char.ofNat 125) (.obj []) (pair_ (value_ n))
    (pair_ (value_ (n + k))) (fun c => c = '"') ext (Or.inr rfl) (starts_pair _)
    (starts_pair _) (by decide) (by decide) ?_ ?_ st st1 i r h
  · intro st i c t s1 hs hS hm
    have hc : c ≠ '"' := by simpa using hS
    rw [pair_miss _ st i t c hs hc] at hm
    simp only [parse_result.miss.injEq] at hm
    exact ⟨hm.symm, pair_miss _ st _ _ c (skip_append i ext c t hs) hc⟩
  · intro st i st1 r hp htr
    exact pair_stable _ _ ext st st1 i r (value_stable ext n k) hp htr

theorem array_stable (ext : List Char) (n k : Nat) (st st1 : json_stack) (i r : List Char)
    (h : array_ (value_ n) st i = .hit st1 r) :
    array_ (value_ (n + k)) st (i ++ ext) = .hit st1 (r ++ ext) := by
  refine confix_stable '[' ']' (.ary []) (value_ n) (value_ (n + k)) value_start ext
    (Or.inl rfl) (starts_value _) (starts_value _) (by decide) (by decide) ?_
    (value_stable ext n k) st st1 i r h
  intro st i c t s1 hs hS hm
  cases n with
  | zero => cases hm
  | succ n1 =>
    rw [value_miss n1 st i t c hs hS] at hm
    simp only [parse_result.miss.injEq] at hm
    have e : n1 + 1 + k = (n1 + k) + 1 := by omega
    rw [e]
    exact ⟨hm.symm, value_miss _ st _ _ c (skip_append i ext c t hs) hS⟩

theorem skip_nil_append : ∀ (r ext : List Char), skip r = [] → skip (r ++ ext) = skip ext
  | [], _, _ => rfl
  | c :: r, ext, h => by
    by_cases hc : isspace c = true
    · simp only [skip, hc, if_true] at h
      simp only [List.cons_append, skip, hc, if_true]
      exact skip_nil_append r ext h
    · simp [skip, hc] at h

/-- The result of `parse` on a text that is a document followed by more text: the document is
read as before, and `end_p` decides on what follows. -/
theorem parse_extend (doc ext : List Char) (value : json) (st : json_stack) (r : List Char)
    (h : parse doc value = .hit st r) :
    r = [] ∧ parse (doc ++ ext) value = end_p st ext := by
  rw [parse_eq] at h ⊢
  unfold json_ at h ⊢
  obtain ⟨s1, r1, hc, hend⟩ := seq_hit_inv _ _ _ _ _ _ h
  have hr1 : skip r1 = [] ∧ st = s1 ∧ r = [] := by
    unfold end_p at hend
    cases hs : skip r1 with
    | nil =>
      rw [hs] at hend
      simp only [parse_result.hit.injEq] at hend
      exact ⟨rfl, hend.1.symm, hend.2.symm⟩
    | cons _ _ => rw [hs] at hend; cases hend
  obtain ⟨hsk, rfl, rfl⟩ := hr1
  refine ⟨rfl, ?_⟩
  have hlen : (doc ++ ext).length = doc.length + ext.length := by simp
  rw [hlen]
  have hc1 : alt (object_ (value_ (doc.length + ext.length)))
      (array_ (value_ (doc.length + ext.length))) (fresh value) (doc ++ ext)
      = .hit st (r1 ++ ext) := by
    rcases alt_hit_inv _ _ _ _ _ _ hc with ho | ⟨s2, hm, ha⟩
    · exact alt_of_hit _ _ _ _ _ _ (object_stable ext _ _ _ _ _ _ ho)
    · have hopen : ∃ t, skip doc = '[' :: t := by
        unfold array_ confix_opt at ha
        obtain ⟨sa, i1, hop, _⟩ := seq_hit_inv _ _ _ _ _ _ ha
        obtain ⟨s0, hch, _⟩ := action_hit_inv _ _ _ _ _ _ hop
        exact ⟨i1, (ch_p_hit_inv '[' _ _ _ _ hch).2⟩
      obtain ⟨t, hs⟩ := hopen
      rw [object_miss _ _ doc t '[' hs (by decide)] at hm
      simp only [parse_result.miss.injEq] at hm
      subst hm
      rw [alt_of_miss _ _ _ _ (object_miss _ _ _ _ '[' (skip_append doc ext '[' t hs)
        (by decide))]
      exact array_stable ext _ _ _ _ _ _ ha
  simp only [seq, hc1, end_p, skip_nil_append r1 ext hsk]



/-! ### What follows a document -/

theorem blank_of_skip_nil : ∀ (ext : List Char), skip ext = [] → blank ext
  | [], _ => blank_nil
  | c :: r, h => by
    by_cases hc : isspace c = true
    · simp only [skip, hc, if_true] at h
      intro d hd
      rcases List.mem_cons.1 hd with rfl | hd
      · exact hc
      · exact blank_of_skip_nil r h d hd
    · simp [skip, hc] at h

theorem end_p_not_blank (st : json_stack) (ext : List Char) (h : ¬ blank ext) :
    end_p st ext = .miss st := by
  unfold end_p
  cases hs : skip ext with
  | nil => exact absurd (blank_of_skip_nil ext hs) h
  | cons _ _ => rfl

theorem read_stream_hit (doc : List Char) (value v : json)
    (h : read_stream doc value = .returned true v) :
    ∃ st r, parse doc value = .hit st r ∧ st.root_ = v := by
  unfold read_stream at h
  cases hp : parse doc value with
  | hit st r =>
    rw [hp] at h
    simp only [outcome.returned.injEq, true_and] at h
    exact ⟨st, r, rfl, h⟩
  | miss st => rw [hp] at h; simp at h
  | threw => rw [hp] at h; cases h
  | nofuel => rw [hp] at h; cases h

theorem read_string_hit (s : List Char) (value v : json)
    (h : read_string s value = .returned true v) :
    ∃ st, parse (c_str s) value = .hit st [] ∧ st.root_ = v := by
  unfold read_string at h
  cases hp : parse (c_str s) value with
  | hit st r =>
    rw [hp] at h
    simp only [outcome.returned.injEq, List.isEmpty_eq_true] at h
    obtain ⟨rfl, h2⟩ := h
    exact ⟨st, rfl, h2⟩
  | miss st => rw [hp] at h; simp at h
  | threw => rw [hp] at h; cases h
  | nofuel => rw [hp] at h; cases h

theorem read_stream_extend (doc ext : List Char) (value v : json)
    (h : read_stream doc value = .returned true v) :
    read_stream (doc ++ ext) value = .returned (decide (blank ext)) v := by
  obtain ⟨st, r, hp, rfl⟩ := read_stream_hit doc value v h
  obtain ⟨_, he⟩ := parse_extend doc ext value st r hp
  unfold read_stream
  rw [he]
  by_cases hb : blank ext
  · rw [end_p_blank st ext hb]; simp [hb]
  · rw [end_p_not_blank st ext hb]; simp [hb]

theorem c_str_append (a b : List Char) (h : no_nul a) : c_str (a ++ b) = a ++ c_str b := by
  induction a with
  | nil => rfl
  | cons c a ih =>
    have hc : c ≠ Char.ofNat 0 := h c (List.mem_cons_self _ _)
    show c_str (c :: (a ++ b)) = c :: (a ++ c_str b)
    rw [c_str, if_neg hc, ih (fun d hd => h d (List.mem_cons_of_mem _ hd))]

theorem read_string_extend (doc ext : List Char) (value v : json) (hn : no_nul doc)
    (h : read_string doc value = .returned true v) :
    read_string (doc ++ ext) value = .returned (decide (blank (c_str ext))) v := by
  obtain ⟨st, hp, rfl⟩ := read_string_hit doc value v h
  rw [c_str_no_nul doc hn] at hp
  obtain ⟨_, he⟩ := parse_extend doc (c_str ext) value st [] hp
  unfold read_string
  rw [c_str_append doc ext hn, he]
  by_cases hb : blank (c_str ext)
  · rw [end_p_blank st _ hb]; simp [hb]
  · rw [end_p_not_blank st _ hb]; simp [hb]

theorem not_blank_tail (ws t : List Char) (c : Char) (hc : isspace c = false) :
    ¬ blank (ws ++ c :: t) := by
  intro hb
  have := hb c (by simp)
  rw [hc] at this
  cases this

/-- What the claim C2 says holds of every text without NUL: a successful read of a string has
matched the grammar and consumed the whole text.  For every text without NUL that is read
with success, the text followed by white space and then by a non-whitespace character other
than NUL (and then by anything) fails, and leaves the value of the document in the
destination, while the text followed only by white space succeeds with the same value. -/
theorem read_string_entire_input (doc ws t : List Char) (c : Char) (value v : json)
    (hn : no_nul doc) (h : read_string doc value = .returned true v) (hws : blank ws)
    (hc : isspace c = false) (h0 : c ≠ Char.ofNat 0) :
    (∃ st, parse (c_str doc) value = .hit st [] ∧ st.root_ = v) ∧
    read_string (doc ++ ws ++ c :: t) value = .returned false v ∧
    read_string (doc ++ ws) value = .returned true v := by
  refine ⟨read_string_hit doc value v h, ?_, ?_⟩
  · rw [List.append_assoc, read_string_extend doc _ value v hn h,
      c_str_append ws _ (no_nul_blank ws hws)]
    have e : c_str (c :: t) = c :: c_str t := by simp only [c_str, if_neg h0]
    rw [e]
    simp [not_blank_tail ws (c_str t) c hc]
  · rw [read_string_extend doc _ value v hn h, c_str_no_nul ws (no_nul_blank ws hws)]
    simp [hws]

/-- The example of the claim C2: the object `{"a":1}` followed by a blank and `garbage` fails,
and followed by the blank alone it succeeds. -/
theorem read_string_entire_input_example :
    read_string "\x7b\"a\":1\x7d".toList .null = .returned true (.obj [(['a'], .int 1)]) ∧
    read_string ("\x7b\"a\":1\x7d".toList ++ [' '] ++ 'g' :: "arbage".toList) .null
      = .returned false (.obj [(['a'], .int 1)]) ∧
    read_string ("\x7b\"a\":1\x7d".toList ++ [' ']) .null
      = .returned true (.obj [(['a'], .int 1)]) :=
  ⟨by decide!, (read_string_entire_input "\x7b\"a\":1\x7d".toList [' '] "arbage".toList 'g'
    .null (.obj [(['a'], .int 1)]) (by decide) (by decide!) (by decide) (by decide)
    (by decide)).2⟩

/-- C2: the code fails the claim at the non-whitespace character NUL.  A `std::string` may
hold a NUL, and `read(const std::string&)` hands `s.c_str()` to the parser (`json.cc:142`),
for which the text ends in front of the first NUL.  The array `[]` followed by NUL and `x`,
and the object of the claim followed by NUL and `garbage`, are read with success from a
string, while `read(std::istream&)`, which is given every character, rejects the same
characters.  Followed by a blank and `garbage` the object is rejected, as the claim says. -/
theorem C2_nul_truncates :
    isspace (Char.ofNat 0) = false ∧
    read_string ['[', ']', Char.ofNat 0, 'x'] .null = .returned true (.ary []) ∧
    read_stream ['[', ']', Char.ofNat 0, 'x'] .null = .returned false (.ary []) ∧
    read_string ("\x7b\"a\":1\x7d".toList ++ Char.ofNat 0 :: "garbage".toList) .null
      = .returned true (.obj [(['a'], .int 1)]) ∧
    read_stream ("\x7b\"a\":1\x7d".toList ++ Char.ofNat 0 :: "garbage".toList) .null
      = .returned false (.obj [(['a'], .int 1)]) ∧
    read_string "\x7b\"a\":1\x7d garbage".toList .null
      = .returned false (.obj [(['a'], .int 1)]) := by
  decide!

/-- C3, as stated, fails: the start rule of the grammar ends in `end_p`, so a hit needs the
end of the source as well.  Reading `{"a":1} garbage` from a stream returns false; the
destination has been assigned the object by then. -/
theorem C3_counterexample_garbage :
    read_stream "\x7b\"a\":1\x7d garbage".toList .null
      = .returned false (.obj [(['a'], .int 1)]) := by
  decide!

/-- C3 (amended): reading from a stream succeeds only if the whole source matches the
grammar, whose start rule ends in `end_p`.  For every source that is read with success, the
source followed by more text is read with success exactly if that text is white space only;
followed by anything else the read returns false, and the destination holds the value of
the document in both cases. -/
theorem C3_stream_entire_input (doc ext : List Char) (value v : json)
    (h : read_stream doc value = .returned true v) :
    (∃ st, parse doc value = .hit st [] ∧ st.root_ = v) ∧
    (blank ext → read_stream (doc ++ ext) value = .returned true v) ∧
    (¬ blank ext → read_stream (doc ++ ext) value = .returned false v) := by
  refine ⟨?_, ?_, ?_⟩
  · obtain ⟨st, r, hp, hv⟩ := read_stream_hit doc value v h
    obtain ⟨rfl, _⟩ := parse_extend doc [] value st r hp
    exact ⟨st, hp, hv⟩
  · intro hb
    rw [read_stream_extend doc ext value v h]
    simp [hb]
  · intro hb
    rw [read_stream_extend doc ext value v h]
    simp [hb]

/-- C3 (amended), at the example of the claim and at the same object followed by a newline. -/
theorem C3_stream_entire_input_witness :
    read_stream "\x7b\"a\":1\x7d".toList .null = .returned true (.obj [(['a'], .int 1)]) ∧
    read_stream ("\x7b\"a\":1\x7d".toList ++ " garbage".toList) .null
      = .returned false (.obj [(['a'], .int 1)]) ∧
    read_stream ("\x7b\"a\":1\x7d".toList ++ ['\n']) .null
      = .returned true (.obj [(['a'], .int 1)]) :=
  ⟨by decide!,
    (C3_stream_entire_input "\x7b\"a\":1\x7d".toList " garbage".toList .null
      (.obj [(['a'], .int 1)]) (by decide!)).2.2 (by decide),
    (C3_stream_entire_input "\x7b\"a\":1\x7d".toList ['\n'] .null
      (.obj [(['a'], .int 1)]) (by decide!)).2.1 (by decide)⟩

/-! ## Reading back the text of a value

The writer's text for a `Real` is what `os_ << d` gives, which the source leaves to the
stream.  The text is read back when it is a literal of `strict_real_p`, as the `Real` that the
literal denotes. -/

/-- A literal that `strict_real_p` reads in full: an optional sign, digits, and a fraction or
an exponent (or both), with a digit in front of the dot or behind it. -/
def real_literal (t : List Char) : Prop :=
  ∃ (sg : Option Bool) (ds : List Char) (f : Option (List Char))
    (e : Option (Bool × Option Bool × List Char)),
    t = number_text sg ds f e ∧ all_digits ds ∧ all_digits (f.getD []) ∧ exp_ok e ∧
    (ds ≠ [] ∨ f.getD [] ≠ []) ∧ (f ≠ none ∨ e ≠ none)

/-- The `Real` that `strict_real_p` reads from the text written for the `Real` `d`. -/
def reread_real (fmt : ℚ → List Char) (d : ℚ) : ℚ :=
  match strict_real_p (fmt d) with
  | some (q, _) => q
  | none => d

mutual
/-- The value with each `Real` replaced by the `Real` that is read from its text. -/
def json.reread (fmt : ℚ → List Char) : json → json
  | .obj o => .obj (json.reread_members fmt o)
  | .ary a => .ary (json.reread_elements fmt a)
  | .str s => .str s
  | .bool b => .bool b
  | .int i => .int i
  | .real d => .real (reread_real fmt d)
  | .null => .null
/-- The elements of an array, each one read back. -/
def json.reread_elements (fmt : ℚ → List Char) : List json → List json
  | [] => []
  | x :: xs => x.reread fmt :: json.reread_elements fmt xs
/-- The members of an object, each value read back under its key. -/
def json.reread_members (fmt : ℚ → List Char) :
    List (List Char × json) → List (List Char × json)
  | [] => []
  | (k, x) :: xs => (k, x.reread fmt) :: json.reread_members fmt xs
end

mutual
/-- The payloads of the `Real`s in a value. -/
def json.reals : json → List ℚ
  | .obj o => json.reals_members o
  | .ary a => json.reals_elements a
  | .real d => [d]
  | .str _ => []
  | .bool _ => []
  | .int _ => []
  | .null => []
/-- The payloads of the `Real`s in the elements of an array. -/
def json.reals_elements : List json → List ℚ
  | [] => []
  | x :: xs => x.reals ++ json.reals_elements xs
/-- The payloads of the `Real`s in the members of an object. -/
def json.reals_members : List (List Char × json) → List ℚ
  | [] => []
  | (_, x) :: xs => x.reals ++ json.reals_members xs
end

mutual
/-- What the strings of a value need to be read back, and what holds of every value of the
program: every string and key is `str_safe`, every `Int` is a machine integer, and every
object is a map (its keys in ascending order). -/
def json.safe : json → Bool
  | .obj o => decide (json_obj_ok o) && json.safe_members o
  | .ary a => json.safe_elements a
  | .str s => str_safe s
  | .bool _ => true
  | .int i => decide (int_range i)
  | .real _ => true
  | .null => true
/-- Every element is `safe`. -/
def json.safe_elements : List json → Bool
  | [] => true
  | x :: xs => x.safe && json.safe_elements xs
/-- Every key is `str_safe` and every value `safe`. -/
def json.safe_members : List (List Char × json) → Bool
  | [] => true
  | (k, x) :: xs => str_safe k && x.safe && json.safe_members xs
end

theorem number_end_nil : number_end [] := fun _ _ h => by cases h

theorem real_literal_read (fmt : ℚ → List Char) (d : ℚ) (ws tl : List Char)
    (h : real_literal (fmt d)) (hws : blank ws) (ht : number_end tl) :
    strict_real_p (ws ++ fmt d ++ tl) = some (reread_real fmt d, tl) ∧
    ∃ c r, fmt d = c :: r ∧ isspace c = false ∧ number_start c = true := by
  obtain ⟨sg, ds, f, e, he, hd, hf, hx, hne, hreal⟩ := h
  obtain ⟨c, r, hc, hsp, hns, _⟩ := number_text_head sg ds f e hd hne
  have h0 := strict_real_p_lit sg ds f e [] hd hf hx hne hreal number_end_nil
  rw [List.append_nil] at h0
  have hv : reread_real fmt d = real_value sg ds f e := by
    unfold reread_real
    rw [he, h0]
  have h1 := strict_real_p_lit sg ds f e tl hd hf hx hne hreal ht
  have s1 : skip (number_text sg ds f e ++ tl) = c :: (r ++ tl) := by
    rw [hc]; exact skip_cons c _ hsp
  have s2 : skip (ws ++ number_text sg ds f e ++ tl) = c :: (r ++ tl) := by
    rw [hc, List.append_assoc]; exact skip_blank_cons ws _ c hws hsp
  refine ⟨?_, c, r, by rw [he, hc], hsp, hns⟩
  rw [hv, he, strict_real_p_eq _ _ c s2, ← strict_real_p_eq _ _ c s1, h1]

theorem reread_members_map (fmt : ℚ → List Char) : ∀ (o : List (List Char × json)),
    json.reread_members fmt o = o.map (fun p => (p.1, p.2.reread fmt))
  | [] => by simp [json.reread_members]
  | (k, x) :: xs => by simp [json.reread_members, reread_members_map fmt xs]

theorem reread_elements_map (fmt : ℚ → List Char) : ∀ (a : List json),
    json.reread_elements fmt a = a.map (fun x => x.reread fmt)
  | [] => by simp [json.reread_elements]
  | x :: xs => by simp [json.reread_elements, reread_elements_map fmt xs]

theorem obj_ok_reread (fmt : ℚ → List Char) (o : List (List Char × json))
    (h : json_obj_ok o) : json_obj_ok (json.reread_members fmt o) := by
  unfold json_obj_ok at h ⊢
  rw [reread_members_map, List.pairwise_map]
  exact h

theorem render_head (fmt : ℚ → List Char) (pretty : Bool) (ind : List Char) (v : json)
    (hr : ∀ d ∈ v.reals, real_literal (fmt d)) : ∃ c r, render fmt pretty ind v = c :: r ∧ isspace c = false ∧
      c ≠ ',' ∧ c ≠ ']' ∧ c ≠ '}' := by
  cases v with
  | obj o =>
    exact ⟨'{', render_members fmt pretty (deeper pretty ind) o ++ break_line pretty ind ++ ['}'],
      by simp [render], by decide, by decide, by decide, by decide⟩
  | ary a =>
    exact ⟨'[', render_elements fmt pretty (deeper pretty ind) a ++ break_line pretty ind ++ [']'],
      by simp [render], by decide, by decide, by decide, by decide⟩
  | str s =>
    exact ⟨'"', s.flatMap output_char ++ ['"'], by simp [render, quote], by decide, by decide,
      by decide, by decide⟩
  | bool b =>
    cases b
    · exact ⟨'f', ['a', 'l', 's', 'e'], by simp [render], by decide, by decide, by decide,
        by decide⟩
    · exact ⟨'t', ['r', 'u', 'e'], by simp [render], by decide, by decide, by decide,
        by decide⟩
  | int i =>
    obtain ⟨c, r, hc, hn, hsp⟩ := dec_int_head i
    refine ⟨c, r, by simp [render, hc], hsp, ?_, ?_, ?_⟩ <;>
      (rintro rfl; exact absurd hn (by decide))
  | real d =>
    obtain ⟨c, r, hc, hsp, hns⟩ := (real_literal_read fmt d [] [] (hr d (by simp [json.reals]))
      blank_nil number_end_nil).2
    refine ⟨c, r, by simp [render, hc], hsp, ?_, ?_, ?_⟩ <;>
      (rintro rfl; exact absurd hns (by decide))
  | null =>
    exact ⟨'n', ['u', 'l', 'l'], by simp [render], by decide, by decide, by decide, by decide⟩


mutual
theorem rt_value (fmt : ℚ → List Char) (pretty : Bool) : ∀ (v : json) (n : Nat)
    (st st1 : json_stack) (ws tl ind : List Char),
    v.depth ≤ n + 1 → v.safe = true → (∀ d ∈ v.reals, real_literal (fmt d)) → blank ws →
    blank ind → ready st → st.add_action (v.reread fmt) = some st1 →
    (v.type = .int_type ∨ v.type = .real_type → number_end tl) →
    value_ (n + 1) st (ws ++ render fmt pretty ind v ++ tl) = .hit st1 tl ∧
    (v.type = .ary_type →
      array_ (value_ n) st (ws ++ render fmt pretty ind v ++ tl) = .hit st1 tl) ∧
    (v.type = .obj_type →
      object_ (value_ n) st (ws ++ render fmt pretty ind v ++ tl) = .hit st1 tl)
  | .null, n, st, st1, ws, tl, ind, _, _, _, hws, _, _, ha, _ => by
    simp only [json.reread] at ha
    have hs : skip (ws ++ render fmt pretty ind .null ++ tl) = ['n', 'u', 'l', 'l'] ++ tl := by
      simp only [render, List.append_assoc, List.cons_append, List.nil_append]
      exact skip_blank_cons ws _ 'n' hws (by decide)
    refine ⟨?_, by simp [json.type], by simp [json.type]⟩
    rw [value_scalar n st _ _ 'n' hs (by decide) (by decide)]
    exact scalar_null st st1 _ tl hs ha
  | .bool b, n, st, st1, ws, tl, ind, _, _, _, hws, _, _, ha, _ => by
    simp only [json.reread] at ha
    refine ⟨?_, by simp [json.type], by simp [json.type]⟩
    cases b
    · have hs : skip (ws ++ render fmt pretty ind (.bool false) ++ tl)
          = ['f', 'a', 'l', 's', 'e'] ++ tl := by
        simp only [render, List.append_assoc, List.cons_append, List.nil_append,
          Bool.false_eq_true, if_false]
        exact skip_blank_cons ws _ 'f' hws (by decide)
      rw [value_scalar n st _ _ 'f' hs (by decide) (by decide)]
      exact scalar_false st st1 _ tl hs ha
    · have hs : skip (ws ++ render fmt pretty ind (.bool true) ++ tl)
          = ['t', 'r', 'u', 'e'] ++ tl := by
        simp only [render, List.append_assoc, List.cons_append, List.nil_append, if_true]
        exact skip_blank_cons ws _ 't' hws (by decide)
      rw [value_scalar n st _ _ 't' hs (by decide) (by decide)]
      exact scalar_true st st1 _ tl hs ha
  | .int i, n, st, st1, ws, tl, ind, _, hp, _, hws, _, _, ha, hn => by
    simp only [json.reread] at ha
    refine ⟨?_, by simp [json.type], by simp [json.type]⟩
    simp only [json.safe, decide_eq_true_eq] at hp
    obtain ⟨c, r, hc, hns, hsp⟩ := dec_int_head i
    have hs : skip (ws ++ render fmt pretty ind (.int i) ++ tl) = dec_int i ++ tl := by
      simp only [render, List.append_assoc, hc, List.cons_append]
      exact skip_blank_cons ws _ c hws hsp
    have hs1 : skip (ws ++ render fmt pretty ind (.int i) ++ tl) = c :: (r ++ tl) := by
      rw [hs, hc]; rfl
    have c1 : c ≠ '{' := by rintro rfl; exact absurd hns (by decide)
    have c2 : c ≠ '[' := by rintro rfl; exact absurd hns (by decide)
    rw [value_scalar n st _ _ c hs1 c1 c2]
    exact scalar_int st st1 _ tl i hp (hn (Or.inl rfl)) hs ha
  | .real d, n, st, st1, ws, tl, ind, _, _, hre, hws, _, _, ha, hn => by
    refine ⟨?_, by simp [json.type], by simp [json.type]⟩
    simp only [json.reread] at ha
    obtain ⟨hp, c, r, hc, hsp, hns⟩ := real_literal_read fmt d ws tl
      (hre d (by simp [json.reals])) hws (hn (Or.inr rfl))
    have hrd : render fmt pretty ind (.real d) = fmt d := by simp [render]
    rw [hrd]
    have hs1 : skip (ws ++ fmt d ++ tl) = c :: (r ++ tl) := by
      simp only [List.append_assoc, hc, List.cons_append]
      exact skip_blank_cons ws _ c hws hsp
    have c1 : c ≠ '{' := by rintro rfl; exact absurd hns (by decide)
    have c2 : c ≠ '[' := by rintro rfl; exact absurd hns (by decide)
    rw [value_scalar n st _ _ c hs1 c1 c2]
    exact scalar_real_lit st st1 _ tl _ hp ha
  | .str s, n, st, st1, ws, tl, ind, _, hp, _, hws, _, hr, ha, _ => by
    simp only [json.reread] at ha
    refine ⟨?_, by simp [json.type], by simp [json.type]⟩
    simp only [json.safe] at hp
    have hs : skip (ws ++ render fmt pretty ind (.str s) ++ tl) = quote s ++ tl := by
      simp only [render, List.append_assoc, quote, List.cons_append]
      exact skip_blank_cons ws _ '"' hws (by decide)
    have hs1 : skip (ws ++ render fmt pretty ind (.str s) ++ tl)
        = '"' :: (s.flatMap output_char ++ ['"'] ++ tl) := by
      rw [hs]; simp [quote]
    rw [value_scalar n st _ _ '"' hs1 (by decide) (by decide)]
    exact scalar_str st st1 _ tl s hp hr.1 hs ha
  | .ary a, n, st, st1, ws, tl, ind, hd, hp, hre, hws, hind, hr, ha, _ => by
    simp only [json.reread] at ha
    simp only [json.reals] at hre
    simp only [json.depth] at hd
    simp only [json.safe] at hp
    have hpos := json.depth_elements_pos a
    obtain ⟨m, rfl⟩ : ∃ m, n = m + 1 := ⟨n - 1, by omega⟩
    cases hadd : st.add (.ary (json.reread_elements fmt a)) with
    | none => simp [json_stack.add_action, hadd] at ha
    | some res =>
      obtain ⟨st1', q⟩ := res
      have e1 : st1' = st1 := by simpa [json_stack.add_action, hadd] using ha
      subst e1
      obtain ⟨hget, hstk, hstr, _⟩ := json_stack.add_spec _ st st1' q hadd
      have hname := json_stack.add_ready _ st st1' q hr hadd
      have hstr0 : st1'.str_ = [] := by rw [hstr]; exact hr.1
      have hpush := (json_stack.push_of_add _ st st1' q hadd).1
      have hs : skip (ws ++ render fmt pretty ind (.ary a) ++ tl)
          = '[' :: (render_elements fmt pretty (deeper pretty ind) a
              ++ (break_line pretty ind ++ ']' :: tl)) := by
        simp only [render, List.append_assoc, List.cons_append, List.singleton_append]
        exact skip_blank_cons ws _ '[' hws (by decide)
      have hopen : action (ch_p '[') (json_stack.push (.ary [])) st
          (ws ++ render fmt pretty ind (.ary a) ++ tl)
          = .hit (in_ary st1' q []) (render_elements fmt pretty (deeper pretty ind) a
              ++ (break_line pretty ind ++ ']' :: tl)) := by
        simp only [action, ch_p_hit '[' st _ _ hs, hpush]
      have hsk : skip (break_line pretty ind ++ ']' :: tl) = ']' :: tl :=
        skip_blank_cons _ _ ']' (blank_break_line pretty ind hind) (by decide)
      have hbody := rt_body_ary fmt pretty a m st1' q _ (break_line pretty ind ++ ']' :: tl)
        (deeper pretty ind) tl (by omega) hp hre (blank_deeper pretty ind hind) hname hstr0 hget hsk
        (number_end_break_line pretty ind tl ']' (Or.inl rfl))
      have hclose : action (ch_p ']') json_stack.pop
          (in_ary st1' q (json.reread_elements fmt a))
          (break_line pretty ind ++ ']' :: tl) = .hit st1' tl := by
        simp only [action, ch_p_hit ']' _ _ _ hsk, json_stack.pop_in_ary st1' q _ hget]
      have harr : array_ (value_ (m + 1)) st (ws ++ render fmt pretty ind (.ary a) ++ tl)
          = .hit st1' tl := confix_hit _ _ _ _ _ _ _ _ _ _ _ hopen hbody hclose
      refine ⟨?_, fun _ => harr, by simp [json.type]⟩
      rw [value_eq]
      simp only [alt, object_miss _ st _ _ '[' hs (by decide), harr]
  | .obj o, n, st, st1, ws, tl, ind, hd, hp, hre, hws, hind, hr, ha, _ => by
    simp only [json.reread] at ha
    simp only [json.reals] at hre
    simp only [json.depth] at hd
    simp only [json.safe, Bool.and_eq_true, decide_eq_true_eq] at hp
    have hpos := json.depth_members_pos o
    obtain ⟨m, rfl⟩ : ∃ m, n = m + 1 := ⟨n - 1, by omega⟩
    cases hadd : st.add (.obj (json.reread_members fmt o)) with
    | none => simp [json_stack.add_action, hadd] at ha
    | some res =>
      obtain ⟨st1', q⟩ := res
      have e1 : st1' = st1 := by simpa [json_stack.add_action, hadd] using ha
      subst e1
      obtain ⟨hget, hstk, hstr, _⟩ := json_stack.add_spec _ st st1' q hadd
      have hname := json_stack.add_ready _ st st1' q hr hadd
      have hstr0 : st1'.str_ = [] := by rw [hstr]; exact hr.1
      have hpush := (json_stack.push_of_add _ st st1' q hadd).2
      have hs : skip (ws ++ render fmt pretty ind (.obj o) ++ tl)
          = '{' :: (render_members fmt pretty (deeper pretty ind) o
              ++ (break_line pretty ind ++ '}' :: tl)) := by
        simp only [render, List.append_assoc, List.cons_append, List.singleton_append]
        exact skip_blank_cons ws _ '{' hws (by decide)
      have hopen : action (ch_p '{') (json_stack.push (.obj [])) st
          (ws ++ render fmt pretty ind (.obj o) ++ tl)
          = .hit (in_obj st1' q []) (render_members fmt pretty (deeper pretty ind) o
              ++ (break_line pretty ind ++ '}' :: tl)) := by
        simp only [action, ch_p_hit '{' st _ _ hs, hpush]
      have hsk : skip (break_line pretty ind ++ '}' :: tl) = '}' :: tl :=
        skip_blank_cons _ _ '}' (blank_break_line pretty ind hind) (by decide)
      have hbody := rt_body_obj fmt pretty o m st1' q _ (break_line pretty ind ++ '}' :: tl)
        (deeper pretty ind) tl (by omega) hp.2 hre (obj_ok_reread fmt o hp.1)
        (blank_deeper pretty ind hind) hname
        hstr0 hget hsk (number_end_break_line pretty ind tl '}' (Or.inr rfl))
      have hclose : action (ch_p '}') json_stack.pop
          (in_obj st1' q (json.reread_members fmt o))
          (break_line pretty ind ++ '}' :: tl) = .hit st1' tl := by
        simp only [action, ch_p_hit '}' _ _ _ hsk, json_stack.pop_in_obj st1' q _ hget]
      have hobj : object_ (value_ (m + 1)) st (ws ++ render fmt pretty ind (.obj o) ++ tl)
          = .hit st1' tl := confix_hit _ _ _ _ _ _ _ _ _ _ _ hopen hbody hclose
      refine ⟨?_, by simp [json.type], fun _ => hobj⟩
      rw [value_eq]
      simp only [alt, hobj]
theorem rt_body_ary (fmt : ℚ → List Char) (pretty : Bool) : ∀ (a : List json) (n : Nat)
    (st1 : json_stack) (q : List step) (nd : json) (tl ind r : List Char),
    json.depth_elements a ≤ n + 1 → json.safe_elements a = true →
    (∀ d ∈ json.reals_elements a, real_literal (fmt d)) → blank ind →
    st1.name_ = [] → st1.str_ = [] → st1.root_.get q = some nd → skip tl = ']' :: r →
    number_end tl →
    opt (diff (list_p (value_ (n + 1)) (ch_p ',')) (action (ch_p ']') json_stack.pop))
      (in_ary st1 q []) (render_elements fmt pretty ind a ++ tl)
      = .hit (in_ary st1 q (json.reread_elements fmt a)) tl
  | [], n, st1, q, nd, tl, ind, r, _, _, _, _, _, _, _, hsk, _ => by
    simp only [render_elements, json.reread_elements, List.nil_append]
    exact body_nil _ _ _ tl (value_miss n _ tl r ']' hsk (by decide))
  | x :: xs, n, st1, q, nd, tl, ind, r, hd, hp, hre, hind, hname, hstr, hget, hsk, hne => by
    simp only [json.depth_elements] at hd
    simp only [json.safe_elements, Bool.and_eq_true] at hp
    simp only [json.reals_elements, List.mem_append] at hre
    obtain ⟨c, rx, hc, hsp, hc1, hc2, _⟩ := render_head fmt pretty ind x
      (fun d hd => hre d (Or.inl hd))
    have hi : render_elements fmt pretty ind (x :: xs) ++ tl
        = break_line pretty ind ++ render fmt pretty ind x
          ++ (comma_unless xs.isEmpty ++ render_elements fmt pretty ind xs ++ tl) := by
      simp [render_elements, List.append_assoc]
    have hs : skip (render_elements fmt pretty ind (x :: xs) ++ tl)
        = c :: (rx ++ (comma_unless xs.isEmpty ++ render_elements fmt pretty ind xs ++ tl)) := by
      rw [hi, hc]
      simp only [List.append_assoc, List.cons_append]
      exact skip_blank_cons _ _ c (blank_break_line pretty ind hind) hsp
    have hv := (rt_value fmt pretty x n (in_ary st1 q [])
      (in_ary st1 q ([] ++ [x.reread fmt]))
      (break_line pretty ind) (comma_unless xs.isEmpty ++ render_elements fmt pretty ind xs ++ tl)
      ind (by omega) hp.1 (fun d hd => hre d (Or.inl hd)) (blank_break_line pretty ind hind) hind
      (ready_in_ary st1 q [] hname hstr) (add_action_in_ary st1 q [] nd (x.reread fmt) hget)
      (fun _ => number_end_after fmt pretty ind tl xs hne)).1
    rw [← hi] at hv
    have h1 := item_hit _ _ _ _ _ _ c hv hs hc1
    have ht := rt_tail_ary fmt pretty xs n st1 q nd ([] ++ [x.reread fmt])
      ((comma_unless xs.isEmpty ++ render_elements fmt pretty ind xs ++ tl).length + 1) tl ind r
      (by omega) hp.2 (fun d hd => hre d (Or.inr hd)) hind hname hstr hget hsk hne (by
        have := length_elements_tail fmt pretty ind xs
        simp only [List.length_append] at this ⊢
        omega)
    have := body_cons _ json_stack.pop ']' c _ _ _ _ _ _ _ h1 ht hs hc2
    simpa [json.reread_elements] using this
theorem rt_tail_ary (fmt : ℚ → List Char) (pretty : Bool) : ∀ (xs : List json) (n : Nat)
    (st1 : json_stack) (q : List step) (nd : json) (acc : List json) (m : Nat)
    (tl ind r : List Char),
    json.depth_elements xs ≤ n + 1 → json.safe_elements xs = true →
    (∀ d ∈ json.reals_elements xs, real_literal (fmt d)) → blank ind →
    st1.name_ = [] → st1.str_ = [] → st1.root_.get q = some nd → skip tl = ']' :: r →
    number_end tl → xs.length + 1 ≤ m →
    star_loop (seq (ch_p ',') (diff (value_ (n + 1)) (ch_p ','))) m (in_ary st1 q acc)
      (comma_unless xs.isEmpty ++ render_elements fmt pretty ind xs ++ tl)
      = .hit (in_ary st1 q (acc ++ json.reread_elements fmt xs)) tl
  | [], n, st1, q, nd, acc, m, tl, ind, r, _, _, _, _, _, _, _, hsk, _, hm => by
    obtain ⟨m, rfl⟩ : ∃ k, m = k + 1 := ⟨m - 1, by simp at hm; omega⟩
    simp only [List.isEmpty_nil, comma_unless, if_true, render_elements, List.nil_append,
      List.append_nil, json.reread_elements]
    exact star_stop _ m _ tl r ']' hsk (by decide)
  | x :: xs, n, st1, q, nd, acc, m, tl, ind, r, hd, hp, hre, hind, hname, hstr, hget, hsk,
      hne, hm => by
    obtain ⟨m, rfl⟩ : ∃ k, m = k + 1 := ⟨m - 1, by simp at hm; omega⟩
    simp only [json.depth_elements] at hd
    simp only [json.safe_elements, Bool.and_eq_true] at hp
    simp only [json.reals_elements, List.mem_append] at hre
    obtain ⟨c, rx, hc, hsp, hc1, _, _⟩ := render_head fmt pretty ind x
      (fun d hd => hre d (Or.inl hd))
    have hi : comma_unless (x :: xs).isEmpty ++ render_elements fmt pretty ind (x :: xs) ++ tl
        = ',' :: (break_line pretty ind ++ render fmt pretty ind x
          ++ (comma_unless xs.isEmpty ++ render_elements fmt pretty ind xs ++ tl)) := by
      simp [render_elements, comma_unless, List.append_assoc]
    have hs : skip (break_line pretty ind ++ render fmt pretty ind x
          ++ (comma_unless xs.isEmpty ++ render_elements fmt pretty ind xs ++ tl))
        = c :: (rx ++ (comma_unless xs.isEmpty ++ render_elements fmt pretty ind xs ++ tl)) := by
      rw [hc]
      simp only [List.append_assoc, List.cons_append]
      exact skip_blank_cons _ _ c (blank_break_line pretty ind hind) hsp
    have hv := (rt_value fmt pretty x n (in_ary st1 q acc)
      (in_ary st1 q (acc ++ [x.reread fmt]))
      (break_line pretty ind) (comma_unless xs.isEmpty ++ render_elements fmt pretty ind xs ++ tl)
      ind (by omega) hp.1 (fun d hd => hre d (Or.inl hd)) (blank_break_line pretty ind hind) hind
      (ready_in_ary st1 q acc hname hstr) (add_action_in_ary st1 q acc nd (x.reread fmt) hget)
      (fun _ => number_end_after fmt pretty ind tl xs hne)).1
    have h1 := item_hit _ _ _ _ _ _ c hv hs hc1
    rw [hi, star_step _ m _ _ _ _ h1]
    have ht := rt_tail_ary fmt pretty xs n st1 q nd (acc ++ [x.reread fmt]) m tl ind r
      (by omega) hp.2 (fun d hd => hre d (Or.inr hd)) hind hname hstr hget hsk hne
      (by simp at hm; omega)
    rw [ht]
    simp [json.reread_elements]
theorem rt_body_obj (fmt : ℚ → List Char) (pretty : Bool) : ∀ (o : List (List Char × json))
    (n : Nat) (st1 : json_stack) (q : List step) (nd : json) (tl ind r : List Char),
    json.depth_members o ≤ n + 1 → json.safe_members o = true →
    (∀ d ∈ json.reals_members o, real_literal (fmt d)) →
    json_obj_ok (json.reread_members fmt o) → blank ind →
    st1.name_ = [] → st1.str_ = [] → st1.root_.get q = some nd → skip tl = '}' :: r →
    number_end tl →
    opt (diff (list_p (pair_ (value_ (n + 1))) (ch_p ',')) (action (ch_p '}') json_stack.pop))
      (in_obj st1 q []) (render_members fmt pretty ind o ++ tl)
      = .hit (in_obj st1 q (json.reread_members fmt o)) tl
  | [], n, st1, q, nd, tl, ind, r, _, _, _, _, _, _, _, _, hsk, _ => by
    simp only [render_members, json.reread_members, List.nil_append]
    apply body_nil
    simp [pair_, seq, name_, quoted_miss _ '}' _ tl r hsk (by decide)]
  | (k, x) :: xs, n, st1, q, nd, tl, ind, r, hd, hp, hre, hok, hind, hname, hstr, hget, hsk,
      hne => by
    simp only [json.depth_members] at hd
    simp only [json.safe_members, Bool.and_eq_true] at hp
    simp only [json.reals_members, List.mem_append] at hre
    simp only [json.reread_members] at hok
    have hi : render_members fmt pretty ind ((k, x) :: xs) ++ tl
        = break_line pretty ind ++ quote k ++ (if pretty then [' ', ':', ' '] else [':'])
          ++ render fmt pretty ind x
          ++ (comma_unless xs.isEmpty ++ render_members fmt pretty ind xs ++ tl) := by
      simp [render_members, List.append_assoc]
    have hs : skip (render_members fmt pretty ind ((k, x) :: xs) ++ tl)
        = '"' :: (k.flatMap output_char ++ ['"'] ++ ((if pretty then [' ', ':', ' '] else [':'])
          ++ render fmt pretty ind x
          ++ (comma_unless xs.isEmpty ++ render_members fmt pretty ind xs ++ tl))) := by
      rw [hi]
      simp only [List.append_assoc, quote, List.cons_append]
      exact skip_blank_cons _ _ '"' (blank_break_line pretty ind hind) (by decide)
    have hbl : blank (if pretty then [' '] else []) := by
      cases pretty
      · simp [blank]
      · intro c hc; simp at hc; rw [hc]; decide
    have hv := (rt_value fmt pretty x n
      ({ in_obj st1 q [] with name_ := k ++ ['"'] } : json_stack)
      (in_obj st1 q ([] ++ [(k, x.reread fmt)]))
      (if pretty then [' '] else [])
      (comma_unless xs.isEmpty ++ render_members fmt pretty ind xs ++ tl)
      ind (by omega) hp.1.2 (fun d hd => hre d (Or.inl hd)) hbl hind
      (ready_in_obj_named st1 q [] nd _ hget hstr)
      (add_action_in_obj st1 q [] nd (x.reread fmt) k hget hname (by simp))
      (fun _ => number_end_after_members fmt pretty ind tl xs hne)).1
    have h1 := pair_hit (value_ (n + 1)) pretty st1 _ q [] k (break_line pretty ind)
      (render fmt pretty ind x)
      (comma_unless xs.isEmpty ++ render_members fmt pretty ind xs ++ tl) hname hp.1.1
      (blank_break_line pretty ind hind) hv
    rw [← hi] at h1
    have ht := rt_tail_obj fmt pretty xs n st1 q nd ([] ++ [(k, x.reread fmt)])
      ((comma_unless xs.isEmpty ++ render_members fmt pretty ind xs ++ tl).length + 1) tl ind r
      (by omega) hp.2 (fun d hd => hre d (Or.inr hd)) (by simpa using hok) hind hname hstr hget
      hsk hne (by
        have := length_members_tail fmt pretty ind xs
        simp only [List.length_append] at this ⊢
        omega)
    have := body_cons _ json_stack.pop '}' '"' _ _ _ _ _ _ _ h1 ht hs (by decide)
    simpa [json.reread_members] using this
theorem rt_tail_obj (fmt : ℚ → List Char) (pretty : Bool) : ∀ (xs : List (List Char × json))
    (n : Nat) (st1 : json_stack) (q : List step) (nd : json) (acc : List (List Char × json))
    (m : Nat) (tl ind r : List Char),
    json.depth_members xs ≤ n + 1 → json.safe_members xs = true →
    (∀ d ∈ json.reals_members xs, real_literal (fmt d)) →
    json_obj_ok (acc ++ json.reread_members fmt xs) →
    blank ind → st1.name_ = [] → st1.str_ = [] → st1.root_.get q = some nd →
    skip tl = '}' :: r → number_end tl → xs.length + 1 ≤ m →
    star_loop (seq (ch_p ',') (diff (pair_ (value_ (n + 1))) (ch_p ','))) m (in_obj st1 q acc)
      (comma_unless xs.isEmpty ++ render_members fmt pretty ind xs ++ tl)
      = .hit (in_obj st1 q (acc ++ json.reread_members fmt xs)) tl
  | [], n, st1, q, nd, acc, m, tl, ind, r, _, _, _, _, _, _, _, _, hsk, _, hm => by
    obtain ⟨m, rfl⟩ : ∃ k, m = k + 1 := ⟨m - 1, by simp at hm; omega⟩
    simp only [List.isEmpty_nil, comma_unless, if_true, render_members, List.nil_append,
      List.append_nil, json.reread_members]
    exact star_stop _ m _ tl r '}' hsk (by decide)
  | (k, x) :: xs, n, st1, q, nd, acc, m, tl, ind, r, hd, hp, hre, hok, hind, hname, hstr,
      hget, hsk, hne, hm => by
    obtain ⟨m, rfl⟩ : ∃ k, m = k + 1 := ⟨m - 1, by simp at hm; omega⟩
    simp only [json.depth_members] at hd
    simp only [json.safe_members, Bool.and_eq_true] at hp
    simp only [json.reals_members, List.mem_append] at hre
    simp only [json.reread_members] at hok
    have hi : comma_unless ((k, x) :: xs).isEmpty ++ render_members fmt pretty ind ((k, x) :: xs)
          ++ tl
        = ',' :: (break_line pretty ind ++ quote k ++ (if pretty then [' ', ':', ' '] else [':'])
          ++ render fmt pretty ind x
          ++ (comma_unless xs.isEmpty ++ render_members fmt pretty ind xs ++ tl)) := by
      simp [render_members, comma_unless, List.append_assoc]
    have hbl : blank (if pretty then [' '] else []) := by
      cases pretty
      · simp [blank]
      · intro c hc; simp at hc; rw [hc]; decide
    have hlt : ∀ f ∈ acc, str_lt f.1 k = true := by
      intro f hf
      have := List.pairwise_append.mp hok
      exact this.2.2 f hf (k, x.reread fmt) (List.mem_cons_self _ _)
    have hv := (rt_value fmt pretty x n
      ({ in_obj st1 q acc with name_ := k ++ ['"'] } : json_stack)
      (in_obj st1 q (acc ++ [(k, x.reread fmt)]))
      (if pretty then [' '] else [])
      (comma_unless xs.isEmpty ++ render_members fmt pretty ind xs ++ tl)
      ind (by omega) hp.1.2 (fun d hd => hre d (Or.inl hd)) hbl hind
      (ready_in_obj_named st1 q acc nd _ hget hstr)
      (add_action_in_obj st1 q acc nd (x.reread fmt) k hget hname hlt)
      (fun _ => number_end_after_members fmt pretty ind tl xs hne)).1
    have h1 := pair_hit (value_ (n + 1)) pretty st1 _ q acc k (break_line pretty ind)
      (render fmt pretty ind x)
      (comma_unless xs.isEmpty ++ render_members fmt pretty ind xs ++ tl) hname hp.1.1
      (blank_break_line pretty ind hind) hv
    rw [hi, star_step _ m _ _ _ _ h1]
    have ht := rt_tail_obj fmt pretty xs n st1 q nd (acc ++ [(k, x.reread fmt)]) m tl ind r
      (by omega) hp.2 (fun d hd => hre d (Or.inr hd)) (by simpa using hok) hind hname hstr hget
      hsk hne (by simp at hm; omega)
    rw [ht]
    simp [json.reread_members]
end

mutual
theorem json.depth_le_length (fmt : ℚ → List Char) (pretty : Bool) : ∀ (v : json)
    (ind : List Char), (∀ d ∈ v.reals, real_literal (fmt d)) →
    v.depth ≤ (render fmt pretty ind v).length
  | .obj o, ind, h => by
    simp only [json.reals] at h
    have := json.depth_members_le fmt pretty o (deeper pretty ind) h
    simp only [json.depth, render, List.length_cons, List.length_append, List.length_nil]
    omega
  | .ary a, ind, h => by
    simp only [json.reals] at h
    have := json.depth_elements_le fmt pretty a (deeper pretty ind) h
    simp only [json.depth, render, List.length_cons, List.length_append, List.length_nil]
    omega
  | .str s, ind, _ => by simp [json.depth, render, quote]
  | .bool b, ind, _ => by cases b <;> simp [json.depth, render]
  | .int i, ind, _ => by
    obtain ⟨c, r, hc, _⟩ := dec_int_head i
    simp [json.depth, render, hc]
  | .real d, ind, h => by
    obtain ⟨c, r, hc, _⟩ := (real_literal_read fmt d [] [] (h d (by simp [json.reals]))
      blank_nil number_end_nil).2
    simp [json.depth, render, hc]
  | .null, ind, _ => by simp [json.depth, render]
theorem json.depth_elements_le (fmt : ℚ → List Char) (pretty : Bool) : ∀ (a : List json)
    (ind : List Char), (∀ d ∈ json.reals_elements a, real_literal (fmt d)) →
    json.depth_elements a ≤ (render_elements fmt pretty ind a).length + 1
  | [], ind, _ => by simp [json.depth_elements]
  | x :: xs, ind, h => by
    simp only [json.reals_elements, List.mem_append] at h
    have h1 := json.depth_le_length fmt pretty x ind (fun d hd => h d (Or.inl hd))
    have h2 := json.depth_elements_le fmt pretty xs ind (fun d hd => h d (Or.inr hd))
    simp only [json.depth_elements, render_elements, List.length_append]
    omega
theorem json.depth_members_le (fmt : ℚ → List Char) (pretty : Bool) :
    ∀ (o : List (List Char × json)) (ind : List Char),
    (∀ d ∈ json.reals_members o, real_literal (fmt d)) →
    json.depth_members o ≤ (render_members fmt pretty ind o).length + 1
  | [], ind, _ => by simp [json.depth_members]
  | (k, x) :: xs, ind, h => by
    simp only [json.reals_members, List.mem_append] at h
    have h1 := json.depth_le_length fmt pretty x ind (fun d hd => h d (Or.inl hd))
    have h2 := json.depth_members_le fmt pretty xs ind (fun d hd => h d (Or.inr hd))
    simp only [json.depth_members, render_members, List.length_append]
    omega
end

mutual
theorem render_no_nul (fmt : ℚ → List Char) (pretty : Bool) :
    ∀ (v : json) (ind : List Char), (∀ d ∈ v.reals, real_literal (fmt d)) → no_nul ind →
      no_nul (render fmt pretty ind v)
  | .obj o, ind, hv, h => by
    simp only [json.reals] at hv
    simp only [render]
    exact no_nul_cons _ _ (by decide) (no_nul_append _ _ (no_nul_append _ _
      (render_members_no_nul fmt pretty o _ hv (deeper_no_nul pretty ind h))
      (break_line_no_nul pretty ind h)) (no_nul_cons _ _ (by decide) no_nul_nil))
  | .ary a, ind, hv, h => by
    simp only [json.reals] at hv
    simp only [render]
    exact no_nul_cons _ _ (by decide) (no_nul_append _ _ (no_nul_append _ _
      (render_elements_no_nul fmt pretty a _ hv (deeper_no_nul pretty ind h))
      (break_line_no_nul pretty ind h)) (no_nul_cons _ _ (by decide) no_nul_nil))
  | .str s, ind, _, _ => by simp only [render]; exact quote_no_nul s
  | .bool b, ind, _, _ => by
    cases b <;> simp only [render] <;> intro c hc <;> simp at hc <;>
      rcases hc with rfl | rfl | rfl | rfl | rfl <;> decide
  | .int i, ind, _, _ => by simp only [render]; exact dec_int_no_nul i
  | .real d, ind, hv, _ => by
    obtain ⟨sg, ds, f, e, ht, hd, hf, he, _, _⟩ := hv d (by simp [json.reals])
    simp only [render, ht]
    exact number_text_no_nul sg ds f e hd hf he
  | .null, ind, _, _ => by
    simp only [render]; intro c hc; simp at hc
    rcases hc with rfl | rfl | rfl <;> decide
theorem render_elements_no_nul (fmt : ℚ → List Char) (pretty : Bool) :
    ∀ (a : List json) (ind : List Char),
      (∀ d ∈ json.reals_elements a, real_literal (fmt d)) → no_nul ind →
      no_nul (render_elements fmt pretty ind a)
  | [], ind, _, _ => by simp only [render_elements]; exact no_nul_nil
  | x :: xs, ind, hv, h => by
    simp only [json.reals_elements, List.mem_append] at hv
    simp only [render_elements]
    exact no_nul_append _ _ (no_nul_append _ _ (no_nul_append _ _
      (break_line_no_nul pretty ind h) (render_no_nul fmt pretty x ind (fun d hd => hv d (Or.inl hd)) h))
      (comma_unless_no_nul _))
      (render_elements_no_nul fmt pretty xs ind (fun d hd => hv d (Or.inr hd)) h)
theorem render_members_no_nul (fmt : ℚ → List Char) (pretty : Bool) :
    ∀ (o : List (List Char × json)) (ind : List Char),
      (∀ d ∈ json.reals_members o, real_literal (fmt d)) → no_nul ind → no_nul (render_members fmt pretty ind o)
  | [], ind, _, _ => by simp only [render_members]; exact no_nul_nil
  | (k, x) :: xs, ind, hv, h => by
    simp only [json.reals_members, List.mem_append] at hv
    simp only [render_members]
    refine no_nul_append _ _ (no_nul_append _ _ (no_nul_append _ _ (no_nul_append _ _
      (no_nul_append _ _ (break_line_no_nul pretty ind h) (quote_no_nul k)) ?_)
      (render_no_nul fmt pretty x ind (fun d hd => hv d (Or.inl hd)) h))
      (comma_unless_no_nul _))
      (render_members_no_nul fmt pretty xs ind (fun d hd => hv d (Or.inr hd)) h)
    cases pretty
    · exact no_nul_cons _ _ (by decide) no_nul_nil
    · intro c hc; simp at hc; rcases hc with rfl | rfl | rfl <;> decide
end

theorem reread_members_length (fmt : ℚ → List Char) (o : List (List Char × json)) :
    (json.reread_members fmt o).length = o.length := by
  rw [reread_members_map, List.length_map]

theorem reread_elements_length (fmt : ℚ → List Char) (a : List json) :
    (json.reread_elements fmt a).length = a.length := by
  rw [reread_elements_map, List.length_map]

mutual
theorem json.eq_reread (fmt : ℚ → List Char) : ∀ (v : json),
    (∀ d ∈ v.reals, |d - reread_real fmt d| < real_tolerance) → v.eq (v.reread fmt) = true
  | .obj o, h => by
    simp only [json.reals] at h
    simp only [json.reread, json.eq, reread_members_length, beq_self_eq_true, Bool.true_and]
    exact json.eq_obj_reread fmt o h
  | .ary a, h => by
    simp only [json.reals] at h
    simp only [json.reread, json.eq, reread_elements_length, beq_self_eq_true, Bool.true_and]
    exact json.eq_ary_reread fmt a h
  | .real d, h => by
    simp only [json.reread, json.eq, decide_eq_true_eq]
    exact h d (by simp [json.reals])
  | .str _, _ => by simp [json.reread, json.eq]
  | .bool _, _ => by simp [json.reread, json.eq]
  | .int _, _ => by simp [json.reread, json.eq]
  | .null, _ => by simp [json.reread, json.eq]
theorem json.eq_ary_reread (fmt : ℚ → List Char) : ∀ (a : List json),
    (∀ d ∈ json.reals_elements a, |d - reread_real fmt d| < real_tolerance) →
    json.eq_ary a (json.reread_elements fmt a) = true
  | [], _ => by simp [json.reread_elements, json.eq_ary]
  | x :: xs, h => by
    simp only [json.reals_elements, List.mem_append] at h
    simp only [json.reread_elements, json.eq_ary, Bool.and_eq_true]
    exact ⟨json.eq_reread fmt x (fun d hd => h d (Or.inl hd)),
      json.eq_ary_reread fmt xs (fun d hd => h d (Or.inr hd))⟩
theorem json.eq_obj_reread (fmt : ℚ → List Char) : ∀ (o : List (List Char × json)),
    (∀ d ∈ json.reals_members o, |d - reread_real fmt d| < real_tolerance) →
    json.eq_obj o (json.reread_members fmt o) = true
  | [], _ => by simp [json.reread_members, json.eq_obj]
  | (k, x) :: xs, h => by
    simp only [json.reals_members, List.mem_append] at h
    simp only [json.reread_members, json.eq_obj, Bool.and_eq_true, beq_self_eq_true, true_and]
    exact ⟨json.eq_reread fmt x (fun d hd => h d (Or.inl hd)),
      json.eq_obj_reread fmt xs (fun d hd => h d (Or.inr hd))⟩
end

mutual
theorem json.reread_no_reals (fmt : ℚ → List Char) : ∀ (v : json),
    v.reals = [] → v.reread fmt = v
  | .obj o, h => by
    simp only [json.reals] at h
    simp only [json.reread, json.reread_members_no_reals fmt o h]
  | .ary a, h => by
    simp only [json.reals] at h
    simp only [json.reread, json.reread_elements_no_reals fmt a h]
  | .real d, h => by simp [json.reals] at h
  | .str _, _ => by simp [json.reread]
  | .bool _, _ => by simp [json.reread]
  | .int _, _ => by simp [json.reread]
  | .null, _ => by simp [json.reread]
theorem json.reread_elements_no_reals (fmt : ℚ → List Char) : ∀ (a : List json),
    json.reals_elements a = [] → json.reread_elements fmt a = a
  | [], _ => by simp [json.reread_elements]
  | x :: xs, h => by
    simp only [json.reals_elements, List.append_eq_nil] at h
    simp only [json.reread_elements, json.reread_no_reals fmt x h.1,
      json.reread_elements_no_reals fmt xs h.2]
theorem json.reread_members_no_reals (fmt : ℚ → List Char) :
    ∀ (o : List (List Char × json)), json.reals_members o = [] → json.reread_members fmt o = o
  | [], _ => by simp [json.reread_members]
  | (k, x) :: xs, h => by
    simp only [json.reals_members, List.append_eq_nil] at h
    simp only [json.reread_members, json.reread_no_reals fmt x h.1,
      json.reread_members_no_reals fmt xs h.2]
end

/-! ## Round trip -/

/-- The fraction `n / m * 10 ^ k` as a numerator and a denominator. -/
def scale10 (n m : Nat) (k : Int) : Nat × Nat :=
  if 0 ≤ k then (n * 10 ^ k.toNat, m) else (n, m * 10 ^ (-k).toNat)

/-- The integer nearest to `a / b`; of two that are equally near, the even one. -/
def round_even (a b : Nat) : Nat :=
  if b < 2 * (a % b) ∨ (2 * (a % b) = b ∧ a / b % 2 = 1) then a / b + 1 else a / b

/-- The decimal exponent of the positive fraction `n / m`: the `x` with
`10 ^ x ≤ n / m < 10 ^ (x + 1)`, which is the difference of the numbers of digits or one less. -/
def exponent10 (n m : Nat) : Int :=
  let l : Int := ((num_digits 10 (n + 1) n []).length : Int) - (num_digits 10 (m + 1) m []).length
  if (scale10 n m (-l)).2 ≤ (scale10 n m (-l)).1 then l else l - 1

/-- The twelve decimal digits of a number below `10 ^ 12`. -/
def twelve_digits (r : Nat) : List Char :=
  (List.range 12).map (fun i => digit_char (r / 10 ^ (11 - i) % 10))

/-- The digits of an exponent, at least two. -/
def exp_digits (k : Nat) : List Char :=
  if k < 10 then ['0', digit_char k] else num_digits 10 (k + 1) k []

/-- The layout of twelve significant digits `ds` with the decimal exponent `x`: fixed notation
if `x` is at least -4 and less than 12, and otherwise one digit in front of the dot and an
exponent. -/
def layout12 (neg : Bool) (x : Int) (ds : List Char) : List Char :=
  (if neg then ['-'] else []) ++
    (if x < -4 ∨ 12 ≤ x then
      ds.take 1 ++ '.' :: ds.drop 1
        ++ 'e' :: (if x < 0 then '-' else '+') :: exp_digits x.natAbs
    else if x < 0 then '0' :: '.' :: (List.replicate (x.natAbs - 1) '0' ++ ds)
    else ds.take (x.toNat + 1) ++ '.' :: ds.drop (x.toNat + 1))

/-- The text of `os_ << d` under `std::showpoint` and `precision(12)`: the value is rounded to
twelve significant digits, which are laid out by the decimal exponent of the rounded value;
zero is written with the exponent 0. -/
def precision12 (d : ℚ) : List Char :=
  let n := d.num.natAbs
  let m := d.den
  if n = 0 then '0' :: '.' :: List.replicate 11 '0'
  else
    let x0 := exponent10 n m
    let r := round_even (scale10 n m (11 - x0)).1 (scale10 n m (11 - x0)).2
    layout12 (decide (d.num < 0)) (if r = 10 ^ 12 then x0 + 1 else x0)
      (twelve_digits (if r = 10 ^ 12 then 10 ^ 11 else r))

theorem precision12_examples :
    precision12 42 = "42.0000000000".toList ∧
    precision12 0 = "0.00000000000".toList ∧
    precision12 (-1 / 2) = "-0.500000000000".toList ∧
    precision12 (32767 / 100) = "327.670000000".toList ∧
    precision12 (123456123456789 / 1000000000) = "123456.123457".toList ∧
    precision12 (1 / 3) = "0.333333333333".toList ∧
    precision12 (2 / 3) = "0.666666666667".toList ∧
    precision12 (1 / 8192) = "0.000122070312500".toList ∧
    precision12 (1 / 16384) = "6.10351562500e-05".toList ∧
    precision12 (999999999999) = "999999999999.".toList ∧
    precision12 (9999999999995 / 10) = "1.00000000000e+12".toList ∧
    precision12 (99999999999995 / 100000000000000) = "1.00000000000".toList ∧
    precision12 (-100000000000000000000) = "-1.00000000000e+20".toList ∧
    precision12 (1 / 10 ^ 100) = "1.00000000000e-100".toList := by
  decide!


end tbd
